import Mathlib

/-!
# Schema reconstruction and serialization in the whatsmeow proto extractors

A shallow embedding of the three schema generators vendored under
`go.mau.fi/whatsmeow`:

* `proto/parse-proto.js` (namespace `ParseProto`),
* `binary/armadillo/parse-proto.js` (namespace `Armadillo`),
* `binary/proto/extract/index.js` (namespace `Extract`).

Conventions of the embedding.

* A JavaScript string is a `String`; the built-in string and array methods the
  scripts call are modelled in namespace `JS`.
* A JavaScript object used as a dictionary is the list of its own enumerable
  entries in `Object.entries` order (`JS.Obj`).  Writing an existing key keeps
  its position, `delete` removes the entry, and a new key is placed where the
  property order of the language puts it (`JS.objSet`).
* JavaScript numbers are integers (`Int`); the bitwise `&` truncates to 32 bits.
* A call that throws is `none`; the value `undefined` is an inner `none`.
* Mutation of the schema tree is explicit: a function that mutates its argument
  returns the updated argument next to its result.
* The constants `TYPES`, `TYPE_MASK` and `FLAGS` come from the scraped module
  `WAProtoConst`, which is not part of the repository; they are a parameter.
-/

set_option autoImplicit false

/-! ## JavaScript built-ins -/

namespace JS

/-- The method `Array.prototype.join` on an array of strings. -/
def join (sep : String) : List String → String
  | [] => ""
  | [x] => x
  | x :: y :: rest => x ++ sep ++ join sep (y :: rest)

/-- The pieces of a character sequence cut at every occurrence of `sep`. -/
def splitChars (sep : Char) : List Char → List (List Char)
  | [] => [[]]
  | c :: cs =>
    if c = sep then [] :: splitChars sep cs
    else
      match splitChars sep cs with
      | [] => [[c]]
      | piece :: rest => (c :: piece) :: rest

/-- The method `String.prototype.split` with a separator of one character. -/
def split (sep : Char) (s : String) : List String :=
  (splitChars sep s.data).map String.mk

/-- The method `String.prototype.startsWith`. -/
def startsWith (s pre : String) : Bool := pre.data.isPrefixOf s.data

/-- The method `String.prototype.endsWith`. -/
def endsWith (s suf : String) : Bool := suf.data.isSuffixOf s.data

/-- Replacement of the first place where `pat` occurs and what comes after it satisfies
`after`: the common core of `String.prototype.replace` with a string pattern and with the
regular expressions of the scripts, which are a literal followed by a one-character
look at the rest. -/
def replaceFirstChars (pat rep : List Char) (after : List Char → Bool) :
    List Char → List Char
  | [] => if pat.isEmpty && after [] then rep else []
  | c :: cs =>
    if pat.isPrefixOf (c :: cs) && after ((c :: cs).drop pat.length) then
      rep ++ (c :: cs).drop pat.length
    else c :: replaceFirstChars pat rep after cs

/-- The call `s.replace(pat, rep)` for a string pattern: only the first occurrence is
replaced. -/
def replace (s pat rep : String) : String :=
  String.mk (replaceFirstChars pat.data rep.data (fun _ => true) s.data)

/-- The method `String.prototype.toUpperCase`, on the ASCII letters. -/
def toUpperCase (s : String) : String := String.mk (s.data.map Char.toUpper)

/-- The conversion `ToInt32` of the specification of the language, on an integer. -/
def toInt32 (x : Int) : Int :=
  let r := x % 4294967296
  if r < 2147483648 then r else r - 4294967296

/-- The bitwise `&` of two integers: both are truncated to 32 bits. -/
def bitAnd (a b : Int) : Int :=
  toInt32 (Int.ofNat (Nat.land (a % 4294967296).toNat (b % 4294967296).toNat))

/-- A dictionary object: its own enumerable entries in `Object.entries` order. -/
abbrev Obj (α : Type) := List (String × α)

/-- Reading an own property; `none` is `undefined`. -/
def objGet {α : Type} : Obj α → String → Option α
  | [], _ => none
  | (k, v) :: rest, key => if k = key then some v else objGet rest key

/-- The statement `delete obj[key]`. -/
def objDelete {α : Type} (obj : Obj α) (key : String) : Obj α :=
  obj.filter (fun e => e.1 ≠ key)

/-- The number written by a sequence of decimal digits. -/
def digitsValue (cs : List Char) : Nat :=
  cs.foldl (fun acc c => 10 * acc + (c.toNat - 48)) 0

/-- The number a key stands for when it is an array index (a canonical decimal numeral
below `2^32 - 1`); such keys are enumerated first, in ascending order. -/
def arrayIndex (key : String) : Option Nat :=
  match key.data with
  | [] => none
  | c :: cs =>
    if (c :: cs).all Char.isDigit && (c != '0' || cs.isEmpty)
        && decide (digitsValue (c :: cs) < 4294967295) then
      some (digitsValue (c :: cs))
    else none

/-- Where a property that does not exist yet is created: an array index goes before the
first key that is not an array index or is a greater one, any other key goes last. -/
def objInsert {α : Type} (key : String) (value : α) : Obj α → Obj α
  | [] => [(key, value)]
  | (k, v) :: rest =>
    match arrayIndex key, arrayIndex k with
    | some n, some m => if n < m then (key, value) :: (k, v) :: rest
                        else (k, v) :: objInsert key value rest
    | some _, none => (key, value) :: (k, v) :: rest
    | none, _ => (k, v) :: objInsert key value rest

/-- Overwriting the value of an existing property, which keeps its position. -/
def objReplace {α : Type} (key : String) (value : α) : Obj α → Obj α
  | [] => []
  | (k, v) :: rest =>
    if k = key then (k, value) :: objReplace key value rest
    else (k, v) :: objReplace key value rest

/-- The assignment `obj[key] = value`. -/
def objSet {α : Type} (obj : Obj α) (key : String) (value : α) : Obj α :=
  if (objGet obj key).isSome then objReplace key value obj
  else objInsert key value obj

/-- The function `Object.fromEntries`: the entries are assigned one after the other. -/
def fromEntries {α : Type} (entries : List (String × α)) : Obj α :=
  entries.foldl (fun obj e => objSet obj e.1 e.2) []

/-- The values a property of an enum object holds: a number (an enum entry), a string
(`__name__`, `__module__`), an array of strings (`__path__`), a boolean (`__enum__`), or
`undefined` (the `__name__` the upper-case enum pass assigns when no part is left). -/
inductive Value where
  | num (n : Int)
  | str (s : String)
  | strs (xs : List String)
  | bool (b : Bool)
  | undef
deriving DecidableEq

/-- The conversion `String(value)`, as used for property keys and in template literals. -/
def Value.toStr : Value → String
  | .num n => toString n
  | .str s => s
  | .strs xs => join "," xs
  | .bool true => "true"
  | .bool false => "false"
  | .undef => "undefined"

/-- Truthiness of a string that may be `undefined`: both `undefined` and `""` are falsy. -/
def truthy : Option String → Bool
  | none => false
  | some s => s ≠ ""

/-- The method `Array.prototype.map` with a callback that may throw: the first throw ends
the map. -/
def mapThrowing {α β : Type} (f : α → Option β) : List α → Option (List β)
  | [] => some []
  | a :: rest =>
    match f a with
    | none => none
    | some b =>
      match mapThrowing f rest with
      | none => none
      | some bs => some (b :: bs)

/-- The names of the properties every object inherits from `Object.prototype`. -/
def objectPrototypeKeys : List String :=
  ["constructor", "__defineGetter__", "__defineSetter__", "hasOwnProperty",
   "__lookupGetter__", "__lookupSetter__", "isPrototypeOf", "propertyIsEnumerable",
   "toString", "valueOf", "__proto__", "toLocaleString"]

end JS

/-! ## Type names of fields (`fieldTypeName`) -/

namespace ParseProto

/-- The type tags `TYPES` of `WAProtoConst`, in the order of the `switch` of `fieldTypeName`. -/
structure Types where
  INT32 : Int
  INT64 : Int
  UINT32 : Int
  UINT64 : Int
  SINT32 : Int
  SINT64 : Int
  BOOL : Int
  ENUM : Int
  MESSAGE : Int
  MAP : Int
  FIXED64 : Int
  SFIXED64 : Int
  DOUBLE : Int
  STRING : Int
  BYTES : Int
  FIXED32 : Int
  SFIXED32 : Int
  FLOAT : Int
deriving DecidableEq

/-- The flag bits `FLAGS` of `WAProtoConst`. -/
structure Flags where
  PACKED : Int
  REPEATED : Int
  REQUIRED : Int
deriving DecidableEq

/-- The module `WAProtoConst` as `requireModule("WAProtoConst")` destructures it. -/
structure WAProtoConst where
  TYPES : Types
  TYPE_MASK : Int
  FLAGS : Flags
deriving DecidableEq

/-- The type tags as a list, in the order of the `case` labels. -/
def Types.tags (t : Types) : List Int :=
  [t.INT32, t.INT64, t.UINT32, t.UINT64, t.SINT32, t.SINT64, t.BOOL, t.ENUM, t.MESSAGE, t.MAP,
   t.FIXED64, t.SFIXED64, t.DOUBLE, t.STRING, t.BYTES, t.FIXED32, t.SFIXED32, t.FLOAT]

/-- The type tags are pairwise different numbers. -/
def Types.Distinct (t : Types) : Prop := t.tags.Nodup

instance (t : Types) : Decidable t.Distinct := by
  unfold Types.Distinct; infer_instance

/-- An example value of the constants, used to evaluate the model on concrete inputs. -/
def sampleConst : WAProtoConst where
  TYPES :=
    { INT32 := 1, INT64 := 2, UINT32 := 3, UINT64 := 4, SINT32 := 5, SINT64 := 6, BOOL := 7,
      ENUM := 8, MESSAGE := 9, MAP := 10, FIXED64 := 11, SFIXED64 := 12, DOUBLE := 13,
      STRING := 14, BYTES := 15, FIXED32 := 16, SFIXED32 := 17, FLOAT := 18 }
  TYPE_MASK := 31
  FLAGS := { PACKED := 64, REPEATED := 128, REQUIRED := 256 }

/-- The `__module__`, `__path__` and `__name__` of the message or enum object a field refers to. -/
structure NodeRef where
  __module__ : String
  __path__ : List String
  __name__ : String
deriving DecidableEq

/-- A key or value of a map type: an object, or a type tag. -/
inductive MapRef where
  | obj (ref : NodeRef)
  | tag (typeID : Int)
deriving DecidableEq

/-- The third component `typeRef` of a field definition: `undefined`, a message or enum
object, or the two-element array of a map type. -/
inductive TypeRef where
  | undef
  | node (ref : NodeRef)
  | pair (key value : MapRef)
deriving DecidableEq

/-- The `case` of the `switch (typeID)` of `fieldTypeName` that is taken. -/
inductive TypeCase where
  | primitive (name : String)
  | reference
  | map
  | default
deriving DecidableEq

/-- The `case` labels of the `switch (typeID)` of `fieldTypeName` in source order, each with
the case it selects. -/
def caseLabels (TYPES : Types) : List (Int × TypeCase) :=
  [(TYPES.INT32, .primitive "int32"),
   (TYPES.INT64, .primitive "int64"),
   (TYPES.UINT32, .primitive "uint32"),
   (TYPES.UINT64, .primitive "uint64"),
   (TYPES.SINT32, .primitive "sint32"),
   (TYPES.SINT64, .primitive "sint64"),
   (TYPES.BOOL, .primitive "bool"),
   (TYPES.ENUM, .reference),
   (TYPES.MESSAGE, .reference),
   (TYPES.MAP, .map),
   (TYPES.FIXED64, .primitive "fixed64"),
   (TYPES.SFIXED64, .primitive "sfixed64"),
   (TYPES.DOUBLE, .primitive "double"),
   (TYPES.STRING, .primitive "string"),
   (TYPES.BYTES, .primitive "bytes"),
   (TYPES.FIXED32, .primitive "fixed32"),
   (TYPES.SFIXED32, .primitive "sfixed32"),
   (TYPES.FLOAT, .primitive "float")]

/-- A `switch` statement: the case of the first label strictly equal to the scrutinee, the
`default` when there is none. -/
def scanLabels (typeID : Int) : List (Int × TypeCase) → TypeCase
  | [] => .default
  | (label, body) :: rest => if typeID = label then body else scanLabels typeID rest

/-- Dispatch of `switch (typeID)` in `fieldTypeName`.  `typeID` is `none` when the caller
passed `undefined`, which equals no label. -/
def switchCase (TYPES : Types) : Option Int → TypeCase
  | none => .default
  | some typeID => scanLabels typeID (caseLabels TYPES)

/-- The loop computing `pathStartIndex`: the number of leading positions at which
`typeRef.__path__` and `parentPath` carry the same segment. -/
def pathStartIndex : List String → List String → Nat
  | p :: parentPath, t :: typePath =>
    if t = p then pathStartIndex parentPath typePath + 1 else 0
  | _, _ => 0

/-- The array `namePath` built in the `ENUM`/`MESSAGE` case of `fieldTypeName`. -/
def namePath (typeRef : NodeRef) (parentModule : String) (parentPath : List String) :
    List String :=
  if typeRef.__module__ ≠ parentModule then
    [typeRef.__module__] ++ typeRef.__path__.drop 0 ++ [typeRef.__name__]
  else
    typeRef.__path__.drop (pathStartIndex parentPath typeRef.__path__) ++ [typeRef.__name__]

/-- The `ENUM`/`MESSAGE` case of `fieldTypeName` for an object `typeRef`. -/
def referenceTypeName (typeRef : NodeRef) (parentModule : String) (parentPath : List String) :
    String :=
  JS.join "." (namePath typeRef parentModule parentPath)

/-- The call `fieldTypeName(typeID, typeRef, ...)` for a `typeRef` that is not an array:
`undefined` (`none`) or a message or enum object.  In the `ENUM`/`MESSAGE` and `MAP`
cases an `undefined` reference throws; an object has no element `0` or `1`, so its
`MAP` case renders `undefined` twice. -/
def fieldTypeNameLeaf (TYPES : Types) (typeID : Option Int) (typeRef : Option NodeRef)
    (parentModule : String) (parentPath : List String) : Option (Option String) :=
  match switchCase TYPES typeID with
  | .primitive name => some (some name)
  | .reference =>
    match typeRef with
    | none => none
    | some ref => some (some (referenceTypeName ref parentModule parentPath))
  | .map =>
    match typeRef with
    | none => none
    | some _ => some (some "map<undefined, undefined>")
  | .default => some none

/-- The function `mapFieldTypeName`: an object is rendered as a `MESSAGE` reference, anything
else is taken as the type tag itself. -/
def mapFieldTypeName (TYPES : Types) (ref : MapRef) (parentModule : String)
    (parentPath : List String) : Option (Option String) :=
  match ref with
  | .obj r => fieldTypeNameLeaf TYPES (some TYPES.MESSAGE) (some r) parentModule parentPath
  | .tag t => fieldTypeNameLeaf TYPES (some t) none parentModule parentPath

/-- How a template literal prints a value that may be `undefined`. -/
def templateString : Option String → String
  | none => "undefined"
  | some s => s

/-- The function `fieldTypeName` of `proto/parse-proto.js`.  The outer `none` is a thrown
`TypeError`, the inner `none` the value `undefined` returned when no `case` matches. -/
def fieldTypeName (TYPES : Types) (typeID : Option Int) (typeRef : TypeRef)
    (parentModule : String) (parentPath : List String) : Option (Option String) :=
  match typeRef with
  | .undef => fieldTypeNameLeaf TYPES typeID none parentModule parentPath
  | .node ref => fieldTypeNameLeaf TYPES typeID (some ref) parentModule parentPath
  | .pair key value =>
    match switchCase TYPES typeID with
    | .primitive name => some (some name)
    | .reference => none
    | .map =>
      match mapFieldTypeName TYPES key parentModule parentPath,
            mapFieldTypeName TYPES value parentModule parentPath with
      | some k, some v =>
        some (some ("map<" ++ templateString k ++ ", " ++ templateString v ++ ">"))
      | _, _ => none
    | .default => some none

end ParseProto

namespace Armadillo

open ParseProto

/-- The `case` labels of `fieldTypeName` in `binary/armadillo/parse-proto.js`, which has no
`case TYPES.MAP`. -/
def caseLabels (TYPES : Types) : List (Int × TypeCase) :=
  [(TYPES.INT32, .primitive "int32"),
   (TYPES.INT64, .primitive "int64"),
   (TYPES.UINT32, .primitive "uint32"),
   (TYPES.UINT64, .primitive "uint64"),
   (TYPES.SINT32, .primitive "sint32"),
   (TYPES.SINT64, .primitive "sint64"),
   (TYPES.BOOL, .primitive "bool"),
   (TYPES.ENUM, .reference),
   (TYPES.MESSAGE, .reference),
   (TYPES.FIXED64, .primitive "fixed64"),
   (TYPES.SFIXED64, .primitive "sfixed64"),
   (TYPES.DOUBLE, .primitive "double"),
   (TYPES.STRING, .primitive "string"),
   (TYPES.BYTES, .primitive "bytes"),
   (TYPES.FIXED32, .primitive "fixed32"),
   (TYPES.SFIXED32, .primitive "sfixed32"),
   (TYPES.FLOAT, .primitive "float")]

/-- Dispatch of `switch (typeID)` in the armadillo `fieldTypeName`. -/
def switchCase (TYPES : Types) : Option Int → TypeCase
  | none => .default
  | some typeID => scanLabels typeID (Armadillo.caseLabels TYPES)

/-- The function `fieldTypeName` of `binary/armadillo/parse-proto.js`.  A `typeRef` that is
not a message or enum object throws in the `ENUM`/`MESSAGE` case. -/
def fieldTypeName (TYPES : Types) (typeID : Option Int) (typeRef : TypeRef)
    (parentModule : String) (parentPath : List String) : Option (Option String) :=
  match Armadillo.switchCase TYPES typeID with
  | .primitive name => some (some name)
  | .reference =>
    match typeRef with
    | .node ref => some (some (referenceTypeName ref parentModule parentPath))
    | _ => none
  | _ => some none

end Armadillo

/-! ## Lines, enums and field names (shared by the two `parse-proto.js` variants) -/

namespace ParseProto

/-- The function `indent` with its default argument: every non-empty line gets a tab. -/
def indent (lines : List String) : List String :=
  lines.map (fun line => if line ≠ "" then "\t" ++ line else "")

/-- The function `flattenWithBlankLines`. -/
def flattenWithBlankLines (items : List (List String)) : List String :=
  ((items.flatMap (fun item => if item.length > 0 then [item, [""]] else [])).dropLast).flatMap
    (fun item => item)

/-- An enum object: the enum entries and the `__name__`, `__path__`, `__module__` and
`__enum__` properties the extraction adds. -/
abbrev EnumDef := JS.Obj JS.Value

/-- The table `names` of `protoifyEnum`: from the printed value of every property to its
name. -/
def enumNames (enumDef : EnumDef) : JS.Obj String :=
  JS.fromEntries (enumDef.map (fun e => (e.2.toStr, e.1)))

/-- The test `name.startsWith("__") && name.endsWith("__")` that skips a property. -/
def isMetaKey (name : String) : Bool :=
  JS.startsWith name "__" && JS.endsWith name "__"

/-- The loop of `protoifyEnum` that pushes one line per property that is not skipped. -/
def enumValueLines (enumDef : EnumDef) : List String :=
  enumDef.filterMap (fun e =>
    if isMetaKey e.1 then none else some (e.1 ++ " = " ++ e.2.toStr ++ ";"))

/-- The enum object after the `if (!names["0"])` block: when no property prints as `0` and
`names["-1"]` is a non-empty name, that property is set to `0`. -/
def remapMinusOne (enumDef : EnumDef) : EnumDef :=
  if !JS.truthy (JS.objGet (enumNames enumDef) "0") then
    match JS.objGet (enumNames enumDef) "-1" with
    | some name => if name ≠ "" then JS.objSet enumDef name (.num 0) else enumDef
    | none => enumDef
  else enumDef

/-- The first line of a rendered enum; a missing `__name__` prints as `undefined`. -/
def enumHeader (enumDef : EnumDef) : String :=
  "enum " ++ templateString ((JS.objGet enumDef "__name__").map JS.Value.toStr) ++ " \x7b"

/-- The function `protoifyEnum` of `proto/parse-proto.js`: the returned lines and the enum
object as the call leaves it. -/
def protoifyEnum (enumDef : EnumDef) : List String × EnumDef :=
  let enumDef := remapMinusOne enumDef
  ([enumHeader enumDef] ++ indent (enumValueLines enumDef) ++ ["\x7d"], enumDef)

/-- The value a lookup in an object literal yields for a name inherited from
`Object.prototype`, as a template literal prints it; `none` for every other name. -/
def inheritedText (name : String) : Option String :=
  if name = "__proto__" then some "[object Object]"
  else if name = "constructor" then some "function Object() \x7b [native code] \x7d"
  else if name ∈ JS.objectPrototypeKeys then
    some ("function " ++ name ++ "() \x7b [native code] \x7d")
  else none

/-- The table `staticRenames`. -/
def staticRenames : JS.Obj String :=
  [("id", "ID"), ("jid", "JID"), ("encIv", "encIV"), ("iv", "IV"), ("ptt", "PTT"),
   ("hmac", "HMAC"), ("url", "URL"), ("fbid", "FBID"), ("jpegThumbnail", "JPEGThumbnail"),
   ("dsm", "DSM")]

/-- What may follow the literal in `/Id([A-Zs]|$)/`: an upper-case letter, `s`, or the end. -/
def upperOrSOrEnd : List Char → Bool
  | [] => true
  | c :: _ => c.isUpper || c = 's'

/-- What may follow the literal in `/Ms([A-Z]|$)/` and its likes: an upper-case letter or
the end. -/
def upperOrEnd : List Char → Bool
  | [] => true
  | c :: _ => c.isUpper

/-- Replacement of the first match of a regular expression `/<pat>(<class>|$)/` by `rep`
followed by the captured character. -/
def replaceBefore (s pat rep : String) (after : List Char → Bool) : String :=
  String.mk (JS.replaceFirstChars pat.data rep.data after s.data)

/-- The chain of `replace` calls of `fixFieldName`. -/
def patternRenames (name : String) : String :=
  JS.replace (JS.replace (JS.replace (JS.replace (JS.replace
    (replaceBefore (replaceBefore (replaceBefore
      (JS.replace (replaceBefore name "Id" "ID" upperOrSOrEnd) "Jid" "JID")
      "Ms" "MS" upperOrEnd) "Ts" "TS" upperOrEnd) "Mac" "MAC" upperOrEnd)
    "Url" "URL") "Cdn" "CDN") "Json" "JSON") "Jpeg" "JPEG") "Sha256" "SHA256"

/-- The function `fixFieldName` (the same text in both variants). -/
def fixFieldName (name : String) : String :=
  if name = "id" then "ID"
  else if name = "encIv" then "encIV"
  else
    match JS.objGet staticRenames name with
    | some renamed => renamed
    | none =>
      match inheritedText name with
      | some text => text
      | none => patternRenames name

end ParseProto

/-! ## Fields, messages and modules -/

namespace ParseProto

/-- A field definition `[index, flags, typeRef]`. -/
structure FieldDef where
  index : Int
  flags : Int
  typeRef : TypeRef
deriving DecidableEq

/-- The values of a field table (`internalSpec`): a field definition, the groups under
`__oneofs__`, or the payload under `__reserved__`, whose shape the scripts never inspect. -/
inductive SpecValue where
  | field (definition : FieldDef)
  | oneofs (groups : JS.Obj (List String))
  | reserved
deriving DecidableEq

/-- A field table: the object stored as `message.message`. -/
abbrev Spec := JS.Obj SpecValue

/-- A message node of the schema tree. -/
inductive Message where
  | mk (messages : List (String × Message)) (enums : JS.Obj EnumDef) (__module__ : String)
      (__path__ : List String) (__name__ : String) (message : Option Spec)

/-- The child messages of a message node. -/
def Message.messages : Message → List (String × Message)
  | .mk messages _ _ _ _ _ => messages

/-- The enums of a message node. -/
def Message.enums : Message → JS.Obj EnumDef
  | .mk _ enums _ _ _ _ => enums

/-- The module that owns a message node. -/
def Message.__module__ : Message → String
  | .mk _ _ module _ _ _ => module

/-- The names of the messages that enclose a message node. -/
def Message.__path__ : Message → List String
  | .mk _ _ _ path _ _ => path

/-- The name of a message node. -/
def Message.__name__ : Message → String
  | .mk _ _ _ _ name _ => name

/-- The field table of a message node; `none` when no export attached one. -/
def Message.message : Message → Option Spec
  | .mk _ _ _ _ _ message => message

/-- The object `proto` built for one module. -/
structure ProtoFile where
  messages : List (String × Message)
  enums : JS.Obj EnumDef
  __name__ : String
  dependencies : List String

/-- What differs between the two serializers inside `protoifyMessage`: how an enum and how
a field is rendered (`isOneOf` is ignored by the armadillo variant). -/
structure Renderer where
  protoifyEnum : EnumDef → Option (List String × EnumDef)
  protoifyField : String → FieldDef → String → List String → Bool → Option String

/-- The call `protoifyField(name, definition, ...)`: destructuring `definition` throws when
it is `undefined` or the object under `__oneofs__`; the payload under `__reserved__`, whose
shape is not known, is taken to throw as well. -/
def protoifyEntry (r : Renderer) (parentModule : String) (parentPath : List String)
    (isOneOf : Bool) (entry : String × Option SpecValue) : Option String :=
  match entry.2 with
  | some (.field definition) => r.protoifyField entry.1 definition parentModule parentPath isOneOf
  | _ => none

/-- The function `protoifyFields`: one line per entry of `fields`. -/
def protoifyFields (r : Renderer) (fields : JS.Obj (Option SpecValue)) (parentModule : String)
    (parentPath : List String) (isOneOf : Bool) : Option (List String) :=
  JS.mapThrowing (protoifyEntry r parentModule parentPath isOneOf) fields

/-- The callback of `fieldNames.map` in `protoifyMessage`: every named entry is read and
deleted from the field table. -/
def takeFields : Spec → List String → List (String × Option SpecValue) × Spec
  | spec, [] => ([], spec)
  | spec, fieldName :: rest =>
    let taken := takeFields (JS.objDelete spec fieldName) rest
    ((fieldName, JS.objGet spec fieldName) :: taken.1, taken.2)

/-- The loop over `Object.entries(spec.__oneofs__ ?? \x7b\x7d)`: one section per group, and
the field table without the grouped fields. -/
def oneofSections (r : Renderer) (parentModule : String) (parentPath : List String) :
    Spec → List (String × List String) → Option (List (List String) × Spec)
  | spec, [] => some ([], spec)
  | spec, (name, fieldNames) :: groups =>
    let taken := takeFields spec fieldNames
    match protoifyFields r (JS.fromEntries taken.1) parentModule parentPath true with
    | none => none
    | some lines =>
      match oneofSections r parentModule parentPath taken.2 groups with
      | none => none
      | some (sections, spec) =>
        some ((["oneof " ++ name ++ " \x7b"] ++ indent lines ++ ["\x7d"]) :: sections, spec)

/-- The groups `Object.entries(spec.__oneofs__ ?? \x7b\x7d)` iterates over; a value under
`__oneofs__` that is not an object of groups makes the loop throw. -/
def oneofGroups (spec : Spec) : Option (List (String × List String)) :=
  match JS.objGet spec "__oneofs__" with
  | none => some []
  | some (.oneofs groups) => some groups
  | some _ => none

/-- The part of `protoifyMessage` after the children: the oneof sections, the deletion of
`__oneofs__` and `__reserved__`, and the remaining fields. -/
def fieldSections (r : Renderer) (parentModule : String) (fullMessagePath : List String)
    (spec : Spec) : Option (List (List String) × Spec) :=
  match oneofGroups spec with
  | none => none
  | some groups =>
    match oneofSections r parentModule fullMessagePath spec groups with
    | none => none
    | some (sections, spec) =>
      let spec := JS.objDelete (JS.objDelete spec "__oneofs__") "__reserved__"
      match protoifyFields r (spec.map (fun e => (e.1, some e.2))) parentModule
          fullMessagePath false with
      | none => none
      | some lines => some (sections ++ [lines], spec)

/-- The enums of a container rendered in order, with the enum objects as left behind. -/
def protoifyEnums (r : Renderer) :
    JS.Obj EnumDef → Option (List (List String) × JS.Obj EnumDef)
  | [] => some ([], [])
  | (key, enumDef) :: rest =>
    match r.protoifyEnum enumDef with
    | none => none
    | some (lines, enumDef) =>
      match protoifyEnums r rest with
      | none => none
      | some (blocks, rest) => some (lines :: blocks, (key, enumDef) :: rest)

mutual
/-- The function `protoifyMessage`: the lines of the message and the node as left behind. -/
def protoifyMessageWith (r : Renderer) : Message → Option (List String × Message)
  | .mk messages enums module path name message =>
    match protoifyEnums r enums with
    | none => none
    | some (enumBlocks, enums) =>
      match protoifyMessagesWith r messages with
      | none => none
      | some (messageBlocks, messages) =>
        match message with
        | none => none
        | some spec =>
          match fieldSections r module (path ++ [name]) spec with
          | none => none
          | some (sections, spec) =>
            some (["message " ++ name ++ " \x7b"]
                ++ indent (flattenWithBlankLines
                    (flattenWithBlankLines (enumBlocks ++ messageBlocks) :: sections))
                ++ ["\x7d"],
              .mk messages enums module path name (some spec))
/-- The map of `protoifyMessage` over `Object.values(container.messages)`. -/
def protoifyMessagesWith (r : Renderer) :
    List (String × Message) → Option (List (List String) × List (String × Message))
  | [] => some ([], [])
  | (key, msg) :: rest =>
    match protoifyMessageWith r msg with
    | none => none
    | some (lines, msg) =>
      match protoifyMessagesWith r rest with
      | none => none
      | some (blocks, rest) => some (lines :: blocks, (key, msg) :: rest)
end

/-- The function `protoifyChildren` on a module: its lines and the children as left behind. -/
def protoifyChildrenWith (r : Renderer) (module : ProtoFile) :
    Option (List String × ProtoFile) :=
  match protoifyEnums r module.enums with
  | none => none
  | some (enumBlocks, enums) =>
    match protoifyMessagesWith r module.messages with
    | none => none
    | some (messageBlocks, messages) =>
      some (flattenWithBlankLines (enumBlocks ++ messageBlocks),
        { module with enums := enums, messages := messages })

end ParseProto

namespace ParseProto

/-- How `Array.prototype.join` prints an element that may be `undefined`. -/
def joinElement : Option String → String
  | none => ""
  | some s => s

/-- The function `protoifyField` of `proto/parse-proto.js`. -/
def protoifyField (c : WAProtoConst) (proto3 : Bool) (name : String) (definition : FieldDef)
    (parentModule : String) (parentPath : List String) (isOneOf : Bool) : Option String :=
  let flags := definition.flags
  let preflags : List String :=
    if !isOneOf then
      if JS.bitAnd flags c.FLAGS.REPEATED ≠ 0 then ["repeated"]
      else if !proto3 then
        if JS.bitAnd flags c.FLAGS.REQUIRED = 0 then ["optional"] else ["required"]
      else []
    else []
  match fieldTypeName c.TYPES (some (JS.bitAnd flags c.TYPE_MASK)) definition.typeRef
      parentModule parentPath with
  | none => none
  | some typeName =>
    let preflags := preflags ++ [joinElement typeName]
    let postflags : List String :=
      if JS.bitAnd flags c.FLAGS.PACKED ≠ 0 then ["", "[packed=true]"] else [""]
    some (JS.join " " preflags ++ " " ++ fixFieldName name ++ " = " ++ toString definition.index
      ++ JS.join " " postflags ++ ";")

/-- The serializer of `proto/parse-proto.js`; `protoifyEnum` never throws there. -/
def renderer (c : WAProtoConst) (proto3 : Bool) : Renderer where
  protoifyEnum := fun enumDef => some (protoifyEnum enumDef)
  protoifyField := protoifyField c proto3

/-- The function `protoifyMessage` of `proto/parse-proto.js`. -/
def protoifyMessage (c : WAProtoConst) (message : Message) (proto3 : Bool) :
    Option (List String × Message) :=
  protoifyMessageWith (renderer c proto3) message

/-- The function `protoifyChildren` of `proto/parse-proto.js` on a module. -/
def protoifyChildren (c : WAProtoConst) (container : ProtoFile) (proto3 : Bool) :
    Option (List String × ProtoFile) :=
  protoifyChildrenWith (renderer c proto3) container

/-- The function `renameModule`: the first `.pb` of the name is removed. -/
def renameModule (name : String) : String := JS.replace name ".pb" ""

/-- The function `renameDependencies` of `proto/parse-proto.js`. -/
def renameDependencies (dependencies : List String) : List String :=
  (dependencies.filter (fun name => JS.endsWith name ".pb")).map renameModule

/-- The replacement `name.replace(/^WA/, "wa")`. -/
def lowerLeadingWA (name : String) : String :=
  if JS.startsWith name "WA" then "wa" ++ String.mk (name.data.drop 2) else name

/-- The function `goPackageName` of `proto/parse-proto.js`. -/
def goPackageName (name : String) : String :=
  JS.replace (JS.replace (lowerLeadingWA name) "WebProtobufs" "") "Protobufs" ""

/-- The lookup `needsProto3[module.__name__]`, as a truth value: the one own key, and the
names every object inherits from `Object.prototype`. -/
def needsProto3 (name : String) : Bool :=
  name = "WAWebProtobufsReporting" || name ∈ JS.objectPrototypeKeys

/-- The lines `protoifyModule` pushes for the dependencies. -/
def importLines (goPackageName : String → String) (dependencies : List String) : List String :=
  if dependencies.length > 0 then
    dependencies.map (fun dependency =>
      "import \"" ++ goPackageName dependency ++ "/" ++ dependency ++ ".proto\";") ++ [""]
  else []

/-- The lines `protoifyModule` of `proto/parse-proto.js` pushes before the children. -/
def moduleHeader (module : ProtoFile) : List String :=
  [if needsProto3 module.__name__ then "syntax = \"proto3\";" else "syntax = \"proto2\";",
   "package " ++ module.__name__ ++ ";",
   "option go_package = \"go.mau.fi/whatsmeow/proto/" ++ goPackageName module.__name__ ++ "\";",
   ""] ++ importLines goPackageName module.dependencies

/-- The function `protoifyModule` of `proto/parse-proto.js`: the lines of the file and the
module object as left behind. -/
def protoifyModule (c : WAProtoConst) (module : ProtoFile) : Option (List String × ProtoFile) :=
  match protoifyChildren c module (needsProto3 module.__name__) with
  | none => none
  | some (children, module) => some (moduleHeader module ++ (children ++ [""]), module)

end ParseProto

namespace Armadillo

open ParseProto

/-- The function `protoifyEnum` of `binary/armadillo/parse-proto.js`: when no property
prints as `0` and none as `-1`, a synthetic zero entry is pushed first.  Upper-casing a
`__name__` that is missing or not a string throws. -/
def protoifyEnum (enumDef : EnumDef) : Option (List String × EnumDef) :=
  let names := enumNames enumDef
  let synthetic : Option (List String) :=
    if !JS.truthy (JS.objGet names "0") && !JS.truthy (JS.objGet names "-1") then
      match JS.objGet enumDef "__name__" with
      | some (.str name) => some [JS.toUpperCase name ++ "_UNKNOWN = 0;"]
      | _ => none
    else some []
  match synthetic with
  | none => none
  | some values =>
    let enumDef := remapMinusOne enumDef
    some ([enumHeader enumDef] ++ indent (values ++ enumValueLines enumDef) ++ ["\x7d"], enumDef)

/-- The function `protoifyField` of `binary/armadillo/parse-proto.js`. -/
def protoifyField (c : WAProtoConst) (name : String) (definition : FieldDef)
    (parentModule : String) (parentPath : List String) : Option String :=
  let flags := definition.flags
  let preflags : List String :=
    if JS.bitAnd flags c.FLAGS.REPEATED ≠ 0 then ["repeated"] else []
  match Armadillo.fieldTypeName c.TYPES (some (JS.bitAnd flags c.TYPE_MASK)) definition.typeRef
      parentModule parentPath with
  | none => none
  | some typeName =>
    let preflags := preflags ++ [joinElement typeName]
    let postflags : List String :=
      if JS.bitAnd flags c.FLAGS.PACKED ≠ 0 then ["", "[packed=true]"] else [""]
    some (JS.join " " preflags ++ " " ++ fixFieldName name ++ " = " ++ toString definition.index
      ++ JS.join " " postflags ++ ";")

/-- The serializer of `binary/armadillo/parse-proto.js`. -/
def renderer (c : WAProtoConst) : Renderer where
  protoifyEnum := Armadillo.protoifyEnum
  protoifyField := fun name definition parentModule parentPath _ =>
    Armadillo.protoifyField c name definition parentModule parentPath

/-- The function `protoifyMessage` of `binary/armadillo/parse-proto.js`. -/
def protoifyMessage (c : WAProtoConst) (message : Message) : Option (List String × Message) :=
  protoifyMessageWith (Armadillo.renderer c) message

/-- The function `protoifyChildren` of `binary/armadillo/parse-proto.js` on a module. -/
def protoifyChildren (c : WAProtoConst) (container : ProtoFile) :
    Option (List String × ProtoFile) :=
  protoifyChildrenWith (Armadillo.renderer c) container

/-- The function `renameDependencies` of `binary/armadillo/parse-proto.js`. -/
def renameDependencies (dependencies : List String) : List String :=
  ((dependencies.filter (fun name => JS.endsWith name ".pb")).map renameModule).map
    (fun name => if name = "WAProtocol" then "WACommon" else name)

/-- The function `goPackageName` of `binary/armadillo/parse-proto.js`. -/
def goPackageName (name : String) : String := lowerLeadingWA name

/-- The lines `protoifyModule` of the armadillo variant pushes before the children. -/
def moduleHeader (module : ProtoFile) : List String :=
  ["syntax = \"proto3\";",
   "package " ++ module.__name__ ++ ";",
   "option go_package = \"go.mau.fi/whatsmeow/binary/armadillo/"
     ++ Armadillo.goPackageName module.__name__ ++ "\";",
   ""] ++ importLines Armadillo.goPackageName module.dependencies

/-- The function `protoifyModule` of `binary/armadillo/parse-proto.js`. -/
def protoifyModule (c : WAProtoConst) (module : ProtoFile) : Option (List String × ProtoFile) :=
  match Armadillo.protoifyChildren c module with
  | none => none
  | some (children, module) => some (Armadillo.moduleHeader module ++ (children ++ [""]), module)

end Armadillo

/-! ## Enum objects as the extraction leaves them -/

namespace ParseProto

/-- The enum object of an export: the entries of the enum in order, then `__enum__` (set
by the `$InternalEnum` constructor) and the three properties the export loop assigns. -/
def enumObject (entries : List (String × Int)) (name : String) (path : List String)
    (module : String) : EnumDef :=
  entries.map (fun e => (e.1, JS.Value.num e.2))
    ++ [("__enum__", .bool true), ("__name__", .str name), ("__path__", .strs path),
        ("__module__", .str module)]

/-- The line `<name> = <value>;` of an enum entry. -/
def entryLine (e : String × Int) : String := e.1 ++ " = " ++ toString e.2 ++ ";"

end ParseProto

/-! ## The schema tree a serializer run leaves behind -/

namespace ParseProto

/-- The field names listed in the groups under `__oneofs__`. -/
def groupedNames (spec : Spec) : List String :=
  match JS.objGet spec "__oneofs__" with
  | some (.oneofs groups) => groups.flatMap (fun g => g.2)
  | _ => []

/-- A field table without `__oneofs__`, `__reserved__` and the fields named in a group. -/
def specAfter (spec : Spec) : Spec :=
  spec.filter (fun e =>
    decide (e.1 ∉ groupedNames spec) && (e.1 != "__oneofs__" && e.1 != "__reserved__"))

/-- The enums of a container, each with its `-1` entry remapped. -/
def enumsAfter (enums : JS.Obj EnumDef) : JS.Obj EnumDef :=
  enums.map (fun e => (e.1, remapMinusOne e.2))

mutual
/-- A message node in which every enum has been remapped and every field table has lost its
meta-entries and grouped fields. -/
def messageAfter : Message → Message
  | .mk messages enums module path name message =>
    .mk (messagesAfter messages) (enumsAfter enums) module path name (message.map specAfter)
/-- The children of a container, each changed as `messageAfter` describes. -/
def messagesAfter : List (String × Message) → List (String × Message)
  | [] => []
  | (key, msg) :: rest => (key, messageAfter msg) :: messagesAfter rest
end

/-- A module whose whole tree has been changed as `messageAfter` describes. -/
def fileAfter (file : ProtoFile) : ProtoFile :=
  { file with messages := messagesAfter file.messages, enums := enumsAfter file.enums }

end ParseProto

/-! ## A small module used to evaluate the serializers -/

namespace ParseProto

/-- The message `Pair` of `sampleFile`: two plain fields, one field in the oneof group
`choice`, and a `__reserved__` entry. -/
def sampleMessage : Message :=
  .mk [] [] "WASample" [] "Pair"
    (some [("left", .field ⟨1, 14, .undef⟩),
           ("kind", .field ⟨2, 8, .node ⟨"WASample", [], "Kind"⟩⟩),
           ("right", .field ⟨3, 14, .undef⟩),
           ("__oneofs__", .oneofs [("choice", ["right"])]),
           ("__reserved__", .reserved)])

/-- A module with the enum `Kind` (entries `A = 1`, `B = -1`) and the message `Pair`. -/
def sampleFile : ProtoFile where
  messages := [("Pair", sampleMessage)]
  enums := [("Kind", enumObject [("A", 1), ("B", -1)] "Kind" [] "WASample")]
  __name__ := "WASample"
  dependencies := ["WACommon"]

end ParseProto

/-! ## Reference renderings the claims are stated against -/

namespace ParseProto

/-- A flag bit is set in `flags`: the test `(flags & FLAG) !== 0`. -/
def bitSet (flags mask : Int) : Bool := JS.bitAnd flags mask != 0

/-- Reference definition of the label of a field line: absent for a oneof member;
otherwise `repeated` when the REPEATED bit is set, else absent in the proto3 dialect, else
`required` when the REQUIRED bit is set and `optional` when it is not. -/
def fieldLabel (c : WAProtoConst) (proto3 isOneOf : Bool) (flags : Int) : Option String :=
  if isOneOf then none
  else if bitSet flags c.FLAGS.REPEATED then some "repeated"
  else if proto3 then none
  else if bitSet flags c.FLAGS.REQUIRED then some "required"
  else some "optional"

/-- Reference definition of a field line: `<label> <type> <name> = <index>;`, without the
leading space when there is no label, and with ` [packed=true]` before the `;` when
`packed` holds. -/
def fieldLine (label : Option String) (typeName name : String) (index : Int)
    (packed : Bool) : String :=
  (match label with
    | some l => l ++ " "
    | none => "")
  ++ typeName ++ " " ++ name ++ " = " ++ toString index
  ++ (if packed then " [packed=true]" else "") ++ ";"

/-- Reference definition of `protoifyField` of `proto/parse-proto.js`: the field line built
from the label, the type name `fieldTypeName` returns for the masked flags, the corrected
field name, the index and the PACKED bit. -/
def protoifyFieldReference (c : WAProtoConst) (proto3 : Bool) (name : String)
    (definition : FieldDef) (parentModule : String) (parentPath : List String)
    (isOneOf : Bool) : Option String :=
  (fieldTypeName c.TYPES (some (JS.bitAnd definition.flags c.TYPE_MASK)) definition.typeRef
      parentModule parentPath).map
    (fun typeName =>
      fieldLine (fieldLabel c proto3 isOneOf definition.flags) (joinElement typeName)
        (fixFieldName name) definition.index (bitSet definition.flags c.FLAGS.PACKED))

/-- The primitive type tags with their type names. -/
def primitiveTags (TYPES : Types) : List (Int × String) :=
  [(TYPES.INT32, "int32"), (TYPES.INT64, "int64"), (TYPES.UINT32, "uint32"),
   (TYPES.UINT64, "uint64"), (TYPES.SINT32, "sint32"), (TYPES.SINT64, "sint64"),
   (TYPES.BOOL, "bool"), (TYPES.FIXED64, "fixed64"), (TYPES.SFIXED64, "sfixed64"),
   (TYPES.DOUBLE, "double"), (TYPES.STRING, "string"), (TYPES.BYTES, "bytes"),
   (TYPES.FIXED32, "fixed32"), (TYPES.SFIXED32, "sfixed32"), (TYPES.FLOAT, "float")]

/-- Reference rendering of the key or value of a map type: an object as the reference path
of a message or enum, a primitive type tag as its type name; nothing else is covered. -/
def mapComponentName (TYPES : Types) (ref : MapRef) (parentModule : String)
    (parentPath : List String) : Option String :=
  match ref with
  | .obj r => some (referenceTypeName r parentModule parentPath)
  | .tag t => ((primitiveTags TYPES).find? (fun e => e.1 = t)).map (fun e => e.2)

end ParseProto

/-! ## Resolution of `__oneofs__` in `binary/proto/extract/index.js` -/

namespace Extract

/-- An element of the array `members` of a message: a field `{name, id, type, flags}`, or a
group `{name, type: "__oneof__", members}` whose members are the values the callback
returned (`none` for `undefined`). -/
inductive Member where
  | field (name : String) (id : Int) (type : Option String) (flags : List String)
  | oneof (name : String) (members : List (Option Member))

/-- The property `name` of a member. -/
def Member.name : Member → String
  | .field name _ _ _ => name
  | .oneof name _ => name

/-- The call `members.findIndex(m => m.name === value)`; `none` stands for `-1`. -/
def findIndex : List Member → String → Option Nat
  | [], _ => none
  | m :: rest, value =>
    if m.name = value then some 0 else (findIndex rest value).map (fun idx => idx + 1)

/-- The callback of `p.value.elements.map`: the member at the index found and `members`
after `splice(idx, 1)`.  For the index `-1` the element read is `undefined` and `splice`
removes the last element. -/
def takeMember (members : List Member) (value : String) : Option Member × List Member :=
  match findIndex members value with
  | some idx => (members[idx]?, members.eraseIdx idx)
  | none => (none, members.dropLast)

/-- The map over the elements of one group, threading `members`. -/
def takeMembers : List Member → List String → List (Option Member) × List Member
  | members, [] => ([], members)
  | members, value :: rest =>
    let first := takeMember members value
    let others := takeMembers first.2 rest
    (first.1 :: others.1, others.2)

/-- The map over the properties of the `__oneofs__` object: the new group objects, and
`members` as the callbacks leave it. -/
def newOneOfs : List Member → List (String × List String) → List Member × List Member
  | members, [] => ([], members)
  | members, (name, elements) :: rest =>
    let taken := takeMembers members elements
    let others := newOneOfs taken.2 rest
    (Member.oneof name taken.1 :: others.1, others.2)

/-- The handling of one `__oneofs__` constraint: the groups are pushed after the members
that remain. -/
def resolveOneofs (members : List Member) (oneofs : List (String × List String)) :
    List Member :=
  let resolved := newOneOfs members oneofs
  resolved.2 ++ resolved.1

/-- The first member with a name, as `findIndex` selects it. -/
def firstNamed (members : List Member) (value : String) : Option Member :=
  members.find? (fun m => m.name = value)

/-- A member list without the first member of each of the given names. -/
def withoutFirst (members : List Member) (values : List String) : List Member :=
  values.foldl (fun ms value => ms.eraseP (fun m => m.name = value)) members

end Extract

namespace ParseProto

/-- Reference rendering of one oneof group: the header, one line per name the group lists,
in the order it lists them and read from the field table, and the closing brace. -/
def renderGroup (r : Renderer) (parentModule : String) (parentPath : List String)
    (spec : Spec) (group : String × List String) : Option (List String) :=
  (JS.mapThrowing (fun fieldName =>
      protoifyEntry r parentModule parentPath true (fieldName, JS.objGet spec fieldName))
      group.2).map
    (fun lines => ["oneof " ++ group.1 ++ " \x7b"] ++ indent lines ++ ["\x7d"])

/-- Reference rendering of a message with a field table: the nested children first, then
one block per oneof group, then the fields no group names in their original order. -/
def messageLinesReference (r : Renderer) (messages : List (String × Message))
    (enums : JS.Obj EnumDef) (module : String) (path : List String) (name : String)
    (spec : Spec) (groups : List (String × List String)) : Option (List String) :=
  match protoifyEnums r enums, protoifyMessagesWith r messages,
      JS.mapThrowing (renderGroup r module (path ++ [name]) spec) groups,
      protoifyFields r ((specAfter spec).map (fun e => (e.1, some e.2))) module
        (path ++ [name]) false with
  | some (enumBlocks, _), some (messageBlocks, _), some oneofBlocks, some flat =>
    some (["message " ++ name ++ " \x7b"]
      ++ indent (flattenWithBlankLines
          ([flattenWithBlankLines (enumBlocks ++ messageBlocks)] ++ oneofBlocks ++ [flat]))
      ++ ["\x7d"])
  | _, _, _, _ => none

end ParseProto

namespace ParseProto

/-- The import line of a dependency, as `protoifyModule` of `proto/parse-proto.js` writes
it. -/
def importLine (dependency : String) : String :=
  "import \"" ++ goPackageName dependency ++ "/" ++ dependency ++ ".proto\";"

end ParseProto

/-! ## Looking a type name up in the rendered schema -/

namespace ParseProto

/-- The name an enum is declared with in the output: the one its header prints. -/
def enumDeclaredName (enumDef : EnumDef) : String :=
  templateString ((JS.objGet (remapMinusOne enumDef) "__name__").map JS.Value.toStr)

/-- The names a container declares: those of its child messages and of its enums. -/
def declaredNames (messages : List (String × Message)) (enums : JS.Obj EnumDef) :
    List String :=
  messages.map (fun e => e.2.__name__) ++ enums.map (fun e => enumDeclaredName e.2)

/-- The first child message declared with a name. -/
def childMessage (messages : List (String × Message)) (name : String) : Option Message :=
  (messages.find? (fun e => e.2.__name__ = name)).map (fun e => e.2)

/-- The children of the message reached from a container by a path of declared names. -/
def scopeAt : List (String × Message) → JS.Obj EnumDef → List String →
    Option (List (String × Message) × JS.Obj EnumDef)
  | messages, enums, [] => some (messages, enums)
  | messages, _, name :: rest =>
    match childMessage messages name with
    | some m => scopeAt m.messages m.enums rest
    | none => none

/-- The scope at `scope` (a path from the root of the file) declares `name`. -/
def declares (file : ProtoFile) (scope : List String) (name : String) : Bool :=
  match scopeAt file.messages file.enums scope with
  | some (messages, enums) => decide (name ∈ declaredNames messages enums)
  | none => false

/-- A full name denotes a node of the file: its last component is declared in the scope
named by the components before it. -/
def denotes (file : ProtoFile) (fullName : List String) : Bool :=
  match fullName.getLast? with
  | some last => declares file fullName.dropLast last
  | none => false

/-- The scoping rule of protobuf in the words of the claim: the first component is searched
in the innermost enclosing scope, then outward; in the first scope that declares it the
remaining components are followed, and the name denotes the node reached, if any.
`depth` is the number of leading segments of `scope` of the scope tried next. -/
def resolveFrom (file : ProtoFile) (scope : List String) (first : String)
    (rest : List String) : Nat → Option (List String)
  | 0 =>
    if declares file [] first then
      if denotes file (first :: rest) then some (first :: rest) else none
    else none
  | depth + 1 =>
    if declares file (scope.take (depth + 1)) first then
      if denotes file (scope.take (depth + 1) ++ first :: rest) then
        some (scope.take (depth + 1) ++ first :: rest)
      else none
    else resolveFrom file scope first rest depth

/-- The full name of the node a dotted type name denotes when it is written inside the
message with full path `scope`. -/
def resolveName (file : ProtoFile) (scope : List String) (name : String) :
    Option (List String) :=
  match JS.split '.' name with
  | [] => none
  | first :: rest => resolveFrom file scope first rest scope.length

/-- A module in which the message `A` holds the messages `X` and `B`, and `B` holds a
message `X` of its own and a field `f` whose type is the `X` of `A`. -/
def shadowFile : ProtoFile where
  messages :=
    [("A", .mk
      [("X", .mk [] [] "M" ["A"] "X" (some [])),
       ("B", .mk [("X", .mk [] [] "M" ["A", "B"] "X" (some []))] [] "M" ["A"] "B"
          (some [("f", .field ⟨1, 9, .node ⟨"M", ["A"], "X"⟩⟩)]))]
      [] "M" [] "A" (some []))]
  enums := []
  __name__ := "M"
  dependencies := []

end ParseProto

namespace JS

/-- The pattern `pat` occurs at position `k` of `l` and what follows it satisfies `after`:
a match of the regular expression at that position. -/
def matchesAt (pat : List Char) (after : List Char → Bool) (l : List Char) (k : Nat) : Bool :=
  pat.isPrefixOf (l.drop k) && after (l.drop (k + pat.length))

end JS

namespace JS

/-- A replacement of `pat` by `rep` cannot alter an `I` that is followed by `c`: it maps
an `I` of the pattern to `I`, and a `c` of the pattern to `c` unless the pattern has
another character than `I` before it. -/
def keepsPair (pat rep : List Char) (c : Char) : Bool :=
  (List.range pat.length).all (fun m =>
    (pat[m]? != some 'I' || rep[m]? == some 'I')
    && (pat[m]? != some c || rep[m]? == some c
        || (decide (1 ≤ m) && pat[m - 1]? != some 'I')))

end JS

namespace ParseProto

/-- The text `Id` stands at position `i` and is immediately followed by an upper-case
letter, by `s`, or by the end of the name. -/
def idFollowedAt (cs : List Char) (i : Nat) : Bool :=
  JS.matchesAt "Id".data upperOrSOrEnd cs i

/-- Position `i` is the first one at which `idFollowedAt` holds. -/
def firstIdFollowedAt (cs : List Char) (i : Nat) : Bool :=
  idFollowedAt cs i && (List.range i).all (fun j => !idFollowedAt cs j)

end ParseProto

namespace ParseProto

/-- A module name without its last three characters: the name with the suffix `.pb` taken
off (the reading of "with `.pb` removed" the claims use). -/
def withoutPbSuffix (name : String) : String :=
  String.mk (name.data.take (name.data.length - 3))

/-- A module whose name is that of a property inherited from `Object.prototype`. -/
def inheritedNameFile : ProtoFile where
  messages := []
  enums := []
  __name__ := "constructor"
  dependencies := []

end ParseProto

/-! ## The module loader (`defineModule`, `requireModule`, lazy loading) -/

namespace ParseProto

/-- An entry of the table `modules`: the object `{exports, dependencies}`.  A property that
is missing (`undefined`) is `none`; the built-in entry `$InternalEnum` has no
`dependencies`. -/
structure Module (ε : Type) where
  exports : Option ε
  dependencies : Option (List String)
deriving DecidableEq

/-- The table `modules`. -/
abbrev Modules (ε : Type) := JS.Obj (Module ε)

/-- The table `modules` as the scripts create it: the one entry `$InternalEnum`, whose
exports are not inspected here. -/
def initialModules {ε : Type} (internalEnum : ε) : Modules ε :=
  [("$InternalEnum", ⟨some internalEnum, none⟩)]

/-- The table `depRenameMap`. -/
def depRenameMap : JS.Obj String :=
  [("WAProtocol.pb", "WACommon.pb"),
   ("WAWebProtobufsProtocol.pb", "WACommon.pb"),
   ("WAWebProtobufsAdv.pb", "WAAdv.pb"),
   ("WAWebProtobufsMmsRetry.pb", "WAMmsRetry.pb"),
   ("WAWebProtobufSyncAction.pb", "WASyncAction.pb"),
   ("WAWebProtobufsFingerprintV3.pb", "WAFingerprint.pb"),
   ("WAWebProtobufsDeviceCapabilities.pb", "WAProtobufsDeviceCapabilities.pb"),
   ("WAWebProtobufsChatLockSettings.pb", "WAProtobufsChatLockSettings.pb"),
   ("WAWebProtobufsUserPassword.pb", "WAProtobufsUserPassword.pb")]

/-- The expression `depRenameMap[name] ?? name`, as the property key it is then used for:
an own entry of the table, else the value inherited from `Object.prototype` (which is not
nullish) as it prints, else the name itself. -/
def aliasName (name : String) : String :=
  match JS.objGet depRenameMap name with
  | some canonical => canonical
  | none =>
    match inheritedText name with
    | some text => text
    | none => name

/-- The truth value of `modules[name]`: an own entry is an object, and a name inherited from
`Object.prototype` yields a function or an object; both are truthy. -/
def isLoaded {ε : Type} (modules : Modules ε) (name : String) : Bool :=
  (JS.objGet modules name).isSome || decide (name ∈ JS.objectPrototypeKeys)

/-- The statements `if (!modules[name]) throw ...; return modules[name].exports`.  The outer
`none` is the thrown error; the inner `none` is `undefined`, which is what the property
`exports` of an inherited value is. -/
def lookupExports {ε : Type} (modules : Modules ε) (name : String) : Option (Option ε) :=
  match JS.objGet modules name with
  | some module => some module.exports
  | none => if name ∈ JS.objectPrototypeKeys then some none else none

/-- The function `requireModule` of `proto/parse-proto.js`.  It assigns nothing. -/
def requireModule {ε : Type} (modules : Modules ε) (name : String) : Option (Option ε) :=
  lookupExports modules (aliasName name)

/-- The function `ignoreModule` of `proto/parse-proto.js`. -/
def ignoreModule (name : String) : Bool :=
  if name = "WAProtoConst" then false
  else if !JS.endsWith name ".pb" then true
  else if JS.startsWith name "MAWArmadillo"
      && (JS.endsWith name "TableSchema.pb" || JS.endsWith name "TablesSchema.pb") then true
  else if JS.startsWith name "WAWebProtobufsMdStorage" then true
  else if name ∈ ["WAWebProtobufsAdv.pb", "WAWebProtobufsMmsRetry.pb",
      "WAWebProtobufSyncAction.pb", "WAWebProtobufsFingerprintV3.pb",
      "WAWebProtobufsDeviceCapabilities.pb", "WAWebProtobufsChatLockSettings.pb",
      "WAWebProtobufsUserPassword.pb", "WAProtocol.pb", "WAWebProtobufsProtocol.pb"] then true
  else if name ∈ ["WAWa5.pb", "WAE2E.pb"] then true
  else if name = "WASignalLocalStorageProtocol.pb" || name = "WASignalWhisperTextProtocol.pb"
    then true
  else false

/-- The callback of a `__d(...)` registration, which is not part of the repository: what it
leaves in the object `exports`, given the function `requireModule` it is handed (from which
`requireDefault` derives) and whether it is called in the form for a module with
dependencies.  `none` is a callback that throws. -/
abbrev Factory (ε : Type) := (String → Option (Option ε)) → Bool → Option ε

/-- An entry of the table `lazyModules`: the renamed dependencies and the closure `load`,
which is determined by the callback. -/
structure LazyModule (ε : Type) where
  dependencies : List String
  callback : Factory ε

/-- The state of the loader of `proto/parse-proto.js`: the two tables, and the names whose
callback has been invoked, in the order of the invocations. -/
structure Loader (ε : Type) where
  modules : Modules ε
  lazyModules : JS.Obj (LazyModule ε)
  invoked : List String

/-- The function `defineModule` of `proto/parse-proto.js`. -/
def defineModule {ε : Type} (s : Loader ε) (name : String) (dependencies : List String)
    (callback : Factory ε) : Loader ε :=
  if ignoreModule name then s
  else if isLoaded s.modules name then s
  else
    { s with lazyModules :=
        JS.objSet s.lazyModules name ⟨dependencies.map aliasName, callback⟩ }

/-- The closure `load` of a lazy module: the callback is invoked, then
`modules[name] = \x7bexports, dependencies\x7d`. -/
def loadModule {ε : Type} (s : Loader ε) (name : String) (mod : LazyModule ε) :
    Option (Loader ε) :=
  match mod.callback (requireModule s.modules) (decide (mod.dependencies.length > 0)) with
  | none => none
  | some exports =>
    some { s with
      modules := JS.objSet s.modules name ⟨some exports, some mod.dependencies⟩
      invoked := s.invoked ++ [name] }

/-- How a call ends: it returns, it throws, or the recursion has not ended within the
given depth. -/
inductive Outcome (σ : Type) where
  | returned (state : σ)
  | thrown
  | unfinished

/-- A `for` loop whose body may throw or not end. -/
def forEach {σ α : Type} (body : σ → α → Outcome σ) : σ → List α → Outcome σ
  | s, [] => .returned s
  | s, a :: rest =>
    match body s a with
    | .returned s2 => forEach body s2 rest
    | .thrown => .thrown
    | .unfinished => .unfinished

/-- The function `loadLazyModule`, with a bound on the depth of the recursion.  A name
without a lazy entry makes `mod.dependencies` throw. -/
def loadLazyModule {ε : Type} : Nat → Loader ε → String → Outcome (Loader ε)
  | 0, _, _ => .unfinished
  | depth + 1, s, name =>
    if isLoaded s.modules name then .returned s
    else
      match JS.objGet s.lazyModules name with
      | none => .thrown
      | some mod =>
        match forEach (loadLazyModule depth) s mod.dependencies with
        | .returned s2 =>
          match loadModule s2 name mod with
          | some s3 => .returned s3
          | none => .thrown
        | .thrown => .thrown
        | .unfinished => .unfinished

/-- The function `loadLazyModules`: the keys of `lazyModules` are loaded in order. -/
def loadLazyModules {ε : Type} (depth : Nat) (s : Loader ε) : Outcome (Loader ε) :=
  forEach (loadLazyModule depth) s (s.lazyModules.map (fun e => e.1))

/-- The name a lookup is made under according to the rename table alone: the canonical
name of a key of the table, the name itself otherwise. -/
def canonicalName (name : String) : String :=
  match JS.objGet depRenameMap name with
  | some canonical => canonical
  | none => name

end ParseProto

namespace Armadillo

open ParseProto

/-- The function `requireModule` of `binary/armadillo/parse-proto.js`. -/
def requireModule {ε : Type} (modules : Modules ε) (name : String) : Option (Option ε) :=
  lookupExports modules name

/-- The function `ignoreModule` of `binary/armadillo/parse-proto.js`. -/
def ignoreModule (name : String) : Bool :=
  if name = "WAProtoConst" then false
  else if !JS.endsWith name ".pb" then true
  else if JS.startsWith name "MAWArmadillo"
      && (JS.endsWith name "TableSchema.pb" || JS.endsWith name "TablesSchema.pb") then true
  else if name = "WASignalLocalStorageProtocol.pb" || name = "WASignalWhisperTextProtocol.pb"
    then true
  else false

/-- The state of the loader of the armadillo script, which has no table `lazyModules`. -/
structure Loader (ε : Type) where
  modules : Modules ε
  invoked : List String

/-- The function `defineModule` of `binary/armadillo/parse-proto.js`: the callback is
invoked at once and the entry is written whether or not one exists.  `none` is a
callback that throws. -/
def defineModule {ε : Type} (s : Armadillo.Loader ε) (name : String)
    (dependencies : List String) (callback : Factory ε) : Option (Armadillo.Loader ε) :=
  if Armadillo.ignoreModule name then some s
  else
    match callback (Armadillo.requireModule s.modules) (decide (dependencies.length > 0)) with
    | none => none
    | some exports =>
      some { modules := JS.objSet s.modules name ⟨some exports, some dependencies⟩
             invoked := s.invoked ++ [name] }

end Armadillo

namespace ParseProto

/-- A loader state in which nothing has been registered. -/
def emptyLoader : Loader String := ⟨initialModules "enum", [], []⟩

/-- The module table and the invocations a loader run ends with; nothing when it does not
return. -/
def Outcome.summary (o : Outcome (Loader String)) (name : String) :
    Option (Option (Module String) × List String) :=
  match o with
  | .returned s => some (JS.objGet s.modules name, s.invoked)
  | _ => none

end ParseProto

namespace ParseProto

/-- The lazy module `n` lists the lazy module `d` among its dependencies. -/
def DependsOn {ε : Type} (table : JS.Obj (LazyModule ε)) (n d : String) : Prop :=
  ∃ mod, JS.objGet table n = some mod ∧ d ∈ mod.dependencies ∧ (JS.objGet table d).isSome

/-- What holds of a loader state `s` reached from `s0` while the lazy modules are loaded,
`t` being the callbacks invoked since `s0`, in order: the lazy table is untouched, a name
is resolved exactly when it was resolved in `s0` or its callback has been invoked, no
callback has been invoked twice, and every callback was invoked after those of the lazy
modules it depends on. -/
structure LoadInv {ε : Type} (s0 s : Loader ε) (t : List String) : Prop where
  lazy_eq : s.lazyModules = s0.lazyModules
  invoked_eq : s.invoked = s0.invoked ++ t
  loaded_iff : ∀ n, isLoaded s.modules n = true ↔ (isLoaded s0.modules n = true ∨ n ∈ t)
  nodup : t.Nodup
  keys : ∀ n ∈ t, (JS.objGet s0.lazyModules n).isSome
  ordered : ∀ n d, n ∈ t → DependsOn s0.lazyModules n d → t.indexOf d < t.indexOf n

/-- Three lazy modules: `WAWebProtobufsE2E.pb` depends on `WACommon.pb` and `WAAdv.pb`,
and `WAAdv.pb` on `WACommon.pb`; the one that depends on the others is registered first. -/
def sampleLoader : Loader String :=
  defineModule
    (defineModule
      (defineModule emptyLoader "WAWebProtobufsE2E.pb" ["WAProtocol.pb", "WAAdv.pb"]
        (fun _ _ => some "e2e"))
      "WAAdv.pb" ["WACommon.pb", "$InternalEnum"] (fun _ _ => some "adv"))
    "WACommon.pb" [] (fun _ _ => some "common")

/-- A rank for the modules of `sampleLoader` that decreases along its dependencies. -/
def sampleRank (name : String) : Nat :=
  if name = "WAWebProtobufsE2E.pb" then 2 else if name = "WAAdv.pb" then 1 else 0

end ParseProto

/-! ## Renaming and serialization in `binary/proto/extract/index.js` -/

namespace Extract

/-- The function `addPrefix`. -/
def addPrefix (lines : List String) (pre : String) : List String :=
  lines.map (fun line => pre ++ line)

/-- The function `unspecName`: a final `Spec` is cut off. -/
def unspecName (name : String) : String :=
  if JS.endsWith name "Spec" then String.mk (name.data.take (name.data.length - 4)) else name

/-- The function `unnestName`: three calls of `replace` with a string pattern, each of which
replaces the first occurrence only. -/
def unnestName (name : String) : String :=
  JS.replace (JS.replace (JS.replace name "Message$" "") "SyncActionValue$" "")
    "ContextInfo$ForwardedNewsletterMessageInfo" "ForwardedNewsletterMessageInfo"

/-- The function `rename`. -/
def rename (name : String) : String := unnestName (unspecName name)

/-- The pattern occurs at position `k` of the text and nowhere before. -/
def firstOccurrenceAt (pat : String) (s : String) (k : Nat) : Bool :=
  JS.matchesAt pat.data (fun _ => true) s.data k
    && (List.range k).all (fun j => !JS.matchesAt pat.data (fun _ => true) s.data j)

/-- An identifier of a module: a message (with `members` and `children`) or an enum (with
`enumValues`); `unnestedName` is set when the identifier has been moved into its parent.
The `id` of an enum value is `undefined` when the scraped value is not a literal. -/
inductive Ident where
  | mk (name : String) (unnestedName : Option String)
      (enumValues : Option (List (String × Option Int)))
      (members : Option (List Member)) (children : List Ident)

/-- The property `name` of an identifier. -/
def Ident.name : Ident → String
  | .mk name _ _ _ _ => name

/-- The property `unnestedName` of an identifier. -/
def Ident.unnestedName : Ident → Option String
  | .mk _ unnestedName _ _ _ => unnestedName

/-- The property `enumValues` of an identifier. -/
def Ident.enumValues : Ident → Option (List (String × Option Int))
  | .mk _ _ enumValues _ _ => enumValues

/-- The property `members` of an identifier. -/
def Ident.members : Ident → Option (List Member)
  | .mk _ _ _ members _ => members

/-- The property `children` of an identifier. -/
def Ident.children : Ident → List Ident
  | .mk _ _ _ _ children => children

/-- How a template literal prints a number that may be `undefined`. -/
def printNumber : Option Int → String
  | none => "undefined"
  | some n => toString n

/-- The constant `spaceIndent`. -/
def spaceIndent : String := "    "

/-- The function `stringifyEnum` on an identifier with enum values, without an
`overrideName`. -/
def stringifyEnum (name : String) (unnestedName : Option String)
    (enumValues : List (String × Option Int)) : List String :=
  ["enum " ++ unnestedName.getD name ++ " \x7b"]
    ++ addPrefix (enumValues.map (fun v => v.1 ++ " = " ++ printNumber v.2 ++ ";")) spaceIndent
    ++ ["\x7d"]

/-- The function `sharesParent`: the loop runs while both paths have a further element. -/
def sharesParent : List String → List String → Bool
  | a :: a2 :: rest1, b :: b2 :: rest2 =>
    if a != b then false else sharesParent (a2 :: rest1) (b2 :: rest2)
  | _, _ => true

/-- The text `unnestedType` of a member: the last part of the type, or all parts joined by
dots when the type does not share the parents of the path. -/
def unnestedType (type path : String) : String :=
  let typeParts := JS.split '$' type
  if !sharesParent typeParts (JS.split '$' path) then JS.join "." typeParts
  else typeParts.getLast?.getD ""

/-- The flags of a member after the `packed` block: everything from the first `packed` on
is spliced away. -/
def flagsWithoutPacked (flags : List String) : List String :=
  if "packed" ∈ flags then flags.take (flags.indexOf "packed") else flags

/-- The flags of a member after the `completeFlags` block. -/
def completedFlags (flags : List String) (completeFlags : Bool) : List String :=
  if completeFlags && (flagsWithoutPacked flags).length == 0 then
    flagsWithoutPacked flags ++ ["optional"]
  else flagsWithoutPacked flags

/-- The line `stringifyMessageSpecMember` pushes for a field whose type is a string. -/
def memberLine (name : String) (id : Int) (type : String) (flags : List String) (path : String)
    (completeFlags : Bool) : String :=
  let printed := completedFlags flags completeFlags
  JS.join " " printed ++ (if printed.length == 0 then "" else " ")
    ++ unnestedType type path ++ " " ++ name ++ " = " ++ toString id
    ++ (if "packed" ∈ flags then " [packed=true]" else "") ++ ";"

mutual
/-- The function `stringifyMessageSpecMember` on a member object as the extraction builds
it (no `packed` and no `enumValues` property yet).  A member without a type makes
`info.type.split` throw; the type `__oneof__` on a field makes `info.members.map` throw. -/
def stringifyMessageSpecMember : Member → String → Bool → Option (List String)
  | .oneof name members, path, _ =>
    match stringifyOneofMembers members path with
    | none => none
    | some lines => some (["oneof " ++ name ++ " \x7b"] ++ addPrefix lines spaceIndent ++ ["\x7d"])
  | .field name id type flags, path, completeFlags =>
    match type with
    | none => none
    | some type =>
      if type = "__oneof__" then none
      else some [memberLine name id type flags path completeFlags]
/-- The expression `[].concat(...info.members.map(m => stringifyMessageSpecMember(m, path,
false)))`; an element `undefined` makes the call throw. -/
def stringifyOneofMembers : List (Option Member) → String → Option (List String)
  | [], _ => some []
  | none :: _, _ => none
  | some m :: rest, path =>
    match stringifyMessageSpecMember m path false with
    | none => none
    | some lines =>
      match stringifyOneofMembers rest path with
      | none => none
      | some others => some (lines ++ others)
end

/-- The expression `[].concat(...ident.members.map(m => stringifyMessageSpecMember(m,
ident.name)))`. -/
def stringifyMembers : List Member → String → Option (List String)
  | [], _ => some []
  | m :: rest, path =>
    match stringifyMessageSpecMember m path true with
    | none => none
    | some lines =>
      match stringifyMembers rest path with
      | none => none
      | some others => some (lines ++ others)

/-- The end of `stringifyMessageSpec`: a block whose name is in `addedMessages` is commented
out and marked, another one is kept and its name added; an empty line is pushed. -/
def suppressDuplicate (name : String) (result : List String) (addedMessages : List String) :
    List String × List String :=
  if name ∈ addedMessages then
    (["// Duplicate type omitted"] ++ addPrefix result "//" ++ [""], addedMessages)
  else (result ++ [""], addedMessages ++ [name])

/-- The array `result` of `stringifyMessageSpec` before the duplicate test. -/
def messageBlock (name : String) (unnestedName : Option String) (childLines : List String)
    (memberLines : List String) : List String :=
  ["message " ++ unnestedName.getD name ++ " \x7b"]
    ++ addPrefix childLines spaceIndent ++ addPrefix memberLines spaceIndent ++ ["\x7d"]

mutual
/-- The function `stringifyMessageSpec`: the lines returned and the set `addedMessages`
after the call; `none` when a member throws. -/
def stringifyMessageSpec : Ident → List String → Option (List String × List String)
  | .mk name unnestedName _ members children, addedMessages =>
    match stringifyEntities children addedMessages with
    | none => none
    | some (childLines, addedMessages) =>
      match members with
      | none => none
      | some members =>
        match stringifyMembers members name with
        | none => none
        | some memberLines =>
          some (suppressDuplicate name (messageBlock name unnestedName childLines memberLines)
            addedMessages)
/-- The expression `[].concat(...list.map(stringifyEntity))`, with the dispatch of
`stringifyEntity` on each element: a message, an enum, or the line `// Unknown entity`. -/
def stringifyEntities : List Ident → List String → Option (List String × List String)
  | [], addedMessages => some ([], addedMessages)
  | .mk name unnestedName enumValues (some members) children :: rest, addedMessages =>
    match stringifyMessageSpec (.mk name unnestedName enumValues (some members) children)
        addedMessages with
    | none => none
    | some (lines, addedMessages) =>
      match stringifyEntities rest addedMessages with
      | none => none
      | some (others, addedMessages) => some (lines ++ others, addedMessages)
  | .mk name unnestedName (some values) none _ :: rest, addedMessages =>
    match stringifyEntities rest addedMessages with
    | none => none
    | some (others, addedMessages) =>
      some (stringifyEnum name unnestedName values ++ others, addedMessages)
  | .mk _ _ none none _ :: rest, addedMessages =>
    match stringifyEntities rest addedMessages with
    | none => none
    | some (others, addedMessages) => some (["// Unknown entity"] ++ others, addedMessages)
end

/-- The function `stringifyEntity`. -/
def stringifyEntity (v : Ident) (addedMessages : List String) :
    Option (List String × List String) :=
  match v.members, v.enumValues with
  | some _, _ => stringifyMessageSpec v addedMessages
  | none, some values => some (stringifyEnum v.name v.unnestedName values, addedMessages)
  | none, none => some (["// Unknown entity"], addedMessages)

mutual
/-- The names of the messages `stringifyMessageSpec` tests for duplicates during the call
on an identifier, in the order of the tests: those of its children first, then its own. -/
def emittedNames : Ident → List String
  | .mk name _ _ members children =>
    match members with
    | some _ => emittedNamesOfList children ++ [name]
    | none => []
/-- The names tested during the calls on a list of identifiers. -/
def emittedNamesOfList : List Ident → List String
  | [] => []
  | v :: rest => emittedNames v ++ emittedNamesOfList rest
end

end Extract

namespace Extract

/-- Two modules that both hold a message `Foo`: the identifiers of the first module, then
those of the second, in which `Foo` has another field. -/
def duplicateIdents : List Ident :=
  [.mk "Foo" none none (some [.field "a" 1 (some "string") []]) [],
   .mk "Foo" none none (some [.field "b" 2 (some "bytes") ["repeated"]]) []]

end Extract

namespace Extract

/-- The third element of the array of a member, as far as the type resolution looks at it:
an identifier, a member expression `object.property`, another expression, or nothing. -/
inductive Reference where
  | identifier (name : String)
  | memberExpression (object property : String)
  | other
  | absent
deriving DecidableEq

/-- What the type resolution reads of an identifier object: its `name` and its `alias` (a reserved word here, hence `aliasName`). -/
structure IdentInfo where
  name : String
  aliasName : Option String
deriving DecidableEq

/-- The entry of a module in `modulesInfo`: the cross references `{alias, module}` and the
identifiers, which are `undefined` when the module has no `void 0` chain. -/
structure ModInfo where
  crossRefs : List (String × Nat)
  identifiers : Option (JS.Obj IdentInfo)
deriving DecidableEq

/-- The text `currLoc` of the warnings. -/
def currLoc (name target : String) : String :=
  " from member '" ++ name ++ "' of message '" ++ target ++ "'"

/-- The block `if (type === "message" || type === "enum")` of the callback of `members.map`:
the type afterwards and the warnings logged.  `none` is a thrown `TypeError` (no third
element, or no `identifiers`). -/
def resolveType (modulesInfo : List (Nat × ModInfo)) (modInfo : ModInfo) (name target : String)
    (type : Option String) (ref : Reference) : Option (Option String × List String) :=
  if type = some "message" ∨ type = some "enum" then
    match ref with
    | .absent => none
    | .other => some (type, [])
    | .identifier wanted =>
      match modInfo.identifiers with
      | none => none
      | some identifiers =>
        let found := ((identifiers.map (fun e => e.2)).find?
          (fun v => v.aliasName = some wanted)).map (fun v => v.name)
        if JS.truthy found then some (found, [])
        else some (found,
          ["unable to find reference of alias '" ++ wanted ++ "'" ++ currLoc name target])
    | .memberExpression object property =>
      match modInfo.crossRefs.find? (fun r => r.1 = object) with
      | none =>
        some (type, ["unable to find reference of alias to other module '" ++ object
          ++ "' or to message " ++ property ++ " of this module" ++ currLoc name target])
      | some crossRef =>
        match modulesInfo.find? (fun m => m.1 = crossRef.2) with
        | none => none
        | some other =>
          match other.2.identifiers with
          | none => none
          | some identifiers =>
            if (JS.objGet identifiers (rename property)).isSome
                || decide (rename property ∈ JS.objectPrototypeKeys) then
              some (some (rename property), [])
            else
              some (type, ["unable to find reference of alias to other module '" ++ object
                ++ "' or to message " ++ property ++ " of this module" ++ currLoc name target])
  else some (type, [])

/-- The callback of `members.map`: the member object `\x7bname, id, type, flags\x7d` built from
the type and flags found in the second element, and the warnings logged. -/
def resolveMember (modulesInfo : List (Nat × ModInfo)) (modInfo : ModInfo) (target : String)
    (name : String) (id : Int) (type : Option String) (flags : List String) (ref : Reference) :
    Option (Member × List String) :=
  (resolveType modulesInfo modInfo name target type ref).map
    (fun r => (Member.field name id r.1 flags, r.2))

/-- A module with the identifier `Key` under the alias `k`, and no cross reference. -/
def sampleModInfo : ModInfo where
  crossRefs := []
  identifiers := some [("Key", ⟨"Key", some "k"⟩)]

/-- The lines of a member list, or nothing when the serialization throws. -/
def linesOfMessage (name : String) (members : List Member) : Option (List String) :=
  (stringifyMessageSpec (.mk name none none (some members) []) []).map (fun r => r.1)

end Extract

/-! ## Building the schema tree (`dereference`, `dereferenceSnake`, the extraction loop) -/

namespace ParseProto

/-- What `dereference` returns: the node reached by the given keys from the object the
call started at (no key: that object itself), or a value that is not a node of the tree,
namely one inherited from `Object.prototype`. -/
inductive Reached where
  | node (keys : List String)
  | inherited
deriving DecidableEq

/-- The reached value seen from one level up. -/
def Reached.under (key : String) : Reached → Reached
  | .node keys => .node (key :: keys)
  | .inherited => .inherited

/-- The object literal `dereference` creates for a missing node. -/
def newNode (module : String) (currentPath : List String) (next : String) : Message :=
  .mk [] [] module currentPath next none

/-- A node with another table `messages`. -/
def Message.withMessages : Message → List (String × Message) → Message
  | .mk _ enums module path name message, messages => .mk messages enums module path name message

/-- The function `dereference` on the table `obj.messages`: the table afterwards and the
value returned.  Both `undefined` and the empty string end the walk.  For a key that is
not an own property but is inherited from `Object.prototype` the test `!obj.messages[next]`
fails, nothing is created, and the next call reads `messages` of the inherited value, which
throws unless the walk ends there. -/
def dereference (module : String) :
    List (String × Message) → List String → List String →
      Option (List (String × Message) × Reached)
  | messages, _, [] => some (messages, .node [])
  | messages, currentPath, next :: remainder =>
    if next = "" then some (messages, .node [])
    else
      match JS.objGet messages next with
      | some child =>
        match dereference module child.messages (currentPath ++ [next]) remainder with
        | none => none
        | some (below, reached) =>
          some (JS.objSet messages next (child.withMessages below), reached.under next)
      | none =>
        if next ∈ JS.objectPrototypeKeys then
          match remainder with
          | [] => some (messages, .inherited)
          | next2 :: _ => if next2 = "" then some (messages, .inherited) else none
        else
          match dereference module [] (currentPath ++ [next]) remainder with
          | none => none
          | some (below, reached) =>
            some (JS.objSet messages next ((newNode module currentPath next).withMessages below),
              reached.under next)

/-- The table `messages` of the node reached from a table by a sequence of keys. -/
def tableAt : List (String × Message) → List String → Option (List (String × Message))
  | messages, [] => some messages
  | messages, key :: rest =>
    match JS.objGet messages key with
    | some child => tableAt child.messages rest
    | none => none

/-- The node reached from a table by a sequence of keys and a last key. -/
def nodeAt (messages : List (String × Message)) (keys : List String) (last : String) :
    Option Message :=
  match tableAt messages keys with
  | some table => JS.objGet table last
  | none => none

/-- The `while` loop of `dereferenceSnake`: parts are appended to `next` until
`obj.messages[next]` is truthy (`some` of the parts left) or no part is left (`none`). -/
def snakeScan (messages : List (String × Message)) : String → List String →
    String × Option (List String)
  | next, [] =>
    if (JS.objGet messages next).isSome || decide (next ∈ JS.objectPrototypeKeys) then
      (next, some [])
    else (next, none)
  | next, part :: rest =>
    if (JS.objGet messages next).isSome || decide (next ∈ JS.objectPrototypeKeys) then
      (next, some (part :: rest))
    else snakeScan messages (next ++ part) rest

/-- The function `dereferenceSnake` (the same text in both variants) on the table
`obj.messages`, with a bound on the depth of the recursion: the keys of the node returned
(which are `currentPath`) and the name returned, `none` for `undefined`.  With no part
left `next` is `undefined`, which reads the key `undefined`; that key then stands in
`currentPath` for the value `undefined`.  An inherited key makes the next call throw. -/
def dereferenceSnake : Nat → List (String × Message) → List String → List String →
    Outcome (List String × Option String)
  | 0, _, _, _ => .unfinished
  | depth + 1, messages, currentPath, [] =>
    match JS.objGet messages "undefined" with
    | some child => dereferenceSnake depth child.messages (currentPath ++ ["undefined"]) []
    | none => .returned (currentPath, none)
  | depth + 1, messages, currentPath, part :: rest =>
    match snakeScan messages part rest with
    | (next, none) => .returned (currentPath, some next)
    | (next, some left) =>
      match JS.objGet messages next with
      | some child => dereferenceSnake depth child.messages (currentPath ++ [next]) left
      | none => .thrown

/-- The replacement `fieldName.replace(/Spec$/, "")`. -/
def stripSpec (name : String) : String :=
  if JS.endsWith name "Spec" then String.mk (name.data.take (name.data.length - 4)) else name

/-- The function `renameType` of `proto/parse-proto.js`. -/
def renameType (protoName fieldName : String) : String :=
  let fieldName := stripSpec fieldName
  if protoName = "WAWebProtobufsE2E" && JS.startsWith fieldName "Message$" then
    String.mk (fieldName.data.drop 8)
  else if protoName = "WASyncAction" && JS.startsWith fieldName "SyncActionValue$" then
    String.mk (fieldName.data.drop 16)
  else fieldName

/-- An export of a module: a message constructor with its `internalSpec` and, once the
extraction has assigned them, its `__module__`, `__path__` and `__name__`; or an enum
object, which holds these as properties. -/
inductive Export where
  | message (internalSpec : Spec) (ref : Option NodeRef)
  | enum (enumDef : EnumDef)
deriving DecidableEq

/-- The assignments `field.__name__ = ...; field.__path__ = ...; field.__module__ = ...`. -/
def Export.locate (field : Export) (name : Option String) (path : List String)
    (module : String) : Export :=
  match field with
  | .message spec _ => .message spec (some ⟨module, path, name.getD "undefined"⟩)
  | .enum enumDef =>
    .enum (JS.objSet (JS.objSet (JS.objSet enumDef "__name__"
      (match name with
        | some n => .str n
        | none => .undef))
      "__path__" (.strs path)) "__module__" (.str module))

/-- A node with another field table. -/
def Message.withSpec : Message → Spec → Message
  | .mk messages enums module path name _, spec => .mk messages enums module path name (some spec)

/-- A node with another table `enums`. -/
def Message.withEnums : Message → JS.Obj EnumDef → Message
  | .mk messages _ module path name message, enums => .mk messages enums module path name message

/-- The update of the node reached by a sequence of keys and a last key; a table without
that node is left as it is. -/
def updateNode (f : Message → Message) :
    List (String × Message) → List String → String → List (String × Message)
  | messages, [], last =>
    match JS.objGet messages last with
    | some node => JS.objSet messages last (f node)
    | none => messages
  | messages, key :: rest, last =>
    match JS.objGet messages key with
    | some child =>
      JS.objSet messages key (child.withMessages (updateNode f child.messages rest last))
    | none => messages

/-- The object `proto` while the exports of a module are processed, with the array
`upperSnakeEnums` (each enum object with the key it is exported under) and the exports as
the loop has left them so far. -/
structure Extraction where
  messages : List (String × Message)
  enums : JS.Obj EnumDef
  upperSnakeEnums : List (String × EnumDef)
  exports : JS.Obj Export

/-- The body of the loop over `Object.entries(module.exports)`, for the `namePath` the
variant computes.  The assignment of `message` to a value that is not a node of the tree
(the object `proto` itself, or an inherited value) leaves the tree as it is; assigning to
`enums` of an inherited value throws.  The effect an assignment to `Object.prototype`
(reached by the key `__proto__`) has on all objects is not followed. -/
def exportStep (protoName : String) (namePath : List String) (s : Extraction)
    (name : String) (field : Export) : Option Extraction :=
  let fieldName := namePath.getLast?.getD ""
  let located := field.locate (some fieldName) namePath.dropLast protoName
  let exports := JS.objSet s.exports name located
  match located with
  | .message spec _ =>
    match dereference protoName s.messages [] namePath with
    | none => none
    | some (messages, reached) =>
      match reached with
      | .node (key :: keys) =>
        some { s with
          messages := updateNode (fun node => node.withSpec spec) messages
            (key :: keys).dropLast ((key :: keys).getLast?.getD "")
          exports := exports }
      | _ => some { s with messages := messages, exports := exports }
  | .enum enumDef =>
    if namePath.length = 1 ∧ JS.toUpperCase name = name then
      some { s with
        upperSnakeEnums := s.upperSnakeEnums ++ [(name, enumDef)], exports := exports }
    else
      match dereference protoName s.messages [] namePath.dropLast with
      | none => none
      | some (messages, reached) =>
        match reached with
        | .inherited => none
        | .node [] =>
          some { s with
            messages := messages
            enums := JS.objSet s.enums fieldName enumDef
            exports := exports }
        | .node (key :: keys) =>
          some { s with
            messages := updateNode
              (fun node => node.withEnums (JS.objSet node.enums fieldName enumDef)) messages
              (key :: keys).dropLast ((key :: keys).getLast?.getD "")
            exports := exports }

/-- The loop over the exports of a module. -/
def exportLoop (protoName : String) (namePathOf : String → List String) :
    Extraction → List (String × Export) → Option Extraction
  | s, [] => some s
  | s, (name, field) :: rest =>
    match exportStep protoName (namePathOf name) s name field with
    | none => none
    | some s2 => exportLoop protoName namePathOf s2 rest

/-- The callback `part => part[0] + part.slice(1).toLowerCase()`; for the empty part
`part[0]` is `undefined`, which the `+` turns into text. -/
def capitalise (part : String) : String :=
  match part.data with
  | [] => "undefined"
  | c :: rest => String.mk (c :: rest.map Char.toLower)

/-- The property `__name__` of an enum object as the text `split` is called on; a missing
or other value makes the call throw. -/
def enumNameText (enumDef : EnumDef) : Option String :=
  match JS.objGet enumDef "__name__" with
  | some (.str name) => some name
  | _ => none

/-- The body of the loop over `upperSnakeEnums`, with a bound on the depth of the
recursion of `dereferenceSnake`. -/
def attachUpperSnake (depth : Nat) (protoName : String) (s : Extraction)
    (entry : String × EnumDef) : Outcome Extraction :=
  let field := JS.objSet entry.2 "__enum__" (.bool true)
  match enumNameText field with
  | none => .thrown
  | some enumName =>
    match dereferenceSnake depth s.messages [] ((JS.split '_' enumName).map capitalise) with
    | .thrown => .thrown
    | .unfinished => .unfinished
    | .returned (path, name) =>
      let located := (Export.enum field).locate name path protoName
      match located with
      | .message _ _ => .thrown
      | .enum enumDef =>
        match path with
        | [] =>
          .returned { s with
            enums := JS.objSet s.enums (name.getD "undefined") enumDef
            exports := JS.objSet s.exports entry.1 located }
        | key :: keys =>
          .returned { s with
            messages := updateNode
              (fun node => node.withEnums
                (JS.objSet node.enums (name.getD "undefined") enumDef)) s.messages
              (key :: keys).dropLast ((key :: keys).getLast?.getD "")
            exports := JS.objSet s.exports entry.1 located }

/-- The object `proto` of a module after both loops, or how the extraction of the module
ended otherwise. -/
def extractModule (depth : Nat) (protoName : String) (dependencies : List String)
    (namePathOf : String → List String) (exports : JS.Obj Export) :
    Outcome (ProtoFile × JS.Obj Export) :=
  match exportLoop protoName namePathOf ⟨[], [], [], exports⟩ exports with
  | none => .thrown
  | some s =>
    match forEach (attachUpperSnake depth protoName) s s.upperSnakeEnums with
    | .thrown => .thrown
    | .unfinished => .unfinished
    | .returned s2 =>
      .returned ({ messages := s2.messages, enums := s2.enums, __name__ := protoName,
                   dependencies := dependencies }, s2.exports)

/-- The `namePath` of an export in `proto/parse-proto.js`. -/
def namePathOf (protoName name : String) : List String :=
  JS.split '$' (renameType protoName name)

/-- What the loop over `Object.entries(modules)` has produced: the array `protos`, the
warnings logged, and the exports of the modules as the loop has left them. -/
structure Extracted where
  protos : List ProtoFile
  warnings : List String
  modules : Modules (JS.Obj Export)

/-- The body of the loop over `Object.entries(modules)` of `proto/parse-proto.js`.  A module
without a `dependencies` array makes `renameDependencies` throw. -/
def extractEntry (depth : Nat) (acc : Extracted) (entry : String × Module (JS.Obj Export)) :
    Outcome Extracted :=
  if !JS.endsWith entry.1 ".pb" then .returned acc
  else
    match entry.2.exports with
    | none => .returned { acc with warnings := acc.warnings ++ [entry.1 ++ " has no exports"] }
    | some exports =>
      match entry.2.dependencies with
      | none => .thrown
      | some dependencies =>
        match extractModule depth (renameModule entry.1) (renameDependencies dependencies)
            (namePathOf (renameModule entry.1)) exports with
        | .thrown => .thrown
        | .unfinished => .unfinished
        | .returned (proto, exports2) =>
          .returned { acc with
            protos := acc.protos ++ [proto]
            modules := JS.objSet acc.modules entry.1 { entry.2 with exports := some exports2 } }

/-- The loop over `Object.entries(modules)` of `proto/parse-proto.js`. -/
def extractAll (depth : Nat) (modules : Modules (JS.Obj Export)) : Outcome Extracted :=
  forEach (extractEntry depth) ⟨[], [], modules⟩ modules

end ParseProto

namespace Armadillo

open ParseProto

/-- The `namePath` of an export in `binary/armadillo/parse-proto.js`, where `renameType`
returns its argument. -/
def namePathOf (name : String) : List String := JS.split '$' (stripSpec name)

/-- The block `if (name === "WAProtocol.pb")`: the three assignments to the export
`MessageKeySpec`, which throw when there is no such export. -/
def relocateMessageKey (exports : JS.Obj Export) : Option (JS.Obj Export) :=
  match JS.objGet exports "MessageKeySpec" with
  | none => none
  | some (.message spec _) =>
    some (JS.objSet exports "MessageKeySpec"
      (.message spec (some ⟨"WACommon", [], "MessageKey"⟩)))
  | some (.enum enumDef) =>
    some (JS.objSet exports "MessageKeySpec"
      (.enum (JS.objSet (JS.objSet (JS.objSet enumDef "__name__" (.str "MessageKey"))
        "__module__" (.str "WACommon")) "__path__" (.strs []))))

/-- The body of the loop over `Object.entries(modules)` of the armadillo variant. -/
def extractEntry (depth : Nat) (acc : Extracted) (entry : String × Module (JS.Obj Export)) :
    Outcome Extracted :=
  if !JS.endsWith entry.1 ".pb" then .returned acc
  else
    match entry.2.exports with
    | none => .returned { acc with warnings := acc.warnings ++ [entry.1 ++ " has no exports"] }
    | some exports =>
      if entry.1 = "WAProtocol.pb" then
        match relocateMessageKey exports with
        | none => .thrown
        | some exports2 =>
          .returned { acc with
            warnings := acc.warnings ++
              (if exports.length > 1 then ["WAProtocol.pb has more than one export"] else [])
            modules := JS.objSet acc.modules entry.1 { entry.2 with exports := some exports2 } }
      else
        match entry.2.dependencies with
        | none => .thrown
        | some dependencies =>
          match extractModule depth (renameModule entry.1)
              (Armadillo.renameDependencies dependencies) Armadillo.namePathOf exports with
          | .thrown => .thrown
          | .unfinished => .unfinished
          | .returned (proto, exports2) =>
            .returned { acc with
              protos := acc.protos ++ [proto]
              modules :=
                JS.objSet acc.modules entry.1 { entry.2 with exports := some exports2 } }

/-- The loop over `Object.entries(modules)` of the armadillo variant. -/
def extractAll (depth : Nat) (modules : Modules (JS.Obj Export)) : Outcome Extracted :=
  forEach (Armadillo.extractEntry depth) ⟨[], [], modules⟩ modules

end Armadillo

namespace ParseProto

/-- The exports of a module with the one nested message `A$B`, whose field table is empty;
there is no export `A`. -/
def nestedOnlyExports : JS.Obj Export := [("A$BSpec", .message [] none)]

/-- The exports of a module with the message `Foo` and the upper-case enum `FOO`. -/
def consumedNameExports : JS.Obj Export :=
  [("FooSpec", .message [] none), ("FOO", .enum [("A", .num 0), ("__enum__", .bool true)])]

/-- The lines `protoifyModule` returns for the object `proto` an extraction has returned;
nothing when either throws or the extraction has not ended. -/
def renderExtracted (c : WAProtoConst) (o : Outcome (ProtoFile × JS.Obj Export)) :
    Option (List String) :=
  match o with
  | .returned (proto, _) => (protoifyModule c proto).map (fun r => r.1)
  | _ => none

end ParseProto

namespace JS

/-- The concatenation of a list of texts. -/
def concatAll : List String → String
  | [] => ""
  | part :: rest => part ++ concatAll rest

end JS

namespace ParseProto

/-- The truth value of `obj.messages[key]`. -/
def hasChild (messages : List (String × Message)) (key : String) : Bool :=
  (JS.objGet messages key).isSome || decide (key ∈ JS.objectPrototypeKeys)

/-- A tree with the top-level messages `Foo` and `FooBar`. -/
def prefixMessages : List (String × Message) :=
  [("Foo", .mk [] [] "WASample" [] "Foo" (some [])),
   ("FooBar", .mk [] [] "WASample" [] "FooBar" (some []))]

end ParseProto

namespace ParseProto

/-- The own properties of a node other than `messages`: `enums`, `__module__`,
`__path__`, `__name__` and `message`. -/
def Message.own (m : Message) :
    JS.Obj EnumDef × String × List String × String × Option Spec :=
  (m.enums, m.__module__, m.__path__, m.__name__, m.message)

end ParseProto

namespace ParseProto

/-- The own properties of the node reached by a sequence of keys and a last key. -/
def ownAt (messages : List (String × Message)) (keys : List String) (last : String) :
    Option (JS.Obj EnumDef × String × List String × String × Option Spec) :=
  (nodeAt messages keys last).map Message.own

/-- The field table of the message node a `$`-path leads to. -/
def specAt (messages : List (String × Message)) (path : List String) : Option Spec :=
  (ownAt messages path.dropLast (path.getLast?.getD "")).bind (fun o => o.2.2.2.2)

/-- The enum stored under the last segment of a `$`-path in the table `enums` of the node
the segments before it lead to, which is the object `proto` when there is none. -/
def enumAt (messages : List (String × Message)) (enums : JS.Obj EnumDef)
    (path : List String) : Option EnumDef :=
  match path.dropLast with
  | [] => JS.objGet enums (path.getLast?.getD "")
  | key :: keys =>
    (ownAt messages (key :: keys).dropLast ((key :: keys).getLast?.getD "")).bind
      (fun o => JS.objGet o.1 (path.getLast?.getD ""))

/-- The own properties of the object literal `dereference` creates. -/
def freshOwn (module : String) (keys : List String) (last : String) :
    JS.Obj EnumDef × String × List String × String × Option Spec :=
  ([], module, keys, last, none)

/-- Every node records the keys that lead to it. -/
def WellPlaced (messages : List (String × Message)) : Prop :=
  ∀ keys last o, ownAt messages keys last = some o → o.2.2.1 = keys ∧ o.2.2.2.1 = last

/-- The effect of `node.message = spec` on the own properties. -/
def ownWithSpec (spec : Spec)
    (o : JS.Obj EnumDef × String × List String × String × Option Spec) :
    JS.Obj EnumDef × String × List String × String × Option Spec :=
  (o.1, o.2.1, o.2.2.1, o.2.2.2.1, some spec)

/-- The effect of `node.enums[name] = enumDef` on the own properties. -/
def ownWithEnum (name : String) (enumDef : EnumDef)
    (o : JS.Obj EnumDef × String × List String × String × Option Spec) :
    JS.Obj EnumDef × String × List String × String × Option Spec :=
  (JS.objSet o.1 name enumDef, o.2.1, o.2.2.1, o.2.2.2.1, o.2.2.2.2)

/-- The exports of a module with the messages `A` and `A$B`, the enum `A$Kind`, and the
upper-case enum `TOP`. -/
def locatedExports : JS.Obj Export :=
  [("ASpec", .message [] none), ("A$BSpec", .message [("__oneofs__", .oneofs [])] none),
   ("A$Kind", .enum [("X", .num 0)]), ("TOP", .enum [("Y", .num 1)])]

/-- The exports of a module `WAWebProtobufsE2E` with the messages `Message$Foo` and `Foo`,
which `renameType` gives the same name. -/
def collidingExports : JS.Obj Export :=
  [("Message$FooSpec", .message [("__oneofs__", .oneofs [])] none),
   ("FooSpec", .message [] none)]

end ParseProto

namespace ParseProto

/-- The kinds of blocks of a schema file. -/
inductive BlockKind where
  | message
  | enum
  | oneof
deriving DecidableEq

/-- Reference definition of what is read back from the lines of a schema file: the header
of a message, enum or oneof block with the name it declares, the closing brace of a block,
and a statement, which is a field line inside a message or oneof block, an entry line inside
an enum block, and a directive outside every block. -/
inductive Declaration where
  | message (name : String)
  | enum (name : String)
  | oneof (name : String)
  | close
  | field (text : String)
  | value (text : String)
  | directive (text : String)
deriving DecidableEq

/-- A run of tabs. -/
def tabs (depth : Nat) : List Char := List.replicate depth '\t'

/-- A line without the tabs of its nesting depth; nothing when it has fewer. -/
def stripTabs : Nat → List Char → Option (List Char)
  | 0, cs => some cs
  | _ + 1, [] => none
  | depth + 1, c :: cs => if c = '\t' then stripTabs depth cs else none

/-- The text between a keyword and the opening brace of a header line. -/
def betweenAffixes (keyword : String) (content : List Char) : Option String :=
  if keyword.data.isPrefixOf content then
    if " \x7b".data.isSuffixOf (content.drop keyword.data.length) then
      some (String.mk ((content.drop keyword.data.length).take
        ((content.drop keyword.data.length).length - 2)))
    else none
  else none

/-- The kind and the name a header line declares. -/
def headerOf (content : List Char) : Option (BlockKind × String) :=
  match betweenAffixes "message " content with
  | some name => some (.message, name)
  | none =>
    match betweenAffixes "enum " content with
    | some name => some (.enum, name)
    | none =>
      match betweenAffixes "oneof " content with
      | some name => some (.oneof, name)
      | none => none

/-- The declaration a header line of a kind stands for. -/
def BlockKind.header : BlockKind → String → Declaration
  | .message, name => .message name
  | .enum, name => .enum name
  | .oneof, name => .oneof name

/-- The declaration a statement stands for in the innermost enclosing block. -/
def statementOf : Option BlockKind → String → Declaration
  | none, text => .directive text
  | some .enum, text => .value text
  | some _, text => .field text

/-- A line closes the innermost of the open blocks: it is the closing brace at the depth
of the header of that block. -/
def closesBlock : List BlockKind → String → Bool
  | [], _ => false
  | _ :: below, line => decide (line.data = tabs below.length ++ ['\x7d'])

/-- Reference definition of reading the lines of a schema file back, with the blocks that
are open: an empty line is skipped; every other line must start with one tab per open
block, and is the closing brace of the innermost block (one tab less), a header (it ends
with an opening brace) of a message, enum or oneof block, or a statement; at the end no
block may be open.  Nothing is read from lines that are not of this form. -/
def readBack : List BlockKind → List String → Option (List Declaration)
  | stack, [] => if stack = [] then some [] else none
  | stack, line :: rest =>
    if line = "" then readBack stack rest
    else if closesBlock stack line then
      (readBack stack.tail rest).map (fun ds => Declaration.close :: ds)
    else
      match stripTabs stack.length line.data with
      | none => none
      | some content =>
        if content = [] then none
        else if content.getLast? = some '\x7b' then
          match headerOf content with
          | none => none
          | some (kind, name) =>
            (readBack (kind :: stack) rest).map (fun ds => kind.header name :: ds)
        else
          (readBack stack rest).map (fun ds => statementOf stack.head? (String.mk content) :: ds)

/-- Reference definition of the declarations of an enum node: the header with the name of
the node, one entry line per entry that is printed, and the closing brace. -/
def declaredEnum (enumDef : EnumDef) : List Declaration :=
  [.enum (templateString ((JS.objGet enumDef "__name__").map JS.Value.toStr))]
    ++ (enumValueLines (remapMinusOne enumDef)).map .value ++ [.close]

/-- Reference definition of the declarations of the entries of a field table: one field
line per entry, as `protoifyField` of `proto/parse-proto.js` renders it; nothing when an
entry cannot be rendered. -/
def declaredFields (c : WAProtoConst) (proto3 : Bool) (module : String) (path : List String)
    (isOneOf : Bool) (fields : JS.Obj (Option SpecValue)) : Option (List Declaration) :=
  (protoifyFields (renderer c proto3) fields module path isOneOf).map
    (fun lines => lines.map .field)

/-- Reference definition of the declarations of a oneof group: the header with the name of
the group, one field line per field the group names, read from the field table and in the
order `Object.entries` lists them, and the closing brace. -/
def declaredGroup (c : WAProtoConst) (proto3 : Bool) (module : String) (path : List String)
    (spec : Spec) (group : String × List String) : Option (List Declaration) :=
  (declaredFields c proto3 module path true
      (JS.fromEntries (group.2.map (fun fieldName => (fieldName, JS.objGet spec fieldName))))).map
    (fun fields => [.oneof group.1] ++ fields ++ [.close])

mutual
/-- Reference definition of the declarations of a message node: the header with the name
of the node, the enums and the child messages of the node, one block per oneof group, one
field line per entry of the field table that no group names (the entries `__oneofs__` and
`__reserved__` are not fields), and the closing brace. -/
def declaredMessage (c : WAProtoConst) (proto3 : Bool) : Message → Option (List Declaration)
  | .mk messages enums module path name message =>
    match message with
    | none => none
    | some spec =>
      match oneofGroups spec with
      | none => none
      | some groups =>
        match declaredMessages c proto3 messages,
          JS.mapThrowing (declaredGroup c proto3 module (path ++ [name]) spec) groups,
          declaredFields c proto3 module (path ++ [name]) false
            ((specAfter spec).map (fun e => (e.1, some e.2))) with
        | some children, some groupBlocks, some flat =>
          some ([.message name] ++ enums.flatMap (fun e => declaredEnum e.2) ++ children
            ++ groupBlocks.flatten ++ flat ++ [.close])
        | _, _, _ => none
/-- Reference definition of the declarations of the child messages of a container. -/
def declaredMessages (c : WAProtoConst) (proto3 : Bool) :
    List (String × Message) → Option (List Declaration)
  | [] => some []
  | (_, msg) :: rest =>
    match declaredMessage c proto3 msg, declaredMessages c proto3 rest with
    | some first, some others => some (first ++ others)
    | _, _ => none
end

mutual
/-- In every node of the tree the oneof groups name pairwise distinct fields, and the
serializer leaves the `__name__` of every enum as it is (it replaces one that prints as
`-1` when the enum has no name for the value `0`). -/
def Message.regular : Message → Bool
  | .mk messages enums _ _ _ message =>
    (match message with
      | some spec => decide (groupedNames spec).Nodup
      | none => true)
    && enums.all (fun e =>
        decide (JS.objGet (remapMinusOne e.2) "__name__" = JS.objGet e.2 "__name__"))
    && regularChildren messages
/-- Every child message is regular. -/
def regularChildren : List (String × Message) → Bool
  | [] => true
  | (_, msg) :: rest => msg.regular && regularChildren rest
end

/-- A message `Outer` with the enum `Kind`, the child message `Inner`, a field in the
oneof group `choice` and a field in no group. -/
def nestedSample : Message :=
  .mk [("Inner", .mk [] [] "WASample" ["Outer"] "Inner" (some [("x", .field ⟨1, 14, .undef⟩)]))]
    [("Kind", enumObject [("A", 0), ("B", 1)] "Kind" ["Outer"] "WASample")]
    "WASample" [] "Outer"
    (some [("left", .field ⟨1, 14, .undef⟩), ("right", .field ⟨2, 14, .undef⟩),
           ("__oneofs__", .oneofs [("choice", ["right"])])])

/-- A message `M` with an enum whose `__name__` is the text `-1` and that has no entry
with the value `0`. -/
def minusOneNamed : Message :=
  .mk [] [("-1", enumObject [("A", 1)] "-1" [] "WASample")] "WASample" [] "M" (some [])

/-- The lines of a block at a nesting depth: every non-empty line gets one tab per level. -/
def indentTo (depth : Nat) (lines : List String) : List String :=
  lines.map (fun line => if line ≠ "" then String.mk (tabs depth) ++ line else "")

/-- Lines that read back as given declarations wherever the innermost open block is of the
given kind (`none`: no block is open), at the nesting depth of that place. -/
def ReadsAs (context : Option BlockKind) (lines : List String) (ds : List Declaration) :
    Prop :=
  ∀ (stack : List BlockKind), stack.head? = context → ∀ (rest : List String),
    readBack stack (indentTo stack.length lines ++ rest) = (readBack stack rest).map (ds ++ ·)

end ParseProto

namespace ParseProto

/-- Reference definition of the text of a laid-out line, which is given by the nesting
depth of the declaration it belongs to and by its content: exactly one tab per level of
nesting, then the content; a line without content is the empty string. -/
def renderPlaced (p : Nat × String) : String :=
  if p.2 ≠ "" then String.mk (tabs p.1) ++ p.2 else ""

/-- Reference definition: lines that stand at the nesting depth of their place. -/
def placedLines (lines : List String) : List (Nat × String) :=
  lines.map (fun line => (0, line))

/-- Reference definition: the lines of the body of a block stand one level deeper. -/
def deeper (items : List (Nat × String)) : List (Nat × String) :=
  items.map (fun p => (p.1 + 1, p.2))

/-- Reference definition of the layout of a block: the header and the closing brace at the
depth of the place, the lines of the body one level deeper. -/
def placedBlock (header : String) (body : List (Nat × String)) : List (Nat × String) :=
  [(0, header)] ++ deeper body ++ [(0, "\x7d")]

/-- Reference definition: the blocks that are not empty, with one line without content
between two of them. -/
def placedSeparated (blocks : List (List (Nat × String))) : List (Nat × String) :=
  ((blocks.flatMap (fun block => if block.length > 0 then [block, [(0, "")]] else [])).dropLast).flatMap
    (fun block => block)

/-- Reference definition of the layout of an enum: the header, one entry line per entry
that is printed, one level deeper, and the closing brace. -/
def placedEnum (enumDef : EnumDef) : List (Nat × String) :=
  placedBlock (enumHeader (remapMinusOne enumDef))
    (placedLines (enumValueLines (remapMinusOne enumDef)))

/-- Reference definition of the layout of the oneof groups of a message, one block per
group: the header `oneof <name> \x7b`, the field lines of the fields the group names, one
level deeper, and the closing brace; with the field table without the fields taken. -/
def placedOneofSections (c : WAProtoConst) (proto3 : Bool) (parentModule : String)
    (parentPath : List String) :
    Spec → List (String × List String) → Option (List (List (Nat × String)) × Spec)
  | spec, [] => some ([], spec)
  | spec, (name, fieldNames) :: groups =>
    let taken := takeFields spec fieldNames
    match protoifyFields (renderer c proto3) (JS.fromEntries taken.1) parentModule parentPath
        true with
    | none => none
    | some lines =>
      match placedOneofSections c proto3 parentModule parentPath taken.2 groups with
      | none => none
      | some (sections, spec) =>
        some (placedBlock ("oneof " ++ name ++ " \x7b") (placedLines lines) :: sections, spec)

/-- Reference definition of the layout of the part of a message after its children: the
blocks of the oneof groups, and the field lines of the fields no group names. -/
def placedFieldSections (c : WAProtoConst) (proto3 : Bool) (parentModule : String)
    (fullMessagePath : List String) (spec : Spec) : Option (List (List (Nat × String))) :=
  match oneofGroups spec with
  | none => none
  | some groups =>
    match placedOneofSections c proto3 parentModule fullMessagePath spec groups with
    | none => none
    | some (sections, spec) =>
      match protoifyFields (renderer c proto3)
          ((JS.objDelete (JS.objDelete spec "__oneofs__") "__reserved__").map
            (fun e => (e.1, some e.2)))
          parentModule fullMessagePath false with
      | none => none
      | some lines => some (sections ++ [placedLines lines])

mutual
/-- Reference definition of the layout of a message: the header `message <name> \x7b` and
the closing brace at the depth of the place; one level deeper, separated by lines without
content, the enums and the child messages of the node (each laid out in the same way, so
that a declaration nested in `d` blocks stands at depth `d`), the blocks of the oneof
groups and the field lines. -/
def placedMessage (c : WAProtoConst) (proto3 : Bool) : Message → Option (List (Nat × String))
  | .mk messages enums module path name message =>
    match placedMessages c proto3 messages with
    | none => none
    | some messageBlocks =>
      match message with
      | none => none
      | some spec =>
        match placedFieldSections c proto3 module (path ++ [name]) spec with
        | none => none
        | some sections =>
          some (placedBlock ("message " ++ name ++ " \x7b")
            (placedSeparated
              (placedSeparated (enums.map (fun e => placedEnum e.2) ++ messageBlocks)
                :: sections)))
/-- Reference definition of the layouts of the child messages of a container. -/
def placedMessages (c : WAProtoConst) (proto3 : Bool) :
    List (String × Message) → Option (List (List (Nat × String)))
  | [] => some []
  | (_, msg) :: rest =>
    match placedMessage c proto3 msg with
    | none => none
    | some first =>
      match placedMessages c proto3 rest with
      | none => none
      | some others => some (first :: others)
end

/-- Reference definition of the layout of a schema file: the lines of the header at depth
`0`, the enums and the messages of the module, separated by lines without content, and a
last line without content. -/
def placedModule (c : WAProtoConst) (module : ProtoFile) : Option (List (Nat × String)) :=
  match placedMessages c (needsProto3 module.__name__) module.messages with
  | none => none
  | some messageBlocks =>
    some (placedLines (moduleHeader module)
      ++ (placedSeparated (module.enums.map (fun e => placedEnum e.2) ++ messageBlocks)
        ++ [(0, "")]))

/-- Reference definition of a well nested layout, with the number of blocks that are open:
a line without content is passed over; the closing brace stands one level above the
lines of the block it closes, and closes the innermost open block; every other line stands
at the depth that is the number of the open blocks, and either ends with an opening brace
and opens a block, or ends with a semicolon; at the end no block is open. -/
def balanced : Nat → List (Nat × String) → Bool
  | opened, [] => decide (opened = 0)
  | opened, (depth, content) :: rest =>
    if content = "" then balanced opened rest
    else if content = "\x7d" then decide (depth + 1 = opened) && balanced (opened - 1) rest
    else if content.data.getLast? = some '\x7b' then
      decide (depth = opened) && balanced (opened + 1) rest
    else if content.data.getLast? = some ';' then
      decide (depth = opened) && balanced opened rest
    else false

/-- A layout that is well nested wherever it stands: with any number of blocks open, and
shifted to that depth, it leaves the same blocks open. -/
def WellNested (items : List (Nat × String)) : Prop :=
  ∀ (opened : Nat) (rest : List (Nat × String)),
    balanced opened (items.map (fun p => (p.1 + opened, p.2)) ++ rest) = balanced opened rest

end ParseProto

/-! # Theorems -/

/-! ## Splitting a joined name -/

namespace JS

theorem splitChars_ne_nil (sep : Char) (cs : List Char) : splitChars sep cs ≠ [] := by
  induction cs with
  | nil => simp [splitChars]
  | cons c cs ih =>
    unfold splitChars
    split
    · simp
    · split <;> simp

theorem splitChars_of_not_mem (sep : Char) (a : List Char) (h : sep ∉ a) :
    splitChars sep a = [a] := by
  induction a with
  | nil => rfl
  | cons c cs ih =>
    have hc : c ≠ sep := fun e => h (by simp [e])
    have hcs : sep ∉ cs := fun m => h (by simp [m])
    simp [splitChars, hc, ih hcs]

theorem splitChars_append_sep (sep : Char) (a rest : List Char) (h : sep ∉ a) :
    splitChars sep (a ++ sep :: rest) = a :: splitChars sep rest := by
  induction a with
  | nil => simp [splitChars]
  | cons c cs ih =>
    have hc : c ≠ sep := fun e => h (by simp [e])
    have hcs : sep ∉ cs := fun m => h (by simp [m])
    simp [splitChars, hc, ih hcs]

theorem join_cons_cons_data (sep x y : String) (rest : List String) :
    (join sep (x :: y :: rest)).data = x.data ++ (sep.data ++ (join sep (y :: rest)).data) := by
  simp [join, String.data_append]

/-- Splitting a joined list at the separator gives the list back when no element contains
the separator. -/
theorem split_join (xs : List String) (hne : xs ≠ []) (h : ∀ s ∈ xs, '.' ∉ s.data) :
    split '.' (join "." xs) = xs := by
  induction xs with
  | nil => exact absurd rfl hne
  | cons x rest ih =>
    cases rest with
    | nil =>
      have hx : '.' ∉ x.data := h x (by simp)
      simp [split, join, splitChars_of_not_mem _ _ hx]
    | cons y rest =>
      have hx : '.' ∉ x.data := h x (by simp)
      have ih2 := ih (by simp) (fun s hs => h s (List.mem_cons_of_mem _ hs))
      have hd : (".".data : List Char) = ['.'] := rfl
      unfold split at ih2 ⊢
      rw [join_cons_cons_data, hd]
      simp only [List.singleton_append]
      rw [splitChars_append_sep _ _ _ hx, List.map_cons, ih2]

end JS

/-! ## The common leading part of two paths -/

namespace ParseProto

theorem pathStartIndex_take (parentPath typePath : List String) :
    parentPath.take (pathStartIndex parentPath typePath)
      = typePath.take (pathStartIndex parentPath typePath) := by
  induction parentPath generalizing typePath with
  | nil => simp [pathStartIndex]
  | cons p ps ih =>
    cases typePath with
    | nil => simp [pathStartIndex]
    | cons t ts =>
      by_cases e : t = p
      · simp [pathStartIndex, e, ih ts]
      · simp [pathStartIndex, e]

theorem pathStartIndex_le_left (parentPath typePath : List String) :
    pathStartIndex parentPath typePath ≤ parentPath.length := by
  induction parentPath generalizing typePath with
  | nil => simp [pathStartIndex]
  | cons p ps ih =>
    cases typePath with
    | nil => simp [pathStartIndex]
    | cons t ts =>
      by_cases e : t = p
      · simpa [pathStartIndex, e] using ih ts
      · simp [pathStartIndex, e]

theorem pathStartIndex_le_right (parentPath typePath : List String) :
    pathStartIndex parentPath typePath ≤ typePath.length := by
  induction parentPath generalizing typePath with
  | nil => simp [pathStartIndex]
  | cons p ps ih =>
    cases typePath with
    | nil => simp [pathStartIndex]
    | cons t ts =>
      by_cases e : t = p
      · simpa [pathStartIndex, e] using ih ts
      · simp [pathStartIndex, e]

/-- Every list that starts both paths is at most as long as the count of the loop. -/
theorem pathStartIndex_maximal (parentPath typePath common : List String)
    (h1 : common <+: parentPath) (h2 : common <+: typePath) :
    common.length ≤ pathStartIndex parentPath typePath := by
  induction common generalizing parentPath typePath with
  | nil => simp
  | cons c cs ih =>
    obtain ⟨r1, rfl⟩ := h1
    obtain ⟨r2, rfl⟩ := h2
    have := ih (cs ++ r1) (cs ++ r2) (List.prefix_append _ _) (List.prefix_append _ _)
    simpa [pathStartIndex] using this

/-- With pairwise different labels the scan selects the case listed with the label. -/
theorem scanLabels_of_mem (typeID : Int) (body : TypeCase) (labels : List (Int × TypeCase))
    (hnd : (labels.map Prod.fst).Nodup) (hm : (typeID, body) ∈ labels) :
    scanLabels typeID labels = body := by
  induction labels with
  | nil => simp at hm
  | cons e rest ih =>
    obtain ⟨label, b⟩ := e
    simp only [List.map_cons, List.nodup_cons, List.mem_map, not_exists, not_and] at hnd
    simp only [List.mem_cons, Prod.mk.injEq] at hm
    unfold scanLabels
    rcases hm with ⟨rfl, rfl⟩ | hm
    · simp
    · have hne : typeID ≠ label := fun e => hnd.1 (typeID, body) hm e
      simp [hne, ih hnd.2 hm]

theorem caseLabels_keys (TYPES : Types) : (caseLabels TYPES).map Prod.fst = TYPES.tags := rfl

theorem switchCase_of_mem (TYPES : Types) (hT : TYPES.Distinct) (typeID : Int)
    (body : TypeCase) (hm : (typeID, body) ∈ caseLabels TYPES) :
    switchCase TYPES (some typeID) = body :=
  scanLabels_of_mem typeID body _ (by rw [caseLabels_keys]; exact hT) hm

theorem switchCase_reference (TYPES : Types) (hT : TYPES.Distinct) (typeID : Int)
    (hID : typeID = TYPES.ENUM ∨ typeID = TYPES.MESSAGE) :
    switchCase TYPES (some typeID) = .reference := by
  apply switchCase_of_mem TYPES hT
  rcases hID with rfl | rfl <;> simp [caseLabels]

end ParseProto

namespace Armadillo

open ParseProto

theorem caseLabels_keys_sublist (TYPES : Types) :
    ((caseLabels TYPES).map Prod.fst).Sublist TYPES.tags := by
  simp [caseLabels, Types.tags]

theorem armadillo_switchCase_of_mem (TYPES : Types) (hT : TYPES.Distinct) (typeID : Int)
    (body : TypeCase) (hm : (typeID, body) ∈ caseLabels TYPES) :
    switchCase TYPES (some typeID) = body :=
  scanLabels_of_mem typeID body _ ((caseLabels_keys_sublist TYPES).nodup hT) hm

theorem armadillo_switchCase_reference (TYPES : Types) (hT : TYPES.Distinct) (typeID : Int)
    (hID : typeID = TYPES.ENUM ∨ typeID = TYPES.MESSAGE) :
    switchCase TYPES (some typeID) = .reference := by
  apply armadillo_switchCase_of_mem TYPES hT
  rcases hID with rfl | rfl <;> simp [caseLabels]

end Armadillo

/-! ## C1: a reference to a node of the same module -/

/-- C1 (amended): for a field declared in a message with full path `P` that references a
node `T` of the same module, both `fieldTypeName` variants return the `.`-join of
`T.__path__` without its longest common leading part `common` with `P`, followed by
`T.__name__`; and when no segment of `T.__path__` and `T.__name__` contains a `.`, `common`
followed by the rendered name split on `.` is `T.__path__ ++ [T.__name__]`. -/
theorem fieldTypeName_same_module (TYPES : ParseProto.Types) (hT : TYPES.Distinct)
    (typeID : Int) (hID : typeID = TYPES.ENUM ∨ typeID = TYPES.MESSAGE)
    (T : ParseProto.NodeRef) (P : List String) :
    ∃ common : List String,
      common <+: P ∧ common <+: T.__path__ ∧
      (∀ other : List String, other <+: P → other <+: T.__path__ →
        other.length ≤ common.length) ∧
      ParseProto.fieldTypeName TYPES (some typeID) (.node T) T.__module__ P
        = some (some (JS.join "." (T.__path__.drop common.length ++ [T.__name__]))) ∧
      Armadillo.fieldTypeName TYPES (some typeID) (.node T) T.__module__ P
        = some (some (JS.join "." (T.__path__.drop common.length ++ [T.__name__]))) ∧
      ((∀ s ∈ T.__path__ ++ [T.__name__], '.' ∉ s.data) →
        common ++ JS.split '.' (JS.join "." (T.__path__.drop common.length ++ [T.__name__]))
          = T.__path__ ++ [T.__name__]) := by
  have hk := ParseProto.pathStartIndex_le_right P T.__path__
  have hlen : (T.__path__.take (ParseProto.pathStartIndex P T.__path__)).length
      = ParseProto.pathStartIndex P T.__path__ := by
    simp [List.length_take, hk]
  refine ⟨T.__path__.take (ParseProto.pathStartIndex P T.__path__), ?_, ?_, ?_, ?_, ?_, ?_⟩
  · rw [← ParseProto.pathStartIndex_take]; exact List.take_prefix _ _
  · exact List.take_prefix _ _
  · intro other h1 h2
    rw [hlen]; exact ParseProto.pathStartIndex_maximal P T.__path__ other h1 h2
  · rw [hlen]
    simp [ParseProto.fieldTypeName, ParseProto.fieldTypeNameLeaf,
      ParseProto.switchCase_reference TYPES hT typeID hID, ParseProto.referenceTypeName,
      ParseProto.namePath]
  · rw [hlen]
    simp [Armadillo.fieldTypeName, Armadillo.armadillo_switchCase_reference TYPES hT typeID hID,
      ParseProto.referenceTypeName, ParseProto.namePath]
  · intro hdot
    rw [hlen, JS.split_join _ (by simp)]
    · rw [← List.append_assoc, List.take_append_drop]
    · intro s hs
      apply hdot
      rcases List.mem_append.mp hs with h | h
      · exact List.mem_append_left _ (List.mem_of_mem_drop h)
      · exact List.mem_append_right _ h

/-- C1, witness: a field of message `A.B` referring to `A.X` is rendered `X`. -/
theorem fieldTypeName_same_module_witness :
    ParseProto.sampleConst.TYPES.Distinct ∧
    ((9 : Int) = ParseProto.sampleConst.TYPES.ENUM
      ∨ (9 : Int) = ParseProto.sampleConst.TYPES.MESSAGE) ∧
    ∃ common : List String,
      common <+: ["A", "B"] ∧ common <+: ["A"] ∧
      (∀ other : List String, other <+: ["A", "B"] → other <+: ["A"] →
        other.length ≤ common.length) ∧
      ParseProto.fieldTypeName ParseProto.sampleConst.TYPES (some 9)
          (.node ⟨"M", ["A"], "X"⟩) "M" ["A", "B"]
        = some (some (JS.join "." ((["A"] : List String).drop common.length ++ ["X"]))) ∧
      Armadillo.fieldTypeName ParseProto.sampleConst.TYPES (some 9)
          (.node ⟨"M", ["A"], "X"⟩) "M" ["A", "B"]
        = some (some (JS.join "." ((["A"] : List String).drop common.length ++ ["X"]))) ∧
      ((∀ s ∈ (["A"] : List String) ++ ["X"], '.' ∉ s.data) →
        common ++ JS.split '.' (JS.join "." ((["A"] : List String).drop common.length ++ ["X"]))
          = ["A"] ++ ["X"]) :=
  ⟨by decide, Or.inr rfl,
    fieldTypeName_same_module ParseProto.sampleConst.TYPES (by decide) 9 (Or.inr rfl)
      ⟨"M", ["A"], "X"⟩ ["A", "B"]⟩

/-- C1, counterexample: a node named `a.b` at the top level of module `M`, referenced from
the top-level message `X` of `M`, is rendered `a.b`; split on `.` this is `a`, `b`, which
after the (empty) common leading part is not the node's path followed by its name. -/
theorem fieldTypeName_split_counterexample :
    ParseProto.fieldTypeName ParseProto.sampleConst.TYPES
        (some ParseProto.sampleConst.TYPES.MESSAGE) (.node ⟨"M", [], "a.b"⟩) "M" ["X"]
      = some (some "a.b") ∧
    Armadillo.fieldTypeName ParseProto.sampleConst.TYPES
        (some ParseProto.sampleConst.TYPES.MESSAGE) (.node ⟨"M", [], "a.b"⟩) "M" ["X"]
      = some (some "a.b") ∧
    ([] : List String) ++ JS.split '.' "a.b" ≠ ([] : List String) ++ ["a.b"] := by
  refine ⟨by decide, by decide, by decide⟩

/-! ## Printing integers -/

namespace JS

theorem toDigitsCore_length_pos (fuel n : Nat) (ds : List Char) :
    0 < (Nat.toDigitsCore 10 (fuel + 1) n ds).length := by
  induction fuel generalizing n ds with
  | zero =>
    simp only [Nat.toDigitsCore]
    split <;> simp
  | succ fuel ih =>
    rw [Nat.toDigitsCore]
    split
    · simp
    · exact ih _ _

theorem repr_length_two (k : Nat) (hk : 10 ≤ k) : 2 ≤ (Nat.repr k).length := by
  have hne : k / 10 ≠ 0 := by omega
  obtain ⟨f, rfl⟩ : ∃ f, k = f + 1 := ⟨k - 1, by omega⟩
  simp only [Nat.repr, Nat.toDigits, String.length, List.asString]
  rw [Nat.toDigitsCore]
  simp only [hne, if_false]
  rw [Nat.toDigitsCore_lens_eq]
  have := toDigitsCore_length_pos f ((f + 1) / 10) []
  omega

theorem repr_eq_zero_iff (k : Nat) : Nat.repr k = "0" ↔ k = 0 := by
  constructor
  · intro h
    by_contra hk
    by_cases h10 : 10 ≤ k
    · have := repr_length_two k h10
      rw [h] at this
      exact absurd this (by decide)
    · have hlt : k < 10 := by omega
      interval_cases k <;> first | exact hk rfl | exact absurd h (by decide)
  · rintro rfl; rfl

theorem repr_eq_one_iff (k : Nat) : Nat.repr k = "1" ↔ k = 1 := by
  constructor
  · intro h
    by_contra hk
    by_cases h10 : 10 ≤ k
    · have := repr_length_two k h10
      rw [h] at this
      exact absurd this (by decide)
    · have hlt : k < 10 := by omega
      interval_cases k <;> first | exact hk rfl | exact absurd h (by decide)
  · rintro rfl; rfl

theorem digitChar_ne_minus (n : Nat) : Nat.digitChar (n % 10) ≠ '-' := by
  have h : n % 10 < 10 := Nat.mod_lt _ (by decide)
  generalize n % 10 = m at h
  interval_cases m <;> decide

theorem toDigitsCore_ne_minus (fuel n : Nat) (ds : List Char) (h : ∀ c ∈ ds, c ≠ '-') :
    ∀ c ∈ Nat.toDigitsCore 10 fuel n ds, c ≠ '-' := by
  induction fuel generalizing n ds with
  | zero => simpa [Nat.toDigitsCore] using h
  | succ fuel ih =>
    rw [Nat.toDigitsCore]
    have hd : ∀ c ∈ Nat.digitChar (n % 10) :: ds, c ≠ '-' := by
      intro c hc
      rcases List.mem_cons.mp hc with rfl | hc
      · exact digitChar_ne_minus n
      · exact h c hc
    split
    · exact hd
    · exact ih _ _ hd

theorem repr_ne_minus (k : Nat) : ∀ c ∈ (Nat.repr k).data, c ≠ '-' := by
  simp only [Nat.repr, Nat.toDigits, List.asString]
  exact toDigitsCore_ne_minus _ _ _ (by simp)

/-- An integer prints as `0` exactly when it is `0`. -/
theorem toString_eq_zero_iff (n : Int) : toString n = "0" ↔ n = 0 := by
  cases n with
  | ofNat k =>
    show Nat.repr k = "0" ↔ _
    rw [repr_eq_zero_iff]
    constructor
    · rintro rfl; rfl
    · intro h; exact Int.ofNat.inj h
  | negSucc k =>
    constructor
    · intro h
      have h2 : ("-" ++ Nat.repr (k + 1)).data = "0".data := congrArg String.data h
      simp [String.data_append] at h2
    · intro h; exact absurd h (by simp)

/-- An integer prints as `-1` exactly when it is `-1`. -/
theorem toString_eq_minus_one_iff (n : Int) : toString n = "-1" ↔ n = -1 := by
  cases n with
  | ofNat k =>
    constructor
    · intro h
      have h2 : Nat.repr k = "-1" := h
      have := repr_ne_minus k '-' (by rw [h2]; decide)
      exact absurd rfl this
    · intro h; exact absurd h (by simp)
  | negSucc k =>
    constructor
    · intro h
      have h2 : ("-" ++ Nat.repr (k + 1)).data = "-1".data := congrArg String.data h
      have h3 : (Nat.repr (k + 1)).data = "1".data := by
        simpa [String.data_append] using h2
      have h4 : Nat.repr (k + 1) = "1" := String.ext h3
      have := (repr_eq_one_iff (k + 1)).mp h4
      have hk : k = 0 := by omega
      subst hk; rfl
    · intro h
      have hk : k = 0 := by
        cases k with
        | zero => rfl
        | succ j => exact absurd h (by simp [Int.negSucc_eq]; omega)
      subst hk; rfl

end JS

/-! ## Reading and writing dictionary objects -/

namespace JS

theorem objGet_eq_none {α : Type} (obj : Obj α) (key : String) :
    objGet obj key = none ↔ ∀ e ∈ obj, e.1 ≠ key := by
  induction obj with
  | nil => simp [objGet]
  | cons e rest ih =>
    obtain ⟨k, v⟩ := e
    by_cases h : k = key
    · simp [objGet, h]
    · simp [objGet, h, ih]

theorem objGet_append_of_absent {α : Type} (a b : Obj α) (key : String)
    (h : ∀ e ∈ a, e.1 ≠ key) : objGet (a ++ b) key = objGet b key := by
  induction a with
  | nil => rfl
  | cons e rest ih =>
    obtain ⟨k, v⟩ := e
    have hk : k ≠ key := h (k, v) (by simp)
    simp only [List.cons_append, objGet, hk, if_false]
    exact ih (fun e he => h e (List.mem_cons_of_mem _ he))

theorem objGet_append_cons_self {α : Type} (a b : Obj α) (key : String) (v : α)
    (h : ∀ e ∈ a, e.1 ≠ key) : objGet (a ++ (key, v) :: b) key = some v := by
  rw [objGet_append_of_absent a _ key h]
  simp [objGet]

theorem objGet_replace {α : Type} (obj : Obj α) (key : String) (value : α) (k : String) :
    objGet (objReplace key value obj) k
      = if k = key then (objGet obj key).map (fun _ => value) else objGet obj k := by
  induction obj with
  | nil => simp [objGet, objReplace]
  | cons e rest ih =>
    obtain ⟨k0, v0⟩ := e
    by_cases h0 : k0 = key
    · subst h0
      by_cases hk : k = k0
      · subst hk; simp [objGet, objReplace]
      · have hk2 : k0 ≠ k := fun e => hk e.symm
        simp [objGet, objReplace, hk, hk2, ih]
    · by_cases hk : k = key
      · subst hk
        simp [objGet, objReplace, h0, ih]
      · by_cases hk0 : k0 = k
        · subst hk0; simp [objGet, objReplace, hk]
        · simp [objGet, objReplace, h0, hk, hk0, ih]

theorem objGet_objInsert {α : Type} (obj : Obj α) (key : String) (value : α) (k : String)
    (habs : objGet obj key = none) :
    objGet (objInsert key value obj) k = if k = key then some value else objGet obj k := by
  induction obj with
  | nil =>
    by_cases hk : k = key
    · subst hk; simp [objInsert, objGet]
    · have hk2 : key ≠ k := fun e => hk e.symm
      simp [objInsert, objGet, hk, hk2]
  | cons e rest ih =>
    obtain ⟨k0, v0⟩ := e
    have h0 : k0 ≠ key := by
      intro e; subst e; simp [objGet] at habs
    have hrest : objGet rest key = none := by
      simpa [objGet, h0] using habs
    have ih := ih hrest
    unfold objInsert
    by_cases hk : k = key
    · subst hk
      split
      · split <;> simp [objGet, h0, ih]
      · simp [objGet]
      · simp [objGet, h0, ih]
    · have hk2 : key ≠ k := fun e => hk e.symm
      split
      · split <;> simp [objGet, hk, hk2, ih]
      · simp [objGet, hk, hk2]
      · simp [objGet, hk, ih]

/-- After `obj[key] = value`, reading `key` gives `value` and every other key reads as before. -/
theorem objGet_objSet {α : Type} (obj : Obj α) (key : String) (value : α) (k : String) :
    objGet (objSet obj key value) k = if k = key then some value else objGet obj k := by
  unfold objSet
  split
  · rename_i h
    rw [objGet_replace]
    by_cases hk : k = key
    · obtain ⟨v, hv⟩ := Option.isSome_iff_exists.mp h
      simp [hk, hv]
    · simp [hk]
  · rename_i h
    have habs : objGet obj key = none := by
      cases h2 : objGet obj key with
      | none => rfl
      | some v => simp [h2] at h
    exact objGet_objInsert obj key value k habs

theorem objGet_foldl_objSet {α : Type} (entries : List (String × α)) (acc : Obj α)
    (key : String) :
    objGet (entries.foldl (fun obj e => objSet obj e.1 e.2) acc) key
      = match entries.reverse.find? (fun e => e.1 = key) with
        | some e => some e.2
        | none => objGet acc key := by
  induction entries generalizing acc with
  | nil => simp
  | cons e rest ih =>
    rw [List.foldl_cons, ih, List.reverse_cons, List.find?_append]
    cases hf : rest.reverse.find? (fun e => e.1 = key) with
    | some x => simp
    | none =>
      by_cases hk : e.1 = key
      · simp [hk, objGet_objSet]
      · have hk2 : key ≠ e.1 := fun h => hk h.symm
        simp [hk, hk2, objGet_objSet]

/-- In `Object.fromEntries` the last entry with a key wins. -/
theorem objGet_fromEntries {α : Type} (entries : List (String × α)) (key : String) :
    objGet (fromEntries entries) key
      = (entries.reverse.find? (fun e => e.1 = key)).map (fun e => e.2) := by
  unfold fromEntries
  rw [objGet_foldl_objSet]
  cases entries.reverse.find? (fun e => e.1 = key) <;> simp [objGet]

theorem objGet_fromEntries_none {α : Type} (entries : List (String × α)) (key : String)
    (h : ∀ e ∈ entries, e.1 ≠ key) : objGet (fromEntries entries) key = none := by
  rw [objGet_fromEntries]
  have : entries.reverse.find? (fun e => e.1 = key) = none := by
    rw [List.find?_eq_none]
    intro e he
    simpa using h e (List.mem_reverse.mp he)
  simp [this]

theorem objGet_fromEntries_last {α : Type} (before after : List (String × α)) (key : String)
    (v : α) (h : ∀ e ∈ after, e.1 ≠ key) :
    objGet (fromEntries (before ++ (key, v) :: after)) key = some v := by
  rw [objGet_fromEntries]
  have hnone : after.reverse.find? (fun e => e.1 = key) = none := by
    rw [List.find?_eq_none]
    intro e he
    simpa using h e (List.mem_reverse.mp he)
  simp [List.reverse_append, List.find?_append, hnone]

/-- A list with an element satisfying `p` splits at the last such element. -/
theorem exists_last_split {α : Type} (p : α → Prop) [DecidablePred p] (l : List α)
    (h : ∃ x ∈ l, p x) :
    ∃ before x after, l = before ++ x :: after ∧ p x ∧ ∀ y ∈ after, ¬ p y := by
  induction l with
  | nil => simp at h
  | cons a rest ih =>
    by_cases hr : ∃ x ∈ rest, p x
    · obtain ⟨before, x, after, hl, hx, ha⟩ := ih hr
      exact ⟨a :: before, x, after, by simp [hl], hx, ha⟩
    · obtain ⟨x, hx, hpx⟩ := h
      rcases List.mem_cons.mp hx with rfl | hx
      · exact ⟨[], x, rest, rfl, hpx, fun y hy hpy => hr ⟨y, hy, hpy⟩⟩
      · exact absurd ⟨x, hx, hpx⟩ hr

end JS

/-! ## C4 and C5: the zero value of an enum -/

namespace JS

theorem objReplace_of_absent {α : Type} (obj : Obj α) (key : String) (value : α)
    (h : ∀ e ∈ obj, e.1 ≠ key) : objReplace key value obj = obj := by
  induction obj with
  | nil => rfl
  | cons e rest ih =>
    obtain ⟨k, v⟩ := e
    have hk : k ≠ key := h (k, v) (by simp)
    simp [objReplace, hk, ih (fun e he => h e (List.mem_cons_of_mem _ he))]

theorem objReplace_cons_self {α : Type} (rest : Obj α) (key : String) (old value : α) :
    objReplace key value ((key, old) :: rest) = (key, value) :: objReplace key value rest := by
  simp [objReplace]

theorem objReplace_append {α : Type} (a b : Obj α) (key : String) (value : α) :
    objReplace key value (a ++ b) = objReplace key value a ++ objReplace key value b := by
  induction a with
  | nil => rfl
  | cons e rest ih =>
    obtain ⟨k, v⟩ := e
    by_cases hk : k = key <;> simp [objReplace, hk, ih]

theorem join_comma_ne (path : List String) (s : String) (hs : ',' ∉ s.data)
    (h : path ≠ [s]) (hne : s ≠ "") : join "," path ≠ s := by
  match path with
  | [] => intro e; exact hne (by simpa [join] using e.symm)
  | [x] => intro e; exact h (by simpa [join] using e)
  | x :: y :: rest =>
    intro e
    apply hs
    rw [← e, join_cons_cons_data]
    simp

end JS

namespace ParseProto

theorem enumObject_meta_keys (name : String) (path : List String) (module : String) :
    ∀ e ∈ [("__enum__", JS.Value.bool true), ("__name__", JS.Value.str name),
        ("__path__", JS.Value.strs path), ("__module__", JS.Value.str module)],
      isMetaKey e.1 = true := by
  intro e he
  simp only [List.mem_cons, List.mem_singleton, List.not_mem_nil, or_false] at he
  rcases he with rfl | rfl | rfl | rfl
  · exact (by decide : isMetaKey "__enum__" = true)
  · exact (by decide : isMetaKey "__name__" = true)
  · exact (by decide : isMetaKey "__path__" = true)
  · exact (by decide : isMetaKey "__module__" = true)

theorem enumValueLines_enumObject (entries : List (String × Int)) (name : String)
    (path : List String) (module : String) (h : ∀ e ∈ entries, isMetaKey e.1 = false) :
    enumValueLines (enumObject entries name path module) = entries.map entryLine := by
  unfold enumValueLines enumObject
  rw [List.filterMap_append]
  have hmeta : List.filterMap (fun e : String × JS.Value =>
      if isMetaKey e.1 then none else some (e.1 ++ " = " ++ e.2.toStr ++ ";"))
      [("__enum__", JS.Value.bool true), ("__name__", JS.Value.str name),
        ("__path__", JS.Value.strs path), ("__module__", JS.Value.str module)] = [] := by
    rw [List.filterMap_eq_nil_iff]
    intro e he
    simp [enumObject_meta_keys name path module e he]
  rw [hmeta, List.append_nil]
  induction entries with
  | nil => rfl
  | cons e rest ih =>
    have he : isMetaKey e.1 = false := h e (by simp)
    simp only [List.map_cons, List.filterMap_cons, he]
    rw [ih (fun e he => h e (List.mem_cons_of_mem _ he))]
    simp [entryLine, JS.Value.toStr]

theorem objGet_enumObject_name (entries : List (String × Int)) (name : String)
    (path : List String) (module : String) (h : ∀ e ∈ entries, isMetaKey e.1 = false) :
    JS.objGet (enumObject entries name path module) "__name__" = some (.str name) := by
  unfold enumObject
  rw [JS.objGet_append_of_absent]
  · simp [JS.objGet]
  · intro e he
    obtain ⟨x, hx, rfl⟩ := List.mem_map.mp he
    intro hk
    have := h x hx
    simp only [] at hk
    rw [hk] at this
    exact absurd this (by decide)

theorem enumHeader_enumObject (entries : List (String × Int)) (name : String)
    (path : List String) (module : String) (h : ∀ e ∈ entries, isMetaKey e.1 = false) :
    enumHeader (enumObject entries name path module) = "enum " ++ name ++ " \x7b" := by
  simp [enumHeader, objGet_enumObject_name entries name path module h, templateString,
    JS.Value.toStr]

end ParseProto

namespace ParseProto

/-- The pairs `[value, name]` from which `names` is built, for an enum object of the
extraction. -/
theorem enumObject_pairs (entries : List (String × Int)) (name : String)
    (path : List String) (module : String) :
    (enumObject entries name path module).map (fun e => (e.2.toStr, e.1))
      = entries.map (fun e => (toString e.2, e.1))
        ++ [("true", "__enum__"), (name, "__name__"), (JS.join "," path, "__path__"),
            (module, "__module__")] := by
  simp [enumObject, JS.Value.toStr, List.map_map, Function.comp_def]

theorem enumNames_absent (entries : List (String × Int)) (name : String)
    (path : List String) (module : String) (key : String) (n : Int)
    (hkey : ∀ m : Int, toString m = key ↔ m = n) (htrue : key ≠ "true")
    (hentries : ∀ e ∈ entries, e.2 ≠ n)
    (hname : name ≠ key) (hpath : JS.join "," path ≠ key) (hmodule : module ≠ key) :
    JS.objGet (enumNames (enumObject entries name path module)) key = none := by
  unfold enumNames
  rw [enumObject_pairs]
  apply JS.objGet_fromEntries_none
  intro e he
  rcases List.mem_append.mp he with h | h
  · obtain ⟨x, hx, rfl⟩ := List.mem_map.mp h
    intro hk
    exact hentries x hx ((hkey x.2).mp hk)
  · simp only [List.mem_cons, List.mem_singleton, List.not_mem_nil, or_false] at h
    rcases h with rfl | rfl | rfl | rfl
    · exact fun h => htrue h.symm
    · exact hname
    · exact hpath
    · exact hmodule

theorem enumNames_last (before after : List (String × Int)) (k : String) (name : String)
    (path : List String) (module : String) (key : String) (n : Int)
    (hkey : ∀ m : Int, toString m = key ↔ m = n) (htrue : key ≠ "true")
    (hafter : ∀ e ∈ after, e.2 ≠ n)
    (hname : name ≠ key) (hpath : JS.join "," path ≠ key) (hmodule : module ≠ key) :
    JS.objGet (enumNames (enumObject (before ++ (k, n) :: after) name path module)) key
      = some k := by
  unfold enumNames
  rw [enumObject_pairs]
  have hn : toString n = key := (hkey n).mpr rfl
  simp only [List.map_append, List.map_cons, List.append_assoc, List.cons_append, hn]
  apply JS.objGet_fromEntries_last
  intro e he
  rcases List.mem_append.mp he with h | h
  · obtain ⟨x, hx, rfl⟩ := List.mem_map.mp h
    intro hk
    exact hafter x hx ((hkey x.2).mp hk)
  · simp only [List.mem_cons, List.mem_singleton, List.not_mem_nil, or_false] at h
    rcases h with rfl | rfl | rfl | rfl
    · exact fun h => htrue h.symm
    · exact hname
    · exact hpath
    · exact hmodule

/-- The remapping on an enum object of the extraction whose last entry with value `-1` is
`key`, when nothing prints as `0` and no property but entries prints as `-1`. -/
theorem remapMinusOne_enumObject (before after : List (String × Int)) (key : String)
    (name : String) (path : List String) (module : String)
    (hkeys : ((before ++ (key, -1) :: after).map Prod.fst).Nodup)
    (hmeta : ∀ e ∈ before ++ (key, -1) :: after, isMetaKey e.1 = false)
    (hkey : key ≠ "")
    (hzero : ∀ e ∈ before ++ (key, -1) :: after, e.2 ≠ 0)
    (hafter : ∀ e ∈ after, e.2 ≠ -1)
    (hname : name ≠ "0" ∧ name ≠ "-1")
    (hpath : JS.join "," path ≠ "0" ∧ JS.join "," path ≠ "-1")
    (hmodule : module ≠ "0" ∧ module ≠ "-1") :
    remapMinusOne (enumObject (before ++ (key, -1) :: after) name path module)
      = enumObject (before ++ (key, 0) :: after) name path module := by
  have h0 := enumNames_absent (before ++ (key, -1) :: after) name path module "0" 0
    JS.toString_eq_zero_iff (by decide) hzero hname.1 hpath.1 hmodule.1
  have h1 := enumNames_last before after key name path module "-1" (-1)
    JS.toString_eq_minus_one_iff (by decide) hafter hname.2 hpath.2 hmodule.2
  have hk_meta : isMetaKey key = false := hmeta (key, -1) (by simp)
  simp only [List.map_append, List.map_cons, List.nodup_append, List.nodup_cons] at hkeys
  obtain ⟨hb, ⟨hka, ha⟩, hdisj⟩ := hkeys
  have hkb : ∀ e ∈ before.map (fun e => (e.1, JS.Value.num e.2)), e.1 ≠ key := by
    intro e he hk
    obtain ⟨x, hx, rfl⟩ := List.mem_map.mp he
    exact hdisj (List.mem_map.mpr ⟨x, hx, rfl⟩) (by simp [← hk])
  have hka2 : ∀ e ∈ after.map (fun e => (e.1, JS.Value.num e.2)), e.1 ≠ key := by
    intro e he hk
    obtain ⟨x, hx, rfl⟩ := List.mem_map.mp he
    exact hka (List.mem_map.mpr ⟨x, hx, hk⟩)
  have hkm : ∀ e ∈ [("__enum__", JS.Value.bool true), ("__name__", JS.Value.str name),
      ("__path__", JS.Value.strs path), ("__module__", JS.Value.str module)], e.1 ≠ key := by
    intro e he hk
    have := enumObject_meta_keys name path module e he
    rw [hk, hk_meta] at this
    exact absurd this (by decide)
  have hget : (JS.objGet (enumObject (before ++ (key, -1) :: after) name path module)
      key).isSome = true := by
    unfold enumObject
    simp only [List.map_append, List.map_cons, List.append_assoc, List.cons_append]
    rw [JS.objGet_append_cons_self _ _ _ _ hkb]
    rfl
  unfold remapMinusOne
  rw [h0, h1]
  simp only [JS.truthy, Bool.not_false, if_true, ne_eq, hkey, not_false_eq_true]
  unfold JS.objSet
  rw [if_pos hget]
  unfold enumObject
  simp only [List.map_append, List.map_cons, List.append_assoc, List.cons_append]
  rw [JS.objReplace_append, JS.objReplace_of_absent _ _ _ hkb, JS.objReplace_cons_self,
    JS.objReplace_append, JS.objReplace_of_absent _ _ _ hka2,
    JS.objReplace_of_absent _ _ _ hkm]

end ParseProto

/-- C4 (amended): for an enum object of the extraction whose entry names are non-empty and
not wrapped in double underscores, whose `__name__`, `__path__` and `__module__` print
neither as `0` nor as `-1`, that has no entry with value `0` and has an entry with value
`-1`: both `protoifyEnum` variants render the header, then one line `<name> = <value>;`
per entry in declaration order and nothing else, where one entry with source value `-1`
(the last such entry: none of the entries after it has the value `-1`) is rendered with
value `0` and every other entry with its (non-zero) source value. -/
theorem protoifyEnum_minus_one_rule (entries : List (String × Int)) (name : String)
    (path : List String) (module : String)
    (hkeys : (entries.map Prod.fst).Nodup)
    (hnames : ∀ e ∈ entries, e.1 ≠ "" ∧ ParseProto.isMetaKey e.1 = false)
    (hname : name ≠ "0" ∧ name ≠ "-1")
    (hpath : JS.join "," path ≠ "0" ∧ JS.join "," path ≠ "-1")
    (hmodule : module ≠ "0" ∧ module ≠ "-1")
    (hzero : ∀ e ∈ entries, e.2 ≠ 0) (hminus : ∃ e ∈ entries, e.2 = -1) :
    ∃ before key after,
      entries = before ++ (key, -1) :: after ∧
      (∀ e ∈ before ++ after, e.2 ≠ 0) ∧
      (∀ e ∈ after, e.2 ≠ -1) ∧
      (ParseProto.protoifyEnum (ParseProto.enumObject entries name path module)).1
        = ["enum " ++ name ++ " \x7b"]
          ++ ParseProto.indent ((before ++ (key, 0) :: after).map ParseProto.entryLine)
          ++ ["\x7d"] ∧
      (Armadillo.protoifyEnum (ParseProto.enumObject entries name path module)).map Prod.fst
        = some (["enum " ++ name ++ " \x7b"]
          ++ ParseProto.indent ((before ++ (key, 0) :: after).map ParseProto.entryLine)
          ++ ["\x7d"]) := by
  obtain ⟨before, x, after, hl, hx, hafter⟩ :=
    JS.exists_last_split (fun e : String × Int => e.2 = -1) entries hminus
  obtain ⟨key, v⟩ := x
  simp only [] at hx
  subst hx
  subst hl
  have hmeta : ∀ e ∈ before ++ (key, -1) :: after, ParseProto.isMetaKey e.1 = false :=
    fun e he => (hnames e he).2
  have hkey : key ≠ "" := (hnames (key, -1) (by simp)).1
  have hmeta2 : ∀ e ∈ before ++ (key, 0) :: after, ParseProto.isMetaKey e.1 = false := by
    intro e he
    rcases List.mem_append.mp he with h | h
    · exact hmeta e (List.mem_append_left _ h)
    · rcases List.mem_cons.mp h with rfl | h
      · exact hmeta (key, -1) (by simp)
      · exact hmeta e (List.mem_append_right _ (List.mem_cons_of_mem _ h))
  have hremap := ParseProto.remapMinusOne_enumObject before after key name path module hkeys
    hmeta hkey hzero hafter hname hpath hmodule
  have h1 := ParseProto.enumNames_last before after key name path module "-1" (-1)
    JS.toString_eq_minus_one_iff (by decide) hafter hname.2 hpath.2 hmodule.2
  refine ⟨before, key, after, rfl, ?_, hafter, ?_, ?_⟩
  · intro e he
    apply hzero
    rcases List.mem_append.mp he with h | h
    · exact List.mem_append_left _ h
    · exact List.mem_append_right _ (List.mem_cons_of_mem _ h)
  · simp only [ParseProto.protoifyEnum, hremap,
      ParseProto.enumHeader_enumObject _ name path module hmeta2,
      ParseProto.enumValueLines_enumObject _ name path module hmeta2]
  · simp only [Armadillo.protoifyEnum, h1, hremap, JS.truthy, ne_eq, hkey, not_false_eq_true,
      decide_True, Bool.not_true, Bool.and_false, Bool.false_eq_true, if_false,
      ParseProto.enumHeader_enumObject _ name path module hmeta2,
      ParseProto.enumValueLines_enumObject _ name path module hmeta2, List.nil_append,
      Option.map_some']

/-- C4, witness: the enum `A = 1, B = -1` renders `A = 1;` then `B = 0;`. -/
theorem protoifyEnum_minus_one_rule_witness :
    (ParseProto.protoifyEnum (ParseProto.enumObject [("A", 1), ("B", -1)] "E" [] "M")).1
      = ["enum E \x7b", "\tA = 1;", "\tB = 0;", "\x7d"] ∧
    ∃ before key after,
      [("A", (1 : Int)), ("B", -1)] = before ++ (key, -1) :: after ∧
      (∀ e ∈ before ++ after, e.2 ≠ 0) ∧
      (∀ e ∈ after, e.2 ≠ -1) ∧
      (ParseProto.protoifyEnum (ParseProto.enumObject [("A", 1), ("B", -1)] "E" [] "M")).1
        = ["enum " ++ "E" ++ " \x7b"]
          ++ ParseProto.indent ((before ++ (key, 0) :: after).map ParseProto.entryLine)
          ++ ["\x7d"] ∧
      (Armadillo.protoifyEnum (ParseProto.enumObject [("A", 1), ("B", -1)] "E" [] "M")).map
          Prod.fst
        = some (["enum " ++ "E" ++ " \x7b"]
          ++ ParseProto.indent ((before ++ (key, 0) :: after).map ParseProto.entryLine)
          ++ ["\x7d"]) :=
  ⟨by decide,
    protoifyEnum_minus_one_rule [("A", 1), ("B", -1)] "E" [] "M" (by decide) (by decide)
      (by decide) (by decide) (by decide) (by decide) (by decide)⟩

/-- C4, counterexample: the enum `A = 1, __B__ = -1` has no entry with value `0` and an
entry with value `-1`; `__B__` is set to `0` but the loop skips it, so the rendered enum
has the single entry line `A = 1;` and no line with value `0`. -/
theorem protoifyEnum_hidden_entry_counterexample :
    (ParseProto.protoifyEnum (ParseProto.enumObject [("A", 1), ("__B__", -1)] "E" [] "M")).1
      = ["enum E \x7b", "\tA = 1;", "\x7d"] ∧
    (Armadillo.protoifyEnum (ParseProto.enumObject [("A", 1), ("__B__", -1)] "E" [] "M")).map
        Prod.fst
      = some ["enum E \x7b", "\tA = 1;", "\x7d"] ∧
    JS.objGet (ParseProto.protoifyEnum
        (ParseProto.enumObject [("A", 1), ("__B__", -1)] "E" [] "M")).2 "__B__"
      = some (.num 0) ∧
    (∀ line ∈ (ParseProto.protoifyEnum
        (ParseProto.enumObject [("A", 1), ("__B__", -1)] "E" [] "M")).1,
      JS.endsWith line " = 0;" = false) := by
  refine ⟨by decide, by decide, by decide, by decide⟩

namespace JS

theorem mem_objReplace_same {α : Type} (obj : Obj α) (key : String) (k : String) (value : α)
    (h : (k, value) ∈ obj) : (k, value) ∈ objReplace key value obj := by
  induction obj with
  | nil => simp at h
  | cons e rest ih =>
    obtain ⟨k0, v0⟩ := e
    rcases List.mem_cons.mp h with he | he
    · obtain ⟨rfl, rfl⟩ := Prod.mk.inj he
      by_cases hk : k = key <;> simp [objReplace, hk]
    · by_cases hk : k0 = key <;> simp [objReplace, hk, ih he]

theorem mem_objReplace_key {α : Type} (obj : Obj α) (key : String) (value : α)
    (h : (objGet obj key).isSome = true) : (key, value) ∈ objReplace key value obj := by
  induction obj with
  | nil => simp [objGet] at h
  | cons e rest ih =>
    obtain ⟨k0, v0⟩ := e
    by_cases hk : k0 = key
    · subst hk; simp [objReplace]
    · have : (objGet rest key).isSome = true := by simpa [objGet, hk] using h
      simp [objReplace, hk, ih this]

theorem mem_objInsert {α : Type} (obj : Obj α) (key : String) (value : α) (e : String × α)
    (h : e ∈ obj) : e ∈ objInsert key value obj := by
  induction obj with
  | nil => simp at h
  | cons x rest ih =>
    obtain ⟨k0, v0⟩ := x
    unfold objInsert
    rcases List.mem_cons.mp h with he | he
    · subst he
      split
      · split <;> simp
      · simp
      · simp
    · split
      · split
        · simp [he]
        · simp [ih he]
      · simp [he]
      · simp [ih he]

theorem mem_objInsert_self {α : Type} (obj : Obj α) (key : String) (value : α) :
    (key, value) ∈ objInsert key value obj := by
  induction obj with
  | nil => simp [objInsert]
  | cons x rest ih =>
    obtain ⟨k0, v0⟩ := x
    unfold objInsert
    split
    · split
      · simp
      · simp [ih]
    · simp
    · simp [ih]

theorem mem_objSet_same {α : Type} (obj : Obj α) (key : String) (k : String) (value : α)
    (h : (k, value) ∈ obj) : (k, value) ∈ objSet obj key value := by
  unfold objSet
  split
  · exact mem_objReplace_same obj key k value h
  · exact mem_objInsert obj key value _ h

theorem mem_objSet_self {α : Type} (obj : Obj α) (key : String) (value : α) :
    (key, value) ∈ objSet obj key value := by
  unfold objSet
  split
  · rename_i h; exact mem_objReplace_key obj key value h
  · exact mem_objInsert_self obj key value

end JS

namespace ParseProto

theorem mem_remapMinusOne_zero (enumDef : EnumDef) (k : String)
    (h : (k, JS.Value.num 0) ∈ enumDef) : (k, JS.Value.num 0) ∈ remapMinusOne enumDef := by
  unfold remapMinusOne
  split
  · split
    · split
      · exact JS.mem_objSet_same _ _ _ _ h
      · exact h
    · exact h
  · exact h

theorem mem_enumValueLines (enumDef : EnumDef) (k : String) (v : JS.Value)
    (h : (k, v) ∈ enumDef) (hk : isMetaKey k = false) :
    (k ++ " = " ++ v.toStr ++ ";") ∈ enumValueLines enumDef := by
  unfold enumValueLines
  rw [List.mem_filterMap]
  exact ⟨(k, v), h, by simp [hk]⟩

theorem mem_indent (lines : List String) (line : String) (h : line ∈ lines)
    (hne : line ≠ "") : ("\t" ++ line) ∈ indent lines := by
  unfold indent
  rw [List.mem_map]
  exact ⟨line, h, by simp [hne]⟩

theorem zero_line_ne_empty (n : String) : n ++ " = 0;" ≠ "" := by
  intro h
  have := congrArg String.length h
  simp only [String.length_append] at this
  have h5 : " = 0;".length = 5 := rfl
  have h0 : "".length = 0 := rfl
  omega

end ParseProto

namespace Armadillo

open ParseProto

/-- The lines pushed before the loop of the armadillo `protoifyEnum`. -/
theorem protoifyEnum_enumObject (entries : List (String × Int)) (name : String)
    (path : List String) (module : String) (hnames : ∀ e ∈ entries, isMetaKey e.1 = false) :
    Armadillo.protoifyEnum (enumObject entries name path module)
      = some ([enumHeader (remapMinusOne (enumObject entries name path module))]
          ++ indent ((if !JS.truthy (JS.objGet (enumNames (enumObject entries name path module)) "0")
                && !JS.truthy (JS.objGet (enumNames (enumObject entries name path module)) "-1")
              then [JS.toUpperCase name ++ "_UNKNOWN = 0;"] else [])
            ++ enumValueLines (remapMinusOne (enumObject entries name path module)))
          ++ ["\x7d"],
        remapMinusOne (enumObject entries name path module)) := by
  have hN := objGet_enumObject_name entries name path module hnames
  unfold Armadillo.protoifyEnum
  simp only [hN]
  split_ifs <;> rfl

end Armadillo

/-- C5 (amended): for an enum object of the extraction whose entry names are not wrapped in
double underscores and whose `__name__`, `__path__` and `__module__` print neither as `0`
nor as `-1`, the armadillo `protoifyEnum` returns, and its lines contain an entry line
`<name> = 0;` whose name is an entry with source value `0` or `-1`, or is the upper-cased
enum name followed by `_UNKNOWN`. -/
theorem armadillo_protoifyEnum_has_zero (entries : List (String × Int)) (name : String)
    (path : List String) (module : String)
    (hnames : ∀ e ∈ entries, ParseProto.isMetaKey e.1 = false)
    (hname : name ≠ "0" ∧ name ≠ "-1")
    (hpath : JS.join "," path ≠ "0" ∧ JS.join "," path ≠ "-1")
    (hmodule : module ≠ "0" ∧ module ≠ "-1") :
    ∃ lines enumDef,
      Armadillo.protoifyEnum (ParseProto.enumObject entries name path module)
        = some (lines, enumDef) ∧
      ∃ n : String, ("\t" ++ (n ++ " = 0;")) ∈ lines ∧
        ((∃ v, (n, v) ∈ entries ∧ (v = 0 ∨ v = -1)) ∨ n = JS.toUpperCase name ++ "_UNKNOWN") := by
  refine ⟨_, _, Armadillo.protoifyEnum_enumObject entries name path module hnames, ?_⟩
  suffices h : ∃ n : String,
      (n ++ " = 0;") ∈ (if !JS.truthy (JS.objGet (ParseProto.enumNames
              (ParseProto.enumObject entries name path module)) "0")
            && !JS.truthy (JS.objGet (ParseProto.enumNames
              (ParseProto.enumObject entries name path module)) "-1")
          then [JS.toUpperCase name ++ "_UNKNOWN = 0;"] else [])
        ++ ParseProto.enumValueLines
            (ParseProto.remapMinusOne (ParseProto.enumObject entries name path module)) ∧
      ((∃ v, (n, v) ∈ entries ∧ (v = 0 ∨ v = -1)) ∨ n = JS.toUpperCase name ++ "_UNKNOWN") by
    obtain ⟨n, hn, hwhich⟩ := h
    refine ⟨n, ?_, hwhich⟩
    apply List.mem_append_left
    apply List.mem_append_right
    exact ParseProto.mem_indent _ _ hn (ParseProto.zero_line_ne_empty n)
  by_cases hz : ∃ e ∈ entries, e.2 = 0
  · -- an entry with value 0 is printed as it is
    obtain ⟨⟨k, v⟩, hk, hv⟩ := hz
    simp only [] at hv
    subst hv
    have hmem : (k, JS.Value.num 0) ∈ ParseProto.enumObject entries name path module := by
      unfold ParseProto.enumObject
      exact List.mem_append_left _ (List.mem_map.mpr ⟨(k, 0), hk, rfl⟩)
    have hline := ParseProto.mem_enumValueLines _ k (.num 0)
      (ParseProto.mem_remapMinusOne_zero _ k hmem) (hnames (k, 0) hk)
    have hline2 : (k ++ " = 0;") ∈ ParseProto.enumValueLines
        (ParseProto.remapMinusOne (ParseProto.enumObject entries name path module)) := by
      simpa [JS.Value.toStr, String.append_assoc] using hline
    exact ⟨k, List.mem_append_right _ hline2, Or.inl ⟨0, hk, Or.inl rfl⟩⟩
  · have hzero : ∀ e ∈ entries, e.2 ≠ 0 := fun e he h => hz ⟨e, he, h⟩
    have h0 := ParseProto.enumNames_absent entries name path module "0" 0
      JS.toString_eq_zero_iff (by decide) hzero hname.1 hpath.1 hmodule.1
    by_cases hm : ∃ e ∈ entries, e.2 = -1
    · obtain ⟨before, x, after, hl, hx, hafter⟩ :=
        JS.exists_last_split (fun e : String × Int => e.2 = -1) entries hm
      obtain ⟨key, v⟩ := x
      simp only [] at hx
      subst hx
      subst hl
      have h1 := ParseProto.enumNames_last before after key name path module "-1" (-1)
        JS.toString_eq_minus_one_iff (by decide) hafter hname.2 hpath.2 hmodule.2
      by_cases hkey : key = ""
      · -- the name under `-1` is empty, hence falsy: the synthetic entry is pushed
        subst hkey
        refine ⟨JS.toUpperCase name ++ "_UNKNOWN", List.mem_append_left _ ?_, Or.inr rfl⟩
        rw [h0, h1]
        simp [JS.truthy, String.append_assoc]
      · -- the entry under `-1` is set to 0
        have hset : (key, JS.Value.num 0) ∈ ParseProto.remapMinusOne
            (ParseProto.enumObject (before ++ (key, -1) :: after) name path module) := by
          unfold ParseProto.remapMinusOne
          rw [h0, h1]
          simp only [JS.truthy, Bool.not_false, if_true, ne_eq, hkey, not_false_eq_true]
          exact JS.mem_objSet_self _ _ _
        have hline := ParseProto.mem_enumValueLines _ key (.num 0) hset
          (hnames (key, -1) (by simp))
        have hline2 : (key ++ " = 0;") ∈ ParseProto.enumValueLines (ParseProto.remapMinusOne
            (ParseProto.enumObject (before ++ (key, -1) :: after) name path module)) := by
          simpa [JS.Value.toStr, String.append_assoc] using hline
        exact ⟨key, List.mem_append_right _ hline2, Or.inl ⟨-1, by simp, Or.inr rfl⟩⟩
    · -- neither 0 nor -1: the synthetic entry is pushed
      have hminus : ∀ e ∈ entries, e.2 ≠ -1 := fun e he h => hm ⟨e, he, h⟩
      have h1 := ParseProto.enumNames_absent entries name path module "-1" (-1)
        JS.toString_eq_minus_one_iff (by decide) hminus hname.2 hpath.2 hmodule.2
      refine ⟨JS.toUpperCase name ++ "_UNKNOWN", List.mem_append_left _ ?_, Or.inr rfl⟩
      rw [h0, h1]
      simp [JS.truthy, String.append_assoc]

/-- C5, witness: an enum with the entries `A = 1` and `B = 2` gets the synthetic entry. -/
theorem armadillo_protoifyEnum_has_zero_witness :
    (Armadillo.protoifyEnum (ParseProto.enumObject [("A", 1), ("B", 2)] "Kind" [] "M")).map
        Prod.fst
      = some ["enum Kind \x7b", "\tKIND_UNKNOWN = 0;", "\tA = 1;", "\tB = 2;", "\x7d"] ∧
    ∃ lines enumDef,
      Armadillo.protoifyEnum (ParseProto.enumObject [("A", 1), ("B", 2)] "Kind" [] "M")
        = some (lines, enumDef) ∧
      ∃ n : String, ("\t" ++ (n ++ " = 0;")) ∈ lines ∧
        ((∃ v, (n, v) ∈ [("A", (1 : Int)), ("B", 2)] ∧ (v = 0 ∨ v = -1))
          ∨ n = JS.toUpperCase "Kind" ++ "_UNKNOWN") :=
  ⟨by decide,
    armadillo_protoifyEnum_has_zero [("A", 1), ("B", 2)] "Kind" [] "M" (by decide) (by decide)
      (by decide) (by decide)⟩

/-- C5, counterexample: in the enum `__NONE__ = 0, A = 1` the value `0` has a name, so no
synthetic entry is pushed, but the loop skips `__NONE__`: no rendered line has value `0`. -/
theorem armadillo_protoifyEnum_zero_counterexample :
    (Armadillo.protoifyEnum
        (ParseProto.enumObject [("__NONE__", 0), ("A", 1)] "Kind" [] "M")).map Prod.fst
      = some ["enum Kind \x7b", "\tA = 1;", "\x7d"] ∧
    (∀ line ∈ ["enum Kind \x7b", "\tA = 1;", "\x7d"], JS.endsWith line " = 0;" = false) := by
  refine ⟨by decide, by decide⟩

/-! ## C6: what a serializer run changes in the tree -/

namespace ParseProto

theorem takeFields_snd (spec : Spec) (fieldNames : List String) :
    (takeFields spec fieldNames).2 = spec.filter (fun e => decide (e.1 ∉ fieldNames)) := by
  induction fieldNames generalizing spec with
  | nil => simp [takeFields]
  | cons n rest ih =>
    simp only [takeFields, ih, JS.objDelete, List.filter_filter]
    apply List.filter_congr
    intro e _
    by_cases h1 : e.1 = n <;> by_cases h2 : e.1 ∈ rest <;> simp [h1, h2]

theorem oneofSections_snd (r : Renderer) (parentModule : String) (parentPath : List String)
    (spec : Spec) (groups : List (String × List String)) (sections : List (List String))
    (spec2 : Spec)
    (h : oneofSections r parentModule parentPath spec groups = some (sections, spec2)) :
    spec2 = spec.filter (fun e => decide (e.1 ∉ groups.flatMap (fun g => g.2))) := by
  induction groups generalizing spec sections spec2 with
  | nil =>
    simp only [oneofSections, Option.some.injEq, Prod.mk.injEq] at h
    simp [← h.2]
  | cons g rest ih =>
    obtain ⟨name, fieldNames⟩ := g
    simp only [oneofSections] at h
    split at h
    · exact absurd h (by simp)
    · split at h
      · exact absurd h (by simp)
      · rename_i secs s3 heq
        simp only [Option.some.injEq, Prod.mk.injEq] at h
        have := ih _ _ _ heq
        rw [← h.2, this, takeFields_snd, List.filter_filter]
        apply List.filter_congr
        intro e _
        by_cases h1 : e.1 ∈ fieldNames <;>
          by_cases h2 : e.1 ∈ rest.flatMap (fun g => g.2) <;>
          simp [List.flatMap_cons, h1, h2]

theorem fieldSections_snd (r : Renderer) (parentModule : String)
    (fullMessagePath : List String) (spec : Spec) (sections : List (List String))
    (spec2 : Spec)
    (h : fieldSections r parentModule fullMessagePath spec = some (sections, spec2)) :
    spec2 = specAfter spec := by
  unfold fieldSections at h
  split at h
  · exact absurd h (by simp)
  · rename_i groups hg
    split at h
    · exact absurd h (by simp)
    · rename_i secs s3 heq
      simp only [] at h
      split at h
      · exact absurd h (by simp)
      · simp only [Option.some.injEq, Prod.mk.injEq] at h
        have hs3 := oneofSections_snd r _ _ _ _ _ _ heq
        have hgn : groupedNames spec = groups.flatMap (fun g => g.2) := by
          unfold oneofGroups at hg
          unfold groupedNames
          split at hg
          · rename_i hnone
            simp only [Option.some.injEq] at hg
            simp [hnone, ← hg]
          · rename_i g2 hsome
            simp only [Option.some.injEq] at hg
            simp [hsome, hg]
          · exact absurd hg (by simp)
        rw [← h.2, hs3, specAfter, hgn]
        simp only [JS.objDelete, List.filter_filter]
        apply List.filter_congr
        intro e _
        by_cases h1 : e.1 = "__oneofs__" <;> by_cases h2 : e.1 = "__reserved__" <;>
          simp [h1, h2, Bool.and_comm]

theorem protoifyEnums_snd (r : Renderer)
    (hE : ∀ e lines e2, r.protoifyEnum e = some (lines, e2) → e2 = remapMinusOne e)
    (enums : JS.Obj EnumDef) (blocks : List (List String)) (enums2 : JS.Obj EnumDef)
    (h : protoifyEnums r enums = some (blocks, enums2)) : enums2 = enumsAfter enums := by
  induction enums generalizing blocks enums2 with
  | nil =>
    simp only [protoifyEnums, Option.some.injEq, Prod.mk.injEq] at h
    simp [enumsAfter, ← h.2]
  | cons e rest ih =>
    obtain ⟨key, enumDef⟩ := e
    simp only [protoifyEnums] at h
    split at h
    · exact absurd h (by simp)
    · rename_i lines e2 he
      split at h
      · exact absurd h (by simp)
      · rename_i bl rest2 hrest
        simp only [Option.some.injEq, Prod.mk.injEq] at h
        have h1 := hE _ _ _ he
        have h2 := ih _ _ hrest
        rw [← h.2, h1, h2]
        simp [enumsAfter]

mutual
theorem protoifyMessageWith_snd (r : Renderer)
    (hE : ∀ e lines e2, r.protoifyEnum e = some (lines, e2) → e2 = remapMinusOne e) :
    ∀ (msg : Message) (lines : List String) (msg2 : Message),
      protoifyMessageWith r msg = some (lines, msg2) → msg2 = messageAfter msg
  | .mk messages enums module path name message, lines, msg2, h => by
    simp only [protoifyMessageWith] at h
    split at h
    · exact absurd h (by simp)
    · rename_i eb enums2 he
      split at h
      · exact absurd h (by simp)
      · rename_i mb messages2 hm
        split at h
        · exact absurd h (by simp)
        · rename_i spec
          split at h
          · exact absurd h (by simp)
          · rename_i secs spec2 hs
            simp only [Option.some.injEq, Prod.mk.injEq] at h
            have h1 := protoifyEnums_snd r hE _ _ _ he
            have h2 := protoifyMessagesWith_snd r hE messages _ _ hm
            have h3 := fieldSections_snd r _ _ _ _ _ hs
            rw [← h.2, h1, h2, h3]
            simp [messageAfter]
theorem protoifyMessagesWith_snd (r : Renderer)
    (hE : ∀ e lines e2, r.protoifyEnum e = some (lines, e2) → e2 = remapMinusOne e) :
    ∀ (messages : List (String × Message)) (blocks : List (List String))
      (messages2 : List (String × Message)),
      protoifyMessagesWith r messages = some (blocks, messages2) →
        messages2 = messagesAfter messages
  | [], blocks, messages2, h => by
    simp only [protoifyMessagesWith, Option.some.injEq, Prod.mk.injEq] at h
    simp [messagesAfter, ← h.2]
  | (key, msg) :: rest, blocks, messages2, h => by
    simp only [protoifyMessagesWith] at h
    split at h
    · exact absurd h (by simp)
    · rename_i lines m2 hm
      split at h
      · exact absurd h (by simp)
      · rename_i bl rest2 hrest
        simp only [Option.some.injEq, Prod.mk.injEq] at h
        have h1 := protoifyMessageWith_snd r hE msg _ _ hm
        have h2 := protoifyMessagesWith_snd r hE rest _ _ hrest
        rw [← h.2, h1, h2]
        simp [messagesAfter]
end

theorem protoifyChildrenWith_snd (r : Renderer)
    (hE : ∀ e lines e2, r.protoifyEnum e = some (lines, e2) → e2 = remapMinusOne e)
    (file : ProtoFile) (lines : List String) (file2 : ProtoFile)
    (h : protoifyChildrenWith r file = some (lines, file2)) : file2 = fileAfter file := by
  unfold protoifyChildrenWith at h
  split at h
  · exact absurd h (by simp)
  · rename_i eb enums2 he
    split at h
    · exact absurd h (by simp)
    · rename_i mb messages2 hm
      simp only [Option.some.injEq, Prod.mk.injEq] at h
      rw [← h.2, protoifyEnums_snd r hE _ _ _ he, protoifyMessagesWith_snd r hE _ _ _ hm]
      rfl

end ParseProto

namespace ParseProto

theorem renderer_protoifyEnum_snd (c : WAProtoConst) (proto3 : Bool) (e : EnumDef)
    (lines : List String) (e2 : EnumDef)
    (h : (renderer c proto3).protoifyEnum e = some (lines, e2)) : e2 = remapMinusOne e := by
  simp only [renderer, protoifyEnum, Option.some.injEq, Prod.mk.injEq] at h
  exact h.2.symm

end ParseProto

namespace Armadillo

open ParseProto

theorem armadillo_renderer_protoifyEnum_snd (c : WAProtoConst) (e : EnumDef)
    (lines : List String) (e2 : EnumDef)
    (h : (Armadillo.renderer c).protoifyEnum e = some (lines, e2)) : e2 = remapMinusOne e := by
  simp only [Armadillo.renderer, Armadillo.protoifyEnum] at h
  split at h
  · exact absurd h (by simp)
  · simp only [Option.some.injEq, Prod.mk.injEq] at h
    exact h.2.symm

end Armadillo

namespace ParseProto

/-- What `remapMinusOne` does to each property: the property that `names["-1"]` names is
set to `0` when `names["0"]` is falsy and that name is not empty, and every other property
reads as before. -/
theorem objGet_remapMinusOne (enumDef : EnumDef) (key : String) :
    JS.objGet (remapMinusOne enumDef) key
      = if JS.truthy (JS.objGet (enumNames enumDef) "0") = false
            ∧ JS.objGet (enumNames enumDef) "-1" = some key ∧ key ≠ "" then
          some (.num 0)
        else JS.objGet enumDef key := by
  unfold remapMinusOne
  cases h0 : JS.truthy (JS.objGet (enumNames enumDef) "0") with
  | true => simp
  | false =>
    cases h1 : JS.objGet (enumNames enumDef) "-1" with
    | none => simp
    | some name =>
      by_cases hname : name = ""
      · subst hname
        by_cases hk : key = ""
        · simp [hk]
        · have hk2 : ¬ "" = key := fun h => hk h.symm
          simp [hk2]
      · by_cases hk : key = name
        · subst hk
          simp [hname, JS.objGet_objSet]
        · have hk2 : ¬ name = key := fun h => hk h.symm
          simp [hname, JS.objGet_objSet, hk, hk2]

/-- The name recorded under a printed value is a property whose value prints so. -/
theorem enumNames_some (enumDef : EnumDef) (printed key : String)
    (h : JS.objGet (enumNames enumDef) printed = some key) :
    ∃ v, (key, v) ∈ enumDef ∧ v.toStr = printed := by
  unfold enumNames at h
  rw [JS.objGet_fromEntries] at h
  cases hf : (enumDef.map (fun e => (e.2.toStr, e.1))).reverse.find?
      (fun e => e.1 = printed) with
  | none => simp [hf] at h
  | some x =>
    rw [hf] at h
    simp only [Option.map_some', Option.some.injEq] at h
    have hmem := List.mem_of_find?_eq_some hf
    have hp := List.find?_some hf
    simp only [List.mem_reverse, List.mem_map] at hmem
    obtain ⟨e, he, hx⟩ := hmem
    subst hx
    simp only [decide_eq_true_eq] at hp
    simp only at h
    subst h
    exact ⟨e.2, he, hp⟩

theorem messagesAfter_eq_map (messages : List (String × Message)) :
    messagesAfter messages = messages.map (fun e => (e.1, messageAfter e.2)) := by
  induction messages with
  | nil => rfl
  | cons e rest ih =>
    obtain ⟨k, m⟩ := e
    have h0 : messagesAfter ((k, m) :: rest) = (k, messageAfter m) :: messagesAfter rest := rfl
    rw [h0, ih]
    rfl

/-- The node `messageAfter` gives: the module, the path and the name of the node and the
keys and order of its children and enums are those of the node it was given. -/
theorem messageAfter_parts (m : Message) :
    (messageAfter m).__module__ = m.__module__
    ∧ (messageAfter m).__path__ = m.__path__
    ∧ (messageAfter m).__name__ = m.__name__
    ∧ (messageAfter m).messages = m.messages.map (fun e => (e.1, messageAfter e.2))
    ∧ (messageAfter m).enums = m.enums.map (fun e => (e.1, remapMinusOne e.2))
    ∧ (messageAfter m).message = m.message.map specAfter := by
  cases m with
  | mk messages enums module path name message =>
    have h0 : messageAfter (.mk messages enums module path name message)
        = .mk (messagesAfter messages) (enumsAfter enums) module path name
            (message.map specAfter) := rfl
    rw [h0]
    refine ⟨rfl, rfl, rfl, ?_, rfl, rfl⟩
    exact messagesAfter_eq_map messages

theorem mem_specAfter (spec : Spec) (e : String × SpecValue) :
    e ∈ specAfter spec
      ↔ e ∈ spec ∧ e.1 ∉ groupedNames spec ∧ e.1 ≠ "__oneofs__" ∧ e.1 ≠ "__reserved__" := by
  unfold specAfter
  simp [List.mem_filter]

end ParseProto

/-- C6 (amended): when `protoifyModule` (either variant) returns, the module object it
leaves behind is `fileAfter` of the one it was given: the module name and the dependency
list are as before; the tables of messages and enums have the same keys in the same order,
at every level; every message node has its module, path and name as before and its field
table filtered by `specAfter`, which keeps exactly the entries that are neither
`__oneofs__` nor `__reserved__` nor named in a oneof group; and every enum object is
changed by `remapMinusOne`, under which the property that `names["-1"]` names (a property
whose value prints as `-1`) reads `0` when `names["0"]` is falsy and that name is not
empty, and every other property reads as before. -/
theorem protoifyModule_leaves_fileAfter (c : ParseProto.WAProtoConst)
    (file : ParseProto.ProtoFile) (lines : List String) (file2 : ParseProto.ProtoFile)
    (h : ParseProto.protoifyModule c file = some (lines, file2)
      ∨ Armadillo.protoifyModule c file = some (lines, file2)) :
    file2 = ParseProto.fileAfter file
    ∧ file2.__name__ = file.__name__
    ∧ file2.dependencies = file.dependencies
    ∧ file2.messages = file.messages.map (fun e => (e.1, ParseProto.messageAfter e.2))
    ∧ file2.enums = file.enums.map (fun e => (e.1, ParseProto.remapMinusOne e.2))
    ∧ (∀ m : ParseProto.Message,
        (ParseProto.messageAfter m).__module__ = m.__module__
        ∧ (ParseProto.messageAfter m).__path__ = m.__path__
        ∧ (ParseProto.messageAfter m).__name__ = m.__name__
        ∧ (ParseProto.messageAfter m).messages
            = m.messages.map (fun e => (e.1, ParseProto.messageAfter e.2))
        ∧ (ParseProto.messageAfter m).enums
            = m.enums.map (fun e => (e.1, ParseProto.remapMinusOne e.2))
        ∧ (ParseProto.messageAfter m).message = m.message.map ParseProto.specAfter)
    ∧ (∀ (spec : ParseProto.Spec) (e : String × ParseProto.SpecValue),
        e ∈ ParseProto.specAfter spec
          ↔ e ∈ spec ∧ e.1 ∉ ParseProto.groupedNames spec
            ∧ e.1 ≠ "__oneofs__" ∧ e.1 ≠ "__reserved__")
    ∧ (∀ (enumDef : ParseProto.EnumDef) (key : String),
        JS.objGet (ParseProto.remapMinusOne enumDef) key
          = if JS.truthy (JS.objGet (ParseProto.enumNames enumDef) "0") = false
                ∧ JS.objGet (ParseProto.enumNames enumDef) "-1" = some key ∧ key ≠ "" then
              some (.num 0)
            else JS.objGet enumDef key)
    ∧ (∀ (enumDef : ParseProto.EnumDef) (key : String),
        JS.objGet (ParseProto.enumNames enumDef) "-1" = some key →
          ∃ v, (key, v) ∈ enumDef ∧ v.toStr = "-1") := by
  have hfile : file2 = ParseProto.fileAfter file := by
    rcases h with h | h
    · unfold ParseProto.protoifyModule ParseProto.protoifyChildren at h
      split at h
      · exact absurd h (by simp)
      · rename_i children f2 hc
        simp only [Option.some.injEq, Prod.mk.injEq] at h
        rw [← h.2]
        exact ParseProto.protoifyChildrenWith_snd _
          (ParseProto.renderer_protoifyEnum_snd c _) _ _ _ hc
    · unfold Armadillo.protoifyModule Armadillo.protoifyChildren at h
      split at h
      · exact absurd h (by simp)
      · rename_i children f2 hc
        simp only [Option.some.injEq, Prod.mk.injEq] at h
        rw [← h.2]
        exact ParseProto.protoifyChildrenWith_snd _
          (Armadillo.armadillo_renderer_protoifyEnum_snd c) _ _ _ hc
  refine ⟨hfile, ?_, ?_, ?_, ?_, ParseProto.messageAfter_parts, ParseProto.mem_specAfter,
    ParseProto.objGet_remapMinusOne, fun enumDef key => ParseProto.enumNames_some enumDef "-1" key⟩
  · rw [hfile]; rfl
  · rw [hfile]; rfl
  · rw [hfile]; exact ParseProto.messagesAfter_eq_map _
  · rw [hfile]; rfl

/-- C6, witness: the run on `sampleFile` returns, and leaves `B = 0` in the enum and only
the fields `left` and `kind` in the field table of `Pair`. -/
theorem protoifyModule_leaves_fileAfter_witness :
    ParseProto.protoifyModule ParseProto.sampleConst ParseProto.sampleFile
      = some (["syntax = \"proto2\";", "package WASample;",
          "option go_package = \"go.mau.fi/whatsmeow/proto/waSample\";", "",
          "import \"waCommon/WACommon.proto\";", "",
          "enum Kind \x7b", "\tA = 1;", "\tB = 0;", "\x7d", "",
          "message Pair \x7b", "\toneof choice \x7b", "\t\tstring right = 3;", "\t\x7d", "",
          "\toptional string left = 1;", "\toptional Kind kind = 2;", "\x7d", ""],
        { messages := [("Pair", .mk [] [] "WASample" [] "Pair"
            (some [("left", .field ⟨1, 14, .undef⟩),
                   ("kind", .field ⟨2, 8, .node ⟨"WASample", [], "Kind"⟩⟩)]))],
          enums := [("Kind", ParseProto.enumObject [("A", 1), ("B", 0)] "Kind" [] "WASample")],
          __name__ := "WASample",
          dependencies := ["WACommon"] }) ∧
    ({ messages := [("Pair", .mk [] [] "WASample" [] "Pair"
          (some [("left", .field ⟨1, 14, .undef⟩),
                 ("kind", .field ⟨2, 8, .node ⟨"WASample", [], "Kind"⟩⟩)]))],
        enums := [("Kind", ParseProto.enumObject [("A", 1), ("B", 0)] "Kind" [] "WASample")],
        __name__ := "WASample",
        dependencies := ["WACommon"] } : ParseProto.ProtoFile)
      = ParseProto.fileAfter ParseProto.sampleFile :=
  ⟨rfl, (protoifyModule_leaves_fileAfter ParseProto.sampleConst ParseProto.sampleFile _ _
    (Or.inl rfl)).1⟩

/-- C6, counterexample: after the run on `sampleFile` the mapping of the enum `Kind` and
the field table of the message `Pair` are not what they were before the call. -/
theorem protoifyModule_mutates_counterexample :
    (ParseProto.protoifyModule ParseProto.sampleConst ParseProto.sampleFile).map
        (fun r => r.2.enums)
      = some [("Kind", ParseProto.enumObject [("A", 1), ("B", 0)] "Kind" [] "WASample")] ∧
    (ParseProto.protoifyModule ParseProto.sampleConst ParseProto.sampleFile).map
        (fun r => r.2.enums)
      ≠ some ParseProto.sampleFile.enums ∧
    (ParseProto.protoifyModule ParseProto.sampleConst ParseProto.sampleFile).map
        (fun r => r.2.messages.map (fun e => e.2.message))
      = some [some [("left", .field ⟨1, 14, .undef⟩),
                    ("kind", .field ⟨2, 8, .node ⟨"WASample", [], "Kind"⟩⟩)]] ∧
    (ParseProto.protoifyModule ParseProto.sampleConst ParseProto.sampleFile).map
        (fun r => r.2.messages.map (fun e => e.2.message))
      ≠ some (ParseProto.sampleFile.messages.map (fun e => e.2.message)) ∧
    (Armadillo.protoifyModule ParseProto.sampleConst ParseProto.sampleFile).map
        (fun r => r.2.enums)
      ≠ some ParseProto.sampleFile.enums ∧
    (Armadillo.protoifyModule ParseProto.sampleConst ParseProto.sampleFile).map
        (fun r => r.2.messages.map (fun e => e.2.message))
      ≠ some (ParseProto.sampleFile.messages.map (fun e => e.2.message)) := by
  refine ⟨by decide, by decide, by decide, by decide, by decide, by decide⟩

/-! ## C7: the field line -/

/-- C7: `protoifyField` of `proto/parse-proto.js` equals the reference definition for every
field: it throws exactly when `fieldTypeName` throws, and otherwise returns the line
`<label> <type> <fixFieldName(name)> = <index>;` with the label of `fieldLabel` and with
` [packed=true]` before the `;` exactly when the PACKED bit is set. -/
theorem protoifyField_eq_reference (c : ParseProto.WAProtoConst) (proto3 : Bool)
    (name : String) (definition : ParseProto.FieldDef) (parentModule : String)
    (parentPath : List String) (isOneOf : Bool) :
    ParseProto.protoifyField c proto3 name definition parentModule parentPath isOneOf
      = ParseProto.protoifyFieldReference c proto3 name definition parentModule parentPath
          isOneOf := by
  unfold ParseProto.protoifyField ParseProto.protoifyFieldReference
  simp only []
  generalize ParseProto.fieldTypeName c.TYPES (some (JS.bitAnd definition.flags c.TYPE_MASK))
      definition.typeRef parentModule parentPath = result
  cases result with
  | none => rfl
  | some typeName =>
    simp only [Option.map_some', Option.some.injEq, ParseProto.fieldLine,
      ParseProto.fieldLabel, ParseProto.bitSet, bne_iff_ne, ne_eq, ite_not]
    cases isOneOf <;> cases proto3 <;>
      by_cases hr : JS.bitAnd definition.flags c.FLAGS.REPEATED = 0 <;>
      by_cases hq : JS.bitAnd definition.flags c.FLAGS.REQUIRED = 0 <;>
      by_cases hp : JS.bitAnd definition.flags c.FLAGS.PACKED = 0 <;>
      simp only [hr, hq, hp, if_true, if_false, Bool.not_false, Bool.not_true,
        Bool.false_eq_true, not_true_eq_false, not_false_eq_true, decide_True, decide_False,
        decide_not] <;>
      simp only [JS.join, List.nil_append, List.cons_append, List.singleton_append,
        String.append_assoc, String.empty_append, String.append_empty] <;>
      rfl

/-! ## C8: map types -/

namespace ParseProto

theorem primitiveTags_mem_caseLabels (TYPES : Types) (t : Int) (name : String)
    (h : (t, name) ∈ primitiveTags TYPES) :
    (t, TypeCase.primitive name) ∈ caseLabels TYPES := by
  simp only [primitiveTags, List.mem_cons, Prod.mk.injEq, List.mem_singleton,
    List.not_mem_nil, or_false] at h
  simp only [caseLabels, List.mem_cons, Prod.mk.injEq, TypeCase.primitive.injEq,
    List.mem_singleton, List.not_mem_nil, or_false, reduceCtorEq, and_false, false_or]
  tauto

theorem mapFieldTypeName_eq (TYPES : Types) (hT : TYPES.Distinct) (ref : MapRef)
    (parentModule : String) (parentPath : List String) (text : String)
    (h : mapComponentName TYPES ref parentModule parentPath = some text) :
    mapFieldTypeName TYPES ref parentModule parentPath = some (some text) := by
  cases ref with
  | obj r =>
    simp only [mapComponentName, Option.some.injEq] at h
    simp [mapFieldTypeName, fieldTypeNameLeaf,
      switchCase_reference TYPES hT TYPES.MESSAGE (Or.inr rfl), h]
  | tag t =>
    simp only [mapComponentName, Option.map_eq_some'] at h
    obtain ⟨e, he, rfl⟩ := h
    have hmem := List.mem_of_find?_eq_some he
    have ht : e.1 = t := by simpa using List.find?_some he
    have hcase := switchCase_of_mem TYPES hT t (.primitive e.2)
      (primitiveTags_mem_caseLabels TYPES t e.2 (by rw [← ht]; exact hmem))
    simp [mapFieldTypeName, fieldTypeNameLeaf, hcase]

end ParseProto

/-- C8: with pairwise different type tags, for a field whose type tag is `MAP` and whose
type reference is `[k, v]`, where `k` and `v` are each an object or a primitive type tag,
`fieldTypeName` returns `map<K, V>`; an object is rendered as `fieldTypeName` renders a
`MESSAGE` reference to it from the same declaring module and path, and a primitive tag as
`fieldTypeName` renders a field of that type, which is its primitive type name. -/
theorem fieldTypeName_map (TYPES : ParseProto.Types) (hT : TYPES.Distinct)
    (k v : ParseProto.MapRef) (parentModule : String) (parentPath : List String)
    (K V : String)
    (hk : ParseProto.mapComponentName TYPES k parentModule parentPath = some K)
    (hv : ParseProto.mapComponentName TYPES v parentModule parentPath = some V) :
    ParseProto.fieldTypeName TYPES (some TYPES.MAP) (.pair k v) parentModule parentPath
        = some (some ("map<" ++ K ++ ", " ++ V ++ ">")) ∧
    (∀ r : ParseProto.NodeRef,
      ParseProto.mapComponentName TYPES (.obj r) parentModule parentPath
          = some (ParseProto.referenceTypeName r parentModule parentPath) ∧
      ParseProto.fieldTypeName TYPES (some TYPES.MESSAGE) (.node r) parentModule parentPath
          = some (some (ParseProto.referenceTypeName r parentModule parentPath))) ∧
    (∀ (t : Int) (name : String),
      ParseProto.mapComponentName TYPES (.tag t) parentModule parentPath = some name →
        (t, name) ∈ ParseProto.primitiveTags TYPES ∧
        ParseProto.fieldTypeName TYPES (some t) .undef parentModule parentPath
          = some (some name)) := by
  refine ⟨?_, ?_, ?_⟩
  · have hcase := ParseProto.switchCase_of_mem TYPES hT TYPES.MAP .map
      (by simp [ParseProto.caseLabels])
    simp [ParseProto.fieldTypeName, hcase,
      ParseProto.mapFieldTypeName_eq TYPES hT k parentModule parentPath K hk,
      ParseProto.mapFieldTypeName_eq TYPES hT v parentModule parentPath V hv,
      ParseProto.templateString]
  · intro r
    refine ⟨rfl, ?_⟩
    simp [ParseProto.fieldTypeName, ParseProto.fieldTypeNameLeaf,
      ParseProto.switchCase_reference TYPES hT TYPES.MESSAGE (Or.inr rfl)]
  · intro t name h
    have h2 := ParseProto.mapFieldTypeName_eq TYPES hT (.tag t) parentModule parentPath name h
    simp only [ParseProto.mapComponentName, Option.map_eq_some'] at h
    obtain ⟨e, he, rfl⟩ := h
    have hmem := List.mem_of_find?_eq_some he
    have ht : e.1 = t := by simpa using List.find?_some he
    refine ⟨by rw [← ht]; exact hmem, ?_⟩
    simpa [ParseProto.mapFieldTypeName, ParseProto.fieldTypeName] using h2

/-- C8, witness: a map from `string` to the message `A.X` of another module. -/
theorem fieldTypeName_map_witness :
    ParseProto.sampleConst.TYPES.Distinct ∧
    ParseProto.mapComponentName ParseProto.sampleConst.TYPES (.tag 14) "M" ["A", "B"]
      = some "string" ∧
    ParseProto.mapComponentName ParseProto.sampleConst.TYPES (.obj ⟨"N", ["A"], "X"⟩) "M"
        ["A", "B"]
      = some "N.A.X" ∧
    ParseProto.fieldTypeName ParseProto.sampleConst.TYPES
        (some ParseProto.sampleConst.TYPES.MAP) (.pair (.tag 14) (.obj ⟨"N", ["A"], "X"⟩)) "M"
        ["A", "B"]
      = some (some ("map<" ++ "string" ++ ", " ++ "N.A.X" ++ ">")) :=
  ⟨by decide, by decide, by decide,
    (fieldTypeName_map ParseProto.sampleConst.TYPES (by decide) (.tag 14)
      (.obj ⟨"N", ["A"], "X"⟩) "M" ["A", "B"] "string" "N.A.X" (by decide) (by decide)).1⟩

/-! ## C10: oneof resolution in `extract/index.js` -/

namespace Extract

theorem findIndex_of_firstNamed (members : List Member) (value : String) (m : Member)
    (h : firstNamed members value = some m) :
    ∃ idx, findIndex members value = some idx ∧ members[idx]? = some m ∧
      members.eraseIdx idx = members.eraseP (fun m => m.name = value) := by
  induction members with
  | nil => simp [firstNamed] at h
  | cons a rest ih =>
    by_cases ha : a.name = value
    · refine ⟨0, by simp [findIndex, ha], ?_, by simp [List.eraseP_cons, ha]⟩
      simpa [firstNamed, List.find?_cons, ha] using h
    · have hrest : firstNamed rest value = some m := by
        simpa [firstNamed, List.find?_cons, ha] using h
      obtain ⟨idx, h1, h2, h3⟩ := ih hrest
      exact ⟨idx + 1, by simp [findIndex, ha, h1], by simpa using h2,
        by simp [List.eraseP_cons, ha, h3]⟩

theorem takeMember_of_firstNamed (members : List Member) (value : String) (m : Member)
    (h : firstNamed members value = some m) :
    takeMember members value = (some m, members.eraseP (fun m => m.name = value)) := by
  obtain ⟨idx, h1, h2, h3⟩ := findIndex_of_firstNamed members value m h
  simp [takeMember, h1, h2, h3]

theorem firstNamed_eraseP (members : List Member) (value other : String)
    (hne : other ≠ value) :
    firstNamed (members.eraseP (fun m => m.name = value)) other = firstNamed members other := by
  induction members with
  | nil => rfl
  | cons a rest ih =>
    by_cases ha : a.name = value
    · have hao : a.name ≠ other := fun e => hne (e.symm.trans ha)
      have hvo : ¬ value = other := fun e => hne e.symm
      simp [firstNamed, List.eraseP_cons, ha, List.find?_cons, hvo]
    · by_cases hao : a.name = other
      · have hov : ¬ other = value := hne
        simp [firstNamed, List.eraseP_cons, List.find?_cons, hao, hov]
      · simpa [firstNamed, List.eraseP_cons, ha, List.find?_cons, hao] using ih

theorem firstNamed_withoutFirst (members : List Member) (values : List String)
    (other : String) (h : other ∉ values) :
    firstNamed (withoutFirst members values) other = firstNamed members other := by
  induction values generalizing members with
  | nil => rfl
  | cons v rest ih =>
    have hv : other ≠ v := fun e => h (by simp [e])
    have hrest : other ∉ rest := fun m => h (by simp [m])
    simp only [withoutFirst, List.foldl_cons]
    have := ih (members.eraseP (fun m => m.name = v)) hrest
    simp only [withoutFirst] at this
    rw [this, firstNamed_eraseP members v other hv]

theorem withoutFirst_append (members : List Member) (a b : List String) :
    withoutFirst members (a ++ b) = withoutFirst (withoutFirst members a) b := by
  simp [withoutFirst, List.foldl_append]

theorem takeMembers_of_present (members : List Member) (values : List String)
    (hd : values.Nodup) (hp : ∀ n ∈ values, (firstNamed members n).isSome = true) :
    takeMembers members values
      = (values.map (firstNamed members), withoutFirst members values) := by
  induction values generalizing members with
  | nil => rfl
  | cons v rest ih =>
    obtain ⟨hv, hrest⟩ := List.nodup_cons.mp hd
    obtain ⟨m, hm⟩ := Option.isSome_iff_exists.mp (hp v (by simp))
    have hp2 : ∀ n ∈ rest, (firstNamed (members.eraseP (fun m => m.name = v)) n).isSome
        = true := by
      intro n hn
      have hne : n ≠ v := fun e => hv (e ▸ hn)
      rw [firstNamed_eraseP members v n hne]
      exact hp n (by simp [hn])
    have hmap : rest.map (firstNamed (members.eraseP (fun m => m.name = v)))
        = rest.map (firstNamed members) := by
      apply List.map_congr_left
      intro n hn
      exact firstNamed_eraseP members v n (fun e => hv (e ▸ hn))
    simp only [takeMembers, takeMember_of_firstNamed members v m hm, ih _ hrest hp2, hmap,
      List.map_cons, hm]
    rfl

theorem newOneOfs_of_present (members : List Member) (oneofs : List (String × List String))
    (hd : (oneofs.flatMap (fun g => g.2)).Nodup)
    (hp : ∀ n ∈ oneofs.flatMap (fun g => g.2), (firstNamed members n).isSome = true) :
    newOneOfs members oneofs
      = (oneofs.map (fun g => Member.oneof g.1 (g.2.map (firstNamed members))),
         withoutFirst members (oneofs.flatMap (fun g => g.2))) := by
  induction oneofs generalizing members with
  | nil => rfl
  | cons g rest ih =>
    obtain ⟨name, elements⟩ := g
    simp only [List.flatMap_cons] at hd hp
    obtain ⟨hd1, hd2, hdisj⟩ := List.nodup_append.mp hd
    have hp1 : ∀ n ∈ elements, (firstNamed members n).isSome = true :=
      fun n hn => hp n (List.mem_append_left _ hn)
    have hnot : ∀ n ∈ rest.flatMap (fun g => g.2), n ∉ elements :=
      fun n hn he => hdisj he hn
    have hp2 : ∀ n ∈ rest.flatMap (fun g => g.2),
        (firstNamed (withoutFirst members elements) n).isSome = true := by
      intro n hn
      rw [firstNamed_withoutFirst members elements n (hnot n hn)]
      exact hp n (List.mem_append_right _ hn)
    have hmap : rest.map (fun g => Member.oneof g.1
          (g.2.map (firstNamed (withoutFirst members elements))))
        = rest.map (fun g => Member.oneof g.1 (g.2.map (firstNamed members))) := by
      apply List.map_congr_left
      intro g hg
      congr 1
      apply List.map_congr_left
      intro n hn
      exact firstNamed_withoutFirst members elements n
        (hnot n (List.mem_flatMap.mpr ⟨g, hg, hn⟩))
    simp only [newOneOfs, takeMembers_of_present members elements hd1 hp1,
      ih _ hd2 hp2, hmap, List.map_cons, List.flatMap_cons, withoutFirst_append]

theorem withoutFirst_sublist (members : List Member) (values : List String) :
    (withoutFirst members values).Sublist members := by
  induction values generalizing members with
  | nil => exact List.Sublist.refl _
  | cons v rest ih =>
    simp only [withoutFirst, List.foldl_cons]
    exact (ih _).trans (List.eraseP_sublist _)

theorem withoutFirst_length (members : List Member) (values : List String)
    (hd : values.Nodup) (hp : ∀ n ∈ values, (firstNamed members n).isSome = true) :
    (withoutFirst members values).length + values.length = members.length := by
  induction values generalizing members with
  | nil => rfl
  | cons v rest ih =>
    obtain ⟨hv, hrest⟩ := List.nodup_cons.mp hd
    obtain ⟨m, hm⟩ := Option.isSome_iff_exists.mp (hp v (by simp))
    have hp2 : ∀ n ∈ rest, (firstNamed (members.eraseP (fun m => m.name = v)) n).isSome
        = true := by
      intro n hn
      rw [firstNamed_eraseP members v n (fun e => hv (e ▸ hn))]
      exact hp n (by simp [hn])
    have hm2 : members.find? (fun m => decide (m.name = v)) = some m := hm
    have hmem : m ∈ members := List.mem_of_find?_eq_some hm2
    have hpm : (fun m : Member => decide (m.name = v)) m = true :=
      @List.find?_some _ (fun m : Member => decide (m.name = v)) m members hm2
    have hlen : (members.eraseP (fun m => decide (m.name = v))).length = members.length - 1 :=
      List.length_eraseP_of_mem (p := fun m : Member => decide (m.name = v)) hmem hpm
    have hpos : 0 < members.length := List.length_pos_of_mem hmem
    have := ih (members.eraseP (fun m => m.name = v)) hrest hp2
    simp only [withoutFirst, List.foldl_cons, List.length_cons] at this ⊢
    omega

theorem withoutFirst_names (members : List Member) (values : List String)
    (hn : (members.map Member.name).Nodup) :
    ∀ m ∈ withoutFirst members values, m.name ∉ values := by
  induction values generalizing members with
  | nil => simp
  | cons v rest ih =>
    intro m hm
    simp only [withoutFirst, List.foldl_cons] at hm
    have hsub : (members.eraseP (fun m => m.name = v)).Sublist members :=
      List.eraseP_sublist _
    have hn2 : ((members.eraseP (fun m => m.name = v)).map Member.name).Nodup :=
      (hsub.map Member.name).nodup hn
    have h1 := ih _ hn2 m hm
    have hm2 : m ∈ members.eraseP (fun m => m.name = v) :=
      (withoutFirst_sublist _ rest).subset hm
    intro hmem
    rcases List.mem_cons.mp hmem with he | he
    · -- a member named `v` survives the erasure only if two members carry that name
      clear ih h1 hm hmem hsub hn2
      induction members with
      | nil => simp at hm2
      | cons a tail iht =>
        simp only [List.map_cons, List.nodup_cons] at hn
        by_cases ha : a.name = v
        · simp only [List.eraseP_cons, ha, decide_True, if_true] at hm2
          exact hn.1 (List.mem_map.mpr ⟨m, hm2, by rw [he, ha]⟩)
        · simp only [List.eraseP_cons, ha, decide_False] at hm2
          rcases List.mem_cons.mp hm2 with h | h
          · exact ha (h ▸ he)
          · exact iht hn.2 h
    · exact h1 he

end Extract

/-- C10: for a member list and a `__oneofs__` declaration whose member names are pairwise
distinct and all present in the list, the resolution returns the members that remain
followed by the groups; each group holds, in the order it declares, the first member of
each of its names; the members that remain are the original list without exactly those
members, in their original relative order; the number of remaining members plus the number
of grouped members is the original number; and when the names of the original members are
distinct, no remaining member carries a grouped name. -/
theorem resolveOneofs_moves_members (members : List Extract.Member)
    (oneofs : List (String × List String))
    (hd : (oneofs.flatMap (fun g => g.2)).Nodup)
    (hp : ∀ n ∈ oneofs.flatMap (fun g => g.2), ∃ m ∈ members, m.name = n) :
    Extract.resolveOneofs members oneofs
      = Extract.withoutFirst members (oneofs.flatMap (fun g => g.2))
        ++ oneofs.map (fun g =>
            Extract.Member.oneof g.1 (g.2.map (Extract.firstNamed members))) ∧
    (∀ n ∈ oneofs.flatMap (fun g => g.2),
      ∃ m, Extract.firstNamed members n = some m ∧ m ∈ members ∧ m.name = n) ∧
    (Extract.withoutFirst members (oneofs.flatMap (fun g => g.2))).Sublist members ∧
    (Extract.withoutFirst members (oneofs.flatMap (fun g => g.2))).length
        + (oneofs.flatMap (fun g => g.2)).length = members.length ∧
    ((members.map Extract.Member.name).Nodup →
      ∀ m ∈ Extract.withoutFirst members (oneofs.flatMap (fun g => g.2)),
        m.name ∉ oneofs.flatMap (fun g => g.2)) := by
  have hfound : ∀ n ∈ oneofs.flatMap (fun g => g.2),
      ∃ m, Extract.firstNamed members n = some m ∧ m ∈ members ∧ m.name = n := by
    intro n hn
    obtain ⟨m, hm, hname⟩ := hp n hn
    have hsome : (members.find? (fun m => decide (m.name = n))).isSome = true := by
      rw [List.find?_isSome]
      exact ⟨m, hm, by simp [hname]⟩
    obtain ⟨m2, hm2⟩ := Option.isSome_iff_exists.mp hsome
    refine ⟨m2, hm2, List.mem_of_find?_eq_some hm2, ?_⟩
    have := @List.find?_some _ (fun m : Extract.Member => decide (m.name = n)) m2 members hm2
    simpa using this
  have hp2 : ∀ n ∈ oneofs.flatMap (fun g => g.2),
      (Extract.firstNamed members n).isSome = true := by
    intro n hn
    obtain ⟨m, hm, _⟩ := hfound n hn
    simp [hm]
  refine ⟨?_, hfound, Extract.withoutFirst_sublist _ _,
    Extract.withoutFirst_length _ _ hd hp2, Extract.withoutFirst_names _ _⟩
  simp [Extract.resolveOneofs, Extract.newOneOfs_of_present members oneofs hd hp2]

/-- C10, witness: the members `a, b, c, d` with the groups `g = [c, a]` and `h = [d]`
become `b`, then `g` holding `c, a`, then `h` holding `d`. -/
theorem resolveOneofs_moves_members_witness :
    Extract.resolveOneofs
        [.field "a" 1 (some "string") [], .field "b" 2 (some "string") [],
         .field "c" 3 (some "string") [], .field "d" 4 (some "string") []]
        [("g", ["c", "a"]), ("h", ["d"])]
      = Extract.withoutFirst
          [.field "a" 1 (some "string") [], .field "b" 2 (some "string") [],
           .field "c" 3 (some "string") [], .field "d" 4 (some "string") []]
          ["c", "a", "d"]
        ++ [.oneof "g" [some (.field "c" 3 (some "string") []),
                        some (.field "a" 1 (some "string") [])],
            .oneof "h" [some (.field "d" 4 (some "string") [])]] ∧
    Extract.withoutFirst
        [.field "a" 1 (some "string") [], .field "b" 2 (some "string") [],
         .field "c" 3 (some "string") [], .field "d" 4 (some "string") []]
        ["c", "a", "d"]
      = [.field "b" 2 (some "string") []] :=
  ⟨(resolveOneofs_moves_members
      [.field "a" 1 (some "string") [], .field "b" 2 (some "string") [],
       .field "c" 3 (some "string") [], .field "d" 4 (some "string") []]
      [("g", ["c", "a"]), ("h", ["d"])] (by decide) (by decide)).1,
    rfl⟩

/-! ## C9: oneof groups in `protoifyMessage` -/

namespace JS

theorem objInsert_not_index {α : Type} (obj : Obj α) (key : String) (value : α)
    (h : arrayIndex key = none) : objInsert key value obj = obj ++ [(key, value)] := by
  induction obj with
  | nil => rfl
  | cons e rest ih =>
    obtain ⟨k, v⟩ := e
    simp [objInsert, h, ih]

theorem foldl_objSet_fresh {α : Type} (entries acc : List (String × α))
    (hd : ((acc ++ entries).map Prod.fst).Nodup)
    (hidx : ∀ e ∈ entries, arrayIndex e.1 = none) :
    entries.foldl (fun obj e => objSet obj e.1 e.2) acc = acc ++ entries := by
  induction entries generalizing acc with
  | nil => simp
  | cons e rest ih =>
    have habs : objGet acc e.1 = none := by
      rw [objGet_eq_none]
      intro x hx hk
      simp only [List.map_append, List.map_cons, List.nodup_append, List.nodup_cons] at hd
      exact hd.2.2 (List.mem_map.mpr ⟨x, hx, hk⟩) (by simp)
    have hset : objSet acc e.1 e.2 = acc ++ [e] := by
      simp [objSet, habs, objInsert_not_index acc e.1 e.2 (hidx e (by simp))]
    rw [List.foldl_cons, hset, ih]
    · simp
    · simpa using hd
    · exact fun x hx => hidx x (List.mem_cons_of_mem _ hx)

/-- The function `Object.fromEntries` keeps the order of entries whose keys are pairwise
distinct and none of which is an array index. -/
theorem fromEntries_of_fresh {α : Type} (entries : List (String × α))
    (hd : (entries.map Prod.fst).Nodup) (hidx : ∀ e ∈ entries, arrayIndex e.1 = none) :
    fromEntries entries = entries := by
  unfold fromEntries
  rw [foldl_objSet_fresh entries [] (by simpa using hd) hidx]
  simp

theorem objGet_filter_of_kept {α : Type} (obj : Obj α) (p : String → Bool) (key : String)
    (h : p key = true) : objGet (obj.filter (fun e => p e.1)) key = objGet obj key := by
  induction obj with
  | nil => rfl
  | cons e rest ih =>
    obtain ⟨k, v⟩ := e
    by_cases hk : k = key
    · subst hk; simp [List.filter_cons, h, objGet]
    · by_cases hp : p k = true
      · simp [List.filter_cons, hp, objGet, hk, ih]
      · simp [List.filter_cons, hp, objGet, hk, ih]

end JS

namespace ParseProto

theorem takeFields_fst (spec : Spec) (fieldNames : List String) (hd : fieldNames.Nodup) :
    (takeFields spec fieldNames).1 = fieldNames.map (fun n => (n, JS.objGet spec n)) := by
  induction fieldNames generalizing spec with
  | nil => rfl
  | cons n rest ih =>
    obtain ⟨hn, hrest⟩ := List.nodup_cons.mp hd
    simp only [takeFields, List.map_cons, ih _ hrest, List.cons.injEq, true_and]
    apply List.map_congr_left
    intro m hm
    have hne : m ≠ n := fun e => hn (e ▸ hm)
    have := JS.objGet_filter_of_kept spec (fun k => decide (k ≠ n)) m (by simp [hne])
    simp only [JS.objDelete]
    rw [this]

theorem protoifyFields_of_names (r : Renderer) (parentModule : String)
    (parentPath : List String) (spec : Spec) (fieldNames : List String) :
    protoifyFields r (fieldNames.map (fun n => (n, JS.objGet spec n))) parentModule parentPath
        true
      = JS.mapThrowing (fun fieldName =>
          protoifyEntry r parentModule parentPath true (fieldName, JS.objGet spec fieldName))
          fieldNames := by
  unfold protoifyFields
  induction fieldNames with
  | nil => rfl
  | cons n rest ih => simp [JS.mapThrowing, ih]

theorem renderGroup_filter (r : Renderer) (parentModule : String) (parentPath : List String)
    (spec : Spec) (removed : List String) (group : String × List String)
    (h : ∀ n ∈ group.2, n ∉ removed) :
    renderGroup r parentModule parentPath
        (spec.filter (fun e => decide (e.1 ∉ removed))) group
      = renderGroup r parentModule parentPath spec group := by
  unfold renderGroup
  congr 1
  have : ∀ l : List String, (∀ n ∈ l, n ∉ removed) →
      JS.mapThrowing (fun fieldName => protoifyEntry r parentModule parentPath true
          (fieldName, JS.objGet (spec.filter (fun e => decide (e.1 ∉ removed))) fieldName)) l
        = JS.mapThrowing (fun fieldName => protoifyEntry r parentModule parentPath true
          (fieldName, JS.objGet spec fieldName)) l := by
    intro l hl
    induction l with
    | nil => rfl
    | cons n rest ih =>
      have hn : n ∉ removed := hl n (by simp)
      have hget := JS.objGet_filter_of_kept spec (fun k => decide (k ∉ removed)) n
        (by simp [hn])
      simp only [JS.mapThrowing, hget, ih (fun m hm => hl m (List.mem_cons_of_mem _ hm))]
  exact this group.2 h

/-- The loop over the groups renders every group from the field table it started with. -/
theorem oneofSections_eq (r : Renderer) (parentModule : String) (parentPath : List String)
    (spec : Spec) (groups : List (String × List String))
    (hd : (groups.flatMap (fun g => g.2)).Nodup)
    (hidx : ∀ n ∈ groups.flatMap (fun g => g.2), JS.arrayIndex n = none) :
    (oneofSections r parentModule parentPath spec groups).map Prod.fst
      = JS.mapThrowing (renderGroup r parentModule parentPath spec) groups := by
  induction groups generalizing spec with
  | nil => rfl
  | cons g rest ih =>
    obtain ⟨name, fieldNames⟩ := g
    simp only [List.flatMap_cons] at hd hidx
    obtain ⟨hd1, hd2, hdisj⟩ := List.nodup_append.mp hd
    have hfresh : JS.fromEntries (fieldNames.map (fun n => (n, JS.objGet spec n)))
        = fieldNames.map (fun n => (n, JS.objGet spec n)) := by
      apply JS.fromEntries_of_fresh
      · simpa [List.map_map, Function.comp_def] using hd1
      · intro e he
        obtain ⟨n, hn, rfl⟩ := List.mem_map.mp he
        exact hidx n (List.mem_append_left _ hn)
    have hrest := ih (takeFields spec fieldNames).2 hd2
      (fun n hn => hidx n (List.mem_append_right _ hn))
    have hmap : JS.mapThrowing
          (renderGroup r parentModule parentPath (takeFields spec fieldNames).2) rest
        = JS.mapThrowing (renderGroup r parentModule parentPath spec) rest := by
      rw [takeFields_snd]
      have : ∀ l : List (String × List String), (∀ g ∈ l, ∀ n ∈ g.2, n ∉ fieldNames) →
          JS.mapThrowing (renderGroup r parentModule parentPath
              (spec.filter (fun e => decide (e.1 ∉ fieldNames)))) l
            = JS.mapThrowing (renderGroup r parentModule parentPath spec) l := by
        intro l hl
        induction l with
        | nil => rfl
        | cons g2 tail iht =>
          simp only [JS.mapThrowing,
            renderGroup_filter r parentModule parentPath spec fieldNames g2 (hl g2 (by simp)),
            iht (fun g hg => hl g (List.mem_cons_of_mem _ hg))]
      apply this
      intro g2 hg2 n hn hmem
      exact hdisj hmem (List.mem_flatMap.mpr ⟨g2, hg2, hn⟩)
    rw [hmap] at hrest
    simp only [oneofSections, takeFields_fst spec fieldNames hd1, hfresh,
      protoifyFields_of_names, JS.mapThrowing]
    have hgroup : renderGroup r parentModule parentPath spec (name, fieldNames)
        = (JS.mapThrowing (fun fieldName => protoifyEntry r parentModule parentPath true
            (fieldName, JS.objGet spec fieldName)) fieldNames).map
          (fun lines => ["oneof " ++ name ++ " \x7b"] ++ indent lines ++ ["\x7d"]) := rfl
    rw [hgroup, ← hrest]
    cases JS.mapThrowing (fun fieldName => protoifyEntry r parentModule parentPath true
        (fieldName, JS.objGet spec fieldName)) fieldNames with
    | none => rfl
    | some lines =>
      cases oneofSections r parentModule parentPath (takeFields spec fieldNames).2 rest with
      | none => rfl
      | some res => rfl

end ParseProto

namespace ParseProto

theorem fieldSections_eq (r : Renderer) (parentModule : String) (fullMessagePath : List String)
    (spec : Spec) (groups : List (String × List String))
    (hg : oneofGroups spec = some groups)
    (hd : (groups.flatMap (fun g => g.2)).Nodup)
    (hidx : ∀ n ∈ groups.flatMap (fun g => g.2), JS.arrayIndex n = none) :
    (fieldSections r parentModule fullMessagePath spec).map Prod.fst
      = match JS.mapThrowing (renderGroup r parentModule fullMessagePath spec) groups,
            protoifyFields r ((specAfter spec).map (fun e => (e.1, some e.2))) parentModule
              fullMessagePath false with
        | some oneofBlocks, some flat => some (oneofBlocks ++ [flat])
        | _, _ => none := by
  have hone := oneofSections_eq r parentModule fullMessagePath spec groups hd hidx
  rw [← hone]
  cases hs : oneofSections r parentModule fullMessagePath spec groups with
  | none => simp [fieldSections, hg, hs]
  | some res =>
    obtain ⟨sections, s3⟩ := res
    have hafter : JS.objDelete (JS.objDelete s3 "__oneofs__") "__reserved__" = specAfter spec := by
      cases hp : protoifyFields r
          ((JS.objDelete (JS.objDelete s3 "__oneofs__") "__reserved__").map
            (fun e => (e.1, some e.2))) parentModule fullMessagePath false with
      | none =>
        -- the shape of the table does not depend on whether the fields can be rendered
        have hs3 := oneofSections_snd r _ _ _ _ _ _ hs
        have hgn : groupedNames spec = groups.flatMap (fun g => g.2) := by
          unfold oneofGroups at hg
          unfold groupedNames
          split at hg
          · rename_i hnone
            simp only [Option.some.injEq] at hg
            simp [hnone, ← hg]
          · rename_i g2 hsome
            simp only [Option.some.injEq] at hg
            simp [hsome, hg]
          · exact absurd hg (by simp)
        rw [hs3, specAfter, hgn]
        simp only [JS.objDelete, List.filter_filter]
        apply List.filter_congr
        intro e _
        by_cases h1 : e.1 = "__oneofs__" <;> by_cases h2 : e.1 = "__reserved__" <;>
          simp [h1, h2, Bool.and_comm]
      | some lines =>
        exact fieldSections_snd r parentModule fullMessagePath spec (sections ++ [lines]) _
          (by simp [fieldSections, hg, hs, hp])
    simp only [fieldSections, hg, hs, hafter, Option.map_some']
    cases protoifyFields r ((specAfter spec).map (fun e => (e.1, some e.2))) parentModule
        fullMessagePath false <;> rfl

theorem protoifyMessageWith_eq_reference (r : Renderer) (messages : List (String × Message))
    (enums : JS.Obj EnumDef) (module : String) (path : List String) (name : String)
    (spec : Spec) (groups : List (String × List String))
    (hg : oneofGroups spec = some groups)
    (hd : (groups.flatMap (fun g => g.2)).Nodup)
    (hidx : ∀ n ∈ groups.flatMap (fun g => g.2), JS.arrayIndex n = none) :
    (protoifyMessageWith r (.mk messages enums module path name (some spec))).map Prod.fst
      = messageLinesReference r messages enums module path name spec groups := by
  have hf := fieldSections_eq r module (path ++ [name]) spec groups hg hd hidx
  unfold messageLinesReference
  simp only [protoifyMessageWith]
  cases protoifyEnums r enums with
  | none => rfl
  | some eres =>
    obtain ⟨enumBlocks, enums2⟩ := eres
    cases protoifyMessagesWith r messages with
    | none => rfl
    | some mres =>
      obtain ⟨messageBlocks, messages2⟩ := mres
      simp only []
      cases hfs : fieldSections r module (path ++ [name]) spec with
      | none =>
        rw [hfs] at hf
        simp only [Option.map_none'] at hf
        split at hf
        · exact absurd hf (by simp)
        · rename_i hno
          simp only [Option.map_none']
          split
          · rename_i h1 h2
            exact absurd h2 (hno _ _ h1)
          · rfl
      | some fres =>
        obtain ⟨sections, spec2⟩ := fres
        rw [hfs] at hf
        simp only [Option.map_some'] at hf
        split at hf
        · rename_i oneofBlocks flat h1 h2
          simp only [Option.some.injEq] at hf
          simp only [Option.map_some', h1, h2, hf, List.singleton_append, List.cons_append,
            List.nil_append]
        · exact absurd hf (by simp)

end ParseProto

/-- C9 (amended): for a message with a field table whose `__oneofs__` groups name pairwise
distinct fields none of which has an integer-like name (an array index), `protoifyMessage`
(either variant) throws exactly when a child, a named entry or a remaining entry cannot be
rendered, and otherwise returns the header, then, separated by blank lines, the nested
children, one `oneof <group>` block per group holding one line per name the group lists,
in the order it lists them, and the fields no group names in their original order. -/
theorem protoifyMessage_oneof_sections (c : ParseProto.WAProtoConst) (proto3 : Bool)
    (messages : List (String × ParseProto.Message)) (enums : JS.Obj ParseProto.EnumDef)
    (module : String) (path : List String) (name : String) (spec : ParseProto.Spec)
    (groups : List (String × List String))
    (hg : ParseProto.oneofGroups spec = some groups)
    (hd : (groups.flatMap (fun g => g.2)).Nodup)
    (hidx : ∀ n ∈ groups.flatMap (fun g => g.2), JS.arrayIndex n = none) :
    (ParseProto.protoifyMessage c (.mk messages enums module path name (some spec))
        proto3).map Prod.fst
      = ParseProto.messageLinesReference (ParseProto.renderer c proto3) messages enums module
          path name spec groups ∧
    (Armadillo.protoifyMessage c (.mk messages enums module path name (some spec))).map
        Prod.fst
      = ParseProto.messageLinesReference (Armadillo.renderer c) messages enums module path
          name spec groups :=
  ⟨ParseProto.protoifyMessageWith_eq_reference _ messages enums module path name spec groups
      hg hd hidx,
   ParseProto.protoifyMessageWith_eq_reference _ messages enums module path name spec groups
      hg hd hidx⟩

/-- C9, witness: in the message `Pair` the group `choice` holds `right`, and the fields
`left` and `kind` follow in their original order. -/
theorem protoifyMessage_oneof_sections_witness :
    (ParseProto.protoifyMessage ParseProto.sampleConst ParseProto.sampleMessage false).map
        Prod.fst
      = some ["message Pair \x7b", "\toneof choice \x7b", "\t\tstring right = 3;", "\t\x7d", "",
          "\toptional string left = 1;", "\toptional Kind kind = 2;", "\x7d"] ∧
    ((ParseProto.protoifyMessage ParseProto.sampleConst
          (.mk [] [] "WASample" [] "Pair"
            (some [("left", .field ⟨1, 14, .undef⟩),
                   ("kind", .field ⟨2, 8, .node ⟨"WASample", [], "Kind"⟩⟩),
                   ("right", .field ⟨3, 14, .undef⟩),
                   ("__oneofs__", .oneofs [("choice", ["right"])]),
                   ("__reserved__", .reserved)]))
          false).map Prod.fst
      = ParseProto.messageLinesReference (ParseProto.renderer ParseProto.sampleConst false)
          [] [] "WASample" [] "Pair"
          [("left", .field ⟨1, 14, .undef⟩),
           ("kind", .field ⟨2, 8, .node ⟨"WASample", [], "Kind"⟩⟩),
           ("right", .field ⟨3, 14, .undef⟩),
           ("__oneofs__", .oneofs [("choice", ["right"])]),
           ("__reserved__", .reserved)]
          [("choice", ["right"])] ∧
    (Armadillo.protoifyMessage ParseProto.sampleConst
          (.mk [] [] "WASample" [] "Pair"
            (some [("left", .field ⟨1, 14, .undef⟩),
                   ("kind", .field ⟨2, 8, .node ⟨"WASample", [], "Kind"⟩⟩),
                   ("right", .field ⟨3, 14, .undef⟩),
                   ("__oneofs__", .oneofs [("choice", ["right"])]),
                   ("__reserved__", .reserved)]))).map Prod.fst
      = ParseProto.messageLinesReference (Armadillo.renderer ParseProto.sampleConst)
          [] [] "WASample" [] "Pair"
          [("left", .field ⟨1, 14, .undef⟩),
           ("kind", .field ⟨2, 8, .node ⟨"WASample", [], "Kind"⟩⟩),
           ("right", .field ⟨3, 14, .undef⟩),
           ("__oneofs__", .oneofs [("choice", ["right"])]),
           ("__reserved__", .reserved)]
          [("choice", ["right"])]) :=
  ⟨by decide,
    protoifyMessage_oneof_sections ParseProto.sampleConst false [] [] "WASample" [] "Pair"
      [("left", .field ⟨1, 14, .undef⟩),
       ("kind", .field ⟨2, 8, .node ⟨"WASample", [], "Kind"⟩⟩),
       ("right", .field ⟨3, 14, .undef⟩),
       ("__oneofs__", .oneofs [("choice", ["right"])]),
       ("__reserved__", .reserved)]
      [("choice", ["right"])] (by decide) (by decide) (by decide)⟩

/-- C9, counterexample: a field table with the fields `1` and `2` and the group `g`
declaring `2`, then `1`.  The object built by `Object.fromEntries` enumerates the
integer-like keys in ascending order, so the block holds the line of `1` before the line
of `2`, which is not the order the group declares. -/
theorem protoifyMessage_oneof_order_counterexample :
    (ParseProto.protoifyMessage ParseProto.sampleConst
        (.mk [] [] "WASample" [] "M"
          (some [("1", .field ⟨1, 14, .undef⟩), ("2", .field ⟨2, 14, .undef⟩),
                 ("__oneofs__", .oneofs [("g", ["2", "1"])])]))
        false).map Prod.fst
      = some ["message M \x7b", "\toneof g \x7b", "\t\tstring 1 = 1;", "\t\tstring 2 = 2;",
          "\t\x7d", "\x7d"] ∧
    ParseProto.messageLinesReference (ParseProto.renderer ParseProto.sampleConst false)
        [] [] "WASample" [] "M"
        [("1", .field ⟨1, 14, .undef⟩), ("2", .field ⟨2, 14, .undef⟩),
         ("__oneofs__", .oneofs [("g", ["2", "1"])])]
        [("g", ["2", "1"])]
      = some ["message M \x7b", "\toneof g \x7b", "\t\tstring 2 = 2;", "\t\tstring 1 = 1;",
          "\t\x7d", "\x7d"] := by
  refine ⟨by decide, by decide⟩

/-! ## C3: a reference to a node of another module -/

namespace JS

theorem replaceFirstChars_pb (ys : List Char) (h : ¬ ['.', 'p', 'b'] <:+: ys) :
    replaceFirstChars ['.', 'p', 'b'] [] (fun _ => true) (ys ++ ['.', 'p', 'b']) = ys := by
  induction ys with
  | nil => simp [replaceFirstChars, List.isPrefixOf]
  | cons c cs ih =>
    have hcs : ¬ ['.', 'p', 'b'] <:+: cs := fun hi => h (hi.trans (List.suffix_cons c cs).isInfix)
    have hpre : List.isPrefixOf ['.', 'p', 'b'] (c :: (cs ++ ['.', 'p', 'b'])) = false := by
      match cs, h with
      | [], _ => simp [List.isPrefixOf]
      | [x], _ => simp [List.isPrefixOf]
      | x :: y :: zs, h =>
        by_contra hp
        simp only [Bool.not_eq_false] at hp
        simp only [List.cons_append, List.isPrefixOf, Bool.and_eq_true, beq_iff_eq,
          Bool.and_true] at hp
        obtain ⟨rfl, rfl, rfl⟩ := hp
        exact h ((List.prefix_append ['.', 'p', 'b'] zs).isInfix)
    rw [List.cons_append, replaceFirstChars, hpre]
    simp only [Bool.false_and, Bool.false_eq_true, if_false, List.cons.injEq, true_and]
    exact ih hcs

theorem endsWith_append (s suf : String) : endsWith (s ++ suf) suf = true := by
  simp [endsWith, String.data_append, List.isSuffixOf, List.reverse_append]

end JS

namespace ParseProto

/-- Removing the first `.pb` of `Y.pb` gives `Y` when `Y` itself contains no `.pb`. -/
theorem renameModule_append_pb (Y : String) (h : ¬ ".pb".data <:+: Y.data) :
    renameModule (Y ++ ".pb") = Y := by
  unfold renameModule JS.replace
  have hpb : ".pb".data = ['.', 'p', 'b'] := rfl
  have hempty : "".data = [] := rfl
  rw [hpb] at h
  rw [String.data_append, hpb, hempty, JS.replaceFirstChars_pb Y.data h]

theorem mem_renameDependencies (registered : List String) (Y : String)
    (hY : (Y ++ ".pb") ∈ registered) (h : ¬ ".pb".data <:+: Y.data) :
    Y ∈ renameDependencies registered := by
  unfold renameDependencies
  rw [List.mem_map]
  refine ⟨Y ++ ".pb", ?_, renameModule_append_pb Y h⟩
  rw [List.mem_filter]
  exact ⟨hY, JS.endsWith_append Y ".pb"⟩

theorem importLine_mem_moduleHeader (file : ProtoFile) (Y : String)
    (h : Y ∈ file.dependencies) : importLine Y ∈ moduleHeader file := by
  unfold moduleHeader importLines
  apply List.mem_append_right
  have hlen : file.dependencies.length > 0 := List.length_pos_of_mem h
  rw [if_pos hlen]
  apply List.mem_append_left
  exact List.mem_map.mpr ⟨Y, h, rfl⟩

theorem moduleHeader_fileAfter (file : ProtoFile) :
    moduleHeader (fileAfter file) = moduleHeader file := rfl

/-- Every output of `protoifyModule` starts with the header of the module. -/
theorem moduleHeader_prefix (c : WAProtoConst) (file : ProtoFile) (lines : List String)
    (file2 : ProtoFile) (h : protoifyModule c file = some (lines, file2)) :
    moduleHeader file <+: lines := by
  unfold protoifyModule protoifyChildren at h
  split at h
  · exact absurd h (by simp)
  · rename_i children f2 hc
    simp only [Option.some.injEq, Prod.mk.injEq] at h
    have h2 := protoifyChildrenWith_snd _ (renderer_protoifyEnum_snd c _) _ _ _ hc
    rw [← h.1, h2, moduleHeader_fileAfter]
    exact List.prefix_append _ _

end ParseProto

/-- C3 (amended): for a field of a message in module `X` whose type is a node `T` with
`T.__module__ = Y` different from `X`, `fieldTypeName` returns `Y`, then every segment of
`T.__path__`, then `T.__name__`, joined by `.`, whatever the declaring path is; and when
`Y.pb` is in the registered dependency list of `X` and `Y` itself contains no `.pb`, the
header of `protoifyModule`, with which every returned output starts, contains the line
`import "<goPackageName(Y)>/Y.proto";`. -/
theorem fieldTypeName_cross_module (c : ParseProto.WAProtoConst) (hT : c.TYPES.Distinct)
    (typeID : Int) (hID : typeID = c.TYPES.ENUM ∨ typeID = c.TYPES.MESSAGE)
    (T : ParseProto.NodeRef) (X : String) (hX : T.__module__ ≠ X) (P : List String)
    (file : ParseProto.ProtoFile) (registered : List String)
    (hdeps : file.dependencies = ParseProto.renameDependencies registered)
    (hY : (T.__module__ ++ ".pb") ∈ registered)
    (hpb : ¬ ".pb".data <:+: T.__module__.data) :
    ParseProto.fieldTypeName c.TYPES (some typeID) (.node T) X P
      = some (some (JS.join "." ([T.__module__] ++ T.__path__ ++ [T.__name__]))) ∧
    ParseProto.importLine T.__module__ ∈ ParseProto.moduleHeader file ∧
    (∀ lines file2, ParseProto.protoifyModule c file = some (lines, file2) →
      ParseProto.moduleHeader file <+: lines) := by
  refine ⟨?_, ?_, ?_⟩
  · simp [ParseProto.fieldTypeName, ParseProto.fieldTypeNameLeaf,
      ParseProto.switchCase_reference c.TYPES hT typeID hID, ParseProto.referenceTypeName,
      ParseProto.namePath, hX]
  · apply ParseProto.importLine_mem_moduleHeader
    rw [hdeps]
    exact ParseProto.mem_renameDependencies registered _ hY hpb
  · intro lines file2 h
    exact ParseProto.moduleHeader_prefix c file lines file2 h

/-- C3, witness: a field of `WASample` referring to `MessageKey` of `WACommon` is rendered
`WACommon.MessageKey`, and the header of `sampleFile`, whose registered dependencies are
`WACommon.pb` and `WAProtoConst`, imports `WACommon`. -/
theorem fieldTypeName_cross_module_witness :
    ParseProto.fieldTypeName ParseProto.sampleConst.TYPES (some 9)
        (.node ⟨"WACommon", [], "MessageKey"⟩) "WASample" ["Pair"]
      = some (some "WACommon.MessageKey") ∧
    "import \"waCommon/WACommon.proto\";" ∈ ParseProto.moduleHeader ParseProto.sampleFile ∧
    (ParseProto.fieldTypeName ParseProto.sampleConst.TYPES (some 9)
        (.node ⟨"WACommon", [], "MessageKey"⟩) "WASample" ["Pair"]
      = some (some (JS.join "." (["WACommon"] ++ [] ++ ["MessageKey"]))) ∧
    ParseProto.importLine "WACommon" ∈ ParseProto.moduleHeader ParseProto.sampleFile ∧
    (∀ lines file2,
      ParseProto.protoifyModule ParseProto.sampleConst ParseProto.sampleFile
          = some (lines, file2) →
        ParseProto.moduleHeader ParseProto.sampleFile <+: lines)) :=
  ⟨by decide, by decide,
    fieldTypeName_cross_module ParseProto.sampleConst (by decide) 9 (Or.inr rfl)
      ⟨"WACommon", [], "MessageKey"⟩ "WASample" (by decide) ["Pair"] ParseProto.sampleFile
      ["WACommon.pb", "WAProtoConst"] (by decide) (by decide) (by decide)⟩

/-- C3, counterexample: for `Y = A.pbB` the registered dependency `Y.pb` is renamed to
`AB.pb`, because `renameModule` removes the first `.pb`; the header imports `AB.pb` and
does not contain the import line of `Y`. -/
theorem importLine_counterexample :
    ("A.pbB" ++ ".pb") ∈ ["A.pbB.pb"] ∧
    ParseProto.renameDependencies ["A.pbB.pb"] = ["AB.pb"] ∧
    ParseProto.moduleHeader
        { messages := [], enums := [], __name__ := "X",
          dependencies := ParseProto.renameDependencies ["A.pbB.pb"] }
      = ["syntax = \"proto2\";", "package X;",
         "option go_package = \"go.mau.fi/whatsmeow/proto/X\";", "",
         "import \"AB.pb/AB.pb.proto\";", ""] ∧
    ParseProto.importLine "A.pbB" = "import \"A.pbB/A.pbB.proto\";" ∧
    ParseProto.importLine "A.pbB" ∉ ParseProto.moduleHeader
        { messages := [], enums := [], __name__ := "X",
          dependencies := ParseProto.renameDependencies ["A.pbB.pb"] } := by
  refine ⟨by decide, by decide, by decide, by decide, by decide⟩

/-! ## C2: validity of the emitted name -/

namespace ParseProto

theorem childMessage_declared (messages : List (String × Message)) (enums : JS.Obj EnumDef)
    (name : String) (m : Message) (h : childMessage messages name = some m) :
    name ∈ declaredNames messages enums := by
  unfold childMessage at h
  obtain ⟨e, he, rfl⟩ := Option.map_eq_some'.mp h
  have hmem := List.mem_of_find?_eq_some he
  have hname : e.2.__name__ = name := by
    have := @List.find?_some _ (fun e : String × Message => decide (e.2.__name__ = name)) e
      messages he
    simpa using this
  unfold declaredNames
  exact List.mem_append_left _ (List.mem_map.mpr ⟨e, hmem, hname⟩)

/-- A scope that exists has every scope along its path, and each declares the next
segment. -/
theorem scopeAt_append_cons (messages : List (String × Message)) (enums : JS.Obj EnumDef)
    (a : List String) (n : String) (b : List String)
    (h : (scopeAt messages enums (a ++ n :: b)).isSome = true) :
    ∃ ms es, scopeAt messages enums a = some (ms, es) ∧ n ∈ declaredNames ms es := by
  induction a generalizing messages enums with
  | nil =>
    refine ⟨messages, enums, rfl, ?_⟩
    simp only [List.nil_append, scopeAt] at h
    cases hc : childMessage messages n with
    | none => simp [hc] at h
    | some m => exact childMessage_declared messages enums n m hc
  | cons x rest ih =>
    simp only [List.cons_append, scopeAt] at h ⊢
    cases hc : childMessage messages x with
    | none => simp [hc] at h
    | some m =>
      simp only [hc] at h ⊢
      exact ih m.messages m.enums h

theorem declares_take (file : ProtoFile) (path : List String) (name : String)
    (h : declares file path name = true) (k : Nat) (first : String)
    (hfirst : (path.drop k ++ [name]).head? = some first) :
    declares file (path.take k) first = true := by
  by_cases hk : k < path.length
  · -- the first component is the segment of the path at position `k`
    have hsplit : path = path.take k ++ first :: path.drop (k + 1) := by
      have hd : path.drop k = path[k] :: path.drop (k + 1) := List.drop_eq_getElem_cons hk
      rw [hd] at hfirst
      simp only [List.cons_append, List.head?_cons, Option.some.injEq] at hfirst
      rw [← hfirst, ← hd, List.take_append_drop]
    have hsome : (scopeAt file.messages file.enums path).isSome = true := by
      unfold declares at h
      cases hs : scopeAt file.messages file.enums path with
      | none => simp [hs] at h
      | some _ => rfl
    rw [hsplit] at hsome
    obtain ⟨ms, es, hs, hmem⟩ := scopeAt_append_cons _ _ _ _ _ hsome
    simp [declares, hs, hmem]
  · have hk2 : path.length ≤ k := Nat.le_of_not_lt hk
    rw [List.drop_eq_nil_of_le hk2] at hfirst
    simp only [List.nil_append, List.head?_cons, Option.some.injEq] at hfirst
    rw [List.take_of_length_le hk2, ← hfirst]
    exact h

theorem resolveFrom_of_unshadowed (file : ProtoFile) (scope : List String) (first : String)
    (rest : List String) (k : Nat)
    (hdecl : declares file (scope.take k) first = true)
    (hden : denotes file (scope.take k ++ first :: rest) = true) :
    ∀ depth, k ≤ depth →
      (∀ j, k < j → j ≤ depth → declares file (scope.take j) first = false) →
      resolveFrom file scope first rest depth = some (scope.take k ++ first :: rest) := by
  intro depth
  induction depth with
  | zero =>
    intro hk _
    have hk0 : k = 0 := Nat.le_zero.mp hk
    subst hk0
    simp only [List.take_zero, List.nil_append] at hdecl hden
    simp [resolveFrom, hdecl, hden]
  | succ d ih =>
    intro hk hshadow
    by_cases hkd : k = d + 1
    · subst hkd
      simp [resolveFrom, hdecl, hden]
    · have hlt : k < d + 1 := Nat.lt_of_le_of_ne hk hkd
      have hno := hshadow (d + 1) hlt (Nat.le_refl _)
      simp only [resolveFrom, hno, Bool.false_eq_true, if_false]
      exact ih (Nat.le_of_lt_succ hlt) (fun j h1 h2 => hshadow j h1 (Nat.le_succ_of_le h2))

end ParseProto

/-- C2 (amended): let `T` be a node declared in the file at its recorded place
`T.__path__ ++ [T.__name__]`, with no `.` in these segments, and let a message with full
path `P` of the same module refer to it.  If no scope on `P` deeper than the common leading
part of `P` and `T.__path__` declares a name equal to the first component of the emitted
name, then looking the emitted name up from the scope of the message, innermost scope
first, denotes exactly `T`. -/
theorem emitted_name_resolves (TYPES : ParseProto.Types) (hT : TYPES.Distinct)
    (typeID : Int) (hID : typeID = TYPES.ENUM ∨ typeID = TYPES.MESSAGE)
    (file : ParseProto.ProtoFile) (P : List String) (T : ParseProto.NodeRef)
    (hdot : ∀ s ∈ T.__path__ ++ [T.__name__], '.' ∉ s.data)
    (hdecl : ParseProto.denotes file (T.__path__ ++ [T.__name__]) = true)
    (hshadow : ∀ j first,
      (T.__path__.drop (ParseProto.pathStartIndex P T.__path__) ++ [T.__name__]).head?
          = some first →
      ParseProto.pathStartIndex P T.__path__ < j → j ≤ P.length →
      ParseProto.declares file (P.take j) first = false) :
    ∃ emitted,
      ParseProto.fieldTypeName TYPES (some typeID) (.node T) T.__module__ P
        = some (some emitted) ∧
      ParseProto.resolveName file P emitted = some (T.__path__ ++ [T.__name__]) := by
  refine ⟨JS.join "." (T.__path__.drop (ParseProto.pathStartIndex P T.__path__)
    ++ [T.__name__]), ?_, ?_⟩
  · simp [ParseProto.fieldTypeName, ParseProto.fieldTypeNameLeaf,
      ParseProto.switchCase_reference TYPES hT typeID hID, ParseProto.referenceTypeName,
      ParseProto.namePath]
  · have hsplit : JS.split '.' (JS.join "."
        (T.__path__.drop (ParseProto.pathStartIndex P T.__path__) ++ [T.__name__]))
        = T.__path__.drop (ParseProto.pathStartIndex P T.__path__) ++ [T.__name__] := by
      apply JS.split_join _ (by simp)
      intro s hs
      apply hdot
      rcases List.mem_append.mp hs with h | h
      · exact List.mem_append_left _ (List.mem_of_mem_drop h)
      · exact List.mem_append_right _ h
    obtain ⟨first, rest, hcomps⟩ : ∃ first rest,
        T.__path__.drop (ParseProto.pathStartIndex P T.__path__) ++ [T.__name__]
          = first :: rest := by
      cases hd : T.__path__.drop (ParseProto.pathStartIndex P T.__path__) with
      | nil => exact ⟨T.__name__, [], rfl⟩
      | cons x xs => exact ⟨x, xs ++ [T.__name__], rfl⟩
    have hfirst : (T.__path__.drop (ParseProto.pathStartIndex P T.__path__)
        ++ [T.__name__]).head? = some first := by rw [hcomps]; rfl
    have hfull : P.take (ParseProto.pathStartIndex P T.__path__) ++ first :: rest
        = T.__path__ ++ [T.__name__] := by
      rw [← hcomps, ParseProto.pathStartIndex_take, ← List.append_assoc,
        List.take_append_drop]
    have hdeclT : ParseProto.declares file T.__path__ T.__name__ = true := by
      simpa [ParseProto.denotes] using hdecl
    have hd1 : ParseProto.declares file
        (P.take (ParseProto.pathStartIndex P T.__path__)) first = true := by
      rw [ParseProto.pathStartIndex_take]
      exact ParseProto.declares_take file T.__path__ T.__name__ hdeclT _ first hfirst
    have hres := ParseProto.resolveFrom_of_unshadowed file P first rest
      (ParseProto.pathStartIndex P T.__path__) hd1 (by rw [hfull]; exact hdecl) P.length
      (ParseProto.pathStartIndex_le_left P T.__path__)
      (fun j h1 h2 => hshadow j first hfirst h1 h2)
    unfold ParseProto.resolveName
    rw [hsplit, hcomps]
    simp only []
    rw [hres, hfull]

/-- C2, witness: in `shadowFile` a field of message `A` (full path `A`) referring to the
message `X` of `A` is rendered `X`, which looked up from `A` denotes `A.X`. -/
theorem emitted_name_resolves_witness :
    ParseProto.resolveName ParseProto.shadowFile ["A"] "X" = some ["A", "X"] ∧
    ∃ emitted,
      ParseProto.fieldTypeName ParseProto.sampleConst.TYPES (some 9)
          (.node ⟨"M", ["A"], "X"⟩) "M" ["A"]
        = some (some emitted) ∧
      ParseProto.resolveName ParseProto.shadowFile ["A"] emitted
        = some (["A"] ++ ["X"]) :=
  ⟨by decide,
    emitted_name_resolves ParseProto.sampleConst.TYPES (by decide) 9 (Or.inr rfl)
      ParseProto.shadowFile ["A"] ⟨"M", ["A"], "X"⟩ (by decide) (by decide)
      (by
        intro j first _ h1 h2
        have hk : ParseProto.pathStartIndex ["A"] ["A"] = 1 := by decide
        rw [hk] at h1
        simp only [List.length_singleton] at h2
        omega)⟩

/-- C2, counterexample: in `shadowFile` the field `f` of message `A.B` refers to the
message `X` of `A`; its type is rendered `X`, and `A.B` declares a message `X` of its own,
so the emitted name looked up from the scope of `A.B` denotes `A.B.X`, not `A.X`. -/
theorem emitted_name_shadowed_counterexample :
    ParseProto.denotes ParseProto.shadowFile ["A", "X"] = true ∧
    ParseProto.fieldTypeName ParseProto.sampleConst.TYPES
        (some ParseProto.sampleConst.TYPES.MESSAGE) (.node ⟨"M", ["A"], "X"⟩) "M" ["A", "B"]
      = some (some "X") ∧
    (ParseProto.protoifyModule ParseProto.sampleConst ParseProto.shadowFile).map Prod.fst
      = some ["syntax = \"proto2\";", "package M;",
          "option go_package = \"go.mau.fi/whatsmeow/proto/M\";", "",
          "message A \x7b", "\tmessage X \x7b", "\t\x7d", "", "\tmessage B \x7b",
          "\t\tmessage X \x7b", "\t\t\x7d", "", "\t\toptional X f = 1;", "\t\x7d", "\x7d", ""] ∧
    ParseProto.resolveName ParseProto.shadowFile ["A", "B"] "X" = some ["A", "B", "X"] ∧
    ParseProto.resolveName ParseProto.shadowFile ["A", "B"] "X" ≠ some ["A", "X"] := by
  refine ⟨by decide, by decide, by decide, by decide, by decide⟩

/-! ## C15: blank lines between sibling blocks -/

namespace ParseProto

theorem flatMap_pairs_filter (items : List (List String)) :
    items.flatMap (fun item => if item.length > 0 then [item, [""]] else [])
      = (items.filter (fun b => decide (b ≠ []))).flatMap (fun b => [b, [""]]) := by
  induction items with
  | nil => rfl
  | cons b rest ih =>
    cases b with
    | nil => simpa using ih
    | cons x xs => simp [ih]

theorem dropLast_pairs (first : List String) (rest : List (List String)) :
    ((first :: rest).flatMap (fun b => [b, [""]])).dropLast
      = first :: rest.flatMap (fun b => [[""], b]) := by
  induction rest generalizing first with
  | nil => rfl
  | cons b rest ih =>
    have h := ih b
    simp only [List.flatMap_cons, List.cons_append, List.nil_append] at h ⊢
    rw [List.dropLast_cons₂, List.dropLast_cons₂, h]

theorem flatten_separators (rest : List (List String)) :
    (rest.flatMap (fun b => [[""], b])).flatMap (fun item => item)
      = rest.flatMap (fun b => "" :: b) := by
  induction rest with
  | nil => rfl
  | cons b rest ih => simp [ih]

theorem flattenWithBlankLines_eq (items : List (List String)) :
    flattenWithBlankLines items
      = match items.filter (fun b => decide (b ≠ [])) with
        | [] => []
        | first :: rest => first ++ rest.flatMap (fun b => "" :: b) := by
  unfold flattenWithBlankLines
  rw [flatMap_pairs_filter]
  cases h : items.filter (fun b => decide (b ≠ [])) with
  | nil => rfl
  | cons first rest =>
    rw [dropLast_pairs]
    simp only [List.flatMap_cons, flatten_separators]

theorem length_separated (rest : List (List String)) :
    ((rest.flatMap (fun b => "" :: b)).length : Int)
      = ((rest.map (fun b => (b.length : Int))).sum) + rest.length := by
  induction rest with
  | nil => rfl
  | cons b rest ih =>
    simp only [List.flatMap_cons, List.length_append, List.length_cons, List.map_cons,
      List.sum_cons, Nat.cast_add, Nat.cast_one, ih]
    ring

end ParseProto

/-- C15 (`flattenWithBlankLines`, the same text in both variants): the result is the
non-empty blocks in order, the first one as it is and every later one preceded by exactly one
empty line, and the empty list when no block is non-empty; so with at least one non-empty
block its length is the sum of their lengths plus their count minus one. -/
theorem flattenWithBlankLines_separates (items : List (List String)) :
    ParseProto.flattenWithBlankLines items
        = (match items.filter (fun b => decide (b ≠ [])) with
          | [] => []
          | first :: rest => first ++ rest.flatMap (fun b => "" :: b))
    ∧ ((ParseProto.flattenWithBlankLines items).length : Int)
        = (match items.filter (fun b => decide (b ≠ [])) with
          | [] => 0
          | first :: rest =>
            ((first :: rest).map (fun b => (b.length : Int))).sum
              + (((first :: rest).length : Int) - 1)) := by
  refine ⟨ParseProto.flattenWithBlankLines_eq items, ?_⟩
  rw [ParseProto.flattenWithBlankLines_eq]
  cases items.filter (fun b => decide (b ≠ [])) with
  | nil => rfl
  | cons first rest =>
    simp only [List.length_append, Nat.cast_add, ParseProto.length_separated, List.map_cons,
      List.sum_cons, List.length_cons, Nat.cast_one]
    ring

/-! ## Replacement of the first match -/

namespace JS

theorem replaceFirstChars_of_no_match (pat rep : List Char) (after : List Char → Bool)
    (hpat : pat ≠ []) (l : List Char) (h : ∀ k, matchesAt pat after l k = false) :
    replaceFirstChars pat rep after l = l := by
  induction l with
  | nil =>
    cases pat with
    | nil => exact absurd rfl hpat
    | cons p ps => simp [replaceFirstChars]
  | cons c cs ih =>
    have h0 := h 0
    simp only [matchesAt, List.drop_zero, Nat.zero_add] at h0
    rw [replaceFirstChars, if_neg (by simp [h0])]
    congr 1
    apply ih
    intro k
    have hk := h (k + 1)
    simpa [matchesAt, Nat.add_right_comm] using hk

theorem replaceFirstChars_of_first_match (pat rep : List Char) (after : List Char → Bool)
    (hpat : pat ≠ []) (l : List Char) (k : Nat) (hk : matchesAt pat after l k = true)
    (hmin : ∀ j, j < k → matchesAt pat after l j = false) :
    replaceFirstChars pat rep after l = l.take k ++ rep ++ l.drop (k + pat.length) := by
  induction l generalizing k with
  | nil =>
    cases pat with
    | nil => exact absurd rfl hpat
    | cons p ps => simp [matchesAt] at hk
  | cons c cs ih =>
    cases k with
    | zero =>
      simp only [matchesAt, List.drop_zero, Nat.zero_add] at hk
      rw [replaceFirstChars, if_pos hk]
      simp
    | succ k =>
      have h0 := hmin 0 (Nat.succ_pos k)
      simp only [matchesAt, List.drop_zero, Nat.zero_add] at h0
      rw [replaceFirstChars, if_neg (by simp [h0])]
      have hk2 : matchesAt pat after cs k = true := by
        simpa [matchesAt, Nat.add_right_comm] using hk
      have hmin2 : ∀ j, j < k → matchesAt pat after cs j = false := by
        intro j hj
        have := hmin (j + 1) (Nat.succ_lt_succ hj)
        simpa [matchesAt, Nat.add_right_comm] using this
      rw [ih k hk2 hmin2]
      simp [Nat.add_right_comm]

/-- Either no position matches, or there is a first matching position. -/
theorem first_match_cases (pat : List Char) (after : List Char → Bool) (l : List Char) :
    (∀ k, matchesAt pat after l k = false)
    ∨ ∃ k, matchesAt pat after l k = true ∧ ∀ j, j < k → matchesAt pat after l j = false := by
  by_cases h : ∃ k, matchesAt pat after l k = true
  · right
    exact ⟨Nat.find h, Nat.find_spec h, fun j hj => by
      have := Nat.find_min h hj
      simpa using this⟩
  · left
    intro k
    by_contra hk
    exact h ⟨k, by simpa using hk⟩

theorem matchesAt_decompose (pat : List Char) (after : List Char → Bool) (l : List Char)
    (k : Nat) (hk : matchesAt pat after l k = true) :
    l = l.take k ++ pat ++ l.drop (k + pat.length) := by
  simp only [matchesAt, Bool.and_eq_true, List.isPrefixOf_iff_prefix] at hk
  obtain ⟨t, ht⟩ := hk.1
  have h1 : l.drop (k + pat.length) = t := by
    rw [← List.drop_drop, ← ht]
    simp
  rw [h1, List.append_assoc, ht, List.take_append_drop]

/-- The replacement of a pattern by a text of the same length keeps the length. -/
theorem replaceFirstChars_length (pat rep : List Char) (after : List Char → Bool)
    (hpat : pat ≠ []) (hlen : rep.length = pat.length) (l : List Char) :
    (replaceFirstChars pat rep after l).length = l.length := by
  rcases first_match_cases pat after l with h | ⟨k, hk, hmin⟩
  · rw [replaceFirstChars_of_no_match pat rep after hpat l h]
  · rw [replaceFirstChars_of_first_match pat rep after hpat l k hk hmin]
    conv_rhs => rw [matchesAt_decompose pat after l k hk]
    simp [hlen]

/-- The replacement of a pattern by a text that differs from it in case only keeps the
lower-cased text. -/
theorem replaceFirstChars_lower (pat rep : List Char) (after : List Char → Bool)
    (hpat : pat ≠ []) (hlow : rep.map Char.toLower = pat.map Char.toLower) (l : List Char) :
    (replaceFirstChars pat rep after l).map Char.toLower = l.map Char.toLower := by
  rcases first_match_cases pat after l with h | ⟨k, hk, hmin⟩
  · rw [replaceFirstChars_of_no_match pat rep after hpat l h]
  · rw [replaceFirstChars_of_first_match pat rep after hpat l k hk hmin]
    conv_rhs => rw [matchesAt_decompose pat after l k hk]
    simp [hlow]

end JS

/-! ## C18: field names change in case only -/

namespace ParseProto

theorem replaceBefore_length (s pat rep : String) (after : List Char → Bool)
    (hpat : pat.data ≠ []) (hlen : rep.data.length = pat.data.length) :
    (replaceBefore s pat rep after).data.length = s.data.length :=
  JS.replaceFirstChars_length pat.data rep.data after hpat hlen s.data

theorem replace_length (s pat rep : String)
    (hpat : pat.data ≠ []) (hlen : rep.data.length = pat.data.length) :
    (JS.replace s pat rep).data.length = s.data.length :=
  JS.replaceFirstChars_length pat.data rep.data _ hpat hlen s.data

theorem replaceBefore_lower (s pat rep : String) (after : List Char → Bool)
    (hpat : pat.data ≠ []) (hlow : rep.data.map Char.toLower = pat.data.map Char.toLower) :
    (replaceBefore s pat rep after).data.map Char.toLower = s.data.map Char.toLower :=
  JS.replaceFirstChars_lower pat.data rep.data after hpat hlow s.data

theorem replace_lower (s pat rep : String)
    (hpat : pat.data ≠ []) (hlow : rep.data.map Char.toLower = pat.data.map Char.toLower) :
    (JS.replace s pat rep).data.map Char.toLower = s.data.map Char.toLower :=
  JS.replaceFirstChars_lower pat.data rep.data _ hpat hlow s.data

theorem patternRenames_length (name : String) :
    (patternRenames name).data.length = name.data.length := by
  unfold patternRenames
  rw [replace_length _ "Sha256" "SHA256" (by decide) (by decide),
    replace_length _ "Jpeg" "JPEG" (by decide) (by decide),
    replace_length _ "Json" "JSON" (by decide) (by decide),
    replace_length _ "Cdn" "CDN" (by decide) (by decide),
    replace_length _ "Url" "URL" (by decide) (by decide),
    replaceBefore_length _ "Mac" "MAC" _ (by decide) (by decide),
    replaceBefore_length _ "Ts" "TS" _ (by decide) (by decide),
    replaceBefore_length _ "Ms" "MS" _ (by decide) (by decide),
    replace_length _ "Jid" "JID" (by decide) (by decide),
    replaceBefore_length _ "Id" "ID" _ (by decide) (by decide)]

theorem patternRenames_lower (name : String) :
    (patternRenames name).data.map Char.toLower = name.data.map Char.toLower := by
  unfold patternRenames
  rw [replace_lower _ "Sha256" "SHA256" (by decide) (by decide),
    replace_lower _ "Jpeg" "JPEG" (by decide) (by decide),
    replace_lower _ "Json" "JSON" (by decide) (by decide),
    replace_lower _ "Cdn" "CDN" (by decide) (by decide),
    replace_lower _ "Url" "URL" (by decide) (by decide),
    replaceBefore_lower _ "Mac" "MAC" _ (by decide) (by decide),
    replaceBefore_lower _ "Ts" "TS" _ (by decide) (by decide),
    replaceBefore_lower _ "Ms" "MS" _ (by decide) (by decide),
    replace_lower _ "Jid" "JID" (by decide) (by decide),
    replaceBefore_lower _ "Id" "ID" _ (by decide) (by decide)]

theorem mem_of_objGet {α : Type} (obj : JS.Obj α) (key : String) (v : α)
    (h : JS.objGet obj key = some v) : (key, v) ∈ obj := by
  induction obj with
  | nil => simp [JS.objGet] at h
  | cons e rest ih =>
    obtain ⟨k, w⟩ := e
    simp only [JS.objGet] at h
    by_cases hk : k = key
    · rw [if_pos hk] at h
      simp only [Option.some.injEq] at h
      subst hk; subst h
      exact List.mem_cons_self _ _
    · rw [if_neg hk] at h
      exact List.mem_cons_of_mem _ (ih h)

theorem inheritedText_eq_none (name : String) (h : name ∉ JS.objectPrototypeKeys) :
    inheritedText name = none := by
  unfold inheritedText
  have h1 : name ≠ "__proto__" := by
    intro e; apply h; rw [e]; decide
  have h2 : name ≠ "constructor" := by
    intro e; apply h; rw [e]; decide
  rw [if_neg h1, if_neg h2, if_neg h]

theorem fixFieldName_of_static (name renamed : String)
    (h : JS.objGet staticRenames name = some renamed) : fixFieldName name = renamed := by
  unfold fixFieldName
  by_cases h1 : name = "id"
  · rw [if_pos h1]
    subst h1
    exact Option.some.inj (by rw [← h]; decide)
  · rw [if_neg h1]
    by_cases h2 : name = "encIv"
    · rw [if_pos h2]
      subst h2
      exact Option.some.inj (by rw [← h]; decide)
    · rw [if_neg h2, h]

theorem fixFieldName_of_plain (name : String) (hs : JS.objGet staticRenames name = none)
    (hi : name ∉ JS.objectPrototypeKeys) : fixFieldName name = patternRenames name := by
  unfold fixFieldName
  have h1 : name ≠ "id" := by
    intro e; rw [e] at hs; exact absurd hs (by decide)
  have h2 : name ≠ "encIv" := by
    intro e; rw [e] at hs; exact absurd hs (by decide)
  rw [if_neg h1, if_neg h2, hs, inheritedText_eq_none name hi]

end ParseProto

/-- C18 (amended): for every field name that is not the name of a property inherited from
`Object.prototype`, `fixFieldName` returns a text of the same length that is equal to the
name when both are lower-cased. -/
theorem fixFieldName_changes_case_only (name : String)
    (h : name ∉ JS.objectPrototypeKeys) :
    (ParseProto.fixFieldName name).length = name.length
    ∧ (ParseProto.fixFieldName name).data.map Char.toLower = name.data.map Char.toLower := by
  cases hs : JS.objGet ParseProto.staticRenames name with
  | some renamed =>
    rw [ParseProto.fixFieldName_of_static name renamed hs]
    have hmem := ParseProto.mem_of_objGet _ _ _ hs
    simp only [ParseProto.staticRenames, List.mem_cons, Prod.mk.injEq, List.mem_singleton,
      List.not_mem_nil, or_false] at hmem
    rcases hmem with ⟨h1, h2⟩ | ⟨h1, h2⟩ | ⟨h1, h2⟩ | ⟨h1, h2⟩ | ⟨h1, h2⟩ | ⟨h1, h2⟩
      | ⟨h1, h2⟩ | ⟨h1, h2⟩ | ⟨h1, h2⟩ | ⟨h1, h2⟩ <;> subst h1 <;> subst h2 <;> decide
  | none =>
    rw [ParseProto.fixFieldName_of_plain name hs h]
    exact ⟨ParseProto.patternRenames_length name, ParseProto.patternRenames_lower name⟩

theorem fixFieldName_changes_case_only_witness :
    "mediaKeyId" ∉ JS.objectPrototypeKeys
    ∧ ParseProto.fixFieldName "mediaKeyId" = "mediaKeyID"
    ∧ (ParseProto.fixFieldName "mediaKeyId").length = "mediaKeyId".length
    ∧ (ParseProto.fixFieldName "mediaKeyId").data.map Char.toLower
        = "mediaKeyId".data.map Char.toLower :=
  ⟨by decide, by decide, fixFieldName_changes_case_only "mediaKeyId" (by decide)⟩

/-- C18, counterexample: the field name `constructor` is looked up in the object literal
`staticRenames`, finds the function inherited from `Object.prototype`, and is rendered as
that function prints: a text of another length. -/
theorem fixFieldName_inherited_counterexample :
    ParseProto.fixFieldName "constructor" = "function Object() \x7b [native code] \x7d"
    ∧ (ParseProto.fixFieldName "constructor").length ≠ "constructor".length := by
  decide

/-! ## C17: the `Id` correction -/

namespace JS

theorem matchesAt_window (pat : List Char) (after : List Char → Bool) (l : List Char)
    (k : Nat) (hk : matchesAt pat after l k = true) (m : Nat) (hm : m < pat.length) :
    l[k + m]? = pat[m]? := by
  simp only [matchesAt, Bool.and_eq_true, List.isPrefixOf_iff_prefix] at hk
  obtain ⟨t, ht⟩ := hk.1
  rw [← List.getElem?_drop, ← ht, List.getElem?_append_left hm]

theorem matchesAt_lt (pat : List Char) (after : List Char → Bool) (l : List Char)
    (k : Nat) (hpat : pat ≠ []) (hk : matchesAt pat after l k = true) :
    k + pat.length ≤ l.length := by
  simp only [matchesAt, Bool.and_eq_true, List.isPrefixOf_iff_prefix] at hk
  obtain ⟨t, ht⟩ := hk.1
  have h := congrArg List.length ht
  simp only [List.length_append, List.length_drop] at h
  have hp : 0 < pat.length := List.length_pos.mpr hpat
  omega

/-- Every position of the result of a replacement holds what it held before, or lies in
the window of the first match and holds the character of the replacement text. -/
theorem getElem?_replaceFirstChars (pat rep : List Char) (after : List Char → Bool)
    (hpat : pat ≠ []) (hlen : rep.length = pat.length) (l : List Char) (j : Nat) :
    (replaceFirstChars pat rep after l)[j]? = l[j]?
    ∨ ∃ k, matchesAt pat after l k = true ∧ (∀ i, i < k → matchesAt pat after l i = false)
        ∧ k ≤ j ∧ j < k + pat.length ∧ (replaceFirstChars pat rep after l)[j]? = rep[j - k]? := by
  rcases first_match_cases pat after l with h | ⟨k, hk, hmin⟩
  · left
    rw [replaceFirstChars_of_no_match pat rep after hpat l h]
  · rw [replaceFirstChars_of_first_match pat rep after hpat l k hk hmin]
    have hb := matchesAt_lt pat after l k hpat hk
    have htk : (l.take k).length = k := by
      rw [List.length_take]; omega
    by_cases h1 : j < k
    · left
      rw [List.append_assoc, List.getElem?_append_left (by omega), List.getElem?_take_of_lt h1]
    · by_cases h2 : j < k + pat.length
      · right
        refine ⟨k, hk, hmin, by omega, h2, ?_⟩
        rw [List.append_assoc, List.getElem?_append_right (by omega), htk,
          List.getElem?_append_left (by omega)]
      · left
        rw [List.getElem?_append_right (by simp [htk, hlen]; omega), List.getElem?_drop]
        congr 1
        simp only [List.length_append, htk, hlen]
        omega

end JS

namespace JS

theorem keepsPair_step (pat rep : List Char) (after : List Char → Bool) (c : Char)
    (hpat : pat ≠ []) (hlen : rep.length = pat.length) (hk : keepsPair pat rep c = true)
    (l : List Char) (i : Nat) (hI : l[i]? = some 'I') (hc : l[i + 1]? = some c) :
    (replaceFirstChars pat rep after l)[i]? = some 'I'
    ∧ (replaceFirstChars pat rep after l)[i + 1]? = some c := by
  simp only [keepsPair, List.all_eq_true, List.mem_range, Bool.and_eq_true, Bool.or_eq_true,
    bne_iff_ne, ne_eq, beq_iff_eq, decide_eq_true_eq] at hk
  constructor
  · rcases getElem?_replaceFirstChars pat rep after hpat hlen l i with h | ⟨k, hm, _, h1, h2, h3⟩
    · rw [h, hI]
    · have hw := matchesAt_window pat after l k hm (i - k) (by omega)
      rw [show k + (i - k) = i by omega, hI] at hw
      rw [h3]
      rcases (hk (i - k) (by omega)).1 with h | h
      · exact absurd hw.symm h
      · exact h
  · rcases getElem?_replaceFirstChars pat rep after hpat hlen l (i + 1) with
      h | ⟨k, hm, _, h1, h2, h3⟩
    · rw [h, hc]
    · have hw := matchesAt_window pat after l k hm (i + 1 - k) (by omega)
      rw [show k + (i + 1 - k) = i + 1 by omega, hc] at hw
      rw [h3]
      rcases (hk (i + 1 - k) (by omega)).2 with (h | h) | ⟨h4, h5⟩
      · exact absurd hw.symm h
      · exact h
      · exfalso
        apply h5
        have hw2 := matchesAt_window pat after l k hm (i + 1 - k - 1) (by omega)
        rw [show k + (i + 1 - k - 1) = i by omega, hI] at hw2
        exact hw2.symm

end JS

namespace ParseProto

theorem replaceBefore_keeps (s pat rep : String) (after : List Char → Bool) (c : Char)
    (i : Nat) (hpat : pat.data ≠ []) (hlen : rep.data.length = pat.data.length)
    (hk : JS.keepsPair pat.data rep.data c = true)
    (h : s.data[i]? = some 'I' ∧ s.data[i + 1]? = some c) :
    (replaceBefore s pat rep after).data[i]? = some 'I'
    ∧ (replaceBefore s pat rep after).data[i + 1]? = some c :=
  JS.keepsPair_step pat.data rep.data after c hpat hlen hk s.data i h.1 h.2

theorem replace_keeps (s pat rep : String) (c : Char)
    (i : Nat) (hpat : pat.data ≠ []) (hlen : rep.data.length = pat.data.length)
    (hk : JS.keepsPair pat.data rep.data c = true)
    (h : s.data[i]? = some 'I' ∧ s.data[i + 1]? = some c) :
    (JS.replace s pat rep).data[i]? = some 'I'
    ∧ (JS.replace s pat rep).data[i + 1]? = some c :=
  JS.keepsPair_step pat.data rep.data _ c hpat hlen hk s.data i h.1 h.2

/-- The replacements after the first one leave an `Id` and an `ID` where they are. -/
theorem laterRenames_keep (s : String) (c : Char) (hc : c = 'd' ∨ c = 'D') (i : Nat)
    (h : s.data[i]? = some 'I' ∧ s.data[i + 1]? = some c) :
    (JS.replace (JS.replace (JS.replace (JS.replace (JS.replace
      (replaceBefore (replaceBefore (replaceBefore (JS.replace s "Jid" "JID")
        "Ms" "MS" upperOrEnd) "Ts" "TS" upperOrEnd) "Mac" "MAC" upperOrEnd)
      "Url" "URL") "Cdn" "CDN") "Json" "JSON") "Jpeg" "JPEG") "Sha256" "SHA256").data[i]?
        = some 'I'
    ∧ (JS.replace (JS.replace (JS.replace (JS.replace (JS.replace
      (replaceBefore (replaceBefore (replaceBefore (JS.replace s "Jid" "JID")
        "Ms" "MS" upperOrEnd) "Ts" "TS" upperOrEnd) "Mac" "MAC" upperOrEnd)
      "Url" "URL") "Cdn" "CDN") "Json" "JSON") "Jpeg" "JPEG") "Sha256" "SHA256").data[i + 1]?
        = some c := by
  rcases hc with rfl | rfl <;>
  exact replace_keeps _ _ _ _ i (by decide) (by decide) (by decide)
    (replace_keeps _ _ _ _ i (by decide) (by decide) (by decide)
    (replace_keeps _ _ _ _ i (by decide) (by decide) (by decide)
    (replace_keeps _ _ _ _ i (by decide) (by decide) (by decide)
    (replace_keeps _ _ _ _ i (by decide) (by decide) (by decide)
    (replaceBefore_keeps _ _ _ _ _ i (by decide) (by decide) (by decide)
    (replaceBefore_keeps _ _ _ _ _ i (by decide) (by decide) (by decide)
    (replaceBefore_keeps _ _ _ _ _ i (by decide) (by decide) (by decide)
    (replace_keeps _ _ _ _ i (by decide) (by decide) (by decide) h))))))))

theorem firstIdFollowedAt_iff (cs : List Char) (i : Nat) :
    firstIdFollowedAt cs i = true
      ↔ JS.matchesAt "Id".data upperOrSOrEnd cs i = true
        ∧ ∀ j, j < i → JS.matchesAt "Id".data upperOrSOrEnd cs j = false := by
  simp [firstIdFollowedAt, idFollowedAt]

/-- The first replacement of `fixFieldName` at a position that holds `Id`. -/
theorem idStep_at (s : String) (i : Nat) (hI : s.data[i]? = some 'I')
    (hd : s.data[i + 1]? = some 'd') :
    (replaceBefore s "Id" "ID" upperOrSOrEnd).data[i]? = some 'I'
    ∧ (replaceBefore s "Id" "ID" upperOrSOrEnd).data[i + 1]?
        = some (if firstIdFollowedAt s.data i then 'D' else 'd') := by
  have hpat : "Id".data ≠ [] := by decide
  have hlen : "ID".data.length = "Id".data.length := by decide
  show (JS.replaceFirstChars "Id".data "ID".data upperOrSOrEnd s.data)[i]? = some 'I'
    ∧ (JS.replaceFirstChars "Id".data "ID".data upperOrSOrEnd s.data)[i + 1]? = _
  rcases JS.first_match_cases "Id".data upperOrSOrEnd s.data with h | ⟨k, hk, hmin⟩
  · rw [JS.replaceFirstChars_of_no_match _ _ _ hpat _ h]
    have hf : firstIdFollowedAt s.data i = false := by
      rw [Bool.eq_false_iff]
      intro e
      have := ((firstIdFollowedAt_iff _ _).1 e).1
      rw [h i] at this
      exact absurd this (by simp)
    rw [hf]
    exact ⟨hI, hd⟩
  · have hw0 := JS.matchesAt_window _ _ _ k hk 0 (by decide)
    have hw1 := JS.matchesAt_window _ _ _ k hk 1 (by decide)
    have hb := JS.matchesAt_lt _ _ _ k hpat hk
    have hlen2 : "Id".data.length = 2 := by decide
    have htk : (s.data.take k).length = k := by
      rw [List.length_take]; omega
    rw [JS.replaceFirstChars_of_first_match _ _ _ hpat _ k hk hmin]
    by_cases hki : k = i
    · subst hki
      have hf : firstIdFollowedAt s.data k = true := (firstIdFollowedAt_iff _ _).2 ⟨hk, hmin⟩
      rw [hf]
      constructor
      · rw [List.append_assoc, List.getElem?_append_right (by omega), htk]
        simp
      · rw [List.append_assoc, List.getElem?_append_right (by omega), htk]
        simp
    · have hf : firstIdFollowedAt s.data i = false := by
        rw [Bool.eq_false_iff]
        intro e
        obtain ⟨e1, e2⟩ := (firstIdFollowedAt_iff _ _).1 e
        rcases Nat.lt_or_gt_of_ne hki with hlt | hgt
        · rw [e2 k hlt] at hk
          exact absurd hk (by simp)
        · rw [hmin i hgt] at e1
          exact absurd e1 (by simp)
      rw [hf]
      have hne1 : k + 1 ≠ i := by
        intro e
        rw [e, hI] at hw1
        exact absurd hw1 (by decide)
      have hne2 : k ≠ i + 1 := by
        intro e
        rw [Nat.add_zero, e, hd] at hw0
        exact absurd hw0 (by decide)
      have key : ∀ j, j ≠ k → j ≠ k + 1 →
          (s.data.take k ++ "ID".data ++ s.data.drop (k + "Id".data.length))[j]?
            = s.data[j]? := by
        intro j hj1 hj2
        by_cases h1 : j < k
        · rw [List.append_assoc, List.getElem?_append_left (by omega),
            List.getElem?_take_of_lt h1]
        · have e1 : (s.data.take k ++ "ID".data).length = k + 2 := by
            rw [List.length_append, htk]; rfl
          rw [List.getElem?_append_right (by omega), List.getElem?_drop, e1, hlen2]
          congr 1
          omega
      rw [key i (Ne.symm hki) (Ne.symm hne1), key (i + 1) (Ne.symm hne2) (by omega)]
      exact ⟨hI, hd⟩

end ParseProto

/-- C17 (amended): for every field name that is neither a key of the static rename table
nor the name of a property inherited from `Object.prototype`, at every position where the
name holds `Id` the result of `fixFieldName` holds `ID` when this is the first occurrence of
`Id` that is immediately followed by an upper-case letter, by `s` or by the end of the
name, and holds `Id` otherwise. -/
theorem fixFieldName_id_rule (name : String)
    (hs : JS.objGet ParseProto.staticRenames name = none)
    (hi : name ∉ JS.objectPrototypeKeys) (i : Nat)
    (hI : name.data[i]? = some 'I') (hd : name.data[i + 1]? = some 'd') :
    (ParseProto.fixFieldName name).data[i]? = some 'I'
    ∧ (ParseProto.fixFieldName name).data[i + 1]?
        = some (if ParseProto.firstIdFollowedAt name.data i then 'D' else 'd') := by
  rw [ParseProto.fixFieldName_of_plain name hs hi]
  unfold ParseProto.patternRenames
  apply ParseProto.laterRenames_keep
  · by_cases h : ParseProto.firstIdFollowedAt name.data i = true
    · right; rw [if_pos h]
    · left; rw [if_neg h]
  · exact ParseProto.idStep_at name i hI hd

theorem fixFieldName_id_rule_witness :
    ParseProto.firstIdFollowedAt "userIdDeviceId".data 4 = true
    ∧ ParseProto.firstIdFollowedAt "userIdDeviceId".data 12 = false
    ∧ ((ParseProto.fixFieldName "userIdDeviceId").data[4]? = some 'I'
      ∧ (ParseProto.fixFieldName "userIdDeviceId").data[4 + 1]?
          = some (if ParseProto.firstIdFollowedAt "userIdDeviceId".data 4 then 'D' else 'd'))
    ∧ ((ParseProto.fixFieldName "userIdDeviceId").data[12]? = some 'I'
      ∧ (ParseProto.fixFieldName "userIdDeviceId").data[12 + 1]?
          = some (if ParseProto.firstIdFollowedAt "userIdDeviceId".data 12 then 'D' else 'd')) :=
  ⟨by decide, by decide,
   fixFieldName_id_rule "userIdDeviceId" (by decide) (by decide) 4 (by decide) (by decide),
   fixFieldName_id_rule "userIdDeviceId" (by decide) (by decide) 12 (by decide) (by decide)⟩

/-- C17, counterexample: in `messageIds` the `Id` is followed by `s`, which is neither an
upper-case letter nor the end, and is rewritten; in `userIdDeviceId` the second `Id` is
followed by the end of the name and is not rewritten, because only the first match is. -/
theorem fixFieldName_id_counterexample :
    JS.objGet ParseProto.staticRenames "messageIds" = none
    ∧ ParseProto.fixFieldName "messageIds" = "messageIDs"
    ∧ JS.objGet ParseProto.staticRenames "userIdDeviceId" = none
    ∧ ParseProto.fixFieldName "userIdDeviceId" = "userIDDeviceId" := by
  decide

/-! ## C16: the static rename table -/

namespace ParseProto

/-- The line `protoifyField` returns, in terms of the label, the type name and the corrected
field name. -/
theorem protoifyField_eq_fieldLine (c : WAProtoConst) (proto3 : Bool)
    (name : String) (definition : FieldDef) (parentModule : String)
    (parentPath : List String) (isOneOf : Bool) :
    protoifyField c proto3 name definition parentModule parentPath isOneOf
      = (fieldTypeName c.TYPES (some (JS.bitAnd definition.flags c.TYPE_MASK))
          definition.typeRef parentModule parentPath).map
        (fun typeName =>
          fieldLine (fieldLabel c proto3 isOneOf definition.flags) (joinElement typeName)
            (fixFieldName name) definition.index (bitSet definition.flags c.FLAGS.PACKED)) := by
  unfold protoifyField
  simp only []
  generalize fieldTypeName c.TYPES (some (JS.bitAnd definition.flags c.TYPE_MASK))
      definition.typeRef parentModule parentPath = result
  cases result with
  | none => rfl
  | some typeName =>
    simp only [Option.map_some', Option.some.injEq, fieldLine,
      fieldLabel, bitSet, bne_iff_ne, ne_eq, ite_not]
    cases isOneOf <;> cases proto3 <;>
      by_cases hr : JS.bitAnd definition.flags c.FLAGS.REPEATED = 0 <;>
      by_cases hq : JS.bitAnd definition.flags c.FLAGS.REQUIRED = 0 <;>
      by_cases hp : JS.bitAnd definition.flags c.FLAGS.PACKED = 0 <;>
      simp only [hr, hq, hp, if_true, if_false, Bool.not_false, Bool.not_true,
        Bool.false_eq_true, not_true_eq_false, not_false_eq_true, decide_True, decide_False,
        decide_not] <;>
      simp only [JS.join, List.nil_append, List.cons_append, List.singleton_append,
        String.append_assoc, String.empty_append, String.append_empty] <;>
      rfl

end ParseProto

/-- C16: `fixFieldName` (the same text in both variants) maps every key of the static rename
table to exactly its table value, so no pattern replacement is applied to it; hence
`protoifyField` renders a field named `jid` with the name `JID` and a field named `encIv`
with the name `encIV` (for every field definition in `proto/parse-proto.js`, and on a
string field of the armadillo variant, which calls the same `fixFieldName`). -/
theorem fixFieldName_static_table (c : ParseProto.WAProtoConst) (proto3 : Bool)
    (definition : ParseProto.FieldDef) (parentModule : String) (parentPath : List String)
    (isOneOf : Bool) :
    ParseProto.staticRenames.map (fun e => ParseProto.fixFieldName e.1)
        = ParseProto.staticRenames.map (fun e => e.2)
    ∧ ["id", "jid", "encIv", "iv", "ptt", "hmac", "url", "fbid", "jpegThumbnail", "dsm"].map
          ParseProto.fixFieldName
        = ["ID", "JID", "encIV", "IV", "PTT", "HMAC", "URL", "FBID", "JPEGThumbnail", "DSM"]
    ∧ ParseProto.protoifyField c proto3 "jid" definition parentModule parentPath isOneOf
        = (ParseProto.fieldTypeName c.TYPES (some (JS.bitAnd definition.flags c.TYPE_MASK))
            definition.typeRef parentModule parentPath).map
          (fun typeName =>
            ParseProto.fieldLine (ParseProto.fieldLabel c proto3 isOneOf definition.flags)
              (ParseProto.joinElement typeName) "JID" definition.index
              (ParseProto.bitSet definition.flags c.FLAGS.PACKED))
    ∧ ParseProto.protoifyField c proto3 "encIv" definition parentModule parentPath isOneOf
        = (ParseProto.fieldTypeName c.TYPES (some (JS.bitAnd definition.flags c.TYPE_MASK))
            definition.typeRef parentModule parentPath).map
          (fun typeName =>
            ParseProto.fieldLine (ParseProto.fieldLabel c proto3 isOneOf definition.flags)
              (ParseProto.joinElement typeName) "encIV" definition.index
              (ParseProto.bitSet definition.flags c.FLAGS.PACKED))
    ∧ Armadillo.protoifyField ParseProto.sampleConst "jid" ⟨1, 14, .undef⟩ "WASample" []
        = some "string JID = 1;"
    ∧ Armadillo.protoifyField ParseProto.sampleConst "encIv" ⟨2, 15, .undef⟩ "WASample" []
        = some "bytes encIV = 2;" := by
  refine ⟨by decide, by decide, ?_, ?_, by decide, by decide⟩
  · rw [ParseProto.protoifyField_eq_fieldLine]; rfl
  · rw [ParseProto.protoifyField_eq_fieldLine]; rfl

/-! ## C13: the header of a module -/

namespace ParseProto

theorem withoutPbSuffix_append (name : String) (h : JS.endsWith name ".pb" = true) :
    withoutPbSuffix name ++ ".pb" = name := by
  unfold JS.endsWith at h
  rw [List.isSuffixOf_iff_suffix] at h
  obtain ⟨t, ht⟩ := h
  have hlen : ".pb".data.length = 3 := rfl
  apply String.ext
  rw [String.data_append]
  unfold withoutPbSuffix
  simp only []
  rw [← ht, List.length_append, hlen, Nat.add_sub_cancel, List.take_left]

theorem renameModule_of_suffix (name : String) (h : JS.endsWith name ".pb" = true)
    (hone : ¬ ".pb".data <:+: (withoutPbSuffix name).data) :
    renameModule name = withoutPbSuffix name := by
  conv_lhs => rw [← withoutPbSuffix_append name h]
  exact renameModule_append_pb _ hone

theorem renameDependencies_of_suffix (registered : List String)
    (hone : ∀ d ∈ registered, JS.endsWith d ".pb" = true →
      ¬ ".pb".data <:+: (withoutPbSuffix d).data) :
    renameDependencies registered
      = (registered.filter (fun d => JS.endsWith d ".pb")).map withoutPbSuffix := by
  unfold renameDependencies
  apply List.map_congr_left
  intro d hd
  rw [List.mem_filter] at hd
  exact renameModule_of_suffix d hd.2 (hone d hd.1 hd.2)

theorem importLines_eq (goPackageName : String → String) (dependencies : List String) :
    importLines goPackageName dependencies
      = dependencies.map (fun dependency =>
          "import \"" ++ goPackageName dependency ++ "/" ++ dependency ++ ".proto\";")
        ++ (if dependencies = [] then [] else [""]) := by
  unfold importLines
  cases dependencies with
  | nil => rfl
  | cons d ds => simp

end ParseProto

namespace Armadillo

open ParseProto

theorem armadillo_moduleHeader_prefix (c : WAProtoConst) (file : ProtoFile)
    (lines : List String) (file2 : ProtoFile)
    (h : Armadillo.protoifyModule c file = some (lines, file2)) :
    Armadillo.moduleHeader file <+: lines := by
  unfold Armadillo.protoifyModule Armadillo.protoifyChildren at h
  split at h
  · exact absurd h (by simp)
  · rename_i children f2 hc
    simp only [Option.some.injEq, Prod.mk.injEq] at h
    have h2 := protoifyChildrenWith_snd _ (armadillo_renderer_protoifyEnum_snd c) _ _ _ hc
    rw [← h.1, h2]
    exact List.prefix_append _ _

end Armadillo

/-- C13 (amended): whenever `protoifyModule` returns, its output begins with the syntax
line, the `package` line, the `option go_package` line and an empty line, then one `import`
line per entry of the dependency list in the order of the list, followed by one empty line
when the list is not empty.  In `proto/parse-proto.js`, for a module whose name is not the
name of a property inherited from `Object.prototype`, the syntax line is that of proto3
exactly for the module `WAWebProtobufsReporting` and that of proto2 otherwise; in the
armadillo variant it is always that of proto3.  When every registered dependency that ends
in `.pb` contains `.pb` only there, the dependency list is the registered dependencies that
end in `.pb`, in their order, without that suffix; the armadillo variant moreover replaces
`WAProtocol` by `WACommon`. -/
theorem protoifyModule_header (c : ParseProto.WAProtoConst) (file : ParseProto.ProtoFile)
    (registered : List String) :
    (file.__name__ ∉ JS.objectPrototypeKeys →
      ∀ lines file2, ParseProto.protoifyModule c file = some (lines, file2) →
      ∃ rest, lines =
        [if file.__name__ = "WAWebProtobufsReporting"
           then "syntax = \"proto3\";" else "syntax = \"proto2\";",
         "package " ++ file.__name__ ++ ";",
         "option go_package = \"go.mau.fi/whatsmeow/proto/"
           ++ ParseProto.goPackageName file.__name__ ++ "\";",
         ""]
        ++ file.dependencies.map (fun dependency =>
            "import \"" ++ ParseProto.goPackageName dependency ++ "/" ++ dependency
              ++ ".proto\";")
        ++ (if file.dependencies = [] then [] else [""])
        ++ rest)
    ∧ (∀ lines file2, Armadillo.protoifyModule c file = some (lines, file2) →
      ∃ rest, lines =
        ["syntax = \"proto3\";",
         "package " ++ file.__name__ ++ ";",
         "option go_package = \"go.mau.fi/whatsmeow/binary/armadillo/"
           ++ Armadillo.goPackageName file.__name__ ++ "\";",
         ""]
        ++ file.dependencies.map (fun dependency =>
            "import \"" ++ Armadillo.goPackageName dependency ++ "/" ++ dependency
              ++ ".proto\";")
        ++ (if file.dependencies = [] then [] else [""])
        ++ rest)
    ∧ ((∀ d ∈ registered, JS.endsWith d ".pb" = true →
          ¬ ".pb".data <:+: (ParseProto.withoutPbSuffix d).data) →
        ParseProto.renameDependencies registered
          = (registered.filter (fun d => JS.endsWith d ".pb")).map ParseProto.withoutPbSuffix
        ∧ Armadillo.renameDependencies registered
          = ((registered.filter (fun d => JS.endsWith d ".pb")).map
              ParseProto.withoutPbSuffix).map
              (fun name => if name = "WAProtocol" then "WACommon" else name)) := by
  refine ⟨?_, ?_, ?_⟩
  · intro hplain lines file2 h
    obtain ⟨rest, hrest⟩ := ParseProto.moduleHeader_prefix c file lines file2 h
    refine ⟨rest, ?_⟩
    rw [← hrest]
    unfold ParseProto.moduleHeader
    rw [ParseProto.importLines_eq]
    simp only [ParseProto.needsProto3, Bool.or_eq_true, decide_eq_true_eq, List.append_assoc,
      hplain, or_false]
  · intro lines file2 h
    obtain ⟨rest, hrest⟩ := Armadillo.armadillo_moduleHeader_prefix c file lines file2 h
    refine ⟨rest, ?_⟩
    rw [← hrest]
    unfold Armadillo.moduleHeader
    rw [ParseProto.importLines_eq]
    simp only [List.append_assoc]
  · intro hone
    have h1 := ParseProto.renameDependencies_of_suffix registered hone
    refine ⟨h1, ?_⟩
    unfold Armadillo.renameDependencies
    unfold ParseProto.renameDependencies at h1
    rw [h1]

/-- C13, an instance: the header of the output for `sampleFile`. -/
theorem protoifyModule_header_witness :
    ∃ rest,
      ["syntax = \"proto2\";", "package WASample;",
        "option go_package = \"go.mau.fi/whatsmeow/proto/waSample\";", "",
        "import \"waCommon/WACommon.proto\";", "",
        "enum Kind \x7b", "\tA = 1;", "\tB = 0;", "\x7d", "",
        "message Pair \x7b", "\toneof choice \x7b", "\t\tstring right = 3;", "\t\x7d", "",
        "\toptional string left = 1;", "\toptional Kind kind = 2;", "\x7d", ""]
      = [if ParseProto.sampleFile.__name__ = "WAWebProtobufsReporting"
           then "syntax = \"proto3\";" else "syntax = \"proto2\";",
         "package " ++ ParseProto.sampleFile.__name__ ++ ";",
         "option go_package = \"go.mau.fi/whatsmeow/proto/"
           ++ ParseProto.goPackageName ParseProto.sampleFile.__name__ ++ "\";",
         ""]
        ++ ParseProto.sampleFile.dependencies.map (fun dependency =>
            "import \"" ++ ParseProto.goPackageName dependency ++ "/" ++ dependency
              ++ ".proto\";")
        ++ (if ParseProto.sampleFile.dependencies = [] then [] else [""])
        ++ rest :=
  (protoifyModule_header ParseProto.sampleConst ParseProto.sampleFile []).1 (by decide) _ _
    rfl

/-- C13, counterexample: `renameModule` removes the first `.pb` of a name, not the suffix;
the armadillo variant does not keep the dependency `WAProtocol`; and the lookup
`needsProto3[module.__name__]` is truthy for the module name `constructor`, whose file
therefore starts with the proto3 line. -/
theorem protoifyModule_header_counterexample :
    ParseProto.renameDependencies ["A.pbB.pb"] = ["AB.pb"]
    ∧ Armadillo.renameDependencies ["WAProtocol.pb"] = ["WACommon"]
    ∧ (ParseProto.protoifyModule ParseProto.sampleConst ParseProto.inheritedNameFile).map
        (fun out => out.1)
      = some ["syntax = \"proto3\";", "package constructor;",
          "option go_package = \"go.mau.fi/whatsmeow/proto/constructor\";", "", ""] := by
  refine ⟨by decide, by decide, by decide⟩

/-! ## C19: looking up an unknown module -/

namespace ParseProto

theorem aliasName_of_plain (name : String) (h : name ∉ JS.objectPrototypeKeys) :
    aliasName name = canonicalName name := by
  unfold aliasName canonicalName
  cases JS.objGet depRenameMap name with
  | some canonical => rfl
  | none => simp only [inheritedText_eq_none name h]

theorem canonicalName_not_inherited (name : String) (h : name ∉ JS.objectPrototypeKeys) :
    canonicalName name ∉ JS.objectPrototypeKeys := by
  unfold canonicalName
  cases hg : JS.objGet depRenameMap name with
  | none => exact h
  | some canonical =>
    have hmem := mem_of_objGet _ _ _ hg
    simp only [depRenameMap, List.mem_cons, Prod.mk.injEq, List.mem_singleton,
      List.not_mem_nil, or_false] at hmem
    rcases hmem with ⟨_, h2⟩ | ⟨_, h2⟩ | ⟨_, h2⟩ | ⟨_, h2⟩ | ⟨_, h2⟩ | ⟨_, h2⟩
      | ⟨_, h2⟩ | ⟨_, h2⟩ | ⟨_, h2⟩ <;> subst h2 <;> dsimp only <;> decide

theorem lookupExports_of_plain {ε : Type} (modules : Modules ε) (name : String)
    (h : name ∉ JS.objectPrototypeKeys) :
    lookupExports modules name = (JS.objGet modules name).map (fun module => module.exports) := by
  unfold lookupExports
  cases JS.objGet modules name with
  | some module => rfl
  | none => simp [h]

end ParseProto

/-- C19 (amended): for every module table and every name that is not the name of a property
inherited from `Object.prototype`, `requireModule(name)` throws exactly when the table
has no entry under the name looked up (the canonical name of the rename table in
`proto/parse-proto.js`, the name itself in the armadillo variant), and otherwise returns the
`exports` of that entry.  The function has no assignment, so the table is left as it is. -/
theorem requireModule_unknown {ε : Type} (modules : ParseProto.Modules ε) (name : String)
    (h : name ∉ JS.objectPrototypeKeys) :
    (ParseProto.requireModule modules name = none
        ↔ JS.objGet modules (ParseProto.canonicalName name) = none)
    ∧ (∀ module, JS.objGet modules (ParseProto.canonicalName name) = some module →
        ParseProto.requireModule modules name = some module.exports)
    ∧ (Armadillo.requireModule modules name = none ↔ JS.objGet modules name = none)
    ∧ (∀ module, JS.objGet modules name = some module →
        Armadillo.requireModule modules name = some module.exports) := by
  have h1 : ParseProto.requireModule modules name
      = (JS.objGet modules (ParseProto.canonicalName name)).map (fun m => m.exports) := by
    unfold ParseProto.requireModule
    rw [ParseProto.aliasName_of_plain name h]
    exact ParseProto.lookupExports_of_plain modules _
      (ParseProto.canonicalName_not_inherited name h)
  have h2 : Armadillo.requireModule modules name
      = (JS.objGet modules name).map (fun m => m.exports) :=
    ParseProto.lookupExports_of_plain modules name h
  refine ⟨?_, ?_, ?_, ?_⟩
  · rw [h1]; simp
  · intro module hm; rw [h1, hm]; rfl
  · rw [h2]; simp
  · intro module hm; rw [h2, hm]; rfl

theorem requireModule_unknown_witness :
    (ParseProto.requireModule (ParseProto.initialModules "enum") "WAProtocol.pb" = none
        ↔ JS.objGet (ParseProto.initialModules "enum")
            (ParseProto.canonicalName "WAProtocol.pb") = none)
    ∧ (∀ module, JS.objGet (ParseProto.initialModules "enum")
            (ParseProto.canonicalName "WAProtocol.pb") = some module →
        ParseProto.requireModule (ParseProto.initialModules "enum") "WAProtocol.pb"
          = some module.exports)
    ∧ (Armadillo.requireModule (ParseProto.initialModules "enum") "WAProtocol.pb" = none
        ↔ JS.objGet (ParseProto.initialModules "enum") "WAProtocol.pb" = none)
    ∧ (∀ module, JS.objGet (ParseProto.initialModules "enum") "WAProtocol.pb" = some module →
        Armadillo.requireModule (ParseProto.initialModules "enum") "WAProtocol.pb"
          = some module.exports) :=
  requireModule_unknown (ParseProto.initialModules "enum") "WAProtocol.pb" (by decide)

/-- C19, counterexample: in the armadillo variant `requireModule("constructor")` on the
initial table does not throw although no module is stored under that name: `modules` is an
object literal, `modules["constructor"]` is the inherited function, and the call returns
its property `exports`, which is `undefined`. -/
theorem requireModule_inherited_counterexample :
    JS.objGet (ParseProto.initialModules "enum") "constructor" = none
    ∧ Armadillo.requireModule (ParseProto.initialModules "enum") "constructor" = some none := by
  decide

/-! ## C20: ignored registrations -/

/-- C20: for every name for which `ignoreModule` is true, `defineModule` returns the loader
state it was given, in both variants: both tables are unchanged, and so is the list of the
callbacks invoked.  For a name that does not end in `.pb`, `ignoreModule` is true unless
the name is `WAProtoConst`, for which it is false. -/
theorem defineModule_ignored {ε : Type} (name : String) (dependencies : List String)
    (callback : ParseProto.Factory ε) (s : ParseProto.Loader ε) (a : Armadillo.Loader ε) :
    (ParseProto.ignoreModule name = true →
      ParseProto.defineModule s name dependencies callback = s)
    ∧ (Armadillo.ignoreModule name = true →
      Armadillo.defineModule a name dependencies callback = some a)
    ∧ (JS.endsWith name ".pb" = false →
      (ParseProto.ignoreModule name = true ↔ name ≠ "WAProtoConst")
      ∧ (Armadillo.ignoreModule name = true ↔ name ≠ "WAProtoConst"))
    ∧ ParseProto.ignoreModule "WAProtoConst" = false
    ∧ Armadillo.ignoreModule "WAProtoConst" = false := by
  refine ⟨?_, ?_, ?_, by decide, by decide⟩
  · intro h
    unfold ParseProto.defineModule
    rw [if_pos h]
  · intro h
    unfold Armadillo.defineModule
    rw [if_pos h]
  · intro h
    unfold ParseProto.ignoreModule Armadillo.ignoreModule
    by_cases hn : name = "WAProtoConst"
    · simp [hn]
    · simp [hn, h]

theorem defineModule_ignored_witness :
    ParseProto.ignoreModule "WAProtocol.pb" = true
    ∧ Armadillo.ignoreModule "WAWebABProps" = true
    ∧ JS.endsWith "WAWebABProps" ".pb" = false
    ∧ (ParseProto.defineModule ⟨ParseProto.initialModules "enum", [], []⟩ "WAProtocol.pb"
          ["WACommon.pb"] (fun _ _ => some "exports")).lazyModules.map (fun e => e.1) = []
    ∧ (Armadillo.defineModule ⟨ParseProto.initialModules "enum", []⟩ "WAWebABProps" []
          (fun _ _ => some "exports")).map (fun s => s.invoked) = some []
    ∧ (ParseProto.ignoreModule "WAWebABProps" = true ↔ "WAWebABProps" ≠ "WAProtoConst") :=
  ⟨by decide, by decide, by decide,
   by rw [(defineModule_ignored "WAProtocol.pb" ["WACommon.pb"] (fun _ _ => some "exports")
      ⟨ParseProto.initialModules "enum", [], []⟩ ⟨ParseProto.initialModules "enum", []⟩).1
      (by decide)]; rfl,
   by rw [(defineModule_ignored "WAWebABProps" [] (fun _ _ => some "exports")
      ⟨ParseProto.initialModules "enum", [], []⟩ ⟨ParseProto.initialModules "enum", []⟩).2.1
      (by decide)]; rfl,
   ((defineModule_ignored "WAWebABProps" [] (fun _ _ => some "exports")
      ⟨ParseProto.initialModules "enum", [], []⟩ ⟨ParseProto.initialModules "enum", []⟩).2.2.1
      (by decide)).1⟩

/-! ## C21: registering a name more than once -/

namespace JS

theorem objGet_objSet_self {α : Type} (obj : Obj α) (key : String) (value : α) :
    objGet (objSet obj key value) key = some value := by
  rw [objGet_objSet]
  simp

end JS

/-- C21, the behaviour of the code: in `proto/parse-proto.js` the test for a duplicate reads
`modules[name]`, which only `load` sets; a second registration of a name that is not
ignored and not yet resolved therefore replaces the lazy entry of the first.  When
`WACommon.pb` is registered twice before `loadLazyModules`, first with a callback that
exports `first` and then with one that exports `second`, the exports stored are `second`
and the first callback is never invoked; in the armadillo variant, which has no test, both
callbacks are invoked and the exports stored are `second`. -/
theorem duplicate_registration_replaces {ε : Type} (s : ParseProto.Loader ε) (name : String)
    (first second : List String) (callback1 callback2 : ParseProto.Factory ε)
    (hignore : ParseProto.ignoreModule name = false)
    (hfresh : ParseProto.isLoaded s.modules name = false) :
    JS.objGet (ParseProto.defineModule (ParseProto.defineModule s name first callback1)
        name second callback2).lazyModules name
      = some ⟨second.map ParseProto.aliasName, callback2⟩
    ∧ (ParseProto.defineModule (ParseProto.defineModule s name first callback1)
        name second callback2).modules = s.modules
    ∧ ParseProto.Outcome.summary
        (ParseProto.loadLazyModules 2
          (ParseProto.defineModule
            (ParseProto.defineModule ParseProto.emptyLoader "WACommon.pb" []
              (fun _ _ => some "first"))
            "WACommon.pb" [] (fun _ _ => some "second")))
        "WACommon.pb"
      = some (some ⟨some "second", some []⟩, ["WACommon.pb"])
    ∧ ((Armadillo.defineModule ⟨ParseProto.initialModules "enum", []⟩ "WACommon.pb" []
          (fun _ _ => some "first")).bind
        (fun a => Armadillo.defineModule a "WACommon.pb" [] (fun _ _ => some "second"))).map
        (fun a => (JS.objGet a.modules "WACommon.pb", a.invoked))
      = some (some ⟨some "second", some []⟩, ["WACommon.pb", "WACommon.pb"]) := by
  have h1 : ParseProto.defineModule s name first callback1
      = { s with lazyModules :=
            JS.objSet s.lazyModules name ⟨first.map ParseProto.aliasName, callback1⟩ } := by
    unfold ParseProto.defineModule
    rw [if_neg (by simp [hignore]), if_neg (by simp [hfresh])]
  have h2 : ParseProto.defineModule (ParseProto.defineModule s name first callback1)
        name second callback2
      = { s with lazyModules :=
            (JS.objSet (JS.objSet s.lazyModules name
              ⟨first.map ParseProto.aliasName, callback1⟩) name
              ⟨second.map ParseProto.aliasName, callback2⟩) } := by
    rw [h1]
    unfold ParseProto.defineModule
    rw [if_neg (by simp [hignore]), if_neg (by simp [hfresh])]
  refine ⟨?_, ?_, by decide, by decide⟩
  · rw [h2]
    exact JS.objGet_objSet_self _ _ _
  · rw [h2]

/-- C21, an instance: the two registrations of `WACommon.pb` on a loader in which nothing
has been registered. -/
theorem duplicate_registration_replaces_witness :
    JS.objGet (ParseProto.defineModule
        (ParseProto.defineModule ParseProto.emptyLoader "WACommon.pb" ["WAProtocol.pb"]
          (fun _ _ => some "first"))
        "WACommon.pb" [] (fun _ _ => some "second")).lazyModules "WACommon.pb"
      = some ⟨([] : List String).map ParseProto.aliasName, fun _ _ => some "second"⟩ :=
  (duplicate_registration_replaces ParseProto.emptyLoader "WACommon.pb" ["WAProtocol.pb"] []
    (fun _ _ => some "first") (fun _ _ => some "second") (by decide) (by decide)).1

/-! ## C23: the rename table -/

namespace ParseProto

theorem aliasName_not_key (name : String) : JS.objGet depRenameMap (aliasName name) = none := by
  unfold aliasName
  cases hg : JS.objGet depRenameMap name with
  | some canonical =>
    have hmem := mem_of_objGet _ _ _ hg
    simp only [depRenameMap, List.mem_cons, Prod.mk.injEq, List.mem_singleton,
      List.not_mem_nil, or_false] at hmem
    rcases hmem with ⟨_, h2⟩ | ⟨_, h2⟩ | ⟨_, h2⟩ | ⟨_, h2⟩ | ⟨_, h2⟩ | ⟨_, h2⟩
      | ⟨_, h2⟩ | ⟨_, h2⟩ | ⟨_, h2⟩ <;> subst h2 <;> dsimp only <;> decide
  | none =>
    dsimp only
    cases hi : inheritedText name with
    | none => exact hg
    | some text =>
      dsimp only
      unfold inheritedText at hi
      split at hi
      · simp only [Option.some.injEq] at hi; subst hi; decide
      · split at hi
        · simp only [Option.some.injEq] at hi; subst hi; decide
        · split at hi
          · rename_i hk
            simp only [Option.some.injEq] at hi
            subst hi
            simp only [JS.objectPrototypeKeys, List.mem_cons, List.mem_singleton,
              List.not_mem_nil, or_false] at hk
            rcases hk with h | h | h | h | h | h | h | h | h | h | h | h <;> subst h <;> decide
          · exact absurd hi (by simp)

theorem aliasName_of_key (old canonical : String)
    (h : JS.objGet depRenameMap old = some canonical) : aliasName old = canonical := by
  unfold aliasName
  rw [h]

end ParseProto

/-- C23: for every entry `old -> canonical` of the rename table and every module table,
`requireModule(old)` is `requireModule(canonical)`: the same exports, or both throw.  The
dependency list `defineModule` records for a registration is the given list with every name
passed through the table, in the same order; it contains no key of the table, a key is
replaced by its canonical name, and a name that is neither a key nor inherited from
`Object.prototype` is kept. -/
theorem requireModule_alias {ε : Type} (modules : ParseProto.Modules ε)
    (old canonical : String) (h : JS.objGet ParseProto.depRenameMap old = some canonical)
    (s : ParseProto.Loader ε) (name : String) (dependencies : List String)
    (callback : ParseProto.Factory ε) (hi : ParseProto.ignoreModule name = false)
    (hl : ParseProto.isLoaded s.modules name = false) :
    ParseProto.requireModule modules old = ParseProto.requireModule modules canonical
    ∧ (JS.objGet (ParseProto.defineModule s name dependencies callback).lazyModules name).map
          (fun mod => mod.dependencies)
        = some (dependencies.map ParseProto.aliasName)
    ∧ (∀ d ∈ dependencies.map ParseProto.aliasName, JS.objGet ParseProto.depRenameMap d = none)
    ∧ (∀ d c, JS.objGet ParseProto.depRenameMap d = some c → ParseProto.aliasName d = c)
    ∧ (∀ d, JS.objGet ParseProto.depRenameMap d = none → d ∉ JS.objectPrototypeKeys →
        ParseProto.aliasName d = d) := by
  refine ⟨?_, ?_, ?_, ?_, ?_⟩
  · unfold ParseProto.requireModule
    rw [ParseProto.aliasName_of_key old canonical h]
    have hc : ParseProto.aliasName canonical = canonical := by
      have hk := ParseProto.aliasName_not_key old
      rw [ParseProto.aliasName_of_key old canonical h] at hk
      have hmem := ParseProto.mem_of_objGet _ _ _ h
      simp only [ParseProto.depRenameMap, List.mem_cons, Prod.mk.injEq, List.mem_singleton,
        List.not_mem_nil, or_false] at hmem
      rcases hmem with ⟨_, h2⟩ | ⟨_, h2⟩ | ⟨_, h2⟩ | ⟨_, h2⟩ | ⟨_, h2⟩ | ⟨_, h2⟩
        | ⟨_, h2⟩ | ⟨_, h2⟩ | ⟨_, h2⟩ <;> subst h2 <;> decide
    rw [hc]
  · unfold ParseProto.defineModule
    rw [if_neg (by simp [hi]), if_neg (by simp [hl])]
    simp only [JS.objGet_objSet_self, Option.map_some']
  · intro d hd
    rw [List.mem_map] at hd
    obtain ⟨d0, _, rfl⟩ := hd
    exact ParseProto.aliasName_not_key d0
  · intro d c hd
    exact ParseProto.aliasName_of_key d c hd
  · intro d hd hp
    rw [ParseProto.aliasName_of_plain d hp]
    unfold ParseProto.canonicalName
    rw [hd]

theorem requireModule_alias_witness :
    ParseProto.requireModule
        [("WACommon.pb", (⟨some "exports", some []⟩ : ParseProto.Module String))]
        "WAProtocol.pb"
      = some (some "exports")
    ∧ (JS.objGet (ParseProto.defineModule ParseProto.emptyLoader "WAWebProtobufsE2E.pb"
          ["WAProtocol.pb", "WAProtoConst", "WAAdv.pb"]
          (fun _ _ => some "exports")).lazyModules "WAWebProtobufsE2E.pb").map
          (fun mod => mod.dependencies)
        = some ["WACommon.pb", "WAProtoConst", "WAAdv.pb"] :=
  ⟨((requireModule_alias
      [("WACommon.pb", (⟨some "exports", some []⟩ : ParseProto.Module String))]
      "WAProtocol.pb" "WACommon.pb" (by decide) ParseProto.emptyLoader "WAWebProtobufsE2E.pb"
      ["WAProtocol.pb", "WAProtoConst", "WAAdv.pb"] (fun _ _ => some "exports") (by decide)
      (by decide)).1).trans (by decide),
   (requireModule_alias
      [("WACommon.pb", (⟨some "exports", some []⟩ : ParseProto.Module String))]
      "WAProtocol.pb" "WACommon.pb" (by decide) ParseProto.emptyLoader "WAWebProtobufsE2E.pb"
      ["WAProtocol.pb", "WAProtoConst", "WAAdv.pb"] (fun _ _ => some "exports") (by decide)
      (by decide)).2.1.trans (by decide)⟩

/-! ## C22: lazy loading follows the dependencies -/

namespace ParseProto

theorem objGet_isSome_of_mem_keys {α : Type} (obj : JS.Obj α) (key : String)
    (h : key ∈ obj.map (fun e => e.1)) : (JS.objGet obj key).isSome = true := by
  cases hg : JS.objGet obj key with
  | some v => rfl
  | none =>
    rw [JS.objGet_eq_none] at hg
    rw [List.mem_map] at h
    obtain ⟨e, he, hk⟩ := h
    exact absurd hk (hg e he)

theorem mem_keys_of_objGet {α : Type} (obj : JS.Obj α) (key : String)
    (h : (JS.objGet obj key).isSome = true) : key ∈ obj.map (fun e => e.1) := by
  cases hg : JS.objGet obj key with
  | none => rw [hg] at h; exact absurd h (by simp)
  | some v => exact List.mem_map.mpr ⟨(key, v), mem_of_objGet obj key v hg, rfl⟩

theorem isLoaded_objSet {ε : Type} (modules : Modules ε) (name : String) (module : Module ε)
    (n : String) :
    isLoaded (JS.objSet modules name module) n = true
      ↔ (isLoaded modules n = true ∨ n = name) := by
  unfold isLoaded
  rw [JS.objGet_objSet]
  by_cases h : n = name
  · simp [h]
  · simp [h]

theorem LoadInv.start {ε : Type} (s0 : Loader ε) : LoadInv s0 s0 [] where
  lazy_eq := rfl
  invoked_eq := by simp
  loaded_iff := by simp
  nodup := List.nodup_nil
  keys := by simp
  ordered := by simp

theorem LoadInv.isLoaded_mono {ε : Type} {s0 s s2 : Loader ε} {t ext : List String}
    (h : LoadInv s0 s t) (h2 : LoadInv s0 s2 (t ++ ext)) (n : String)
    (hn : isLoaded s.modules n = true) : isLoaded s2.modules n = true := by
  rw [h2.loaded_iff]
  rcases (h.loaded_iff n).1 hn with h0 | h1
  · exact Or.inl h0
  · exact Or.inr (List.mem_append_left _ h1)

/-- The closure `load` of a module whose lazy dependencies have been loaded keeps the
invariant. -/
theorem loadModule_inv {ε : Type} (s0 s : Loader ε) (t : List String) (n : String)
    (mod : LazyModule ε) (hinv : LoadInv s0 s t)
    (hmod : JS.objGet s0.lazyModules n = some mod)
    (hnot : isLoaded s.modules n = false)
    (hdeps : ∀ d, DependsOn s0.lazyModules n d → d ∈ t)
    (hF : ∀ req flag, (mod.callback req flag).isSome = true) :
    ∃ s2, loadModule s n mod = some s2 ∧ LoadInv s0 s2 (t ++ [n]) := by
  unfold loadModule
  have hcb := hF (requireModule s.modules) (decide (mod.dependencies.length > 0))
  cases hc : mod.callback (requireModule s.modules) (decide (mod.dependencies.length > 0)) with
  | none => rw [hc] at hcb; exact absurd hcb (by simp)
  | some exports =>
    refine ⟨_, rfl, ?_⟩
    have hnt : n ∉ t := by
      intro hmem
      have := (hinv.loaded_iff n).2 (Or.inr hmem)
      rw [hnot] at this
      exact absurd this (by simp)
    constructor
    · exact hinv.lazy_eq
    · show s.invoked ++ [n] = s0.invoked ++ (t ++ [n])
      rw [hinv.invoked_eq, List.append_assoc]
    · intro m
      show isLoaded (JS.objSet s.modules n _) m = true ↔ _
      rw [isLoaded_objSet, hinv.loaded_iff, List.mem_append, List.mem_singleton, or_assoc]
    · rw [List.nodup_append]
      refine ⟨hinv.nodup, List.nodup_singleton n, ?_⟩
      intro a ha hb
      rw [List.mem_singleton] at hb
      subst hb
      exact hnt ha
    · intro m hm
      rw [List.mem_append, List.mem_singleton] at hm
      rcases hm with hm | hm
      · exact hinv.keys m hm
      · subst hm; rw [hmod]; rfl
    · intro m d hm hdep
      rw [List.mem_append, List.mem_singleton] at hm
      rcases hm with hm | hm
      · have hlt := hinv.ordered m d hm hdep
        have hd : d ∈ t := by
          rw [← List.indexOf_lt_length]
          exact lt_of_lt_of_le hlt List.indexOf_le_length
        rw [List.indexOf_append_of_mem hd, List.indexOf_append_of_mem hm]
        exact hlt
      · subst hm
        have hd : d ∈ t := hdeps d hdep
        rw [List.indexOf_append_of_mem hd, List.indexOf_append_of_not_mem hnt]
        have := List.indexOf_lt_length.2 hd
        omega

/-- A loop over names that `loadLazyModule` loads keeps the invariant and loads them all. -/
theorem forEach_load {ε : Type} (s0 : Loader ε) (rank : String → Nat) (depth : Nat)
    (step : ∀ s t n, LoadInv s0 s t →
      ((JS.objGet s0.lazyModules n).isSome = true ∨ isLoaded s0.modules n = true) →
      ((JS.objGet s0.lazyModules n).isSome = true → rank n + 2 ≤ depth) → 1 ≤ depth →
      ∃ s2 ext, loadLazyModule depth s n = .returned s2 ∧ LoadInv s0 s2 (t ++ ext)
        ∧ isLoaded s2.modules n = true
        ∧ ∀ m ∈ ext, (JS.objGet s0.lazyModules n).isSome = true ∧ rank m ≤ rank n)
    (hdepth : 1 ≤ depth) (names : List String) :
    ∀ s t, LoadInv s0 s t →
      (∀ n ∈ names,
        ((JS.objGet s0.lazyModules n).isSome = true ∨ isLoaded s0.modules n = true)
        ∧ ((JS.objGet s0.lazyModules n).isSome = true → rank n + 2 ≤ depth)) →
      ∃ s2 ext, forEach (loadLazyModule depth) s names = .returned s2
        ∧ LoadInv s0 s2 (t ++ ext)
        ∧ (∀ n ∈ names, isLoaded s2.modules n = true)
        ∧ ∀ m ∈ ext, ∃ n ∈ names, (JS.objGet s0.lazyModules n).isSome = true
            ∧ rank m ≤ rank n := by
  induction names with
  | nil =>
    intro s t hinv _
    exact ⟨s, [], rfl, by simpa using hinv, by simp, by simp⟩
  | cons n rest ih =>
    intro s t hinv hall
    have hn := hall n (List.mem_cons_self _ _)
    obtain ⟨s1, ext1, h1, hinv1, hl1, hr1⟩ := step s t n hinv hn.1 hn.2 hdepth
    obtain ⟨s2, ext2, h2, hinv2, hl2, hr2⟩ := ih s1 (t ++ ext1) hinv1
      (fun m hm => hall m (List.mem_cons_of_mem _ hm))
    refine ⟨s2, ext1 ++ ext2, ?_, ?_, ?_, ?_⟩
    · simp only [forEach, h1, h2]
    · rw [← List.append_assoc]; exact hinv2
    · intro m hm
      rw [List.mem_cons] at hm
      rcases hm with hm | hm
      · subst hm
        exact hinv1.isLoaded_mono hinv2 _ hl1
      · exact hl2 m hm
    · intro m hm
      rw [List.mem_append] at hm
      rcases hm with hm | hm
      · exact ⟨n, List.mem_cons_self _ _, (hr1 m hm).1, (hr1 m hm).2⟩
      · obtain ⟨k, hk, hk2⟩ := hr2 m hm
        exact ⟨k, List.mem_cons_of_mem _ hk, hk2⟩

/-- One call of `loadLazyModule` with enough depth returns, keeps the invariant and leaves
the module resolved. -/
theorem loadLazyModule_inv {ε : Type} (s0 : Loader ε) (rank : String → Nat)
    (hfresh : ∀ n, (JS.objGet s0.lazyModules n).isSome = true → isLoaded s0.modules n = false)
    (hdeps : ∀ n mod d, JS.objGet s0.lazyModules n = some mod → d ∈ mod.dependencies →
      (JS.objGet s0.lazyModules d).isSome = true ∨ isLoaded s0.modules d = true)
    (hrank : ∀ n d, DependsOn s0.lazyModules n d → rank d < rank n)
    (hF : ∀ n mod, JS.objGet s0.lazyModules n = some mod →
      ∀ req flag, (mod.callback req flag).isSome = true)
    (depth : Nat) :
    ∀ s t n, LoadInv s0 s t →
      ((JS.objGet s0.lazyModules n).isSome = true ∨ isLoaded s0.modules n = true) →
      ((JS.objGet s0.lazyModules n).isSome = true → rank n + 2 ≤ depth) → 1 ≤ depth →
      ∃ s2 ext, loadLazyModule depth s n = .returned s2 ∧ LoadInv s0 s2 (t ++ ext)
        ∧ isLoaded s2.modules n = true
        ∧ ∀ m ∈ ext, (JS.objGet s0.lazyModules n).isSome = true ∧ rank m ≤ rank n := by
  induction depth with
  | zero => intro s t n _ _ _ h; exact absurd h (by decide)
  | succ depth ih =>
    intro s t n hinv hkey hdepth _
    unfold loadLazyModule
    by_cases hl : isLoaded s.modules n = true
    · rw [if_pos hl]
      exact ⟨s, [], rfl, by simpa using hinv, hl, by simp⟩
    · rw [if_neg hl]
      have hl0 : isLoaded s0.modules n ≠ true := fun h0 =>
        hl ((hinv.loaded_iff n).2 (Or.inl h0))
      have hk : (JS.objGet s0.lazyModules n).isSome = true := by
        rcases hkey with h | h
        · exact h
        · exact absurd h hl0
      have hnt : n ∉ t := fun hmem => hl ((hinv.loaded_iff n).2 (Or.inr hmem))
      obtain ⟨mod, hmod⟩ := Option.isSome_iff_exists.1 hk
      rw [hinv.lazy_eq, hmod]
      have hd1 : 1 ≤ depth := by have := hdepth hk; omega
      obtain ⟨s2, ext, h2, hinv2, hl2, hr2⟩ :=
        forEach_load s0 rank depth ih hd1 mod.dependencies s t hinv (by
          intro d hd
          refine ⟨hdeps n mod d hmod hd, fun hdk => ?_⟩
          have := hrank n d ⟨mod, hmod, hd, hdk⟩
          have := hdepth hk
          omega)
      simp only [h2]
      have hranks : ∀ m ∈ ext, rank m < rank n := by
        intro m hm
        obtain ⟨d, hd, hdk, hle⟩ := hr2 m hm
        exact lt_of_le_of_lt hle (hrank n d ⟨mod, hmod, hd, hdk⟩)
      have hnot2 : isLoaded s2.modules n = false := by
        rw [Bool.eq_false_iff]
        intro h
        rcases (hinv2.loaded_iff n).1 h with h0 | h1
        · exact hl0 h0
        · rw [List.mem_append] at h1
          rcases h1 with h1 | h1
          · exact hnt h1
          · exact absurd (hranks n h1) (lt_irrefl _)
      obtain ⟨s3, h3, hinv3⟩ := loadModule_inv s0 s2 (t ++ ext) n mod hinv2 hmod hnot2 (by
        intro d hdep
        obtain ⟨mod2, hmod2, hd, hdk⟩ := hdep
        rw [hmod] at hmod2
        simp only [Option.some.injEq] at hmod2
        subst hmod2
        rcases (hinv2.loaded_iff d).1 (hl2 d hd) with h0 | h1
        · rw [hfresh d hdk] at h0
          exact absurd h0 (by simp)
        · exact h1) (hF n mod hmod)
      simp only [h3]
      refine ⟨s3, ext ++ [n], rfl, ?_, ?_, ?_⟩
      · rw [← List.append_assoc]; exact hinv3
      · exact (hinv3.loaded_iff n).2 (Or.inr (by simp))
      · intro m hm
        rw [List.mem_append, List.mem_singleton] at hm
        rcases hm with hm | hm
        · exact ⟨rfl, le_of_lt (hranks m hm)⟩
        · subst hm; exact ⟨rfl, le_refl _⟩

theorem rank_le_sum {α : Type} (table : JS.Obj α) (rank : String → Nat) (n : String)
    (h : n ∈ table.map (fun e => e.1)) :
    rank n ≤ (table.map (fun e => rank e.1)).sum := by
  induction table with
  | nil => simp at h
  | cons e rest ih =>
    simp only [List.map_cons, List.mem_cons, List.sum_cons] at h ⊢
    rcases h with h | h
    · subst h; omega
    · have := ih h; omega

end ParseProto

/-- C22: let the lazy modules of a loader state have no entry that is already resolved, let
every dependency of a lazy module be a lazy module or resolved, let the dependencies be
acyclic (a rank decreases along them), and let no callback throw.  Then `loadLazyModules`
returns for every sufficient depth of recursion, and in the state it returns the callbacks
invoked are those of the lazy modules, each exactly once, every module after the lazy
modules it depends on, directly or through others, and every lazy module is in the table
of resolved modules. -/
theorem loadLazyModules_ordered {ε : Type} (s0 : ParseProto.Loader ε) (rank : String → Nat)
    (hfresh : ∀ n, (JS.objGet s0.lazyModules n).isSome = true →
      ParseProto.isLoaded s0.modules n = false)
    (hdeps : ∀ n mod d, JS.objGet s0.lazyModules n = some mod → d ∈ mod.dependencies →
      (JS.objGet s0.lazyModules d).isSome = true ∨ ParseProto.isLoaded s0.modules d = true)
    (hrank : ∀ n d, ParseProto.DependsOn s0.lazyModules n d → rank d < rank n)
    (hF : ∀ n mod, JS.objGet s0.lazyModules n = some mod →
      ∀ req flag, (mod.callback req flag).isSome = true) :
    ∃ enough, ∀ depth, enough ≤ depth →
      ∃ s order, ParseProto.loadLazyModules depth s0 = .returned s
        ∧ s.invoked = s0.invoked ++ order
        ∧ order.Nodup
        ∧ (∀ n, n ∈ order ↔ n ∈ s0.lazyModules.map (fun e => e.1))
        ∧ (∀ n d, Relation.TransGen (ParseProto.DependsOn s0.lazyModules) n d →
            order.indexOf d < order.indexOf n)
        ∧ (∀ n ∈ s0.lazyModules.map (fun e => e.1), (JS.objGet s.modules n).isSome = true)
        ∧ s.lazyModules = s0.lazyModules := by
  refine ⟨(s0.lazyModules.map (fun e => rank e.1)).sum + 2, fun depth hdepth => ?_⟩
  obtain ⟨s, order, h1, hinv, hl, _⟩ :=
    ParseProto.forEach_load s0 rank depth
      (ParseProto.loadLazyModule_inv s0 rank hfresh hdeps hrank hF depth) (by omega)
      (s0.lazyModules.map (fun e => e.1)) s0 [] (ParseProto.LoadInv.start s0) (by
        intro n hn
        refine ⟨Or.inl (ParseProto.objGet_isSome_of_mem_keys _ _ hn), fun _ => ?_⟩
        have := ParseProto.rank_le_sum s0.lazyModules rank n hn
        omega)
  rw [List.nil_append] at hinv
  have hmem : ∀ n, n ∈ order ↔ n ∈ s0.lazyModules.map (fun e => e.1) := by
    intro n
    constructor
    · intro hn
      exact ParseProto.mem_keys_of_objGet _ _ (hinv.keys n hn)
    · intro hn
      rcases (hinv.loaded_iff n).1 (hl n hn) with h0 | h0
      · rw [hfresh n (ParseProto.objGet_isSome_of_mem_keys _ _ hn)] at h0
        exact absurd h0 (by simp)
      · exact h0
  refine ⟨s, order, h1, hinv.invoked_eq, hinv.nodup, hmem, ?_, ?_, hinv.lazy_eq⟩
  · intro n d htrans
    induction htrans with
    | single hdep =>
      obtain ⟨mod, hmod, hd, hdk⟩ := hdep
      have hn : _ ∈ order := (hmem _).2 (ParseProto.mem_keys_of_objGet _ _ (by rw [hmod]; rfl))
      exact hinv.ordered _ _ hn ⟨mod, hmod, hd, hdk⟩
    | tail _ hdep ih =>
      obtain ⟨mod, hmod, hd, hdk⟩ := hdep
      have hn : _ ∈ order := (hmem _).2 (ParseProto.mem_keys_of_objGet _ _ (by rw [hmod]; rfl))
      exact lt_trans (hinv.ordered _ _ hn ⟨mod, hmod, hd, hdk⟩) ih
  · intro n hn
    have hln := hl n hn
    unfold ParseProto.isLoaded at hln
    rw [Bool.or_eq_true] at hln
    rcases hln with h | h
    · exact h
    · have h0 : ParseProto.isLoaded s0.modules n = true := by
        unfold ParseProto.isLoaded
        rw [Bool.or_eq_true]
        exact Or.inr h
      rw [hfresh n (ParseProto.objGet_isSome_of_mem_keys _ _ hn)] at h0
      exact absurd h0 (by simp)

namespace ParseProto

theorem sampleLoader_lazyModules :
    sampleLoader.lazyModules
      = [("WAWebProtobufsE2E.pb", ⟨["WACommon.pb", "WAAdv.pb"], fun _ _ => some "e2e"⟩),
         ("WAAdv.pb", ⟨["WACommon.pb", "$InternalEnum"], fun _ _ => some "adv"⟩),
         ("WACommon.pb", ⟨[], fun _ _ => some "common"⟩)] := rfl

theorem sampleLoader_modules : sampleLoader.modules = initialModules "enum" := rfl

theorem sampleLoader_entry (n : String) (mod : LazyModule String)
    (h : JS.objGet sampleLoader.lazyModules n = some mod) :
    (n = "WAWebProtobufsE2E.pb" ∧ mod.dependencies = ["WACommon.pb", "WAAdv.pb"]
      ∧ mod.callback = fun _ _ => some "e2e")
    ∨ (n = "WAAdv.pb" ∧ mod.dependencies = ["WACommon.pb", "$InternalEnum"]
      ∧ mod.callback = fun _ _ => some "adv")
    ∨ (n = "WACommon.pb" ∧ mod.dependencies = [] ∧ mod.callback = fun _ _ => some "common") := by
  have hmem := mem_of_objGet _ _ _ h
  rw [sampleLoader_lazyModules] at hmem
  simp only [List.mem_cons, Prod.mk.injEq, List.mem_singleton, List.not_mem_nil, or_false]
    at hmem
  rcases hmem with ⟨h1, h2⟩ | ⟨h1, h2⟩ | ⟨h1, h2⟩
  · left; subst h2; exact ⟨h1, rfl, rfl⟩
  · right; left; subst h2; exact ⟨h1, rfl, rfl⟩
  · right; right; subst h2; exact ⟨h1, rfl, rfl⟩

theorem sampleLoader_key (n : String)
    (h : (JS.objGet sampleLoader.lazyModules n).isSome = true) :
    n = "WAWebProtobufsE2E.pb" ∨ n = "WAAdv.pb" ∨ n = "WACommon.pb" := by
  obtain ⟨mod, hmod⟩ := Option.isSome_iff_exists.1 h
  rcases sampleLoader_entry n mod hmod with h | h | h
  · exact Or.inl h.1
  · exact Or.inr (Or.inl h.1)
  · exact Or.inr (Or.inr h.1)

end ParseProto

theorem loadLazyModules_ordered_witness :
    (∃ enough, ∀ depth, enough ≤ depth →
      ∃ s order, ParseProto.loadLazyModules depth ParseProto.sampleLoader = .returned s
        ∧ s.invoked = ParseProto.sampleLoader.invoked ++ order
        ∧ order.Nodup
        ∧ (∀ n, n ∈ order ↔ n ∈ ParseProto.sampleLoader.lazyModules.map (fun e => e.1))
        ∧ (∀ n d, Relation.TransGen
              (ParseProto.DependsOn ParseProto.sampleLoader.lazyModules) n d →
            order.indexOf d < order.indexOf n)
        ∧ (∀ n ∈ ParseProto.sampleLoader.lazyModules.map (fun e => e.1),
            (JS.objGet s.modules n).isSome = true)
        ∧ s.lazyModules = ParseProto.sampleLoader.lazyModules)
    ∧ ParseProto.Outcome.summary (ParseProto.loadLazyModules 4 ParseProto.sampleLoader)
          "WAWebProtobufsE2E.pb"
        = some (some ⟨some "e2e", some ["WACommon.pb", "WAAdv.pb"]⟩,
            ["WACommon.pb", "WAAdv.pb", "WAWebProtobufsE2E.pb"]) :=
  ⟨loadLazyModules_ordered ParseProto.sampleLoader ParseProto.sampleRank
    (by
      intro n hn
      rcases ParseProto.sampleLoader_key n hn with h | h | h <;> subst h <;> decide)
    (by
      intro n mod d hmod hd
      rcases ParseProto.sampleLoader_entry n mod hmod with ⟨_, h, _⟩ | ⟨_, h, _⟩ | ⟨_, h, _⟩
      all_goals
        rw [h] at hd
        simp only [List.mem_cons, List.mem_singleton, List.not_mem_nil, or_false] at hd
      · rcases hd with h | h <;> subst h <;> decide
      · rcases hd with h | h <;> subst h <;> decide)
    (by
      intro n d hdep
      obtain ⟨mod, hmod, hd, _⟩ := hdep
      rcases ParseProto.sampleLoader_entry n mod hmod with ⟨hn, h, _⟩ | ⟨hn, h, _⟩ | ⟨hn, h, _⟩
      all_goals
        rw [h] at hd
        simp only [List.mem_cons, List.mem_singleton, List.not_mem_nil, or_false] at hd
      · subst hn; rcases hd with h | h <;> subst h <;> decide
      · subst hn; rcases hd with h | h <;> subst h <;> decide)
    (by
      intro n mod hmod req flag
      rcases ParseProto.sampleLoader_entry n mod hmod with ⟨_, _, h⟩ | ⟨_, _, h⟩ | ⟨_, _, h⟩
        <;> rw [h] <;> rfl),
   by decide⟩

/-! ## C30: un-nesting of identifier names -/

namespace Extract

theorem firstOccurrenceAt_iff (pat s : String) (k : Nat) :
    firstOccurrenceAt pat s k = true
      ↔ JS.matchesAt pat.data (fun _ => true) s.data k = true
        ∧ ∀ j, j < k → JS.matchesAt pat.data (fun _ => true) s.data j = false := by
  simp [firstOccurrenceAt]

/-- The call `s.replace(pat, rep)` cuts the first occurrence of the pattern out, wherever
it stands. -/
theorem replace_of_firstOccurrenceAt (s pat rep : String) (k : Nat) (hpat : pat.data ≠ [])
    (h : firstOccurrenceAt pat s k = true) :
    JS.replace s pat rep
      = String.mk (s.data.take k ++ rep.data ++ s.data.drop (k + pat.data.length)) := by
  obtain ⟨h1, h2⟩ := (firstOccurrenceAt_iff pat s k).1 h
  unfold JS.replace
  rw [JS.replaceFirstChars_of_first_match pat.data rep.data _ hpat s.data k h1 h2]

/-- The call `s.replace(pat, rep)` returns a text without the pattern as it is. -/
theorem replace_of_absent (s pat rep : String) (hpat : pat.data ≠ [])
    (h : ∀ k, JS.matchesAt pat.data (fun _ => true) s.data k = false) :
    JS.replace s pat rep = s := by
  unfold JS.replace
  rw [JS.replaceFirstChars_of_no_match pat.data rep.data _ hpat s.data h]

end Extract

/-- C30, the behaviour of the code: `unnestName` calls `replace` with the plain texts
`Message$` and `SyncActionValue$`, which are not anchored at the start of the name: after
the final `Spec` is cut off, the first occurrence of `Message$` is removed wherever it
stands.  `Thumbnail`, nested in `ImageMessage`, a message whose name merely ends in
`Message`, becomes `ImageThumbnail` and loses its nesting path; a name that contains none
of the texts of `unnestName` keeps its nesting path. -/
theorem rename_removes_first_occurrence (name : String) :
    (∀ k, Extract.firstOccurrenceAt "Message$" (Extract.unspecName name) k = true →
      Extract.rename name
        = JS.replace (JS.replace
            (String.mk ((Extract.unspecName name).data.take k
              ++ (Extract.unspecName name).data.drop (k + 8)))
            "SyncActionValue$" "")
            "ContextInfo$ForwardedNewsletterMessageInfo" "ForwardedNewsletterMessageInfo")
    ∧ ((∀ k, JS.matchesAt "Message$".data (fun _ => true) (Extract.unspecName name).data k
          = false) →
      (∀ k, JS.matchesAt "SyncActionValue$".data (fun _ => true)
          (Extract.unspecName name).data k = false) →
      (∀ k, JS.matchesAt "ContextInfo$ForwardedNewsletterMessageInfo".data (fun _ => true)
          (Extract.unspecName name).data k = false) →
      Extract.rename name = Extract.unspecName name)
    ∧ Extract.rename "ImageMessage$ThumbnailSpec" = "ImageThumbnail"
    ∧ Extract.rename "Message$ImageMessageSpec" = "ImageMessage" := by
  refine ⟨?_, ?_, by decide, by decide⟩
  · intro k hk
    unfold Extract.rename Extract.unnestName
    rw [Extract.replace_of_firstOccurrenceAt _ "Message$" "" k (by decide) hk]
    have h0 : "".data = [] := rfl
    have h8 : "Message$".data.length = 8 := rfl
    rw [h0, h8, List.append_nil]
  · intro h1 h2 h3
    unfold Extract.rename Extract.unnestName
    rw [Extract.replace_of_absent _ "Message$" "" (by decide) h1,
      Extract.replace_of_absent _ "SyncActionValue$" "" (by decide) h2,
      Extract.replace_of_absent _ _ _ (by decide) h3]

/-- C30, an instance: in `ImageMessage$Thumbnail` the text `Message$` first occurs at the
position 5, inside the first segment. -/
theorem rename_removes_first_occurrence_witness :
    Extract.firstOccurrenceAt "Message$" (Extract.unspecName "ImageMessage$ThumbnailSpec") 5
      = true
    ∧ Extract.rename "ImageMessage$ThumbnailSpec"
        = JS.replace (JS.replace
            (String.mk ((Extract.unspecName "ImageMessage$ThumbnailSpec").data.take 5
              ++ (Extract.unspecName "ImageMessage$ThumbnailSpec").data.drop (5 + 8)))
            "SyncActionValue$" "")
            "ContextInfo$ForwardedNewsletterMessageInfo" "ForwardedNewsletterMessageInfo" :=
  ⟨by decide,
   (rename_removes_first_occurrence "ImageMessage$ThumbnailSpec").1 5 (by decide)⟩

/-! ## C11: duplicate messages in `extract/index.js` -/

namespace Extract

theorem mem_suppressDuplicate (name : String) (block added : List String) (n : String) :
    n ∈ (suppressDuplicate name block added).2 ↔ n ∈ added ∨ n = name := by
  unfold suppressDuplicate
  by_cases h : name ∈ added
  · rw [if_pos h]
    constructor
    · exact Or.inl
    · rintro (h1 | h1)
      · exact h1
      · rw [h1]; exact h
  · rw [if_neg h]
    simp

mutual
theorem stringifyMessageSpec_added : ∀ (v : Ident) (added lines added2 : List String),
    stringifyMessageSpec v added = some (lines, added2) →
    ∀ n, n ∈ added2 ↔ n ∈ added ∨ n ∈ emittedNames v
  | .mk name unnestedName enumValues members children, added, lines, added2, h, n => by
    unfold stringifyMessageSpec at h
    cases hc : stringifyEntities children added with
    | none => rw [hc] at h; exact absurd h (by simp)
    | some r =>
      obtain ⟨childLines, seen⟩ := r
      rw [hc] at h
      cases members with
      | none => exact absurd h (by simp)
      | some members =>
        cases hm : stringifyMembers members name with
        | none => simp only [hm] at h; exact absurd h (by simp)
        | some memberLines =>
          simp only [hm, Option.some.injEq] at h
          have h2 : added2 = (suppressDuplicate name
              (messageBlock name unnestedName childLines memberLines) seen).2 := by
            rw [h]
          rw [h2, mem_suppressDuplicate, stringifyEntities_added children added _ _ hc n]
          simp only [emittedNames, List.mem_append, List.mem_singleton, or_assoc]
theorem stringifyEntities_added : ∀ (vs : List Ident) (added lines added2 : List String),
    stringifyEntities vs added = some (lines, added2) →
    ∀ n, n ∈ added2 ↔ n ∈ added ∨ n ∈ emittedNamesOfList vs
  | [], added, lines, added2, h, n => by
    simp only [stringifyEntities, Option.some.injEq, Prod.mk.injEq] at h
    simp [emittedNamesOfList, h.2]
  | .mk name unnestedName enumValues (some members) children :: rest, added, lines, added2,
      h, n => by
    rw [stringifyEntities] at h
    cases h1 : stringifyMessageSpec (.mk name unnestedName enumValues (some members) children)
        added with
    | none => rw [h1] at h; exact absurd h (by simp)
    | some r1 =>
      obtain ⟨lines1, added1⟩ := r1
      rw [h1] at h
      cases h3 : stringifyEntities rest added1 with
      | none => simp only [h3] at h; exact absurd h (by simp)
      | some r3 =>
        obtain ⟨others, added3⟩ := r3
        simp only [h3, Option.some.injEq, Prod.mk.injEq] at h
        rw [← h.2, stringifyEntities_added rest added1 _ _ h3 n,
          stringifyMessageSpec_added _ added _ _ h1 n]
        simp only [emittedNamesOfList, List.mem_append, or_assoc]
  | .mk name unnestedName (some values) none children :: rest, added, lines, added2, h, n => by
    rw [stringifyEntities] at h
    cases h3 : stringifyEntities rest added with
    | none => simp only [h3] at h; exact absurd h (by simp)
    | some r3 =>
      obtain ⟨others, added3⟩ := r3
      simp only [h3, Option.some.injEq, Prod.mk.injEq] at h
      rw [← h.2, stringifyEntities_added rest added _ _ h3 n]
      simp only [emittedNamesOfList, emittedNames, List.nil_append]
  | .mk name unnestedName none none children :: rest, added, lines, added2, h, n => by
    rw [stringifyEntities] at h
    cases h3 : stringifyEntities rest added with
    | none => simp only [h3] at h; exact absurd h (by simp)
    | some r3 =>
      obtain ⟨others, added3⟩ := r3
      simp only [h3, Option.some.injEq, Prod.mk.injEq] at h
      rw [← h.2, stringifyEntities_added rest added _ _ h3 n]
      simp only [emittedNamesOfList, emittedNames, List.nil_append]
end

end Extract

/-- C11: let a call of `stringifyMessageSpec` on a message return.  If the name of the
message is not in `addedMessages` when the test is made (it was neither there at the call
nor tested for a message nested in this one), the block is returned as it is, followed by
an empty line, and the name is added; otherwise the block is returned with the first line
`// Duplicate type omitted`, every line prefixed by `//`, and the empty line.  Names are
never removed, so after the call every emission of a message of that name, in whatever
later state of the run, is returned commented out: at most the first emission of a name is
returned uncommented. -/
theorem stringifyMessageSpec_duplicates (name : String) (unnestedName : Option String)
    (enumValues : Option (List (String × Option Int))) (members : List Extract.Member)
    (children : List Extract.Ident) (added lines added2 : List String)
    (h : Extract.stringifyMessageSpec
        (.mk name unnestedName enumValues (some members) children) added
      = some (lines, added2)) :
    ∃ childLines memberLines seen,
      Extract.stringifyEntities children added = some (childLines, seen)
      ∧ Extract.stringifyMembers members name = some memberLines
      ∧ (∀ n, n ∈ seen ↔ n ∈ added ∨ n ∈ Extract.emittedNamesOfList children)
      ∧ ((name ∈ added ∨ name ∈ Extract.emittedNamesOfList children) →
          lines = ["// Duplicate type omitted"]
              ++ Extract.addPrefix
                  (Extract.messageBlock name unnestedName childLines memberLines) "//"
              ++ [""]
          ∧ added2 = seen)
      ∧ (¬ (name ∈ added ∨ name ∈ Extract.emittedNamesOfList children) →
          lines = Extract.messageBlock name unnestedName childLines memberLines ++ [""]
          ∧ added2 = seen ++ [name])
      ∧ name ∈ added2
      ∧ (∀ vs out added3, Extract.stringifyEntities vs added2 = some (out, added3) →
          ∀ n ∈ added2, n ∈ added3)
      ∧ (∀ unnestedName3 enumValues3 members3 children3 added3 lines3 added4,
          (∀ n ∈ added2, n ∈ added3) →
          Extract.stringifyMessageSpec
              (.mk name unnestedName3 enumValues3 (some members3) children3) added3
            = some (lines3, added4) →
          ∃ block, lines3 = ["// Duplicate type omitted"] ++ Extract.addPrefix block "//"
            ++ [""]) := by
  have hadded := Extract.stringifyMessageSpec_added _ _ _ _ h
  have hname : name ∈ added2 := by
    rw [hadded]
    right
    simp [Extract.emittedNames]
  have key : ∀ (un : Option String) (ev : Option (List (String × Option Int)))
      (ms : List Extract.Member) (cs : List Extract.Ident) (a l a2 : List String),
      Extract.stringifyMessageSpec (.mk name un ev (some ms) cs) a = some (l, a2) →
      ∃ childLines memberLines seen,
        Extract.stringifyEntities cs a = some (childLines, seen)
        ∧ Extract.stringifyMembers ms name = some memberLines
        ∧ (l, a2) = Extract.suppressDuplicate name
            (Extract.messageBlock name un childLines memberLines) seen := by
    intro un ev ms cs a l a2 h0
    rw [Extract.stringifyMessageSpec] at h0
    cases hc : Extract.stringifyEntities cs a with
    | none => rw [hc] at h0; exact absurd h0 (by simp)
    | some r =>
      obtain ⟨childLines, seen⟩ := r
      rw [hc] at h0
      cases hm : Extract.stringifyMembers ms name with
      | none => simp only [hm] at h0; exact absurd h0 (by simp)
      | some memberLines =>
        simp only [hm, Option.some.injEq] at h0
        exact ⟨childLines, memberLines, seen, rfl, rfl, h0.symm⟩
  obtain ⟨childLines, memberLines, seen, hc, hm, hs⟩ := key _ _ _ _ _ _ _ h
  have hseen := Extract.stringifyEntities_added children added _ _ hc
  refine ⟨childLines, memberLines, seen, hc, hm, hseen, ?_, ?_, hname, ?_, ?_⟩
  · intro hdup
    have hin : name ∈ seen := (hseen name).2 hdup
    unfold Extract.suppressDuplicate at hs
    rw [if_pos hin] at hs
    simp only [Prod.mk.injEq] at hs
    exact hs
  · intro hfirst
    have hin : name ∉ seen := fun hmem => hfirst ((hseen name).1 hmem)
    unfold Extract.suppressDuplicate at hs
    rw [if_neg hin] at hs
    simp only [Prod.mk.injEq] at hs
    exact hs
  · intro vs out added3 h3 n hn
    exact (Extract.stringifyEntities_added vs added2 _ _ h3 n).2 (Or.inl hn)
  · intro un3 ev3 ms3 cs3 added3 lines3 added4 hsub h3
    obtain ⟨childLines3, memberLines3, seen3, hc3, _, hs3⟩ := key _ _ _ _ _ _ _ h3
    have hin : name ∈ seen3 :=
      (Extract.stringifyEntities_added cs3 added3 _ _ hc3 name).2 (Or.inl (hsub name hname))
    unfold Extract.suppressDuplicate at hs3
    rw [if_pos hin] at hs3
    simp only [Prod.mk.injEq] at hs3
    exact ⟨_, hs3.1⟩

theorem stringifyMessageSpec_duplicates_witness :
    Extract.stringifyEntities Extract.duplicateIdents []
      = some (["message Foo \x7b", "    optional string a = 1;", "\x7d", "",
          "// Duplicate type omitted", "//message Foo \x7b", "//    repeated bytes b = 2;",
          "//\x7d", ""], ["Foo"])
    ∧ ∃ childLines memberLines seen,
      Extract.stringifyEntities [] [] = some (childLines, seen)
      ∧ Extract.stringifyMembers [.field "a" 1 (some "string") []] "Foo" = some memberLines
      ∧ (∀ n, n ∈ seen ↔ n ∈ ([] : List String) ∨ n ∈ Extract.emittedNamesOfList [])
      ∧ (("Foo" ∈ ([] : List String) ∨ "Foo" ∈ Extract.emittedNamesOfList []) →
          ["message Foo \x7b", "    optional string a = 1;", "\x7d", ""]
            = ["// Duplicate type omitted"]
              ++ Extract.addPrefix (Extract.messageBlock "Foo" none childLines memberLines) "//"
              ++ [""]
          ∧ ["Foo"] = seen)
      ∧ (¬ ("Foo" ∈ ([] : List String) ∨ "Foo" ∈ Extract.emittedNamesOfList []) →
          ["message Foo \x7b", "    optional string a = 1;", "\x7d", ""]
            = Extract.messageBlock "Foo" none childLines memberLines ++ [""]
          ∧ ["Foo"] = seen ++ ["Foo"])
      ∧ "Foo" ∈ ["Foo"]
      ∧ (∀ vs out added3, Extract.stringifyEntities vs ["Foo"] = some (out, added3) →
          ∀ n ∈ ["Foo"], n ∈ added3)
      ∧ (∀ unnestedName3 enumValues3 members3 children3 added3 lines3 added4,
          (∀ n ∈ ["Foo"], n ∈ added3) →
          Extract.stringifyMessageSpec
              (.mk "Foo" unnestedName3 enumValues3 (some members3) children3) added3
            = some (lines3, added4) →
          ∃ block, lines3 = ["// Duplicate type omitted"] ++ Extract.addPrefix block "//"
            ++ [""]) :=
  ⟨by decide,
   stringifyMessageSpec_duplicates "Foo" none none [.field "a" 1 (some "string") []] [] []
     ["message Foo \x7b", "    optional string a = 1;", "\x7d", ""] ["Foo"] (by decide)⟩

/-! ## C29: the flags `packed` and `repeated` in `extract/index.js` -/

namespace Extract

theorem flagsWithoutPacked_split (before after : List String) (h : "packed" ∉ before) :
    flagsWithoutPacked (before ++ "packed" :: after) = before := by
  unfold flagsWithoutPacked
  rw [if_pos (by simp)]
  rw [List.indexOf_append_of_not_mem h, List.indexOf_cons_self, Nat.add_zero,
    List.take_left]

end Extract

/-- C29, the behaviour of the code: `info.flags.splice(info.flags.indexOf("packed"))`
removes `packed` and every flag after it, so a member declared `repeated` then `packed` is
rendered `repeated <type> <name> = <id> [packed=true];`, but one declared `packed` then
`repeated` loses `repeated` and is rendered with `optional` instead. -/
theorem packed_splice_drops_later_flags (before after : List String)
    (h : "packed" ∉ before) :
    Extract.flagsWithoutPacked (before ++ "packed" :: after) = before
    ∧ Extract.stringifyMessageSpecMember (.field "xs" 1 (some "int32") ["repeated", "packed"])
          "M" true
        = some ["repeated int32 xs = 1 [packed=true];"]
    ∧ Extract.stringifyMessageSpecMember (.field "xs" 1 (some "int32") ["packed", "repeated"])
          "M" true
        = some ["optional int32 xs = 1 [packed=true];"] :=
  ⟨Extract.flagsWithoutPacked_split before after h, by decide, by decide⟩

/-! ## C25: members whose type cannot be resolved -/

/-- C25, the behaviour of the code: a member of type `message` whose alias names no
identifier of the module is kept with one warning and with the type `undefined`, and the
serialization of a message that holds it throws (`info.type.split`); a reference to another
module that cannot be resolved keeps the type `message`, and its line is emitted. -/
theorem unresolved_alias_aborts :
    Extract.resolveMember [] Extract.sampleModInfo "Msg" "key" 1 (some "message") []
        (.identifier "q")
      = some (.field "key" 1 none [],
          ["unable to find reference of alias 'q' from member 'key' of message 'Msg'"])
    ∧ Extract.stringifyMessageSpecMember (.field "key" 1 none []) "Msg" true = none
    ∧ Extract.linesOfMessage "Msg" [.field "id" 2 (some "string") [], .field "key" 1 none []]
        = none
    ∧ Extract.resolveMember [] Extract.sampleModInfo "Msg" "key" 1 (some "message") []
        (.memberExpression "e" "KeySpec")
      = some (.field "key" 1 (some "message") [],
          ["unable to find reference of alias to other module 'e' or to message KeySpec of this module from member 'key' of message 'Msg'"])
    ∧ Extract.linesOfMessage "Msg" [.field "key" 1 (some "message") []]
        = some ["message Msg \x7b", "    optional message key = 1;", "\x7d", ""] := by
  refine ⟨?_, by decide, by decide, ?_, by decide⟩ <;> rfl

/-! ## C37: a oneof group that names an unknown field -/

namespace Extract

theorem takeMember_of_unknown (members : List Member) (value : String)
    (h : findIndex members value = none) :
    takeMember members value = (none, members.dropLast) := by
  unfold takeMember
  rw [h]

end Extract

/-- C37, the behaviour of the code: for a name that no member has, `findIndex` yields `-1`
and `members.splice(-1, 1)` removes the last member; with the members `a, b` and the group
`g = [zzz]` the member `b`, which no group names, is gone from the flat list. -/
theorem unknown_oneof_field_removes_last (members : List Extract.Member) (value : String) :
    (Extract.findIndex members value = none →
      Extract.takeMember members value = (none, members.dropLast))
    ∧ Extract.findIndex
        [.field "a" 1 (some "string") [], .field "b" 2 (some "string") []] "zzz" = none
    ∧ Extract.resolveOneofs
        [.field "a" 1 (some "string") [], .field "b" 2 (some "string") []] [("g", ["zzz"])]
      = [.field "a" 1 (some "string") [], .oneof "g" [none]] :=
  ⟨Extract.takeMember_of_unknown members value, rfl, rfl⟩

/-! ## C38: bare type names in `extract/index.js` -/

/-- C38, the behaviour of the code: `sharesParent` compares the two paths only as far as
both have a parent segment, so it holds for the type `A$B` and the top-level message `X`;
the member is rendered with the bare type `B` although the parent path `A` of the type is
not a prefix of the path of the message. -/
theorem bare_type_out_of_scope :
    Extract.sharesParent (JS.split '$' "A$B") (JS.split '$' "X") = true
    ∧ Extract.unnestedType "A$B" "X" = "B"
    ∧ ¬ ((JS.split '$' "A$B").dropLast <+: JS.split '$' "X")
    ∧ Extract.linesOfMessage "X" [.field "f" 1 (some "A$B") []]
        = some ["message X \x7b", "    optional B f = 1;", "\x7d", ""]
    ∧ Extract.unnestedType "A$B" "C$D" = "A.B" := by
  refine ⟨by decide, by decide, by decide, by decide, by decide⟩

/-! ## C35: the label of a map field -/

/-- C35, the behaviour of the code: `protoifyField` computes `isMap` and never reads it, so
the label is pushed for a map field as for any other: outside a oneof a map field of the
proto2 dialect is rendered with `optional`, and one with the REPEATED bit with `repeated`;
for every field the line is the one of `fieldLine` with the label of `fieldLabel`, which
does not depend on the type tag. -/
theorem map_field_has_label (c : ParseProto.WAProtoConst) (proto3 : Bool) (name : String)
    (definition : ParseProto.FieldDef) (parentModule : String) (parentPath : List String)
    (isOneOf : Bool) :
    ParseProto.protoifyField c proto3 name definition parentModule parentPath isOneOf
      = (ParseProto.fieldTypeName c.TYPES (some (JS.bitAnd definition.flags c.TYPE_MASK))
          definition.typeRef parentModule parentPath).map
        (fun typeName =>
          ParseProto.fieldLine (ParseProto.fieldLabel c proto3 isOneOf definition.flags)
            (ParseProto.joinElement typeName) (ParseProto.fixFieldName name) definition.index
            (ParseProto.bitSet definition.flags c.FLAGS.PACKED))
    ∧ JS.bitAnd 10 ParseProto.sampleConst.TYPE_MASK = ParseProto.sampleConst.TYPES.MAP
    ∧ ParseProto.protoifyField ParseProto.sampleConst false "m"
          ⟨1, 10, .pair (.tag 14) (.tag 14)⟩ "M" [] false
        = some "optional map<string, string> m = 1;"
    ∧ ParseProto.protoifyField ParseProto.sampleConst true "m"
          ⟨1, 138, .pair (.tag 14) (.tag 14)⟩ "M" [] false
        = some "repeated map<string, string> m = 1;" :=
  ⟨ParseProto.protoifyField_eq_fieldLine c proto3 name definition parentModule parentPath
    isOneOf, by decide, by decide, by decide⟩

/-! ## C39: the rename table and the ignore list -/

/-- C39: every key of `depRenameMap` is a name `ignoreModule` of `proto/parse-proto.js`
rejects, no value of the table is rejected, and no value is a key; so for every key the
renaming yields, in one application, a name that a second application leaves as it is and
whose registration is accepted. -/
theorem depRenameMap_consistent :
    (ParseProto.depRenameMap.map (fun e => ParseProto.ignoreModule e.1)).all (fun b => b) = true
    ∧ (ParseProto.depRenameMap.map (fun e => ParseProto.ignoreModule e.2)).all (fun b => !b)
        = true
    ∧ (ParseProto.depRenameMap.map
        (fun e => (JS.objGet ParseProto.depRenameMap e.2).isNone)).all (fun b => b) = true
    ∧ ParseProto.depRenameMap.map (fun e => ParseProto.aliasName e.1)
        = ParseProto.depRenameMap.map (fun e => e.2)
    ∧ ParseProto.depRenameMap.map (fun e => ParseProto.aliasName (ParseProto.aliasName e.1))
        = ParseProto.depRenameMap.map (fun e => e.2)
    ∧ ParseProto.depRenameMap.map (fun e => e.1)
        = ["WAProtocol.pb", "WAWebProtobufsProtocol.pb", "WAWebProtobufsAdv.pb",
           "WAWebProtobufsMmsRetry.pb", "WAWebProtobufSyncAction.pb",
           "WAWebProtobufsFingerprintV3.pb", "WAWebProtobufsDeviceCapabilities.pb",
           "WAWebProtobufsChatLockSettings.pb", "WAWebProtobufsUserPassword.pb"] := by
  refine ⟨by decide, by decide, by decide, by decide, by decide, by decide⟩

/-! ## C36: applying `fixFieldName` twice -/

/-- C36 (amended): `fixFieldName` maps every value of the static rename table to itself,
and it maps to itself every name that is neither a key of the table nor inherited from
`Object.prototype` and in which none of the ten patterns of the replace chain matches;
so a second application changes nothing exactly when the first one has left no match. -/
theorem fixFieldName_fixed_point (name : String)
    (hs : JS.objGet ParseProto.staticRenames name = none)
    (hi : name ∉ JS.objectPrototypeKeys)
    (h1 : ∀ k, JS.matchesAt "Id".data ParseProto.upperOrSOrEnd name.data k = false)
    (h2 : ∀ k, JS.matchesAt "Jid".data (fun _ => true) name.data k = false)
    (h3 : ∀ k, JS.matchesAt "Ms".data ParseProto.upperOrEnd name.data k = false)
    (h4 : ∀ k, JS.matchesAt "Ts".data ParseProto.upperOrEnd name.data k = false)
    (h5 : ∀ k, JS.matchesAt "Mac".data ParseProto.upperOrEnd name.data k = false)
    (h6 : ∀ k, JS.matchesAt "Url".data (fun _ => true) name.data k = false)
    (h7 : ∀ k, JS.matchesAt "Cdn".data (fun _ => true) name.data k = false)
    (h8 : ∀ k, JS.matchesAt "Json".data (fun _ => true) name.data k = false)
    (h9 : ∀ k, JS.matchesAt "Jpeg".data (fun _ => true) name.data k = false)
    (h10 : ∀ k, JS.matchesAt "Sha256".data (fun _ => true) name.data k = false) :
    ParseProto.fixFieldName name = name
    ∧ ParseProto.staticRenames.map (fun e => ParseProto.fixFieldName e.2)
        = ParseProto.staticRenames.map (fun e => e.2) := by
  refine ⟨?_, by decide⟩
  rw [ParseProto.fixFieldName_of_plain name hs hi]
  unfold ParseProto.patternRenames
  have e1 : ParseProto.replaceBefore name "Id" "ID" ParseProto.upperOrSOrEnd = name := by
    unfold ParseProto.replaceBefore
    rw [JS.replaceFirstChars_of_no_match _ _ _ (by decide) _ h1]
  have e3 : ParseProto.replaceBefore name "Ms" "MS" ParseProto.upperOrEnd = name := by
    unfold ParseProto.replaceBefore
    rw [JS.replaceFirstChars_of_no_match _ _ _ (by decide) _ h3]
  have e4 : ParseProto.replaceBefore name "Ts" "TS" ParseProto.upperOrEnd = name := by
    unfold ParseProto.replaceBefore
    rw [JS.replaceFirstChars_of_no_match _ _ _ (by decide) _ h4]
  have e5 : ParseProto.replaceBefore name "Mac" "MAC" ParseProto.upperOrEnd = name := by
    unfold ParseProto.replaceBefore
    rw [JS.replaceFirstChars_of_no_match _ _ _ (by decide) _ h5]
  rw [e1, Extract.replace_of_absent name "Jid" "JID" (by decide) h2, e3, e4, e5,
    Extract.replace_of_absent name "Url" "URL" (by decide) h6,
    Extract.replace_of_absent name "Cdn" "CDN" (by decide) h7,
    Extract.replace_of_absent name "Json" "JSON" (by decide) h8,
    Extract.replace_of_absent name "Jpeg" "JPEG" (by decide) h9,
    Extract.replace_of_absent name "Sha256" "SHA256" (by decide) h10]

namespace JS

theorem matchesAt_of_bounded (pat : List Char) (after : List Char → Bool) (l : List Char)
    (hpat : pat ≠ [])
    (h : (List.range l.length).all (fun k => !matchesAt pat after l k) = true) :
    ∀ k, matchesAt pat after l k = false := by
  intro k
  by_cases hk : k < l.length
  · rw [List.all_eq_true] at h
    have := h k (List.mem_range.2 hk)
    simpa using this
  · unfold matchesAt
    rw [List.drop_eq_nil_of_le (by omega)]
    cases pat with
    | nil => exact absurd rfl hpat
    | cons p ps => simp

end JS

theorem fixFieldName_fixed_point_witness :
    ParseProto.fixFieldName "mediaKeyId" = "mediaKeyID"
    ∧ (ParseProto.fixFieldName "mediaKeyID" = "mediaKeyID"
      ∧ ParseProto.staticRenames.map (fun e => ParseProto.fixFieldName e.2)
          = ParseProto.staticRenames.map (fun e => e.2)) :=
  ⟨by decide,
   fixFieldName_fixed_point "mediaKeyID" (by decide) (by decide)
    (JS.matchesAt_of_bounded _ _ _ (by decide) (by decide))
    (JS.matchesAt_of_bounded _ _ _ (by decide) (by decide))
    (JS.matchesAt_of_bounded _ _ _ (by decide) (by decide))
    (JS.matchesAt_of_bounded _ _ _ (by decide) (by decide))
    (JS.matchesAt_of_bounded _ _ _ (by decide) (by decide))
    (JS.matchesAt_of_bounded _ _ _ (by decide) (by decide))
    (JS.matchesAt_of_bounded _ _ _ (by decide) (by decide))
    (JS.matchesAt_of_bounded _ _ _ (by decide) (by decide))
    (JS.matchesAt_of_bounded _ _ _ (by decide) (by decide))
    (JS.matchesAt_of_bounded _ _ _ (by decide) (by decide))⟩

/-- C36, counterexample: every `replace` of the chain corrects the first match only, so a
second application corrects the next one: `userIdDeviceId` becomes `userIDDeviceId`, and
that becomes `userIDDeviceID`. -/
theorem fixFieldName_twice_counterexample :
    ParseProto.fixFieldName "userIdDeviceId" = "userIDDeviceId"
    ∧ ParseProto.fixFieldName (ParseProto.fixFieldName "userIdDeviceId") = "userIDDeviceID"
    ∧ ParseProto.fixFieldName (ParseProto.fixFieldName "userIdDeviceId")
        ≠ ParseProto.fixFieldName "userIdDeviceId" := by
  decide

/-! ## C24: modules without exports -/

/-- C24, the behaviour of the code: the branch that logs `has no exports` tests
`!module.exports`, and an empty exports object is truthy.  For an entry whose name ends in
`.pb` and whose exports mapping is empty, the loop of either variant pushes the object
`proto` of the module, with no messages and no enums, and logs no warning.  The loader
stores such an object for a callback that exports nothing: after `WAEmpty.pb` is registered
and loaded, its entry holds the empty mapping, and the extraction returns one ProtoFile and
no warning. -/
theorem empty_exports_not_skipped (depth : Nat) (acc : ParseProto.Extracted)
    (name : String) (module : ParseProto.Module (JS.Obj ParseProto.Export))
    (dependencies : List String)
    (hname : JS.endsWith name ".pb" = true)
    (hexports : module.exports = some [])
    (hdependencies : module.dependencies = some dependencies) :
    ParseProto.extractEntry depth acc (name, module)
      = .returned { acc with
          protos := acc.protos ++ [⟨[], [], ParseProto.renameModule name,
            ParseProto.renameDependencies dependencies⟩]
          modules := JS.objSet acc.modules name { module with exports := some [] } }
    ∧ (name ≠ "WAProtocol.pb" →
      Armadillo.extractEntry depth acc (name, module)
        = .returned { acc with
            protos := acc.protos ++ [⟨[], [], ParseProto.renameModule name,
              Armadillo.renameDependencies dependencies⟩]
            modules := JS.objSet acc.modules name { module with exports := some [] } })
    ∧ (∃ s, ParseProto.loadLazyModules 2
          (ParseProto.defineModule ⟨ParseProto.initialModules [], [], []⟩ "WAEmpty.pb" []
            (fun _ _ => some [])) = .returned s
        ∧ JS.objGet s.modules "WAEmpty.pb" = some ⟨some [], some []⟩
        ∧ ∃ r, ParseProto.extractAll 1 s.modules = .returned r
          ∧ r.protos = [⟨[], [], "WAEmpty", []⟩] ∧ r.warnings = [])
    ∧ (∃ a, Armadillo.defineModule
          (⟨ParseProto.initialModules [], []⟩ : Armadillo.Loader (JS.Obj ParseProto.Export))
          "WAEmpty.pb" [] (fun _ _ => some []) = some a
        ∧ ∃ r, Armadillo.extractAll 1 a.modules = .returned r
          ∧ r.protos = [⟨[], [], "WAEmpty", []⟩] ∧ r.warnings = []) := by
  refine ⟨?_, ?_, ⟨_, rfl, rfl, _, rfl, rfl, rfl⟩, ⟨_, rfl, _, rfl, rfl, rfl⟩⟩
  · unfold ParseProto.extractEntry
    simp only [hname, Bool.not_true, Bool.false_eq_true, if_false, hexports, hdependencies]
    rfl
  · intro hn
    unfold Armadillo.extractEntry
    simp only [hname, Bool.not_true, Bool.false_eq_true, if_false, hexports, hdependencies,
      hn]
    rfl

/-- C24, an instance: the entry `WAEmpty.pb` with an empty exports mapping. -/
theorem empty_exports_not_skipped_witness :
    ParseProto.extractEntry 1 ⟨[], [], []⟩ ("WAEmpty.pb", ⟨some [], some ["WAProtoConst"]⟩)
      = .returned { (⟨[], [], []⟩ : ParseProto.Extracted) with
          protos := [] ++ [⟨[], [], ParseProto.renameModule "WAEmpty.pb",
            ParseProto.renameDependencies ["WAProtoConst"]⟩]
          modules := JS.objSet [] "WAEmpty.pb"
            { (⟨some [], some ["WAProtoConst"]⟩ :
                ParseProto.Module (JS.Obj ParseProto.Export)) with exports := some [] } } :=
  (empty_exports_not_skipped 1 ⟨[], [], []⟩ "WAEmpty.pb" ⟨some [], some ["WAProtoConst"]⟩
    ["WAProtoConst"] (by decide) rfl rfl).1

/-! ## C32: serialization of an extracted tree -/

/-- C32, the behaviour of the code: for a module whose only export is the nested message
`A$B`, the extraction creates the node `A` without a field table, and `protoifyMessage`
throws on it (`spec.__oneofs__` of `undefined`), so `protoifyModule` throws as well. -/
theorem protoifyMessage_throws_on_created_node :
    ParseProto.extractModule 1 "WASample" [] (ParseProto.namePathOf "WASample")
        ParseProto.nestedOnlyExports
      = .returned
          (⟨[("A", .mk [("B", .mk [] [] "WASample" ["A"] "B" (some []))] [] "WASample" [] "A"
              none)], [], "WASample", []⟩,
           [("A$BSpec", .message [] (some ⟨"WASample", ["A"], "B"⟩))])
    ∧ (ParseProto.protoifyMessage ParseProto.sampleConst
          (.mk [("B", .mk [] [] "WASample" ["A"] "B" (some []))] [] "WASample" [] "A" none)
          false).isNone = true
    ∧ (ParseProto.renderExtracted ParseProto.sampleConst
          (ParseProto.extractModule 1 "WASample" [] (ParseProto.namePathOf "WASample")
            ParseProto.nestedOnlyExports)).isNone = true
    ∧ (ParseProto.protoifyMessage ParseProto.sampleConst
          (.mk [] [] "WASample" ["A"] "B" (some [])) false).map (fun r => r.1)
        = some ["message B \x7b", "\x7d"] := by
  refine ⟨rfl, rfl, rfl, rfl⟩

/-! ## C33: the name `dereferenceSnake` returns -/

/-- C33, the behaviour of the code: when the parts name a chain of existing messages
completely, the last call of `dereferenceSnake` has no part left, `next` is `undefined`,
and that is the name returned; the enum `FOO` of a module with the message `Foo` is
attached to `Foo` under the key `undefined` and rendered as `enum undefined`. -/
theorem dereferenceSnake_returns_undefined :
    ParseProto.dereferenceSnake 2 [("Foo", .mk [] [] "WASample" [] "Foo" (some []))] []
        ["Foo"]
      = .returned (["Foo"], none)
    ∧ ParseProto.renderExtracted ParseProto.sampleConst
        (ParseProto.extractModule 2 "WASample" [] (ParseProto.namePathOf "WASample")
          ParseProto.consumedNameExports)
      = some ["syntax = \"proto2\";", "package WASample;",
          "option go_package = \"go.mau.fi/whatsmeow/proto/waSample\";", "",
          "message Foo \x7b", "\tenum undefined \x7b", "\t\tA = 0;", "\t\x7d", "\x7d", ""] := by
  refine ⟨rfl, ?_⟩
  decide

/-! ## C28: the module `WAProtocol.pb` in the armadillo variant -/

/-- C28: in the armadillo variant the entry `WAProtocol.pb` with a message export
`MessageKeySpec` adds nothing to `protos`, and that export afterwards has the name
`MessageKey`, the module `WACommon` and the empty path.  A field of the type `MESSAGE` or
`ENUM` of a module other than `WACommon` that refers to it is rendered `WACommon.MessageKey`,
and a registered dependency `WAProtocol.pb` yields the import line of
`waCommon/WACommon.proto` in the header. -/
theorem legacy_message_key (depth : Nat) (acc : ParseProto.Extracted)
    (module : ParseProto.Module (JS.Obj ParseProto.Export))
    (exports : JS.Obj ParseProto.Export) (spec : ParseProto.Spec)
    (ref : Option ParseProto.NodeRef) (hexports : module.exports = some exports)
    (hkey : JS.objGet exports "MessageKeySpec" = some (.message spec ref))
    (TYPES : ParseProto.Types) (hT : TYPES.Distinct) (typeID : Int)
    (hID : typeID = TYPES.ENUM ∨ typeID = TYPES.MESSAGE)
    (parentModule : String) (hparent : parentModule ≠ "WACommon") (parentPath : List String)
    (file : ParseProto.ProtoFile) (registered : List String)
    (hdeps : file.dependencies = Armadillo.renameDependencies registered)
    (hreg : "WAProtocol.pb" ∈ registered) :
    (∃ acc2 exports2, Armadillo.extractEntry depth acc ("WAProtocol.pb", module)
        = .returned acc2
      ∧ acc2.protos = acc.protos
      ∧ JS.objGet acc2.modules "WAProtocol.pb" = some { module with exports := some exports2 }
      ∧ JS.objGet exports2 "MessageKeySpec"
          = some (.message spec (some ⟨"WACommon", [], "MessageKey"⟩)))
    ∧ Armadillo.fieldTypeName TYPES (some typeID) (.node ⟨"WACommon", [], "MessageKey"⟩)
          parentModule parentPath
        = some (some "WACommon.MessageKey")
    ∧ "import \"waCommon/WACommon.proto\";" ∈ Armadillo.moduleHeader file := by
  refine ⟨?_, ?_, ?_⟩
  · refine ⟨{ acc with
        warnings := acc.warnings ++
          (if exports.length > 1 then ["WAProtocol.pb has more than one export"] else [])
        modules := JS.objSet acc.modules "WAProtocol.pb"
          { module with exports := some (JS.objSet exports "MessageKeySpec"
              (.message spec (some ⟨"WACommon", [], "MessageKey"⟩))) } },
      JS.objSet exports "MessageKeySpec"
        (.message spec (some ⟨"WACommon", [], "MessageKey"⟩)), ?_, rfl, ?_, ?_⟩
    · unfold Armadillo.extractEntry Armadillo.relocateMessageKey
      have h1 : JS.endsWith "WAProtocol.pb" ".pb" = true := by decide
      simp only [h1, Bool.not_true, Bool.false_eq_true, if_false, hexports, hkey, if_true]
    · exact JS.objGet_objSet_self _ _ _
    · exact JS.objGet_objSet_self _ _ _
  · have hne : ("WACommon" : String) ≠ parentModule := fun h => hparent h.symm
    simp [Armadillo.fieldTypeName, Armadillo.armadillo_switchCase_reference TYPES hT typeID hID,
      ParseProto.referenceTypeName, ParseProto.namePath, hne, JS.join]
  · unfold Armadillo.moduleHeader ParseProto.importLines
    apply List.mem_append_right
    have hmem : "WACommon" ∈ file.dependencies := by
      rw [hdeps]
      unfold Armadillo.renameDependencies
      rw [List.mem_map]
      refine ⟨"WAProtocol", ?_, by decide⟩
      rw [List.mem_map]
      refine ⟨"WAProtocol.pb", ?_, by decide⟩
      rw [List.mem_filter]
      exact ⟨hreg, by decide⟩
    rw [if_pos (List.length_pos_of_mem hmem)]
    apply List.mem_append_left
    rw [List.mem_map]
    exact ⟨"WACommon", hmem, by decide⟩

theorem legacy_message_key_witness :
    (∃ acc2 exports2,
      Armadillo.extractEntry 1 ⟨[], [], []⟩
          ("WAProtocol.pb", ⟨some [("MessageKeySpec", .message [] none)], some []⟩)
        = .returned acc2
      ∧ acc2.protos = []
      ∧ JS.objGet acc2.modules "WAProtocol.pb"
          = some { (⟨some [("MessageKeySpec", .message [] none)], some []⟩ :
              ParseProto.Module (JS.Obj ParseProto.Export)) with exports := some exports2 }
      ∧ JS.objGet exports2 "MessageKeySpec"
          = some (.message [] (some ⟨"WACommon", [], "MessageKey"⟩)))
    ∧ Armadillo.fieldTypeName ParseProto.sampleConst.TYPES (some 9)
          (.node ⟨"WACommon", [], "MessageKey"⟩) "WASample" ["Pair"]
        = some (some "WACommon.MessageKey")
    ∧ "import \"waCommon/WACommon.proto\";"
        ∈ Armadillo.moduleHeader
            ⟨[], [], "WASample", Armadillo.renameDependencies ["WAProtoConst", "WAProtocol.pb"]⟩ :=
  legacy_message_key 1 ⟨[], [], []⟩
    ⟨some [("MessageKeySpec", .message [] none)], some []⟩
    [("MessageKeySpec", .message [] none)] [] none rfl (by decide)
    ParseProto.sampleConst.TYPES (by decide) 9 (Or.inr rfl) "WASample" (by decide) ["Pair"]
    ⟨[], [], "WASample", Armadillo.renameDependencies ["WAProtoConst", "WAProtocol.pb"]⟩
    ["WAProtoConst", "WAProtocol.pb"] rfl (by decide)

/-! ## C26 and C34: the walk of `dereferenceSnake` -/

namespace ParseProto

theorem snakeScan_eq (messages : List (String × Message)) (next : String)
    (parts : List String) :
    snakeScan messages next parts
      = if hasChild messages next then (next, some parts)
        else
          match parts with
          | [] => (next, none)
          | part :: rest => snakeScan messages (next ++ part) rest := by
  cases parts with
  | nil => simp only [snakeScan, hasChild]
  | cons part rest => simp only [snakeScan, hasChild]

/-- The loop stops at the first concatenation of leading parts that names a child. -/
theorem snakeScan_of_first (messages : List (String × Message)) (parts : List String) :
    ∀ (next : String) (j : Nat), j ≤ parts.length →
      hasChild messages (next ++ JS.concatAll (parts.take j)) = true →
      (∀ i, i < j → hasChild messages (next ++ JS.concatAll (parts.take i)) = false) →
      snakeScan messages next parts
        = (next ++ JS.concatAll (parts.take j), some (parts.drop j)) := by
  induction parts with
  | nil =>
    intro next j hj ht _
    simp only [List.take_nil, JS.concatAll, String.append_empty] at ht
    rw [snakeScan_eq, if_pos ht]
    simp [JS.concatAll]
  | cons part rest ih =>
    intro next j hj ht hmin
    cases j with
    | zero =>
      simp only [List.take_zero, JS.concatAll, String.append_empty] at ht
      rw [snakeScan_eq, if_pos ht]
      simp [JS.concatAll]
    | succ j =>
      have h0 := hmin 0 (Nat.succ_pos j)
      simp only [List.take_zero, JS.concatAll, String.append_empty] at h0
      rw [snakeScan_eq, if_neg (by simp [h0])]
      simp only [List.take_succ_cons, JS.concatAll, List.drop_succ_cons, ← String.append_assoc]
        at ht ⊢
      apply ih (next ++ part) j (by simpa using hj) ht
      intro i hi
      have := hmin (i + 1) (Nat.succ_lt_succ hi)
      simpa only [List.take_succ_cons, JS.concatAll, ← String.append_assoc] using this

/-- The loop runs to the end when no concatenation of leading parts names a child. -/
theorem snakeScan_of_none (messages : List (String × Message)) (parts : List String) :
    ∀ (next : String),
      (∀ j, j ≤ parts.length →
        hasChild messages (next ++ JS.concatAll (parts.take j)) = false) →
      snakeScan messages next parts = (next ++ JS.concatAll parts, none) := by
  induction parts with
  | nil =>
    intro next h
    have h0 := h 0 (Nat.le_refl _)
    simp only [List.take_nil, JS.concatAll, String.append_empty] at h0
    rw [snakeScan_eq, if_neg (by simp [h0])]
    simp [JS.concatAll]
  | cons part rest ih =>
    intro next h
    have h0 := h 0 (Nat.zero_le _)
    simp only [List.take_zero, JS.concatAll, String.append_empty] at h0
    rw [snakeScan_eq, if_neg (by simp [h0])]
    simp only [JS.concatAll, ← String.append_assoc]
    apply ih (next ++ part)
    intro j hj
    have := h (j + 1) (by simpa using hj)
    simpa only [List.take_succ_cons, JS.concatAll, ← String.append_assoc] using this

/-- What the loop returns, in terms of the parts it has consumed. -/
theorem snakeScan_cases (messages : List (String × Message)) (parts : List String) :
    ∀ (next : String),
      (snakeScan messages next parts = (next ++ JS.concatAll parts, none))
      ∨ ∃ j, j ≤ parts.length
          ∧ snakeScan messages next parts
            = (next ++ JS.concatAll (parts.take j), some (parts.drop j)) := by
  induction parts with
  | nil =>
    intro next
    rw [snakeScan_eq]
    by_cases h : hasChild messages next = true
    · right; exact ⟨0, Nat.le_refl _, by simp [h, JS.concatAll]⟩
    · left; simp [h, JS.concatAll]
  | cons part rest ih =>
    intro next
    rw [snakeScan_eq]
    by_cases h : hasChild messages next = true
    · right; exact ⟨0, Nat.zero_le _, by simp [h, JS.concatAll]⟩
    · rw [if_neg h]
      rcases ih (next ++ part) with h1 | ⟨j, hj, h1⟩
      · left
        simp only [h1, JS.concatAll, String.append_assoc]
      · right
        refine ⟨j + 1, by simpa using hj, ?_⟩
        simp only [h1, List.take_succ_cons, JS.concatAll, List.drop_succ_cons,
          String.append_assoc]

theorem concatAll_take_drop (parts : List String) (j : Nat) :
    JS.concatAll (parts.take j) ++ JS.concatAll (parts.drop j) = JS.concatAll parts := by
  induction parts generalizing j with
  | nil => simp [JS.concatAll]
  | cons part rest ih =>
    cases j with
    | zero => simp [JS.concatAll]
    | succ j => simp only [List.take_succ_cons, List.drop_succ_cons, JS.concatAll,
        String.append_assoc, ih]

theorem dereferenceSnake_nil_name (depth : Nat) :
    ∀ (messages : List (String × Message)) (currentPath path : List String)
      (name : Option String),
      dereferenceSnake depth messages currentPath [] = .returned (path, name) → name = none := by
  induction depth with
  | zero => intro messages currentPath path name h; simp [dereferenceSnake] at h
  | succ depth ih =>
    intro messages currentPath path name h
    rw [dereferenceSnake] at h
    cases hc : JS.objGet messages "undefined" with
    | some child => rw [hc] at h; exact ih _ _ _ _ h
    | none =>
      rw [hc] at h
      simp only [Outcome.returned.injEq, Prod.mk.injEq] at h
      exact h.2.symm

/-- What a call of `dereferenceSnake` on at least one part returns: the keys of a chain of
existing messages below the current node and a name that together spell the parts; or no
name, and then some chain of existing messages spells all the parts. -/
theorem dereferenceSnake_conserves (depth : Nat) :
    ∀ (messages : List (String × Message)) (currentPath parts path : List String)
      (name : Option String), parts ≠ [] →
      dereferenceSnake depth messages currentPath parts = .returned (path, name) →
      (∀ n, name = some n →
        ∃ ext, path = currentPath ++ ext ∧ (tableAt messages ext).isSome = true
          ∧ JS.concatAll ext ++ n = JS.concatAll parts)
      ∧ (name = none →
        ∃ ext, (tableAt messages ext).isSome = true
          ∧ JS.concatAll ext = JS.concatAll parts) := by
  induction depth with
  | zero => intro messages currentPath parts path name _ h; simp [dereferenceSnake] at h
  | succ depth ih =>
    intro messages currentPath parts path name hne h
    cases parts with
    | nil => exact absurd rfl hne
    | cons part rest =>
      rw [dereferenceSnake] at h
      rcases snakeScan_cases messages rest part with h1 | ⟨j, hj, h1⟩
      · rw [h1] at h
        simp only [Outcome.returned.injEq, Prod.mk.injEq] at h
        constructor
        · intro n hn
          rw [← h.2] at hn
          simp only [Option.some.injEq] at hn
          exact ⟨[], by simp [h.1], rfl, by simp [JS.concatAll, ← hn]⟩
        · intro hn
          rw [← h.2] at hn
          exact absurd hn (by simp)
      · rw [h1] at h
        simp only at h
        cases hc : JS.objGet messages (part ++ JS.concatAll (rest.take j)) with
        | none => rw [hc] at h; exact absurd h (by simp)
        | some child =>
          rw [hc] at h
          simp only at h
          have hsplit : part ++ JS.concatAll (rest.take j) ++ JS.concatAll (rest.drop j)
              = JS.concatAll (part :: rest) := by
            rw [String.append_assoc, concatAll_take_drop]
            rfl
          by_cases hleft : rest.drop j = []
          · rw [hleft] at h hsplit
            have hname := dereferenceSnake_nil_name depth _ _ _ _ h
            constructor
            · intro n hn
              rw [hname] at hn
              exact absurd hn (by simp)
            · intro _
              refine ⟨[part ++ JS.concatAll (rest.take j)], ?_, ?_⟩
              · simp [tableAt, hc]
              · simpa [JS.concatAll] using hsplit
          · obtain ⟨ih1, ih2⟩ := ih child.messages _ _ path name hleft h
            constructor
            · intro n hn
              obtain ⟨ext, hpath, hchain, hconcat⟩ := ih1 n hn
              refine ⟨(part ++ JS.concatAll (rest.take j)) :: ext, ?_, ?_, ?_⟩
              · rw [hpath]; simp
              · simp only [tableAt, hc]; exact hchain
              · rw [← hsplit]
                simp only [JS.concatAll, String.append_assoc, hconcat]
            · intro hn
              obtain ⟨ext, hchain, hconcat⟩ := ih2 hn
              refine ⟨(part ++ JS.concatAll (rest.take j)) :: ext, ?_, ?_⟩
              · simp only [tableAt, hc]; exact hchain
              · rw [← hsplit]
                simp only [JS.concatAll, String.append_assoc, hconcat]

/-- With a depth of at least the number of parts the recursion ends, when no chain of
existing messages spells all the parts. -/
theorem dereferenceSnake_finishes (depth : Nat) :
    ∀ (messages : List (String × Message)) (currentPath parts : List String),
      parts ≠ [] → parts.length ≤ depth →
      (∀ ext, (tableAt messages ext).isSome = true →
        JS.concatAll ext ≠ JS.concatAll parts) →
      dereferenceSnake depth messages currentPath parts ≠ .unfinished := by
  induction depth with
  | zero =>
    intro messages currentPath parts hne hlen _
    cases parts with
    | nil => exact absurd rfl hne
    | cons p r => simp at hlen
  | succ depth ih =>
    intro messages currentPath parts hne hlen hno
    cases parts with
    | nil => exact absurd rfl hne
    | cons part rest =>
      rw [dereferenceSnake]
      rcases snakeScan_cases messages rest part with h1 | ⟨j, hj, h1⟩
      · rw [h1]; simp
      · rw [h1]
        simp only
        cases hc : JS.objGet messages (part ++ JS.concatAll (rest.take j)) with
        | none => simp
        | some child =>
          simp only
          have hsplit : part ++ JS.concatAll (rest.take j) ++ JS.concatAll (rest.drop j)
              = JS.concatAll (part :: rest) := by
            rw [String.append_assoc, concatAll_take_drop]
            rfl
          have hleft : rest.drop j ≠ [] := by
            intro hnil
            apply hno [part ++ JS.concatAll (rest.take j)]
            · simp [tableAt, hc]
            · rw [hnil] at hsplit
              simpa [JS.concatAll] using hsplit
          apply ih child.messages _ _ hleft
          · simp only [List.length_drop, List.length_cons] at hlen ⊢
            omega
          · intro ext hchain hconcat
            apply hno ((part ++ JS.concatAll (rest.take j)) :: ext)
            · simp only [tableAt, hc]; exact hchain
            · rw [← hsplit]
              simp only [JS.concatAll, String.append_assoc, hconcat]

end ParseProto

namespace ParseProto

theorem snakeScan_some_hasChild (messages : List (String × Message)) (parts : List String) :
    ∀ (next n : String) (left : List String),
      snakeScan messages next parts = (n, some left) → hasChild messages n = true := by
  induction parts with
  | nil =>
    intro next n left h
    rw [snakeScan_eq] at h
    by_cases hc : hasChild messages next = true
    · rw [if_pos hc] at h
      simp only [Prod.mk.injEq] at h
      rw [← h.1]; exact hc
    · rw [if_neg hc] at h
      simp at h
  | cons part rest ih =>
    intro next n left h
    rw [snakeScan_eq] at h
    by_cases hc : hasChild messages next = true
    · rw [if_pos hc] at h
      simp only [Prod.mk.injEq] at h
      rw [← h.1]; exact hc
    · rw [if_neg hc] at h
      exact ih _ _ _ h

/-- With a depth of at least the number of parts the call returns a name, when no chain of
existing messages spells all the parts and no part begins an inherited name. -/
theorem dereferenceSnake_returns (depth : Nat) :
    ∀ (messages : List (String × Message)) (currentPath parts : List String),
      parts ≠ [] → parts.length ≤ depth →
      (∀ ext, (tableAt messages ext).isSome = true →
        JS.concatAll ext ≠ JS.concatAll parts) →
      (∀ p, p ∈ parts → ∀ k, k ∈ JS.objectPrototypeKeys → ¬ p.data <+: k.data) →
      ∃ path n, dereferenceSnake depth messages currentPath parts = .returned (path, some n) := by
  induction depth with
  | zero =>
    intro messages currentPath parts hne hlen _ _
    cases parts with
    | nil => exact absurd rfl hne
    | cons p r => simp at hlen
  | succ depth ih =>
    intro messages currentPath parts hne hlen hno hplain
    cases parts with
    | nil => exact absurd rfl hne
    | cons part rest =>
      rw [dereferenceSnake]
      rcases snakeScan_cases messages rest part with h1 | ⟨j, hj, h1⟩
      · rw [h1]; exact ⟨_, _, rfl⟩
      · have htruthy := snakeScan_some_hasChild messages rest part _ _ h1
        rw [h1]
        simp only
        cases hc : JS.objGet messages (part ++ JS.concatAll (rest.take j)) with
        | none =>
          exfalso
          simp only [hasChild, hc, Option.isSome_none, Bool.false_or, decide_eq_true_eq]
            at htruthy
          apply hplain part (List.mem_cons_self _ _) _ htruthy
          rw [String.data_append]
          exact List.prefix_append _ _
        | some child =>
          simp only
          have hsplit : part ++ JS.concatAll (rest.take j) ++ JS.concatAll (rest.drop j)
              = JS.concatAll (part :: rest) := by
            rw [String.append_assoc, concatAll_take_drop]
            rfl
          have hleft : rest.drop j ≠ [] := by
            intro hnil
            apply hno [part ++ JS.concatAll (rest.take j)]
            · simp [tableAt, hc]
            · rw [hnil] at hsplit
              simpa [JS.concatAll] using hsplit
          apply ih child.messages _ _ hleft
          · simp only [List.length_drop, List.length_cons] at hlen ⊢
            omega
          · intro ext hchain hconcat
            apply hno ((part ++ JS.concatAll (rest.take j)) :: ext)
            · simp only [tableAt, hc]; exact hchain
            · rw [← hsplit]
              simp only [JS.concatAll, String.append_assoc, hconcat]
          · intro p hp
            exact hplain p (List.mem_cons_of_mem _ (List.mem_of_mem_drop hp))

end ParseProto

/-- C26 (corrected): at each nesting level `dereferenceSnake` descends into the child
named by the SHORTEST concatenation of leading parts for which `obj.messages[...]` is
truthy, and goes on with the parts that are left; when no concatenation of leading parts
is such a key it returns the node reached with the concatenation of all the parts as the
name. -/
theorem dereferenceSnake_shortest_match (depth : Nat) (messages : List (String × ParseProto.Message))
    (currentPath : List String) (part : String) (rest : List String) :
    (∀ (j : Nat) (child : ParseProto.Message), j ≤ rest.length →
      JS.objGet messages (JS.concatAll (part :: rest.take j)) = some child →
      (∀ i, i < j →
        ParseProto.hasChild messages (JS.concatAll (part :: rest.take i)) = false) →
      ParseProto.dereferenceSnake (depth + 1) messages currentPath (part :: rest)
        = ParseProto.dereferenceSnake depth child.messages
            (currentPath ++ [JS.concatAll (part :: rest.take j)]) (rest.drop j))
    ∧ ((∀ j, j ≤ rest.length →
        ParseProto.hasChild messages (JS.concatAll (part :: rest.take j)) = false) →
      ParseProto.dereferenceSnake (depth + 1) messages currentPath (part :: rest)
        = .returned (currentPath, some (JS.concatAll (part :: rest)))) := by
  constructor
  · intro j child hj hchild hmin
    have ht : ParseProto.hasChild messages (part ++ JS.concatAll (rest.take j)) = true := by
      have : JS.objGet messages (part ++ JS.concatAll (rest.take j)) = some child := hchild
      simp only [ParseProto.hasChild, this, Option.isSome_some, Bool.true_or]
    have hscan := ParseProto.snakeScan_of_first messages rest part j hj ht hmin
    have hchild2 : JS.objGet messages (part ++ JS.concatAll (rest.take j)) = some child :=
      hchild
    rw [ParseProto.dereferenceSnake, hscan]
    simp only [hchild2]
    rfl
  · intro hnone
    have hscan := ParseProto.snakeScan_of_none messages rest part hnone
    rw [ParseProto.dereferenceSnake, hscan]
    rfl

/-- C26, an instance: with the children `Foo` and `FooBar` and the parts `Foo`, `Bar`,
`Baz` the first step descends into `Foo`. -/
theorem dereferenceSnake_shortest_match_witness :
    ParseProto.dereferenceSnake (2 + 1) ParseProto.prefixMessages [] ["Foo", "Bar", "Baz"]
      = ParseProto.dereferenceSnake 2 [] ([] ++ ["Foo"]) ["Bar", "Baz"] :=
  (dereferenceSnake_shortest_match 2 ParseProto.prefixMessages [] "Foo" ["Bar", "Baz"]).1
    0 (.mk [] [] "WASample" [] "Foo" (some [])) (by decide) rfl
    (fun i hi => absurd hi (Nat.not_lt_zero i))

/-- C26, counterexample to the longest match: with the children `Foo` and `FooBar` the
enum `FOO_BAR_BAZ` is placed in `Foo` under the name `BarBaz`, not in `FooBar` under the
name `Baz`. -/
theorem dereferenceSnake_longest_counterexample :
    (JS.objGet ParseProto.prefixMessages (JS.concatAll ["Foo", "Bar"])).isSome = true
    ∧ ParseProto.dereferenceSnake 3 ParseProto.prefixMessages [] ["Foo", "Bar", "Baz"]
        = .returned (["Foo"], some "BarBaz")
    ∧ ParseProto.dereferenceSnake 3 ParseProto.prefixMessages [] ["Foo", "Bar", "Baz"]
        ≠ .returned (["FooBar"], some "Baz") := by
  have h : ParseProto.dereferenceSnake 3 ParseProto.prefixMessages [] ["Foo", "Bar", "Baz"]
      = .returned (["Foo"], some "BarBaz") := rfl
  refine ⟨rfl, h, ?_⟩
  rw [h]
  intro h2
  simp only [ParseProto.Outcome.returned.injEq, Prod.mk.injEq] at h2
  exact absurd h2.1 (by decide)

/-- For parts none of which begins a name inherited from `Object.prototype`, and such
that no chain of existing messages spells all the parts, a call of `dereferenceSnake` from
the root with a depth of at least the number of parts returns a path and a name; the path
is a chain of existing message names from the root, its segments followed by the name
spell the concatenation of all the parts; and when no concatenation of leading parts is a
top-level message the result is the empty path and the concatenation of all the parts. -/
theorem dereferenceSnake_plain_parts (depth : Nat) (messages : List (String × ParseProto.Message))
    (part : String) (rest : List String)
    (hdepth : (part :: rest).length ≤ depth)
    (hno : ∀ ext, (ParseProto.tableAt messages ext).isSome = true →
      JS.concatAll ext ≠ JS.concatAll (part :: rest))
    (hplain : ∀ p, p ∈ part :: rest → ∀ k, k ∈ JS.objectPrototypeKeys → ¬ p.data <+: k.data) :
    (∃ path name,
      ParseProto.dereferenceSnake depth messages [] (part :: rest)
        = .returned (path, some name)
      ∧ (ParseProto.tableAt messages path).isSome = true
      ∧ JS.concatAll path ++ name = JS.concatAll (part :: rest))
    ∧ ((∀ j, j ≤ rest.length →
        JS.objGet messages (JS.concatAll (part :: rest.take j)) = none) →
      ParseProto.dereferenceSnake depth messages [] (part :: rest)
        = .returned ([], some (JS.concatAll (part :: rest)))) := by
  constructor
  · obtain ⟨path, n, h⟩ := ParseProto.dereferenceSnake_returns depth messages []
      (part :: rest) (by simp) hdepth hno hplain
    obtain ⟨h1, _⟩ := ParseProto.dereferenceSnake_conserves depth messages []
      (part :: rest) path (some n) (by simp) h
    obtain ⟨ext, hpath, hchain, hconcat⟩ := h1 n rfl
    simp only [List.nil_append] at hpath
    subst hpath
    exact ⟨path, n, h, hchain, hconcat⟩
  · intro hnone
    cases depth with
    | zero => simp at hdepth
    | succ depth =>
      have hscan := ParseProto.snakeScan_of_none messages rest part (by
        intro j hj
        have h0 := hnone j hj
        have h1 : JS.objGet messages (part ++ JS.concatAll (rest.take j)) = none := h0
        simp only [ParseProto.hasChild, h1, Option.isSome_none, Bool.false_or,
          decide_eq_false_iff_not]
        show ¬ (part ++ JS.concatAll (rest.take j) ∈ JS.objectPrototypeKeys)
        intro hmem
        apply hplain part (List.mem_cons_self _ _) _ hmem
        rw [String.data_append]
        exact List.prefix_append _ _)
      rw [ParseProto.dereferenceSnake, hscan]
      rfl

/-! ## C27: the nodes `dereference` creates -/

namespace JS

theorem objReplace_of_all {α : Type} (key : String) (value : α) (obj : Obj α)
    (h : ∀ e, e ∈ obj → e.1 = key → e.2 = value) : objReplace key value obj = obj := by
  induction obj with
  | nil => rfl
  | cons e rest ih =>
    obtain ⟨k, v⟩ := e
    have ih2 := ih (fun e he => h e (List.mem_cons_of_mem _ he))
    by_cases hk : k = key
    · have hv : v = value := h (k, v) (List.mem_cons_self _ _) hk
      simp only [objReplace, hk, if_true, ih2, hv]
    · simp only [objReplace, hk, if_false, ih2]

theorem objReplace_all {α : Type} (key : String) (value : α) (obj : Obj α) :
    ∀ e, e ∈ objReplace key value obj → e.1 = key → e.2 = value := by
  induction obj with
  | nil => intro e he; simp [objReplace] at he
  | cons e0 rest ih =>
    obtain ⟨k, v⟩ := e0
    intro e he hkey
    by_cases hk : k = key
    · simp only [objReplace, hk, if_true, List.mem_cons] at he
      rcases he with he | he
      · rw [he]
      · exact ih e he hkey
    · simp only [objReplace, hk, if_false, List.mem_cons] at he
      rcases he with he | he
      · rw [he] at hkey; exact absurd hkey hk
      · exact ih e he hkey

theorem not_mem_of_objGet_none {α : Type} (obj : Obj α) (key : String)
    (h : objGet obj key = none) : ∀ e, e ∈ obj → e.1 ≠ key := by
  induction obj with
  | nil => intro e he; simp at he
  | cons e0 rest ih =>
    obtain ⟨k, v⟩ := e0
    intro e he
    by_cases hk : k = key
    · simp [objGet, hk] at h
    · simp only [objGet, hk, if_false] at h
      rcases List.mem_cons.mp he with he | he
      · rw [he]; exact hk
      · exact ih h e he

theorem objInsert_all {α : Type} (key : String) (value : α) (obj : Obj α)
    (habs : ∀ e, e ∈ obj → e.1 ≠ key) :
    ∀ e, e ∈ objInsert key value obj → e.1 = key → e.2 = value := by
  induction obj with
  | nil =>
    intro e he _
    simp only [objInsert, List.mem_singleton] at he
    rw [he]
  | cons e0 rest ih =>
    obtain ⟨k, v⟩ := e0
    have hk : k ≠ key := habs (k, v) (List.mem_cons_self _ _)
    have ih2 := ih (fun e he => habs e (List.mem_cons_of_mem _ he))
    intro e he hkey
    unfold objInsert at he
    split at he
    · split at he
      · rcases List.mem_cons.mp he with he | he
        · rw [he]
        · exact absurd hkey (habs e he)
      · rcases List.mem_cons.mp he with he | he
        · rw [he] at hkey; exact absurd hkey hk
        · exact ih2 e he hkey
    · rcases List.mem_cons.mp he with he | he
      · rw [he]
      · exact absurd hkey (habs e he)
    · rcases List.mem_cons.mp he with he | he
      · rw [he] at hkey; exact absurd hkey hk
      · exact ih2 e he hkey

/-- Assigning the same value twice is the same as assigning it once. -/
theorem objSet_objSet_same {α : Type} (obj : Obj α) (key : String) (value : α) :
    objSet (objSet obj key value) key value = objSet obj key value := by
  have hget : (objGet (objSet obj key value) key).isSome = true := by
    rw [objGet_objSet_self]; rfl
  have hall : ∀ e, e ∈ objSet obj key value → e.1 = key → e.2 = value := by
    unfold objSet
    split
    · exact objReplace_all key value obj
    · rename_i h
      apply objInsert_all
      apply not_mem_of_objGet_none
      cases hg : objGet obj key with
      | none => rfl
      | some v => rw [hg] at h; simp at h
  generalize objSet obj key value = obj2 at hget hall
  unfold objSet
  rw [if_pos hget]
  exact objReplace_of_all key value _ hall

end JS

namespace ParseProto

theorem Message.withMessages_messages (m : Message) (b : List (String × Message)) :
    (m.withMessages b).messages = b := by
  cases m; rfl

theorem Message.withMessages_own (m : Message) (b : List (String × Message)) :
    (m.withMessages b).own = m.own := by
  cases m; rfl

theorem Message.withMessages_self (m : Message) : m.withMessages m.messages = m := by
  cases m; rfl

theorem Message.withMessages_twice (m : Message) (a b : List (String × Message)) :
    (m.withMessages a).withMessages b = m.withMessages b := by
  cases m; rfl

/-- One step of `dereference` at a segment that is not empty and not an inherited name. -/
theorem dereference_cons_plain (module : String) (messages : List (String × Message))
    (currentPath : List String) (s : String) (rest : List String)
    (hs : s ≠ "" ∧ s ∉ JS.objectPrototypeKeys) :
    dereference module messages currentPath (s :: rest)
      = match dereference module
            ((JS.objGet messages s).getD (newNode module currentPath s)).messages
            (currentPath ++ [s]) rest with
        | none => none
        | some (below, reached) =>
          some (JS.objSet messages s
            (((JS.objGet messages s).getD (newNode module currentPath s)).withMessages below),
            reached.under s) := by
  have h0 : dereference module messages currentPath (s :: rest)
      = (if s = "" then some (messages, .node [])
        else
          match JS.objGet messages s with
          | some child =>
            match dereference module child.messages (currentPath ++ [s]) rest with
            | none => none
            | some (below, reached) =>
              some (JS.objSet messages s (child.withMessages below), reached.under s)
          | none =>
            if s ∈ JS.objectPrototypeKeys then
              match rest with
              | [] => some (messages, .inherited)
              | next2 :: _ => if next2 = "" then some (messages, .inherited) else none
            else
              match dereference module [] (currentPath ++ [s]) rest with
              | none => none
              | some (below, reached) =>
                some (JS.objSet messages s
                  ((newNode module currentPath s).withMessages below), reached.under s)) := rfl
  rw [h0, if_neg hs.1]
  cases hc : JS.objGet messages s with
  | some child => rfl
  | none =>
    simp only [Option.getD_none]
    rw [if_neg hs.2]
    rfl

/-- The call returns the node at the path when no segment is empty or inherited. -/
theorem dereference_plain_returns (module : String) (segs : List String) :
    ∀ (messages : List (String × Message)) (currentPath : List String),
      (∀ s, s ∈ segs → s ≠ "" ∧ s ∉ JS.objectPrototypeKeys) →
      ∃ after, dereference module messages currentPath segs = some (after, .node segs) := by
  induction segs with
  | nil => intro messages currentPath _; exact ⟨messages, by rw [dereference]⟩
  | cons s rest ih =>
    intro messages currentPath hplain
    obtain ⟨below, hbelow⟩ := ih
      ((JS.objGet messages s).getD (newNode module currentPath s)).messages
      (currentPath ++ [s]) (fun x hx => hplain x (List.mem_cons_of_mem _ hx))
    rw [dereference_cons_plain module messages currentPath s rest
      (hplain s (List.mem_cons_self _ _)), hbelow]
    exact ⟨_, rfl⟩

/-- A second call with the same arguments returns the same and changes nothing. -/
theorem dereference_plain_again (module : String) (segs : List String) :
    ∀ (messages after : List (String × Message)) (currentPath : List String) (r : Reached),
      (∀ s, s ∈ segs → s ≠ "" ∧ s ∉ JS.objectPrototypeKeys) →
      dereference module messages currentPath segs = some (after, r) →
      dereference module after currentPath segs = some (after, r) := by
  induction segs with
  | nil =>
    intro messages after currentPath r _ h
    rw [dereference] at h
    simp only [Option.some.injEq, Prod.mk.injEq] at h
    rw [dereference, ← h.1, ← h.2]
  | cons s rest ih =>
    intro messages after currentPath r hplain h
    have hs := hplain s (List.mem_cons_self _ _)
    rw [dereference_cons_plain module messages currentPath s rest hs] at h
    cases hb : dereference module
        ((JS.objGet messages s).getD (newNode module currentPath s)).messages
        (currentPath ++ [s]) rest with
    | none => rw [hb] at h; exact absurd h (by simp)
    | some res =>
      obtain ⟨below, reached⟩ := res
      rw [hb] at h
      simp only [Option.some.injEq, Prod.mk.injEq] at h
      obtain ⟨hafter, hr⟩ := h
      have hagain := ih _ below (currentPath ++ [s]) reached
        (fun x hx => hplain x (List.mem_cons_of_mem _ hx)) hb
      rw [dereference_cons_plain module after currentPath s rest hs]
      have hget : JS.objGet after s
          = some (((JS.objGet messages s).getD (newNode module currentPath s)).withMessages
              below) := by
        rw [← hafter, JS.objGet_objSet_self]
      rw [hget]
      simp only [Option.getD_some, Message.withMessages_messages, hagain,
        Message.withMessages_twice]
      rw [← hafter, JS.objSet_objSet_same, hr]

theorem nodeAt_nil (messages : List (String × Message)) (last : String) :
    nodeAt messages [] last = JS.objGet messages last := rfl

theorem nodeAt_cons_some (messages : List (String × Message)) (key : String)
    (keys : List String) (last : String) (child : Message)
    (h : JS.objGet messages key = some child) :
    nodeAt messages (key :: keys) last = nodeAt child.messages keys last := by
  simp only [nodeAt, tableAt, h]

theorem nodeAt_cons_none (messages : List (String × Message)) (key : String)
    (keys : List String) (last : String) (h : JS.objGet messages key = none) :
    nodeAt messages (key :: keys) last = none := by
  simp only [nodeAt, tableAt, h]

theorem nodeAt_empty (keys : List String) (last : String) :
    nodeAt [] keys last = none := by
  cases keys with
  | nil => rfl
  | cons k ks => exact nodeAt_cons_none [] k ks last rfl

/-- The node under a key of the table, whether it was there or is created. -/
theorem nodeAt_child (module : String) (messages : List (String × Message))
    (currentPath : List String) (s : String) (keys : List String) (last : String) :
    nodeAt ((JS.objGet messages s).getD (newNode module currentPath s)).messages keys last
      = nodeAt messages (s :: keys) last := by
  cases hc : JS.objGet messages s with
  | some child => rw [nodeAt_cons_some messages s keys last child hc]; rfl
  | none =>
    rw [nodeAt_cons_none messages s keys last hc]
    exact nodeAt_empty keys last

/-- Nodes off the path are left as they are. -/
theorem dereference_plain_off (module : String) (segs : List String) :
    ∀ (messages after : List (String × Message)) (currentPath : List String) (r : Reached)
      (keys : List String) (last : String),
      (∀ s, s ∈ segs → s ≠ "" ∧ s ∉ JS.objectPrototypeKeys) →
      dereference module messages currentPath segs = some (after, r) →
      ¬ (keys ++ [last]) <+: segs →
      nodeAt after keys last = nodeAt messages keys last := by
  induction segs with
  | nil =>
    intro messages after currentPath r keys last _ h _
    rw [dereference] at h
    simp only [Option.some.injEq, Prod.mk.injEq] at h
    rw [h.1]
  | cons s rest ih =>
    intro messages after currentPath r keys last hplain h hoff
    have hs := hplain s (List.mem_cons_self _ _)
    rw [dereference_cons_plain module messages currentPath s rest hs] at h
    cases hb : dereference module
        ((JS.objGet messages s).getD (newNode module currentPath s)).messages
        (currentPath ++ [s]) rest with
    | none => rw [hb] at h; exact absurd h (by simp)
    | some res =>
      obtain ⟨below, reached⟩ := res
      rw [hb] at h
      simp only [Option.some.injEq, Prod.mk.injEq] at h
      obtain ⟨hafter, _⟩ := h
      cases keys with
      | nil =>
        have hne : last ≠ s := by
          intro heq
          apply hoff
          rw [heq]
          exact ⟨rest, rfl⟩
        rw [nodeAt_nil, nodeAt_nil, ← hafter, JS.objGet_objSet, if_neg hne]
      | cons k ks =>
        by_cases hk : k = s
        · subst hk
          have hget : JS.objGet after k
              = some (((JS.objGet messages k).getD (newNode module currentPath k)).withMessages
                  below) := by
            rw [← hafter, JS.objGet_objSet_self]
          rw [nodeAt_cons_some after k ks last _ hget, Message.withMessages_messages]
          rw [ih _ below (currentPath ++ [k]) reached ks last
            (fun x hx => hplain x (List.mem_cons_of_mem _ hx)) hb
            (fun hpre => hoff (by
              obtain ⟨t, ht⟩ := hpre
              exact ⟨t, by simp [← ht]⟩))]
          exact nodeAt_child module messages currentPath k ks last
        · have hget : JS.objGet after k = JS.objGet messages k := by
            rw [← hafter, JS.objGet_objSet, if_neg hk]
          simp only [nodeAt, tableAt, hget]

/-- A node on the path keeps its own properties if it was there, and has those of the
object literal if it is created. -/
theorem dereference_plain_on (module : String) (segs : List String) :
    ∀ (messages after : List (String × Message)) (currentPath : List String) (r : Reached)
      (keys : List String) (last : String),
      (∀ s, s ∈ segs → s ≠ "" ∧ s ∉ JS.objectPrototypeKeys) →
      dereference module messages currentPath segs = some (after, r) →
      (keys ++ [last]) <+: segs →
      (nodeAt after keys last).map Message.own
        = some (((nodeAt messages keys last).map Message.own).getD
            ([], module, currentPath ++ keys, last, none)) := by
  induction segs with
  | nil =>
    intro messages after currentPath r keys last _ _ hon
    obtain ⟨t, ht⟩ := hon
    simp at ht
  | cons s rest ih =>
    intro messages after currentPath r keys last hplain h hon
    have hs := hplain s (List.mem_cons_self _ _)
    rw [dereference_cons_plain module messages currentPath s rest hs] at h
    cases hb : dereference module
        ((JS.objGet messages s).getD (newNode module currentPath s)).messages
        (currentPath ++ [s]) rest with
    | none => rw [hb] at h; exact absurd h (by simp)
    | some res =>
      obtain ⟨below, reached⟩ := res
      rw [hb] at h
      simp only [Option.some.injEq, Prod.mk.injEq] at h
      obtain ⟨hafter, _⟩ := h
      have hget : JS.objGet after s
          = some (((JS.objGet messages s).getD (newNode module currentPath s)).withMessages
              below) := by
        rw [← hafter, JS.objGet_objSet_self]
      cases keys with
      | nil =>
        obtain ⟨t, ht⟩ := hon
        simp only [List.nil_append, List.singleton_append, List.cons.injEq] at ht
        obtain ⟨hlast, _⟩ := ht
        subst hlast
        rw [nodeAt_nil, nodeAt_nil, hget]
        simp only [Option.map_some', Message.withMessages_own, List.append_nil]
        cases hc : JS.objGet messages last with
        | some child => rfl
        | none => rfl
      | cons k ks =>
        obtain ⟨t, ht⟩ := hon
        simp only [List.cons_append, List.cons.injEq] at ht
        obtain ⟨hk, ht⟩ := ht
        subst hk
        rw [nodeAt_cons_some after k ks last _ hget, Message.withMessages_messages]
        rw [ih _ below (currentPath ++ [k]) reached ks last
          (fun x hx => hplain x (List.mem_cons_of_mem _ hx)) hb ⟨t, ht⟩]
        rw [nodeAt_child module messages currentPath k ks last]
        simp

end ParseProto

/-- C27 (corrected): for a path of segments none of which is empty or the name of a
property inherited from `Object.prototype`, `dereference` from the root returns the node
at that path; a second call with the same arguments returns the same node and changes
nothing; every node on the path exists afterwards, with its own properties unchanged if
it was there, and created with empty `enums`, no field table, `__module__` the module,
`__name__` the segment and `__path__` the segments before it otherwise; and every node
off the path is as it was (so a node created has no child off the path). -/
theorem dereference_creates_path (module : String)
    (messages : List (String × ParseProto.Message)) (segs : List String)
    (hplain : ∀ s, s ∈ segs → s ≠ "" ∧ s ∉ JS.objectPrototypeKeys) :
    ∃ after,
      ParseProto.dereference module messages [] segs = some (after, .node segs)
      ∧ ParseProto.dereference module after [] segs = some (after, .node segs)
      ∧ (∀ (i : Nat) (hi : i < segs.length),
          (ParseProto.nodeAt after (segs.take i) (segs.get ⟨i, hi⟩)).map ParseProto.Message.own
            = some
              (match ParseProto.nodeAt messages (segs.take i) (segs.get ⟨i, hi⟩) with
               | some old => old.own
               | none => ([], module, segs.take i, segs.get ⟨i, hi⟩, none)))
      ∧ (∀ keys last, ¬ (keys ++ [last]) <+: segs →
          ParseProto.nodeAt after keys last = ParseProto.nodeAt messages keys last) := by
  obtain ⟨after, h⟩ := ParseProto.dereference_plain_returns module segs messages [] hplain
  refine ⟨after, h, ParseProto.dereference_plain_again module segs messages after [] _
    hplain h, ?_, ?_⟩
  · intro i hi
    have hon : (segs.take i ++ [segs.get ⟨i, hi⟩]) <+: segs := by
      have := List.take_prefix (i + 1) segs
      rw [List.take_succ, List.getElem?_eq_getElem hi] at this
      simpa using this
    rw [ParseProto.dereference_plain_on module segs messages after [] _ _ _ hplain h hon]
    cases ParseProto.nodeAt messages (segs.take i) (segs.get ⟨i, hi⟩) with
    | some old => rfl
    | none => rfl
  · intro keys last hoff
    exact ParseProto.dereference_plain_off module segs messages after [] _ keys last hplain h
      hoff

/-- C27, an instance: the path `A`, `B` on a tree that has the node `A` with a field
table. -/
theorem dereference_creates_path_witness :
    ∃ after,
      ParseProto.dereference "WASample" [("A", .mk [] [] "WASample" [] "A" (some []))] []
          ["A", "B"] = some (after, .node ["A", "B"])
      ∧ ParseProto.dereference "WASample" after [] ["A", "B"] = some (after, .node ["A", "B"])
      ∧ (∀ (i : Nat) (hi : i < ["A", "B"].length),
          (ParseProto.nodeAt after (["A", "B"].take i)
              (["A", "B"].get ⟨i, hi⟩)).map ParseProto.Message.own
            = some
              (match ParseProto.nodeAt [("A", .mk [] [] "WASample" [] "A" (some []))]
                  (["A", "B"].take i) (["A", "B"].get ⟨i, hi⟩) with
               | some old => old.own
               | none => ([], "WASample", ["A", "B"].take i, ["A", "B"].get ⟨i, hi⟩, none)))
      ∧ (∀ keys last, ¬ (keys ++ [last]) <+: ["A", "B"] →
          ParseProto.nodeAt after keys last
            = ParseProto.nodeAt [("A", .mk [] [] "WASample" [] "A" (some []))] keys last) :=
  dereference_creates_path "WASample" [("A", .mk [] [] "WASample" [] "A" (some []))]
    ["A", "B"] (by decide)

/-- C27, counterexample: for the segment `constructor` the call returns a value that is
not a node of the tree and creates nothing; with a further segment it throws. -/
theorem dereference_inherited_counterexample :
    ParseProto.dereference "WASample" [] [] ["constructor"] = some ([], .inherited)
    ∧ ParseProto.dereference "WASample" [] [] ["constructor", "A"] = none :=
  ⟨rfl, rfl⟩

/-! ## C31: recorded location and position in the tree -/

namespace ParseProto

theorem updateNode_nil (f : Message → Message) (messages : List (String × Message))
    (last : String) :
    updateNode f messages [] last
      = match JS.objGet messages last with
        | some node => JS.objSet messages last (f node)
        | none => messages := rfl

theorem updateNode_cons (f : Message → Message) (messages : List (String × Message))
    (key : String) (rest : List String) (last : String) :
    updateNode f messages (key :: rest) last
      = match JS.objGet messages key with
        | some child =>
          JS.objSet messages key (child.withMessages (updateNode f child.messages rest last))
        | none => messages := rfl

theorem ownAt_nil (messages : List (String × Message)) (last : String) :
    ownAt messages [] last = (JS.objGet messages last).map Message.own := rfl

theorem ownAt_cons_some (messages : List (String × Message)) (key : String)
    (keys : List String) (last : String) (child : Message)
    (h : JS.objGet messages key = some child) :
    ownAt messages (key :: keys) last = ownAt child.messages keys last := by
  unfold ownAt
  rw [nodeAt_cons_some messages key keys last child h]

theorem ownAt_cons_none (messages : List (String × Message)) (key : String)
    (keys : List String) (last : String) (h : JS.objGet messages key = none) :
    ownAt messages (key :: keys) last = none := by
  unfold ownAt
  rw [nodeAt_cons_none messages key keys last h]
  rfl

/-- The own properties of the nodes after an update of one node. -/
theorem ownAt_updateNode (f : Message → Message)
    (g : JS.Obj EnumDef × String × List String × String × Option Spec →
      JS.Obj EnumDef × String × List String × String × Option Spec)
    (hm : ∀ x, (f x).messages = x.messages) (hg : ∀ x, (f x).own = g x.own)
    (K : List String) :
    ∀ (messages : List (String × Message)) (L : String) (keys : List String) (last : String),
      ownAt (updateNode f messages K L) keys last
        = (ownAt messages keys last).map (fun o => if keys = K ∧ last = L then g o else o) := by
  induction K with
  | nil =>
    intro messages L keys last
    rw [updateNode_nil]
    cases hn : JS.objGet messages L with
    | none =>
      simp only
      cases keys with
      | nil =>
        rw [ownAt_nil]
        by_cases hl : last = L
        · rw [hl, hn]; rfl
        · cases JS.objGet messages last <;> simp [hl]
      | cons k ks => simp
    | some node =>
      simp only
      cases keys with
      | nil =>
        rw [ownAt_nil, ownAt_nil, JS.objGet_objSet]
        by_cases hl : last = L
        · rw [if_pos hl, hl, hn]
          simp [hg]
        · rw [if_neg hl]
          cases JS.objGet messages last <;> simp [hl]
      | cons k ks =>
        by_cases hk : k = L
        · subst hk
          rw [ownAt_cons_some _ k ks last (f node) (JS.objGet_objSet_self _ _ _),
            ownAt_cons_some messages k ks last node hn, hm]
          simp
        · have hget : JS.objGet (JS.objSet messages L (f node)) k = JS.objGet messages k := by
            rw [JS.objGet_objSet, if_neg hk]
          cases hc : JS.objGet messages k with
          | none =>
            rw [ownAt_cons_none _ k ks last (hget.trans hc), ownAt_cons_none _ k ks last hc]
            rfl
          | some child =>
            rw [ownAt_cons_some _ k ks last child (hget.trans hc),
              ownAt_cons_some _ k ks last child hc]
            simp
  | cons key rest ih =>
    intro messages L keys last
    rw [updateNode_cons]
    cases hn : JS.objGet messages key with
    | none =>
      simp only
      cases keys with
      | nil => simp
      | cons k ks =>
        by_cases hk : k = key
        · subst hk
          rw [ownAt_cons_none _ k ks last hn]
          rfl
        · simp [hk]
    | some child =>
      simp only
      cases keys with
      | nil =>
        rw [ownAt_nil, ownAt_nil, JS.objGet_objSet]
        by_cases hl : last = key
        · rw [if_pos hl, hl, hn]
          simp [Message.withMessages_own]
        · rw [if_neg hl]
          cases JS.objGet messages last <;> simp
      | cons k ks =>
        by_cases hk : k = key
        · subst hk
          rw [ownAt_cons_some _ k ks last _ (JS.objGet_objSet_self _ _ _),
            ownAt_cons_some messages k ks last child hn, Message.withMessages_messages, ih]
          simp
        · have hget : JS.objGet (JS.objSet messages key
              (child.withMessages (updateNode f child.messages rest L))) k
              = JS.objGet messages k := by
            rw [JS.objGet_objSet, if_neg hk]
          cases hc : JS.objGet messages k with
          | none =>
            rw [ownAt_cons_none _ k ks last (hget.trans hc), ownAt_cons_none _ k ks last hc]
            rfl
          | some child2 =>
            rw [ownAt_cons_some _ k ks last child2 (hget.trans hc),
              ownAt_cons_some _ k ks last child2 hc]
            simp [hk]

end ParseProto

namespace ParseProto

theorem ownAt_empty (keys : List String) (last : String) : ownAt [] keys last = none := by
  unfold ownAt
  rw [nodeAt_empty]
  rfl

theorem wellPlaced_empty : WellPlaced [] := by
  intro keys last o h
  rw [ownAt_empty] at h
  exact absurd h (by simp)

theorem split_last (key : String) (keys : List String) :
    (key :: keys).dropLast ++ [(key :: keys).getLast?.getD ""] = key :: keys := by
  have hne : (key :: keys) ≠ [] := by simp
  rw [List.getLast?_eq_getLast _ hne]
  exact List.dropLast_append_getLast hne

theorem last_mem (key : String) (keys : List String) :
    (key :: keys).getLast?.getD "" ∈ key :: keys := by
  have hne : (key :: keys) ≠ [] := by simp
  rw [List.getLast?_eq_getLast _ hne]
  exact List.getLast_mem hne

/-- Two paths with the same segments before the last and the same last segment are the
same path, when the last segment of one of them is not empty. -/
theorem path_eq_of_split (p q : List String) (hq : q ≠ [])
    (hlast : q.getLast?.getD "" ≠ "")
    (h1 : p.dropLast = q.dropLast) (h2 : p.getLast?.getD "" = q.getLast?.getD "") : p = q := by
  cases p with
  | nil =>
    simp only [List.getLast?_nil, Option.getD_none] at h2
    exact absurd h2.symm hlast
  | cons a as =>
    cases q with
    | nil => exact absurd rfl hq
    | cons b bs => rw [← split_last a as, ← split_last b bs, h1, h2]

/-- The own properties of the nodes after `dereference` along a path and an update of the
node the path leads to. -/
theorem ownAt_step (module : String) (f : Message → Message)
    (g : JS.Obj EnumDef × String × List String × String × Option Spec →
      JS.Obj EnumDef × String × List String × String × Option Spec)
    (hm : ∀ x, (f x).messages = x.messages) (hg : ∀ x, (f x).own = g x.own)
    (messages after : List (String × Message)) (key : String) (rest : List String)
    (r : Reached)
    (hplain : ∀ s, s ∈ key :: rest → s ≠ "" ∧ s ∉ JS.objectPrototypeKeys)
    (h : dereference module messages [] (key :: rest) = some (after, r))
    (keys : List String) (last : String) :
    ownAt (updateNode f after (key :: rest).dropLast ((key :: rest).getLast?.getD "")) keys last
      = if keys = (key :: rest).dropLast ∧ last = (key :: rest).getLast?.getD "" then
          some (g ((ownAt messages keys last).getD (freshOwn module keys last)))
        else if (keys ++ [last]) <+: (key :: rest) then
          some ((ownAt messages keys last).getD (freshOwn module keys last))
        else ownAt messages keys last := by
  rw [ownAt_updateNode f g hm hg]
  by_cases hon : (keys ++ [last]) <+: (key :: rest)
  · have h1 := dereference_plain_on module (key :: rest) messages after [] r keys last hplain h
      hon
    rw [List.nil_append] at h1
    have h2 : ownAt after keys last
        = some ((ownAt messages keys last).getD (freshOwn module keys last)) := h1
    rw [h2, if_pos hon]
    by_cases hkl : keys = (key :: rest).dropLast ∧ last = (key :: rest).getLast?.getD ""
    · simp only [if_pos hkl, Option.map_some']
    · simp only [if_neg hkl, Option.map_some']
  · have h1 := dereference_plain_off module (key :: rest) messages after [] r keys last hplain h
      hon
    have h2 : ownAt after keys last = ownAt messages keys last := by
      unfold ownAt; rw [h1]
    have hkl : ¬ (keys = (key :: rest).dropLast ∧ last = (key :: rest).getLast?.getD "") := by
      intro hkl
      apply hon
      rw [hkl.1, hkl.2, split_last]
    rw [h2, if_neg hkl, if_neg hon]
    cases ownAt messages keys last <;> simp [hkl]

/-- The nodes record their place after such a step, when the update keeps `__path__` and
`__name__`. -/
theorem wellPlaced_step (module : String) (f : Message → Message)
    (g : JS.Obj EnumDef × String × List String × String × Option Spec →
      JS.Obj EnumDef × String × List String × String × Option Spec)
    (hm : ∀ x, (f x).messages = x.messages) (hg : ∀ x, (f x).own = g x.own)
    (hkeep : ∀ o, (g o).2.2.1 = o.2.2.1 ∧ (g o).2.2.2.1 = o.2.2.2.1)
    (messages after : List (String × Message)) (key : String) (rest : List String)
    (r : Reached)
    (hplain : ∀ s, s ∈ key :: rest → s ≠ "" ∧ s ∉ JS.objectPrototypeKeys)
    (h : dereference module messages [] (key :: rest) = some (after, r))
    (hwp : WellPlaced messages) :
    WellPlaced
      (updateNode f after (key :: rest).dropLast ((key :: rest).getLast?.getD "")) := by
  intro keys last o ho
  rw [ownAt_step module f g hm hg messages after key rest r hplain h] at ho
  have hbase : ((ownAt messages keys last).getD (freshOwn module keys last)).2.2.1 = keys
      ∧ ((ownAt messages keys last).getD (freshOwn module keys last)).2.2.2.1 = last := by
    cases hc : ownAt messages keys last with
    | none => exact ⟨rfl, rfl⟩
    | some o2 => exact hwp keys last o2 hc
  split at ho
  · simp only [Option.some.injEq] at ho
    rw [← ho]
    exact ⟨(hkeep _).1.trans hbase.1, (hkeep _).2.trans hbase.2⟩
  · split at ho
    · simp only [Option.some.injEq] at ho
      rw [← ho]
      exact hbase
    · exact hwp keys last o ho

end ParseProto

namespace ParseProto

/-- A property of the nodes that the object literal does not have is where it was after
a step, at every node the update leaves it at. -/
theorem bind_step {β : Type} (module : String) (f : Message → Message)
    (g : JS.Obj EnumDef × String × List String × String × Option Spec →
      JS.Obj EnumDef × String × List String × String × Option Spec)
    (hm : ∀ x, (f x).messages = x.messages) (hg : ∀ x, (f x).own = g x.own)
    (messages after : List (String × Message)) (key : String) (rest : List String)
    (r : Reached)
    (hplain : ∀ s, s ∈ key :: rest → s ≠ "" ∧ s ∉ JS.objectPrototypeKeys)
    (h : dereference module messages [] (key :: rest) = some (after, r))
    (proj : JS.Obj EnumDef × String × List String × String × Option Spec → Option β)
    (hfresh : ∀ keys last, proj (freshOwn module keys last) = none)
    (keys : List String) (last : String)
    (hkeep : ¬ (keys = (key :: rest).dropLast ∧ last = (key :: rest).getLast?.getD "")
      ∨ ∀ o, proj (g o) = proj o) :
    (ownAt (updateNode f after (key :: rest).dropLast ((key :: rest).getLast?.getD ""))
        keys last).bind proj
      = (ownAt messages keys last).bind proj := by
  rw [ownAt_step module f g hm hg messages after key rest r hplain h]
  have hbase : proj ((ownAt messages keys last).getD (freshOwn module keys last))
      = (ownAt messages keys last).bind proj := by
    cases hc : ownAt messages keys last with
    | none => exact hfresh keys last
    | some o => rfl
  split
  · rename_i hkl
    rcases hkeep with hk | hk
    · exact absurd hkl hk
    · simp only [Option.some_bind, hk, hbase]
  · split
    · simp only [Option.some_bind, hbase]
    · rfl

theorem withSpec_messages (spec : Spec) (x : Message) :
    (x.withSpec spec).messages = x.messages := by
  cases x; rfl

theorem withSpec_own (spec : Spec) (x : Message) :
    (x.withSpec spec).own = ownWithSpec spec x.own := by
  cases x; rfl

theorem withEnums_messages (name : String) (enumDef : EnumDef) (x : Message) :
    (x.withEnums (JS.objSet x.enums name enumDef)).messages = x.messages := by
  cases x; rfl

theorem withEnums_own (name : String) (enumDef : EnumDef) (x : Message) :
    (x.withEnums (JS.objSet x.enums name enumDef)).own = ownWithEnum name enumDef x.own := by
  cases x; rfl

end ParseProto

namespace ParseProto

theorem enumAt_eq (messages : List (String × Message)) (enums : JS.Obj EnumDef)
    (path : List String) :
    enumAt messages enums path
      = match path.dropLast with
        | [] => JS.objGet enums (path.getLast?.getD "")
        | key :: keys =>
          (ownAt messages (key :: keys).dropLast ((key :: keys).getLast?.getD "")).bind
            (fun o => JS.objGet o.1 (path.getLast?.getD "")) := rfl

/-- The step of the export loop for a message export. -/
theorem exportStep_message (protoName : String) (key : String) (rest : List String)
    (s : Extraction) (name : String) (spec : Spec) (ref : Option NodeRef)
    (hplain : ∀ x, x ∈ key :: rest → x ≠ "" ∧ x ∉ JS.objectPrototypeKeys)
    (hwp : WellPlaced s.messages) :
    ∃ s2, exportStep protoName (key :: rest) s name (.message spec ref) = some s2
      ∧ s2.exports = JS.objSet s.exports name
          ((Export.message spec ref).locate (some ((key :: rest).getLast?.getD ""))
            (key :: rest).dropLast protoName)
      ∧ WellPlaced s2.messages
      ∧ specAt s2.messages (key :: rest) = some spec
      ∧ (∀ p, p ≠ key :: rest → specAt s2.messages p = specAt s.messages p)
      ∧ (∀ p, enumAt s2.messages s2.enums p = enumAt s.messages s.enums p) := by
  obtain ⟨after, hd⟩ := dereference_plain_returns protoName (key :: rest) s.messages [] hplain
  have hstep : exportStep protoName (key :: rest) s name (.message spec ref)
      = some { s with
          messages := updateNode (fun node => node.withSpec spec) after
            (key :: rest).dropLast ((key :: rest).getLast?.getD "")
          exports := JS.objSet s.exports name
            ((Export.message spec ref).locate (some ((key :: rest).getLast?.getD ""))
              (key :: rest).dropLast protoName) } := by
    unfold exportStep
    simp only [Export.locate, hd]
  have hlast : (key :: rest).getLast?.getD "" ≠ "" := (hplain _ (last_mem key rest)).1
  refine ⟨_, hstep, rfl, ?_, ?_, ?_, ?_⟩
  · exact wellPlaced_step protoName _ (ownWithSpec spec) (withSpec_messages spec)
      (withSpec_own spec) (fun o => ⟨rfl, rfl⟩) s.messages after key rest _ hplain hd hwp
  · show (ownAt _ _ _).bind _ = _
    rw [ownAt_step protoName _ (ownWithSpec spec) (withSpec_messages spec)
      (withSpec_own spec) s.messages after key rest _ hplain hd]
    simp [ownWithSpec]
  · intro p hp
    show (ownAt _ _ _).bind _ = (ownAt _ _ _).bind _
    apply bind_step protoName _ (ownWithSpec spec) (withSpec_messages spec)
      (withSpec_own spec) s.messages after key rest _ hplain hd
    · intro keys last; rfl
    · left
      intro hkl
      exact hp (path_eq_of_split p (key :: rest) (by simp) hlast hkl.1 hkl.2)
  · intro p
    rw [enumAt_eq, enumAt_eq]
    cases hq : p.dropLast with
    | nil => rfl
    | cons k ks =>
      simp only
      apply bind_step protoName _ (ownWithSpec spec) (withSpec_messages spec)
        (withSpec_own spec) s.messages after key rest _ hplain hd
      · intro keys last; rfl
      · right
        intro o; rfl

/-- The step of the export loop for an enum export that is stored by its path. -/
theorem exportStep_enum (protoName : String) (key : String) (rest : List String)
    (s : Extraction) (name : String) (enumDef : EnumDef)
    (hplain : ∀ x, x ∈ key :: rest → x ≠ "" ∧ x ∉ JS.objectPrototypeKeys)
    (hwp : WellPlaced s.messages)
    (hstored : ¬ ((key :: rest).length = 1 ∧ JS.toUpperCase name = name)) :
    ∃ s2, exportStep protoName (key :: rest) s name (.enum enumDef) = some s2
      ∧ s2.exports = JS.objSet s.exports name
          ((Export.enum enumDef).locate (some ((key :: rest).getLast?.getD ""))
            (key :: rest).dropLast protoName)
      ∧ WellPlaced s2.messages
      ∧ (enumAt s2.messages s2.enums (key :: rest)).map Export.enum
          = some ((Export.enum enumDef).locate (some ((key :: rest).getLast?.getD ""))
            (key :: rest).dropLast protoName)
      ∧ (∀ p, p ≠ key :: rest →
          enumAt s2.messages s2.enums p = enumAt s.messages s.enums p)
      ∧ (∀ p, specAt s2.messages p = specAt s.messages p) := by
  have hlast : (key :: rest).getLast?.getD "" ≠ "" := (hplain _ (last_mem key rest)).1
  have hqplain : ∀ x, x ∈ (key :: rest).dropLast → x ≠ "" ∧ x ∉ JS.objectPrototypeKeys :=
    fun x hx => hplain x (List.mem_of_mem_dropLast hx)
  obtain ⟨after, hd⟩ := dereference_plain_returns protoName (key :: rest).dropLast
    s.messages [] hqplain
  cases hq : (key :: rest).dropLast with
  | nil =>
    rw [hq] at hd
    have hafter : after = s.messages := by
      rw [dereference] at hd
      simp only [Option.some.injEq, Prod.mk.injEq] at hd
      exact hd.1.symm
    subst hafter
    have hstep : exportStep protoName (key :: rest) s name (.enum enumDef)
        = some { s with
            enums := JS.objSet s.enums ((key :: rest).getLast?.getD "")
              (JS.objSet (JS.objSet (JS.objSet enumDef "__name__"
                (.str ((key :: rest).getLast?.getD ""))) "__path__" (.strs []))
                "__module__" (.str protoName))
            exports := JS.objSet s.exports name
              ((Export.enum enumDef).locate (some ((key :: rest).getLast?.getD ""))
                [] protoName) } := by
      unfold exportStep
      simp only [Export.locate, hq, hd, if_neg hstored]
    refine ⟨_, hstep, rfl, hwp, ?_, ?_, ?_⟩
    · rw [enumAt_eq, hq]
      simp only [JS.objGet_objSet_self, Option.map_some', Export.locate]
    · intro p hp
      rw [enumAt_eq, enumAt_eq]
      cases hpq : p.dropLast with
      | nil =>
        simp only
        rw [JS.objGet_objSet, if_neg]
        intro hl
        exact hp (path_eq_of_split p (key :: rest) (by simp) hlast (hpq.trans hq.symm) hl)
      | cons k ks => rfl
    · intro p; rfl
  | cons k ks =>
    rw [hq] at hd hqplain
    have hstep : exportStep protoName (key :: rest) s name (.enum enumDef)
        = some { s with
            messages := updateNode
              (fun node => node.withEnums (JS.objSet node.enums
                ((key :: rest).getLast?.getD "")
                (JS.objSet (JS.objSet (JS.objSet enumDef "__name__"
                  (.str ((key :: rest).getLast?.getD ""))) "__path__" (.strs (k :: ks)))
                  "__module__" (.str protoName)))) after
              (k :: ks).dropLast ((k :: ks).getLast?.getD "")
            exports := JS.objSet s.exports name
              ((Export.enum enumDef).locate (some ((key :: rest).getLast?.getD ""))
                (k :: ks) protoName) } := by
      unfold exportStep
      simp only [Export.locate, hq, hd, if_neg hstored]
    have hqlast : (k :: ks).getLast?.getD "" ≠ "" := (hqplain _ (last_mem k ks)).1
    refine ⟨_, hstep, rfl, ?_, ?_, ?_, ?_⟩
    · exact wellPlaced_step protoName _ (ownWithEnum _ _) (withEnums_messages _ _)
        (withEnums_own _ _) (fun o => ⟨rfl, rfl⟩) s.messages after k ks _ hqplain hd hwp
    · rw [enumAt_eq, hq]
      simp only
      rw [ownAt_step protoName _ (ownWithEnum _ _) (withEnums_messages _ _)
        (withEnums_own _ _) s.messages after k ks _ hqplain hd]
      simp [ownWithEnum, JS.objGet_objSet_self, Export.locate]
    · intro p hp
      rw [enumAt_eq, enumAt_eq]
      cases hpq : p.dropLast with
      | nil => rfl
      | cons k2 ks2 =>
        simp only
        apply bind_step protoName _ (ownWithEnum _ _) (withEnums_messages _ _)
          (withEnums_own _ _) s.messages after k ks _ hqplain hd
        · intro keys last; rfl
        · by_cases hl : p.getLast?.getD "" = (key :: rest).getLast?.getD ""
          · left
            intro hkl
            apply hp
            apply path_eq_of_split p (key :: rest) (by simp) hlast _ hl
            rw [hpq, hq]
            exact path_eq_of_split (k2 :: ks2) (k :: ks) (by simp) hqlast hkl.1 hkl.2
          · right
            intro o
            simp only [ownWithEnum]
            rw [JS.objGet_objSet, if_neg hl]
    · intro p
      show (ownAt _ _ _).bind _ = (ownAt _ _ _).bind _
      apply bind_step protoName _ (ownWithEnum _ _) (withEnums_messages _ _)
        (withEnums_own _ _) s.messages after k ks _ hqplain hd
      · intro keys last; rfl
      · right
        intro o; rfl

/-- The step of the export loop for an enum export with an upper-case name. -/
theorem exportStep_deferred (protoName : String) (path : List String)
    (s : Extraction) (name : String) (enumDef : EnumDef)
    (hdeferred : path.length = 1 ∧ JS.toUpperCase name = name) :
    ∃ s2, exportStep protoName path s name (.enum enumDef) = some s2
      ∧ s2.exports = JS.objSet s.exports name
          ((Export.enum enumDef).locate (some (path.getLast?.getD "")) path.dropLast protoName)
      ∧ s2.messages = s.messages ∧ s2.enums = s.enums := by
  have hstep : exportStep protoName path s name (.enum enumDef)
      = some { s with
          upperSnakeEnums := s.upperSnakeEnums ++ [(name,
            JS.objSet (JS.objSet (JS.objSet enumDef "__name__"
              (.str (path.getLast?.getD ""))) "__path__" (.strs path.dropLast))
              "__module__" (.str protoName))]
          exports := JS.objSet s.exports name
            ((Export.enum enumDef).locate (some (path.getLast?.getD "")) path.dropLast
              protoName) } := by
    unfold exportStep
    simp only [Export.locate, if_pos hdeferred]
  exact ⟨_, hstep, rfl, rfl, rfl⟩

end ParseProto

namespace ParseProto

/-- One step of the export loop, for a path of segments that are not empty and not
inherited names. -/
theorem exportStep_spec (protoName : String) (path : List String) (s : Extraction)
    (name : String) (field : Export) (hne : path ≠ [])
    (hplain : ∀ x, x ∈ path → x ≠ "" ∧ x ∉ JS.objectPrototypeKeys)
    (hwp : WellPlaced s.messages) :
    ∃ s2, exportStep protoName path s name field = some s2
      ∧ s2.exports = JS.objSet s.exports name
          (field.locate (some (path.getLast?.getD "")) path.dropLast protoName)
      ∧ WellPlaced s2.messages
      ∧ (∀ p, p ≠ path →
          specAt s2.messages p = specAt s.messages p
          ∧ enumAt s2.messages s2.enums p = enumAt s.messages s.enums p)
      ∧ (∀ spec ref, field = .message spec ref → specAt s2.messages path = some spec)
      ∧ (∀ enumDef, field = .enum enumDef →
          ¬ (path.length = 1 ∧ JS.toUpperCase name = name) →
          (enumAt s2.messages s2.enums path).map Export.enum
            = some (field.locate (some (path.getLast?.getD "")) path.dropLast protoName)) := by
  cases path with
  | nil => exact absurd rfl hne
  | cons key rest =>
    cases field with
    | message spec ref =>
      obtain ⟨s2, h1, h2, h3, h4, h5, h6⟩ :=
        exportStep_message protoName key rest s name spec ref hplain hwp
      refine ⟨s2, h1, h2, h3, fun p hp => ⟨h5 p hp, h6 p⟩, ?_, ?_⟩
      · intro spec2 ref2 heq
        simp only [Export.message.injEq] at heq
        rw [← heq.1]; exact h4
      · intro enumDef heq; exact absurd heq (by simp)
    | enum enumDef =>
      by_cases hdef : (key :: rest).length = 1 ∧ JS.toUpperCase name = name
      · obtain ⟨s2, h1, h2, h3, h4⟩ :=
          exportStep_deferred protoName (key :: rest) s name enumDef hdef
        refine ⟨s2, h1, h2, by rw [h3]; exact hwp, fun p _ => by rw [h3, h4]; exact ⟨rfl, rfl⟩,
          ?_, ?_⟩
        · intro spec ref heq; exact absurd heq (by simp)
        · intro e _ hnot; exact absurd hdef hnot
      · obtain ⟨s2, h1, h2, h3, h4, h5, h6⟩ :=
          exportStep_enum protoName key rest s name enumDef hplain hwp hdef
        refine ⟨s2, h1, h2, h3, fun p hp => ⟨h6 p, h5 p hp⟩, ?_, ?_⟩
        · intro spec ref heq; exact absurd heq (by simp)
        · intro e _ _; exact h4

/-- The export loop on a list of exports with distinct names and distinct paths. -/
theorem exportLoop_spec (protoName : String) (paths : String → List String) :
    ∀ (todo : List (String × Export)) (s : Extraction),
      (∀ e, e ∈ todo → paths e.1 ≠ []) →
      (∀ e, e ∈ todo → ∀ x, x ∈ paths e.1 → x ≠ "" ∧ x ∉ JS.objectPrototypeKeys) →
      (todo.map Prod.fst).Nodup →
      (todo.map (fun e => paths e.1)).Nodup →
      WellPlaced s.messages →
      ∃ s2, exportLoop protoName paths s todo = some s2
        ∧ WellPlaced s2.messages
        ∧ (∀ n, n ∉ todo.map Prod.fst → JS.objGet s2.exports n = JS.objGet s.exports n)
        ∧ (∀ p, p ∉ todo.map (fun e => paths e.1) →
            specAt s2.messages p = specAt s.messages p
            ∧ enumAt s2.messages s2.enums p = enumAt s.messages s.enums p)
        ∧ (∀ name field, (name, field) ∈ todo →
            JS.objGet s2.exports name
              = some (field.locate (some ((paths name).getLast?.getD ""))
                  (paths name).dropLast protoName)
            ∧ (∀ spec ref, field = .message spec ref →
                specAt s2.messages (paths name) = some spec)
            ∧ (∀ enumDef, field = .enum enumDef →
                ¬ ((paths name).length = 1 ∧ JS.toUpperCase name = name) →
                (enumAt s2.messages s2.enums (paths name)).map Export.enum
                  = some (field.locate (some ((paths name).getLast?.getD ""))
                      (paths name).dropLast protoName))) := by
  intro todo
  induction todo with
  | nil =>
    intro s _ _ _ _ hwp
    refine ⟨s, rfl, hwp, fun _ _ => rfl, fun _ _ => ⟨rfl, rfl⟩, ?_⟩
    intro name field hmem
    simp at hmem
  | cons e rest ih =>
    obtain ⟨name0, field0⟩ := e
    intro s hne hplain hkeys hpaths hwp
    obtain ⟨s1, hs1, hexp1, hwp1, hframe1, hmsg1, henum1⟩ :=
      exportStep_spec protoName (paths name0) s name0 field0
        (hne (name0, field0) (List.mem_cons_self _ _))
        (hplain (name0, field0) (List.mem_cons_self _ _)) hwp
    simp only [List.map_cons, List.nodup_cons] at hkeys hpaths
    obtain ⟨s2, hs2, hwp2, hexp2, hframe2, hstored2⟩ := ih s1
      (fun e he => hne e (List.mem_cons_of_mem _ he))
      (fun e he => hplain e (List.mem_cons_of_mem _ he)) hkeys.2 hpaths.2 hwp1
    have hloop : exportLoop protoName paths s ((name0, field0) :: rest) = some s2 := by
      rw [exportLoop, hs1]
      exact hs2
    refine ⟨s2, hloop, hwp2, ?_, ?_, ?_⟩
    · intro n hn
      simp only [List.map_cons, List.mem_cons, not_or] at hn
      rw [hexp2 n hn.2, hexp1, JS.objGet_objSet, if_neg hn.1]
    · intro p hp
      simp only [List.map_cons, List.mem_cons, not_or] at hp
      obtain ⟨h1, h2⟩ := hframe2 p hp.2
      obtain ⟨h3, h4⟩ := hframe1 p hp.1
      exact ⟨h1.trans h3, h2.trans h4⟩
    · intro name field hmem
      rcases List.mem_cons.mp hmem with heq | hmem
      · simp only [Prod.mk.injEq] at heq
        obtain ⟨hn, hf⟩ := heq
        subst hn; subst hf
        obtain ⟨h1, h2⟩ := hframe2 (paths name) hpaths.1
        refine ⟨?_, ?_, ?_⟩
        · rw [hexp2 name hkeys.1, hexp1, JS.objGet_objSet_self]
        · intro spec ref heq
          rw [h1]; exact hmsg1 spec ref heq
        · intro enumDef heq hnot
          rw [h2]; exact henum1 enumDef heq hnot
      · exact hstored2 name field hmem

theorem namePathOf_ne_nil (protoName name : String) : namePathOf protoName name ≠ [] := by
  unfold namePathOf JS.split
  intro h
  exact JS.splitChars_ne_nil _ _ (List.map_eq_nil_iff.mp h)

end ParseProto

/-- C31 (corrected): for a module in which every renamed export name consists of
`$`-separated segments that are not empty and not names inherited from
`Object.prototype`, and no two exports have the same renamed name, the export loop
returns; afterwards every message node of the tree satisfies `__path__ ++ [__name__]` =
the keys leading to it from the root; every export has `__name__`, `__path__` and
`__module__` set to its last segment, the segments before it and the name of the
ProtoFile; the node at the path of a message export holds its field table; and an enum
export that is not deferred is stored under its name in the table `enums` of the node its
`__path__` leads to.  The entries of the export object have distinct keys. -/
theorem exportLoop_keeps_location (protoName : String) (exports : JS.Obj ParseProto.Export)
    (hkeys : (exports.map Prod.fst).Nodup)
    (hplain : ∀ e, e ∈ exports → ∀ x, x ∈ ParseProto.namePathOf protoName e.1 →
      x ≠ "" ∧ x ∉ JS.objectPrototypeKeys)
    (hdistinct : (exports.map (fun e => ParseProto.namePathOf protoName e.1)).Nodup) :
    ∃ s, ParseProto.exportLoop protoName (ParseProto.namePathOf protoName)
        ⟨[], [], [], exports⟩ exports = some s
      ∧ (∀ keys last node, ParseProto.nodeAt s.messages keys last = some node →
          node.__path__ ++ [node.__name__] = keys ++ [last])
      ∧ (∀ name field, (name, field) ∈ exports →
          JS.objGet s.exports name
            = some (field.locate
                (some ((ParseProto.namePathOf protoName name).getLast?.getD ""))
                (ParseProto.namePathOf protoName name).dropLast protoName)
          ∧ (∀ spec ref, field = .message spec ref →
              ParseProto.specAt s.messages (ParseProto.namePathOf protoName name) = some spec)
          ∧ (∀ enumDef, field = .enum enumDef →
              ¬ ((ParseProto.namePathOf protoName name).length = 1
                ∧ JS.toUpperCase name = name) →
              (ParseProto.enumAt s.messages s.enums
                  (ParseProto.namePathOf protoName name)).map ParseProto.Export.enum
                = some (field.locate
                    (some ((ParseProto.namePathOf protoName name).getLast?.getD ""))
                    (ParseProto.namePathOf protoName name).dropLast protoName))) := by
  obtain ⟨s, hs, hwp, _, _, hstored⟩ := ParseProto.exportLoop_spec protoName
    (ParseProto.namePathOf protoName) exports ⟨[], [], [], exports⟩
    (fun e _ => ParseProto.namePathOf_ne_nil protoName e.1) hplain hkeys hdistinct
    ParseProto.wellPlaced_empty
  refine ⟨s, hs, ?_, hstored⟩
  intro keys last node hnode
  have h := hwp keys last node.own (by unfold ParseProto.ownAt; rw [hnode]; rfl)
  have h1 : node.__path__ = keys := h.1
  have h2 : node.__name__ = last := h.2
  rw [h1, h2]

/-- C31, an instance: a module with the messages `A` and `A$B`, the enum `A$Kind` and the
upper-case enum `TOP`. -/
theorem exportLoop_keeps_location_witness :
    ∃ s, ParseProto.exportLoop "WASample" (ParseProto.namePathOf "WASample")
        ⟨[], [], [], ParseProto.locatedExports⟩ ParseProto.locatedExports = some s
      ∧ (∀ keys last node, ParseProto.nodeAt s.messages keys last = some node →
          node.__path__ ++ [node.__name__] = keys ++ [last])
      ∧ (∀ name field, (name, field) ∈ ParseProto.locatedExports →
          JS.objGet s.exports name
            = some (field.locate
                (some ((ParseProto.namePathOf "WASample" name).getLast?.getD ""))
                (ParseProto.namePathOf "WASample" name).dropLast "WASample")
          ∧ (∀ spec ref, field = .message spec ref →
              ParseProto.specAt s.messages (ParseProto.namePathOf "WASample" name) = some spec)
          ∧ (∀ enumDef, field = .enum enumDef →
              ¬ ((ParseProto.namePathOf "WASample" name).length = 1
                ∧ JS.toUpperCase name = name) →
              (ParseProto.enumAt s.messages s.enums
                  (ParseProto.namePathOf "WASample" name)).map ParseProto.Export.enum
                = some (field.locate
                    (some ((ParseProto.namePathOf "WASample" name).getLast?.getD ""))
                    (ParseProto.namePathOf "WASample" name).dropLast "WASample"))) :=
  exportLoop_keeps_location "WASample" ParseProto.locatedExports (by decide) (by decide)
    (by decide)

/-- C31, counterexample: the exports `Message$FooSpec` and `FooSpec` of the module
`WAWebProtobufsE2E` are both given the name `Foo` and the empty path; after the loop the
node `Foo` holds the field table of the second, not that of the first. -/
theorem exportLoop_collision_counterexample :
    ∃ s, ParseProto.exportLoop "WAWebProtobufsE2E" (ParseProto.namePathOf "WAWebProtobufsE2E")
        ⟨[], [], [], ParseProto.collidingExports⟩ ParseProto.collidingExports = some s
      ∧ JS.objGet s.exports "Message$FooSpec"
          = some (.message [("__oneofs__", .oneofs [])] (some ⟨"WAWebProtobufsE2E", [], "Foo"⟩))
      ∧ ParseProto.specAt s.messages ["Foo"] = some []
      ∧ (some [] : Option ParseProto.Spec) ≠ some [("__oneofs__", .oneofs [])] :=
  ⟨_, rfl, rfl, rfl, by decide⟩

/-! ## C12 and C14: reading the serialized lines back -/

namespace ParseProto

theorem readBack_nil (stack : List BlockKind) :
    readBack stack [] = if stack = [] then some [] else none := by
  cases stack <;> rfl

theorem readBack_cons (stack : List BlockKind) (line : String) (rest : List String) :
    readBack stack (line :: rest)
      = if line = "" then readBack stack rest
        else if closesBlock stack line then
          (readBack stack.tail rest).map (fun ds => Declaration.close :: ds)
        else
          match stripTabs stack.length line.data with
          | none => none
          | some content =>
            if content = [] then none
            else if content.getLast? = some '\x7b' then
              match headerOf content with
              | none => none
              | some (kind, name) =>
                (readBack (kind :: stack) rest).map (fun ds => kind.header name :: ds)
            else
              (readBack stack rest).map
                (fun ds => statementOf stack.head? (String.mk content) :: ds) := by
  cases stack <;> rfl

theorem stripTabs_tabs (depth : Nat) (cs : List Char) :
    stripTabs depth (tabs depth ++ cs) = some cs := by
  induction depth with
  | zero => rfl
  | succ d ih =>
    show stripTabs (d + 1) ('\t' :: (tabs d ++ cs)) = some cs
    simp only [stripTabs, if_true, ih]

theorem tabs_succ (depth : Nat) : tabs (depth + 1) = tabs depth ++ ['\t'] := by
  unfold tabs
  rw [List.replicate_succ']

/-- A line with one tab per open block and a content that is not empty does not close the
innermost block. -/
theorem closesBlock_indented (stack : List BlockKind) (content : List Char)
    (hne : content ≠ []) :
    closesBlock stack (String.mk (tabs stack.length ++ content)) = false := by
  cases stack with
  | nil => rfl
  | cons k below =>
    simp only [closesBlock, decide_eq_false_iff_not, List.length_cons]
    intro h
    rw [tabs_succ, List.append_assoc] at h
    have h2 := List.append_cancel_left h
    cases content with
    | nil => exact hne rfl
    | cons c cs =>
      simp only [List.singleton_append, List.cons.injEq] at h2
      exact absurd h2.1 (by decide)

end ParseProto

namespace ParseProto

theorem mk_tabs_append (depth : Nat) (content : String) :
    String.mk (tabs depth) ++ content = String.mk (tabs depth ++ content.data) := by
  apply String.ext
  rw [String.data_append]

theorem string_ne_empty_of_data (s : String) (h : s.data ≠ []) : s ≠ "" := by
  intro hs
  rw [hs] at h
  exact h rfl

/-- An empty line is skipped. -/
theorem readBack_blank (stack : List BlockKind) (rest : List String) :
    readBack stack ("" :: rest) = readBack stack rest := by
  rw [readBack_cons, if_pos rfl]

/-- A statement at the depth of the open blocks. -/
theorem readBack_statement (stack : List BlockKind) (content : String) (rest : List String)
    (hne : content.data ≠ []) (hlast : content.data.getLast? ≠ some '\x7b') :
    readBack stack ((String.mk (tabs stack.length) ++ content) :: rest)
      = (readBack stack rest).map (fun ds => statementOf stack.head? content :: ds) := by
  rw [mk_tabs_append, readBack_cons]
  have h1 : String.mk (tabs stack.length ++ content.data) ≠ "" :=
    string_ne_empty_of_data _ (by simp [hne])
  rw [if_neg h1, closesBlock_indented stack content.data hne]
  simp only [Bool.false_eq_true, if_false, stripTabs_tabs, if_neg hne, if_neg hlast]

theorem betweenAffixes_header (keyword name : String) :
    betweenAffixes keyword ((keyword ++ name ++ " \x7b").data) = some name := by
  unfold betweenAffixes
  have hd : (keyword ++ name ++ " \x7b").data = keyword.data ++ (name.data ++ " \x7b".data) := by
    rw [String.data_append, String.data_append, List.append_assoc]
  rw [hd]
  have h1 : keyword.data.isPrefixOf (keyword.data ++ (name.data ++ " \x7b".data)) = true := by
    rw [ List.isPrefixOf_iff_prefix]
    exact List.prefix_append _ _
  have h2 : (keyword.data ++ (name.data ++ " \x7b".data)).drop keyword.data.length
      = name.data ++ " \x7b".data := List.drop_left _ _
  have h3 : " \x7b".data.isSuffixOf (name.data ++ " \x7b".data) = true := by
    rw [List.isSuffixOf_iff_suffix]
    exact List.suffix_append _ _
  have h4 : (name.data ++ " \x7b".data).take ((name.data ++ " \x7b".data).length - 2)
      = name.data := by
    have hl : " \x7b".data.length = 2 := rfl
    rw [List.length_append, hl, Nat.add_sub_cancel, List.take_left]
  rw [if_pos h1, h2, if_pos h3, h4]

theorem betweenAffixes_other (keyword : String) (content : List Char)
    (h : keyword.data.isPrefixOf content = false) : betweenAffixes keyword content = none := by
  unfold betweenAffixes
  rw [h]
  rfl

/-- The text of a header line. -/
theorem headerOf_message (name : String) :
    headerOf (("message " ++ name ++ " \x7b").data) = some (.message, name) := by
  unfold headerOf
  rw [betweenAffixes_header]

theorem headerOf_enum (name : String) :
    headerOf (("enum " ++ name ++ " \x7b").data) = some (.enum, name) := by
  unfold headerOf
  rw [betweenAffixes_other "message " _ (by
    rw [String.data_append, String.data_append]; rfl)]
  simp only
  rw [betweenAffixes_header]

theorem headerOf_oneof (name : String) :
    headerOf (("oneof " ++ name ++ " \x7b").data) = some (.oneof, name) := by
  unfold headerOf
  rw [betweenAffixes_other "message " _ (by
    rw [String.data_append, String.data_append]; rfl)]
  simp only
  rw [betweenAffixes_other "enum " _ (by
    rw [String.data_append, String.data_append]; rfl)]
  simp only
  rw [betweenAffixes_header]

/-- The keyword of a kind of block, with the blank after it. -/
theorem headerOf_kind (kind : BlockKind) (name : String) :
    headerOf (((match kind with
      | .message => "message "
      | .enum => "enum "
      | .oneof => "oneof ") ++ name ++ " \x7b").data) = some (kind, name) := by
  cases kind
  · exact headerOf_message name
  · exact headerOf_enum name
  · exact headerOf_oneof name

theorem getLast?_append_brace (s : String) :
    (s ++ " \x7b").data.getLast? = some '\x7b' := by
  rw [String.data_append]
  have : " \x7b".data = [' ', '\x7b'] := rfl
  rw [this]
  simp [List.getLast?_append]

/-- A header at the depth of the open blocks opens a block of its kind. -/
theorem readBack_header (stack : List BlockKind) (content : String) (kind : BlockKind)
    (name : String) (rest : List String)
    (hlast : content.data.getLast? = some '\x7b')
    (hhead : headerOf content.data = some (kind, name)) :
    readBack stack ((String.mk (tabs stack.length) ++ content) :: rest)
      = (readBack (kind :: stack) rest).map (fun ds => kind.header name :: ds) := by
  have hne : content.data ≠ [] := by
    intro h
    rw [h] at hlast
    simp at hlast
  rw [mk_tabs_append, readBack_cons]
  have h1 : String.mk (tabs stack.length ++ content.data) ≠ "" :=
    string_ne_empty_of_data _ (by simp [hne])
  rw [if_neg h1, closesBlock_indented stack content.data hne]
  simp only [Bool.false_eq_true, if_false, stripTabs_tabs, if_neg hne, if_pos hlast, hhead]

/-- The closing brace at the depth of the header closes the innermost block. -/
theorem readBack_close (kind : BlockKind) (stack : List BlockKind) (rest : List String) :
    readBack (kind :: stack) ((String.mk (tabs stack.length) ++ "\x7d") :: rest)
      = (readBack stack rest).map (fun ds => Declaration.close :: ds) := by
  rw [mk_tabs_append, readBack_cons]
  have h1 : String.mk (tabs stack.length ++ "\x7d".data) ≠ "" :=
    string_ne_empty_of_data _ (by
      have : "\x7d".data = ['\x7d'] := rfl
      simp [this])
  have h2 : closesBlock (kind :: stack) (String.mk (tabs stack.length ++ "\x7d".data)) = true := by
    simp only [closesBlock, decide_eq_true_eq]
  rw [if_neg h1, h2]
  rfl

/-! ### The calculus of `ReadsAs` -/

theorem indentTo_append (depth : Nat) (a b : List String) :
    indentTo depth (a ++ b) = indentTo depth a ++ indentTo depth b := by
  unfold indentTo
  rw [List.map_append]

theorem indentTo_indent (depth : Nat) (lines : List String) :
    indentTo depth (indent lines) = indentTo (depth + 1) lines := by
  unfold indentTo indent
  rw [List.map_map]
  apply List.map_congr_left
  intro line _
  by_cases h : line = ""
  · simp [h]
  · have h2 : "\t" ++ line ≠ "" := by
      apply string_ne_empty_of_data
      rw [String.data_append]
      have : "\t".data = ['\t'] := rfl
      simp [this]
    simp only [Function.comp, ne_eq, h, not_false_eq_true, if_true, h2]
    apply String.ext
    simp only [String.data_append, tabs_succ]
    rw [List.append_assoc]

theorem ReadsAs.nil (context : Option BlockKind) : ReadsAs context [] [] := by
  intro stack _ rest
  show readBack stack rest = (readBack stack rest).map (fun x => [] ++ x)
  cases readBack stack rest <;> rfl

theorem ReadsAs.append {context : Option BlockKind} {a b : List String}
    {da db : List Declaration} (ha : ReadsAs context a da) (hb : ReadsAs context b db) :
    ReadsAs context (a ++ b) (da ++ db) := by
  intro stack hctx rest
  rw [indentTo_append, List.append_assoc, ha stack hctx, hb stack hctx]
  cases readBack stack rest with
  | none => rfl
  | some ds => simp

theorem ReadsAs.blank (context : Option BlockKind) : ReadsAs context [""] [] := by
  intro stack _ rest
  show readBack stack ("" :: rest) = _
  rw [readBack_blank]
  cases readBack stack rest <;> rfl

/-- A statement: a line that ends with a semicolon. -/
theorem ReadsAs.statement (context : Option BlockKind) (content : String)
    (hlast : content.data.getLast? = some ';') :
    ReadsAs context [content] [statementOf context content] := by
  intro stack hctx rest
  have hne : content.data ≠ [] := by
    intro h
    rw [h] at hlast
    simp at hlast
  have hs : content ≠ "" := string_ne_empty_of_data _ hne
  have h1 : indentTo stack.length [content] = [String.mk (tabs stack.length) ++ content] := by
    simp [indentTo, hs]
  rw [h1]
  show readBack stack ((String.mk (tabs stack.length) ++ content) :: rest) = _
  rw [readBack_statement stack content rest hne (by rw [hlast]; decide), hctx]
  cases readBack stack rest <;> rfl

theorem ReadsAs.statements (context : Option BlockKind) (lines : List String)
    (hlast : ∀ line, line ∈ lines → line.data.getLast? = some ';') :
    ReadsAs context lines (lines.map (statementOf context)) := by
  induction lines with
  | nil => exact ReadsAs.nil context
  | cons line rest ih =>
    exact ReadsAs.append (a := [line]) (b := rest)
      (ReadsAs.statement context line (hlast line (List.mem_cons_self _ _)))
      (ih (fun l hl => hlast l (List.mem_cons_of_mem _ hl)))

/-- A block: the header, the indented lines of the body, and the closing brace. -/
theorem ReadsAs.block (context : Option BlockKind) (kind : BlockKind) (name : String)
    (header : String) (body : List String) (ds : List Declaration)
    (hlast : header.data.getLast? = some '\x7b')
    (hhead : headerOf header.data = some (kind, name))
    (hbody : ReadsAs (some kind) body ds) :
    ReadsAs context ([header] ++ indent body ++ ["\x7d"])
      ([kind.header name] ++ ds ++ [.close]) := by
  intro stack _ rest
  have hne : header ≠ "" := by
    apply string_ne_empty_of_data
    intro h
    rw [h] at hlast
    simp at hlast
  have h1 : indentTo stack.length ([header] ++ indent body ++ ["\x7d"])
      = [String.mk (tabs stack.length) ++ header] ++ indentTo (stack.length + 1) body
        ++ [String.mk (tabs stack.length) ++ "\x7d"] := by
    rw [indentTo_append, indentTo_append, indentTo_indent]
    have hb : ("\x7d" : String) ≠ "" := by decide
    simp [indentTo, hne, hb]
  rw [h1]
  simp only [List.singleton_append, List.cons_append, List.append_assoc, List.nil_append]
  rw [readBack_header stack header kind name _ hlast hhead]
  have h2 := hbody (kind :: stack) rfl ((String.mk (tabs stack.length) ++ "\x7d") :: rest)
  simp only [List.length_cons] at h2
  rw [h2, readBack_close]
  cases readBack stack rest with
  | none => rfl
  | some d => simp

end ParseProto

namespace ParseProto

theorem getLast?_append_semicolon (s : String) : (s ++ ";").data.getLast? = some ';' := by
  rw [String.data_append]
  have : ";".data = [';'] := rfl
  rw [this]
  simp [List.getLast?_append]

/-- Lines that are read as nothing when nothing is read from no line. -/
theorem ReadsAs.eq_nil {context : Option BlockKind} {ds : List Declaration}
    (h : ReadsAs context [] ds) : ds = [] := by
  cases context with
  | none =>
    have h1 := h [] rfl []
    have h2 : readBack [] [] = some [] := rfl
    simp only [indentTo, List.map_nil, List.nil_append, h2, Option.map_some',
      Option.some.injEq, List.append_nil] at h1
    exact h1.symm
  | some kind =>
    have h1 := h [kind] rfl ["\x7d"]
    have h2 : readBack [kind] ["\x7d"] = some [Declaration.close] := by
      have := readBack_close kind [] []
      simpa [tabs, readBack_nil] using this
    simp only [indentTo, List.map_nil, List.nil_append, h2, Option.map_some',
      Option.some.injEq] at h1
    have h3 : ([Declaration.close] : List Declaration) = ds ++ [Declaration.close] := h1
    exact (List.self_eq_append_left.mp h3)

/-- Blocks separated by blank lines are read as the declarations of the blocks. -/
theorem ReadsAs.separated (context : Option BlockKind) (items : List (List String))
    (dss : List (List Declaration))
    (h : List.Forall₂ (fun lines ds => ReadsAs context lines ds) items dss) :
    ReadsAs context ((items.filter (fun b => decide (b ≠ []))).flatMap (fun b => "" :: b))
      dss.flatten := by
  induction h with
  | nil => exact ReadsAs.nil context
  | @cons lines ds items2 dss2 hhead _ ih =>
    by_cases hl : lines = []
    · subst hl
      have hds := ReadsAs.eq_nil hhead
      subst hds
      simpa using ih
    · have hf : (lines :: items2).filter (fun b => decide (b ≠ []))
          = lines :: items2.filter (fun b => decide (b ≠ [])) := by
        simp [hl]
      rw [hf, List.flatMap_cons, List.flatten_cons]
      have h1 : ReadsAs context ("" :: lines) ds := by
        have := ReadsAs.append (ReadsAs.blank context) hhead
        simpa using this
      exact ReadsAs.append h1 ih

theorem ReadsAs.flatten (context : Option BlockKind) (items : List (List String))
    (dss : List (List Declaration))
    (h : List.Forall₂ (fun lines ds => ReadsAs context lines ds) items dss) :
    ReadsAs context (flattenWithBlankLines items) dss.flatten := by
  rw [flattenWithBlankLines_eq]
  induction h with
  | nil => exact ReadsAs.nil context
  | @cons lines ds items2 dss2 hhead htail ih =>
    by_cases hl : lines = []
    · subst hl
      have hds := ReadsAs.eq_nil hhead
      subst hds
      simpa using ih
    · have hf : (lines :: items2).filter (fun b => decide (b ≠ []))
          = lines :: items2.filter (fun b => decide (b ≠ [])) := by
        simp [hl]
      rw [hf, List.flatten_cons]
      exact ReadsAs.append hhead (ReadsAs.separated context items2 dss2 htail)

theorem mapThrowing_mem {α β : Type} (f : α → Option β) (xs : List α) (ys : List β)
    (h : JS.mapThrowing f xs = some ys) : ∀ y, y ∈ ys → ∃ x, x ∈ xs ∧ f x = some y := by
  induction xs generalizing ys with
  | nil =>
    simp only [JS.mapThrowing, Option.some.injEq] at h
    intro y hy
    rw [← h] at hy
    simp at hy
  | cons a rest ih =>
    simp only [JS.mapThrowing] at h
    split at h
    · exact absurd h (by simp)
    · rename_i b hb
      split at h
      · exact absurd h (by simp)
      · rename_i bs hbs
        simp only [Option.some.injEq] at h
        intro y hy
        rw [← h] at hy
        rcases List.mem_cons.mp hy with hy | hy
        · exact ⟨a, List.mem_cons_self _ _, by rw [hy]; exact hb⟩
        · obtain ⟨x, hx, hfx⟩ := ih bs hbs y hy
          exact ⟨x, List.mem_cons_of_mem _ hx, hfx⟩

theorem fieldLine_last (label : Option String) (typeName name : String) (index : Int)
    (packed : Bool) :
    (fieldLine label typeName name index packed).data.getLast? = some ';' := by
  unfold fieldLine
  exact getLast?_append_semicolon _

/-- Every field line ends with a semicolon. -/
theorem protoifyFields_last (c : WAProtoConst) (proto3 : Bool)
    (fields : JS.Obj (Option SpecValue)) (module : String) (path : List String)
    (isOneOf : Bool) (lines : List String)
    (h : protoifyFields (renderer c proto3) fields module path isOneOf = some lines) :
    ∀ line, line ∈ lines → line.data.getLast? = some ';' := by
  intro line hline
  obtain ⟨entry, _, hentry⟩ := mapThrowing_mem _ _ _ h line hline
  unfold protoifyEntry at hentry
  split at hentry
  · rename_i definition _
    have h2 : protoifyField c proto3 entry.1 definition module path isOneOf = some line :=
      hentry
    rw [protoifyField_eq_fieldLine] at h2
    cases hty : fieldTypeName c.TYPES (some (JS.bitAnd definition.flags c.TYPE_MASK))
        definition.typeRef module path with
    | none => rw [hty] at h2; exact absurd h2 (by simp)
    | some typeName =>
      rw [hty] at h2
      simp only [Option.map_some', Option.some.injEq] at h2
      rw [← h2]
      exact fieldLine_last _ _ _ _ _
  · exact absurd hentry (by simp)

theorem enumValueLines_last (enumDef : EnumDef) :
    ∀ line, line ∈ enumValueLines enumDef → line.data.getLast? = some ';' := by
  intro line hline
  unfold enumValueLines at hline
  obtain ⟨e, _, he⟩ := List.mem_filterMap.mp hline
  split at he
  · exact absurd he (by simp)
  · simp only [Option.some.injEq] at he
    rw [← he]
    exact getLast?_append_semicolon _

/-- The declarations an enum block is read as: the name is the one the header prints. -/
theorem protoifyEnum_readsAs (context : Option BlockKind) (enumDef : EnumDef) :
    ReadsAs context (protoifyEnum enumDef).1
      ([.enum (enumDeclaredName enumDef)]
        ++ (enumValueLines (remapMinusOne enumDef)).map .value ++ [.close]) := by
  have hbody : ReadsAs (some .enum) (enumValueLines (remapMinusOne enumDef))
      ((enumValueLines (remapMinusOne enumDef)).map .value) :=
    ReadsAs.statements (some .enum) _ (enumValueLines_last _)
  have hheader : enumHeader (remapMinusOne enumDef)
      = "enum " ++ enumDeclaredName enumDef ++ " \x7b" := rfl
  have := ReadsAs.block context .enum (enumDeclaredName enumDef)
    (enumHeader (remapMinusOne enumDef)) _ _
    (by rw [hheader]; exact getLast?_append_brace _)
    (by rw [hheader]; exact headerOf_enum _) hbody
  exact this

theorem protoifyEnums_readsAs (c : WAProtoConst) (proto3 : Bool) (enums : JS.Obj EnumDef) :
    ∀ (blocks : List (List String)) (enums2 : JS.Obj EnumDef),
      protoifyEnums (renderer c proto3) enums = some (blocks, enums2) →
      List.Forall₂ (fun lines ds => ∀ context, ReadsAs context lines ds) blocks
        (enums.map (fun e => [Declaration.enum (enumDeclaredName e.2)]
          ++ (enumValueLines (remapMinusOne e.2)).map .value ++ [.close])) := by
  induction enums with
  | nil =>
    intro blocks enums2 h
    simp only [protoifyEnums, Option.some.injEq, Prod.mk.injEq] at h
    rw [← h.1]
    exact List.Forall₂.nil
  | cons e rest ih =>
    obtain ⟨key, enumDef⟩ := e
    intro blocks enums2 h
    simp only [protoifyEnums] at h
    split at h
    · exact absurd h (by simp)
    · rename_i lines e2 he
      split at h
      · exact absurd h (by simp)
      · rename_i bl rest2 hrest
        simp only [Option.some.injEq, Prod.mk.injEq] at h
        rw [← h.1]
        have hl : lines = (protoifyEnum enumDef).1 := by
          simp only [renderer, Option.some.injEq] at he
          rw [he]
        rw [hl]
        exact List.Forall₂.cons (fun context => protoifyEnum_readsAs context enumDef)
          (ih bl rest2 hrest)

end ParseProto

namespace ParseProto

theorem statements_field (lines : List String) :
    lines.map (statementOf (some .oneof)) = lines.map Declaration.field
    ∧ lines.map (statementOf (some .message)) = lines.map Declaration.field :=
  ⟨List.map_congr_left (fun _ _ => rfl), List.map_congr_left (fun _ _ => rfl)⟩

/-- The declarations a oneof section is read as. -/
theorem oneofSection_readsAs (c : WAProtoConst) (proto3 : Bool) (module : String)
    (path : List String) (fields : JS.Obj (Option SpecValue)) (name : String)
    (lines : List String)
    (h : protoifyFields (renderer c proto3) fields module path true = some lines)
    (context : Option BlockKind) :
    ReadsAs context (["oneof " ++ name ++ " \x7b"] ++ indent lines ++ ["\x7d"])
      ([.oneof name] ++ lines.map .field ++ [.close]) := by
  have hbody : ReadsAs (some .oneof) lines (lines.map .field) := by
    have := ReadsAs.statements (some .oneof) lines (protoifyFields_last c proto3 _ _ _ _ _ h)
    rw [(statements_field lines).1] at this
    exact this
  exact ReadsAs.block context .oneof name ("oneof " ++ name ++ " \x7b") lines _
    (getLast?_append_brace _) (headerOf_oneof name) hbody

/-- The oneof sections are read as the declarations of the groups. -/
theorem oneofSections_readsAs (c : WAProtoConst) (proto3 : Bool) (module : String)
    (path : List String) (groups : List (String × List String)) :
    ∀ (spec : Spec) (sections : List (List String)) (spec2 : Spec),
      oneofSections (renderer c proto3) module path spec groups = some (sections, spec2) →
      ∃ dss, List.Forall₂ (fun lines ds => ∀ context, ReadsAs context lines ds) sections dss
        ∧ ∀ (original : Spec),
            (∀ g, g ∈ groups → ∀ n, n ∈ g.2 → JS.objGet spec n = JS.objGet original n) →
            (groups.flatMap (fun g => g.2)).Nodup →
            JS.mapThrowing (declaredGroup c proto3 module path original) groups = some dss := by
  induction groups with
  | nil =>
    intro spec sections spec2 h
    simp only [oneofSections, Option.some.injEq, Prod.mk.injEq] at h
    rw [← h.1]
    exact ⟨[], List.Forall₂.nil, fun _ _ _ => rfl⟩
  | cons g rest ih =>
    obtain ⟨name, fieldNames⟩ := g
    intro spec sections spec2 h
    simp only [oneofSections] at h
    split at h
    · exact absurd h (by simp)
    · rename_i lines hlines
      split at h
      · exact absurd h (by simp)
      · rename_i secs spec3 hrest
        simp only [Option.some.injEq, Prod.mk.injEq] at h
        obtain ⟨dss, hforall, hdeclared⟩ := ih _ _ _ hrest
        refine ⟨([.oneof name] ++ lines.map .field ++ [.close]) :: dss, ?_, ?_⟩
        · rw [← h.1]
          exact List.Forall₂.cons
            (fun context => oneofSection_readsAs c proto3 module path _ name lines hlines context)
            hforall
        · intro original hagree hd
          simp only [List.flatMap_cons] at hd
          obtain ⟨hd1, hd2, hdisj⟩ := List.nodup_append.mp hd
          have htaken : (takeFields spec fieldNames).1
              = fieldNames.map (fun n => (n, JS.objGet original n)) := by
            rw [takeFields_fst spec fieldNames hd1]
            apply List.map_congr_left
            intro n hn
            rw [hagree (name, fieldNames) (List.mem_cons_self _ _) n hn]
          rw [htaken] at hlines
          have hfirst : declaredGroup c proto3 module path original (name, fieldNames)
              = some ([.oneof name] ++ lines.map .field ++ [.close]) := by
            simp only [declaredGroup, declaredFields, hlines, Option.map_some']
          have hothers := hdeclared original (by
            intro g hg n hn
            rw [takeFields_snd]
            have hnot : n ∉ fieldNames := fun hmem =>
              hdisj hmem (List.mem_flatMap.mpr ⟨g, hg, hn⟩)
            rw [JS.objGet_filter_of_kept spec (fun k => decide (k ∉ fieldNames)) n
              (by simp [hnot])]
            exact hagree g (List.mem_cons_of_mem _ hg) n hn) hd2
          simp only [JS.mapThrowing, hfirst, hothers]

theorem groupedNames_of_groups (spec : Spec) (groups : List (String × List String))
    (hg : oneofGroups spec = some groups) :
    groupedNames spec = groups.flatMap (fun g => g.2) := by
  unfold oneofGroups at hg
  unfold groupedNames
  split at hg
  · rename_i hnone
    simp only [Option.some.injEq] at hg
    simp [hnone, ← hg]
  · rename_i g2 hsome
    simp only [Option.some.injEq] at hg
    simp [hsome, hg]
  · exact absurd hg (by simp)

/-- The sections after the children are read as the declarations of the groups and of the
fields no group names. -/
theorem fieldSections_readsAs (c : WAProtoConst) (proto3 : Bool) (module : String)
    (path : List String) (spec : Spec) (sections : List (List String)) (spec2 : Spec)
    (h : fieldSections (renderer c proto3) module path spec = some (sections, spec2)) :
    ∃ dss, List.Forall₂ (fun lines ds => ReadsAs (some .message) lines ds) sections dss
      ∧ ((groupedNames spec).Nodup →
          ∃ groups groupBlocks flat,
            oneofGroups spec = some groups
            ∧ JS.mapThrowing (declaredGroup c proto3 module path spec) groups = some groupBlocks
            ∧ declaredFields c proto3 module path false
                ((specAfter spec).map (fun e => (e.1, some e.2))) = some flat
            ∧ dss.flatten = groupBlocks.flatten ++ flat) := by
  have hsnd := fieldSections_snd _ _ _ _ _ _ h
  unfold fieldSections at h
  split at h
  · exact absurd h (by simp)
  · rename_i groups hg
    split at h
    · exact absurd h (by simp)
    · rename_i secs s3 hsecs
      simp only [] at h
      split at h
      · exact absurd h (by simp)
      · rename_i lines hlines
        simp only [Option.some.injEq, Prod.mk.injEq] at h
        obtain ⟨dss, hforall, hdeclared⟩ := oneofSections_readsAs c proto3 module path groups
          _ _ _ hsecs
        have hflat : ReadsAs (some .message) lines (lines.map .field) := by
          have := ReadsAs.statements (some .message) lines
            (protoifyFields_last c proto3 _ _ _ _ _ hlines)
          rw [(statements_field lines).2] at this
          exact this
        refine ⟨dss ++ [lines.map .field], ?_, ?_⟩
        · rw [← h.1]
          apply List.rel_append (List.Forall₂.imp (fun _ _ hx => hx (some .message)) hforall)
          exact List.Forall₂.cons hflat List.Forall₂.nil
        · intro hd
          rw [groupedNames_of_groups spec groups hg] at hd
          refine ⟨groups, dss, lines.map .field, hg, hdeclared spec (fun _ _ _ _ => rfl) hd,
            ?_, by simp⟩
          rw [h.2, hsnd] at hlines
          simp only [declaredFields, hlines, Option.map_some']

end ParseProto

namespace ParseProto

theorem declaredEnum_of_stable (enumDef : EnumDef)
    (h : JS.objGet (remapMinusOne enumDef) "__name__" = JS.objGet enumDef "__name__") :
    [Declaration.enum (enumDeclaredName enumDef)]
        ++ (enumValueLines (remapMinusOne enumDef)).map .value ++ [.close]
      = declaredEnum enumDef := by
  unfold declaredEnum enumDeclaredName
  rw [h]

theorem declaredEnums_of_stable (enums : JS.Obj EnumDef)
    (h : enums.all (fun e =>
      decide (JS.objGet (remapMinusOne e.2) "__name__" = JS.objGet e.2 "__name__")) = true) :
    (enums.map (fun e => [Declaration.enum (enumDeclaredName e.2)]
        ++ (enumValueLines (remapMinusOne e.2)).map .value ++ [.close])).flatten
      = enums.flatMap (fun e => declaredEnum e.2) := by
  rw [List.flatMap_def]
  congr 1
  apply List.map_congr_left
  intro e he
  have := List.all_eq_true.mp h e he
  simp only [decide_eq_true_eq] at this
  exact declaredEnum_of_stable e.2 this

theorem regular_mk (messages : List (String × Message)) (enums : JS.Obj EnumDef)
    (module : String) (path : List String) (name : String) (message : Option Spec) :
    (Message.mk messages enums module path name message).regular
      = ((match message with
          | some spec => decide (groupedNames spec).Nodup
          | none => true)
        && enums.all (fun e =>
            decide (JS.objGet (remapMinusOne e.2) "__name__" = JS.objGet e.2 "__name__"))
        && regularChildren messages) := by
  rfl

theorem regularChildren_cons (key : String) (msg : Message) (rest : List (String × Message)) :
    regularChildren ((key, msg) :: rest) = (msg.regular && regularChildren rest) := by
  rw [regularChildren]

theorem declaredMessages_cons (c : WAProtoConst) (proto3 : Bool) (key : String)
    (msg : Message) (rest : List (String × Message)) :
    declaredMessages c proto3 ((key, msg) :: rest)
      = match declaredMessage c proto3 msg, declaredMessages c proto3 rest with
        | some first, some others => some (first ++ others)
        | _, _ => none := by
  rw [declaredMessages]

theorem declaredMessage_mk (c : WAProtoConst) (proto3 : Bool)
    (messages : List (String × Message)) (enums : JS.Obj EnumDef)
    (module : String) (path : List String) (name : String) (spec : Spec)
    (groups : List (String × List String)) (children : List Declaration)
    (groupBlocks : List (List Declaration)) (flat : List Declaration)
    (hg : oneofGroups spec = some groups)
    (hc : declaredMessages c proto3 messages = some children)
    (hb : JS.mapThrowing (declaredGroup c proto3 module (path ++ [name]) spec) groups
      = some groupBlocks)
    (hf : declaredFields c proto3 module (path ++ [name]) false
      ((specAfter spec).map (fun e => (e.1, some e.2))) = some flat) :
    declaredMessage c proto3 (.mk messages enums module path name (some spec))
      = some ([.message name] ++ enums.flatMap (fun e => declaredEnum e.2) ++ children
          ++ groupBlocks.flatten ++ flat ++ [.close]) := by
  rw [declaredMessage]
  simp only [hg, hc, hb, hf]

mutual
/-- The lines of a message are read back as a block; for a regular tree they are read as
the declarations of the tree. -/
theorem protoifyMessage_readsAs (c : WAProtoConst) (proto3 : Bool) :
    ∀ (msg : Message) (lines : List String) (msg2 : Message),
      protoifyMessageWith (renderer c proto3) msg = some (lines, msg2) →
      ∃ ds, (∀ context, ReadsAs context lines ds)
        ∧ (msg.regular = true → declaredMessage c proto3 msg = some ds)
  | .mk messages enums module path name message, lines, msg2, h => by
    simp only [protoifyMessageWith] at h
    split at h
    · exact absurd h (by simp)
    · rename_i eb enums2 he
      split at h
      · exact absurd h (by simp)
      · rename_i mb messages2 hm
        split at h
        · exact absurd h (by simp)
        · rename_i spec
          split at h
          · exact absurd h (by simp)
          · rename_i secs spec2 hs
            simp only [Option.some.injEq, Prod.mk.injEq] at h
            have henums := protoifyEnums_readsAs c proto3 enums eb enums2 he
            obtain ⟨msgDss, hmsgs, hmsgsDeclared⟩ :=
              protoifyMessages_readsAs c proto3 messages mb messages2 hm
            obtain ⟨secDss, hsecs, hsecsDeclared⟩ :=
              fieldSections_readsAs c proto3 module (path ++ [name]) spec secs spec2 hs
            have hchildren : ReadsAs (some .message) (flattenWithBlankLines (eb ++ mb))
                ((enums.map (fun (e : String × EnumDef) =>
                  [Declaration.enum (enumDeclaredName e.2)]
                  ++ (enumValueLines (remapMinusOne e.2)).map Declaration.value
                  ++ [Declaration.close])
                  ++ msgDss).flatten) := by
              apply ReadsAs.flatten
              exact List.rel_append
                (List.Forall₂.imp (fun _ _ hx => hx (some .message)) henums)
                (List.Forall₂.imp (fun _ _ hx => hx (some .message)) hmsgs)
            have hbody := ReadsAs.flatten (some .message)
              (flattenWithBlankLines (eb ++ mb) :: secs) (_ :: secDss)
              (List.Forall₂.cons hchildren hsecs)
            refine ⟨[.message name] ++ (((enums.map (fun (e : String × EnumDef) =>
                [Declaration.enum (enumDeclaredName e.2)]
                  ++ (enumValueLines (remapMinusOne e.2)).map Declaration.value
                  ++ [Declaration.close])
                ++ msgDss).flatten) :: secDss).flatten ++ [.close], ?_, ?_⟩
            · intro context
              rw [← h.1]
              exact ReadsAs.block context .message name ("message " ++ name ++ " \x7b") _ _
                (getLast?_append_brace _) (headerOf_message name) hbody
            · intro hreg
              rw [regular_mk] at hreg
              simp only [Bool.and_eq_true, decide_eq_true_eq] at hreg
              obtain ⟨⟨hnodup, hstable⟩, hchildrenReg⟩ := hreg
              obtain ⟨groups, groupBlocks, flat, hg, hb, hf, hflatten⟩ := hsecsDeclared hnodup
              rw [declaredMessage_mk c proto3 messages enums module path name spec groups
                msgDss.flatten groupBlocks flat hg (hmsgsDeclared hchildrenReg) hb hf]
              simp only [List.flatten_cons, List.flatten_append, hflatten,
                declaredEnums_of_stable enums hstable]
              simp only [List.append_assoc]
theorem protoifyMessages_readsAs (c : WAProtoConst) (proto3 : Bool) :
    ∀ (messages : List (String × Message)) (blocks : List (List String))
      (messages2 : List (String × Message)),
      protoifyMessagesWith (renderer c proto3) messages = some (blocks, messages2) →
      ∃ dss, List.Forall₂ (fun lines ds => ∀ context, ReadsAs context lines ds) blocks dss
        ∧ (regularChildren messages = true →
            declaredMessages c proto3 messages = some dss.flatten)
  | [], blocks, messages2, h => by
    simp only [protoifyMessagesWith, Option.some.injEq, Prod.mk.injEq] at h
    rw [← h.1]
    exact ⟨[], List.Forall₂.nil, fun _ => by rw [declaredMessages]; rfl⟩
  | (key, msg) :: rest, blocks, messages2, h => by
    simp only [protoifyMessagesWith] at h
    split at h
    · exact absurd h (by simp)
    · rename_i lines m2 hm
      split at h
      · exact absurd h (by simp)
      · rename_i bl rest2 hrest
        simp only [Option.some.injEq, Prod.mk.injEq] at h
        obtain ⟨ds, hds, hdeclared⟩ := protoifyMessage_readsAs c proto3 msg lines m2 hm
        obtain ⟨dss, hdss, hdeclaredRest⟩ :=
          protoifyMessages_readsAs c proto3 rest bl rest2 hrest
        refine ⟨ds :: dss, ?_, ?_⟩
        · rw [← h.1]
          exact List.Forall₂.cons hds hdss
        · intro hreg
          rw [regularChildren_cons] at hreg
          simp only [Bool.and_eq_true] at hreg
          rw [declaredMessages_cons, hdeclared hreg.1, hdeclaredRest hreg.2]
          rfl
end

end ParseProto

namespace ParseProto

theorem indentTo_zero (lines : List String) : indentTo 0 lines = lines := by
  unfold indentTo
  conv_rhs => rw [← List.map_id lines]
  apply List.map_congr_left
  intro line _
  by_cases h : line = ""
  · simp [h]
  · simp only [ne_eq, h, not_false_eq_true, if_true, id]
    apply String.ext
    rw [String.data_append]
    rfl

/-- Lines that are read as declarations where no block is open are read back as these
declarations. -/
theorem readBack_of_readsAs (lines : List String) (ds : List Declaration)
    (h : ReadsAs none lines ds) : readBack [] lines = some ds := by
  have h1 := h [] rfl []
  have h2 : readBack [] [] = some [] := rfl
  rw [List.length_nil, indentTo_zero, List.append_nil, h2] at h1
  simpa using h1

/-- Lines each of which is empty or ends with a semicolon are read as statements. -/
theorem ReadsAs.directives (context : Option BlockKind) (lines : List String)
    (h : ∀ line, line ∈ lines → line = "" ∨ line.data.getLast? = some ';') :
    ∃ ds, ReadsAs context lines ds := by
  induction lines with
  | nil => exact ⟨[], ReadsAs.nil context⟩
  | cons line rest ih =>
    obtain ⟨ds, hds⟩ := ih (fun l hl => h l (List.mem_cons_of_mem _ hl))
    rcases h line (List.mem_cons_self _ _) with hl | hl
    · subst hl
      exact ⟨[] ++ ds, ReadsAs.append (a := [""]) (ReadsAs.blank context) hds⟩
    · exact ⟨[statementOf context line] ++ ds,
        ReadsAs.append (a := [line]) (ReadsAs.statement context line hl) hds⟩

theorem last_of_append (s t : String) (c : Char) (h : t.data.getLast? = some c) :
    (s ++ t).data.getLast? = some c := by
  rw [String.data_append, List.getLast?_append, h]
  rfl

theorem moduleHeader_lines (module : ProtoFile) :
    ∀ line, line ∈ moduleHeader module → line = "" ∨ line.data.getLast? = some ';' := by
  intro line hline
  unfold moduleHeader importLines at hline
  simp only [List.mem_append, List.mem_cons, List.mem_singleton, List.not_mem_nil,
    or_false] at hline
  rcases hline with (h | h | h | h) | h
  · right
    rw [h]
    split <;> decide
  · right
    rw [h]
    exact getLast?_append_semicolon _
  · right
    rw [h]
    exact last_of_append _ _ ';' rfl
  · left; exact h
  · split at h
    · simp only [List.mem_append, List.mem_map, List.mem_singleton] at h
      rcases h with ⟨d, _, hd⟩ | h
      · right
        rw [← hd]
        exact last_of_append _ _ ';' rfl
      · left; exact h
    · simp at h

/-- The lines of the children of a module are read back as blocks. -/
theorem protoifyChildren_readsAs (c : WAProtoConst) (proto3 : Bool) (module : ProtoFile)
    (children : List String) (module2 : ProtoFile)
    (h : protoifyChildren c module proto3 = some (children, module2)) :
    ∃ ds, ReadsAs none children ds := by
  unfold protoifyChildren protoifyChildrenWith at h
  split at h
  · exact absurd h (by simp)
  · rename_i eb enums2 he
    split at h
    · exact absurd h (by simp)
    · rename_i mb messages2 hm
      simp only [Option.some.injEq, Prod.mk.injEq] at h
      have henums := protoifyEnums_readsAs c proto3 _ eb enums2 he
      obtain ⟨msgDss, hmsgs, _⟩ := protoifyMessages_readsAs c proto3 _ mb messages2 hm
      rw [← h.1]
      exact ⟨_, ReadsAs.flatten none (eb ++ mb) _
        (List.rel_append (List.Forall₂.imp (fun _ _ hx => hx none) henums)
          (List.Forall₂.imp (fun _ _ hx => hx none) hmsgs))⟩

theorem indent_lines (lines : List String) :
    ∀ line, line ∈ indent lines → line = "" ∨ line.data.head? = some '\t' := by
  intro line hline
  unfold indent at hline
  obtain ⟨l, _, hl⟩ := List.mem_map.mp hline
  by_cases h : l = ""
  · left
    rw [← hl]
    simp [h]
  · right
    rw [← hl]
    simp only [ne_eq, h, not_false_eq_true, if_true, String.data_append]
    rfl

end ParseProto

/-! ## C14: the layout of the serialized lines -/

namespace ParseProto

theorem renderPlaced_zero (content : String) : renderPlaced (0, content) = content := by
  unfold renderPlaced
  by_cases h : content = ""
  · simp [h]
  · simp only [ne_eq, h, not_false_eq_true, if_true]
    apply String.ext
    rw [String.data_append]
    rfl

theorem render_placedLines (lines : List String) :
    (placedLines lines).map renderPlaced = lines := by
  unfold placedLines
  rw [List.map_map]
  conv_rhs => rw [← List.map_id lines]
  apply List.map_congr_left
  intro line _
  exact renderPlaced_zero line

theorem render_deeper (items : List (Nat × String)) :
    (deeper items).map renderPlaced = indent (items.map renderPlaced) := by
  unfold deeper indent
  rw [List.map_map, List.map_map]
  apply List.map_congr_left
  intro p _
  obtain ⟨d, content⟩ := p
  simp only [Function.comp, renderPlaced]
  by_cases h : content = ""
  · simp [h]
  · have h2 : String.mk (tabs d) ++ content ≠ "" := by
      apply string_ne_empty_of_data
      rw [String.data_append]
      intro h3
      apply h
      apply String.ext
      exact (List.append_eq_nil.mp h3).2
    simp only [ne_eq, h, not_false_eq_true, if_true, h2]
    apply String.ext
    simp only [String.data_append, tabs, List.replicate_succ]
    rfl

theorem render_placedBlock (header : String) (body : List (Nat × String)) :
    (placedBlock header body).map renderPlaced
      = [header] ++ indent (body.map renderPlaced) ++ ["\x7d"] := by
  unfold placedBlock
  rw [List.map_append, List.map_append, render_deeper]
  simp only [List.map_cons, List.map_nil, renderPlaced_zero]

theorem render_placedSeparated (blocks : List (List (Nat × String))) :
    (placedSeparated blocks).map renderPlaced
      = flattenWithBlankLines (blocks.map (fun block => block.map renderPlaced)) := by
  unfold placedSeparated flattenWithBlankLines
  have h1 : (blocks.map (fun block => block.map renderPlaced)).flatMap
        (fun item => if item.length > 0 then [item, [""]] else [])
      = (blocks.flatMap (fun block =>
          if block.length > 0 then [block, [(0, "")]] else [])).map
          (fun block => block.map renderPlaced) := by
    induction blocks with
    | nil => rfl
    | cons block rest ih =>
      rw [List.map_cons, List.flatMap_cons, List.flatMap_cons, List.map_append, ih]
      congr 1
      by_cases hb : block.length > 0
      · simp only [List.length_map, hb, if_true, List.map_cons, List.map_nil]
        rfl
      · simp only [List.length_map, hb, if_false, List.map_nil]
  have h2 : ∀ (l : List (List (Nat × String))),
      (l.flatMap (fun block => block)).map renderPlaced
        = (l.map (fun block => block.map renderPlaced)).flatMap (fun item => item) := by
    intro l
    induction l with
    | nil => rfl
    | cons x rest ih =>
      rw [List.flatMap_cons, List.map_append, ih, List.map_cons, List.flatMap_cons]
  rw [h1, h2, List.map_dropLast]

/-! ### The calculus of `WellNested` -/

theorem wellNested_nil : WellNested [] := by
  intro opened rest
  rfl

theorem wellNested_append {a b : List (Nat × String)} (ha : WellNested a)
    (hb : WellNested b) : WellNested (a ++ b) := by
  intro opened rest
  rw [List.map_append, List.append_assoc, ha, hb]

theorem wellNested_blank (depth : Nat) : WellNested [(depth, "")] := by
  intro opened rest
  show balanced opened ((depth + opened, "") :: rest) = _
  rw [balanced]
  simp

/-- A statement: a line that ends with a semicolon. -/
theorem wellNested_statement (content : String)
    (hlast : content.data.getLast? = some ';') : WellNested [(0, content)] := by
  intro opened rest
  show balanced opened ((0 + opened, content) :: rest) = _
  have hne : content ≠ "" := by
    intro h
    rw [h] at hlast
    exact absurd hlast (by decide)
  have hclose : content ≠ "\x7d" := by
    intro h
    rw [h] at hlast
    exact absurd hlast (by decide)
  have hopen : ¬ content.data.getLast? = some '\x7b' := by
    rw [hlast]
    decide
  rw [balanced]
  simp [hne, hclose, hopen, hlast]

/-- Lines each of which is empty or ends with a semicolon. -/
theorem wellNested_lines (lines : List String)
    (h : ∀ line, line ∈ lines → line = "" ∨ line.data.getLast? = some ';') :
    WellNested (placedLines lines) := by
  induction lines with
  | nil => exact wellNested_nil
  | cons line rest ih =>
    have hrest := ih (fun l hl => h l (List.mem_cons_of_mem _ hl))
    have hfirst : WellNested [(0, line)] := by
      rcases h line (List.mem_cons_self _ _) with hl | hl
      · subst hl
        exact wellNested_blank 0
      · exact wellNested_statement line hl
    exact wellNested_append (a := [(0, line)]) hfirst hrest

/-- A block: the header, the body one level deeper, and the closing brace. -/
theorem wellNested_block (header : String) (body : List (Nat × String))
    (hlast : header.data.getLast? = some '\x7b') (hbody : WellNested body) :
    WellNested (placedBlock header body) := by
  intro opened rest
  have hne : header ≠ "" := by
    intro h
    rw [h] at hlast
    exact absurd hlast (by decide)
  have hclose : header ≠ "\x7d" := by
    intro h
    rw [h] at hlast
    exact absurd hlast (by decide)
  have hshift : (deeper body).map (fun p => (p.1 + opened, p.2))
      = body.map (fun p => (p.1 + (opened + 1), p.2)) := by
    unfold deeper
    rw [List.map_map]
    apply List.map_congr_left
    intro p _
    simp only [Function.comp, Prod.mk.injEq, and_true]
    omega
  have h1 : (placedBlock header body).map (fun p => (p.1 + opened, p.2)) ++ rest
      = (0 + opened, header) :: (body.map (fun p => (p.1 + (opened + 1), p.2))
        ++ ((0 + opened, "\x7d") :: rest)) := by
    unfold placedBlock
    rw [List.map_append, List.map_append, hshift]
    simp
  rw [h1, balanced]
  simp only [hne, hclose, hlast, if_true, if_false, Nat.zero_add, decide_True, Bool.true_and]
  rw [hbody (opened + 1), balanced]
  simp

theorem placedPairs_filter (blocks : List (List (Nat × String))) :
    blocks.flatMap (fun block => if block.length > 0 then [block, [((0 : Nat), "")]] else [])
      = (blocks.filter (fun b => decide (b ≠ []))).flatMap (fun b => [b, [(0, "")]]) := by
  induction blocks with
  | nil => rfl
  | cons b rest ih =>
    cases b with
    | nil => simpa using ih
    | cons x xs => simp [ih]

theorem dropLast_placedPairs (first : List (Nat × String))
    (rest : List (List (Nat × String))) :
    ((first :: rest).flatMap (fun b => [b, [((0 : Nat), "")]])).dropLast
      = first :: rest.flatMap (fun b => [[(0, "")], b]) := by
  induction rest generalizing first with
  | nil => rfl
  | cons b rest ih =>
    have h := ih b
    simp only [List.flatMap_cons, List.cons_append, List.nil_append] at h ⊢
    rw [List.dropLast_cons₂, List.dropLast_cons₂, h]

theorem flatten_placedSeparators (rest : List (List (Nat × String))) :
    (rest.flatMap (fun b => [[((0 : Nat), "")], b])).flatMap (fun item => item)
      = rest.flatMap (fun b => (0, "") :: b) := by
  induction rest with
  | nil => rfl
  | cons b rest ih => simp [ih]

theorem placedSeparated_eq (blocks : List (List (Nat × String))) :
    placedSeparated blocks
      = match blocks.filter (fun b => decide (b ≠ [])) with
        | [] => []
        | first :: rest => first ++ rest.flatMap (fun b => (0, "") :: b) := by
  unfold placedSeparated
  rw [placedPairs_filter]
  cases h : blocks.filter (fun b => decide (b ≠ [])) with
  | nil => rfl
  | cons first rest =>
    rw [dropLast_placedPairs]
    simp only [List.flatMap_cons, flatten_placedSeparators]

theorem wellNested_flatMap_separated (blocks : List (List (Nat × String)))
    (h : ∀ b, b ∈ blocks → WellNested b) :
    WellNested (blocks.flatMap (fun b => (0, "") :: b)) := by
  induction blocks with
  | nil => exact wellNested_nil
  | cons b rest ih =>
    rw [List.flatMap_cons]
    exact wellNested_append
      (wellNested_append (a := [(0, "")]) (wellNested_blank 0) (h b (List.mem_cons_self _ _)))
      (ih (fun x hx => h x (List.mem_cons_of_mem _ hx)))

/-- Blocks separated by lines without content. -/
theorem wellNested_separated (blocks : List (List (Nat × String)))
    (h : ∀ b, b ∈ blocks → WellNested b) : WellNested (placedSeparated blocks) := by
  rw [placedSeparated_eq]
  have hf : ∀ b, b ∈ blocks.filter (fun b => decide (b ≠ [])) → WellNested b :=
    fun b hb => h b (List.mem_of_mem_filter hb)
  cases hfil : blocks.filter (fun b => decide (b ≠ [])) with
  | nil => exact wellNested_nil
  | cons first rest =>
    rw [hfil] at hf
    exact wellNested_append (hf first (List.mem_cons_self _ _))
      (wellNested_flatMap_separated rest (fun x hx => hf x (List.mem_cons_of_mem _ hx)))

/-- A layout that is well nested wherever it stands is well nested as a whole file. -/
theorem balanced_of_wellNested (items : List (Nat × String)) (h : WellNested items) :
    balanced 0 items = true := by
  have h1 := h 0 []
  have h2 : items.map (fun p => (p.1 + 0, p.2)) = items := by
    conv_rhs => rw [← List.map_id items]
    apply List.map_congr_left
    intro p _
    rfl
  rw [h2, List.append_nil] at h1
  rw [h1]
  rfl

end ParseProto

namespace ParseProto

theorem enumHeader_last (enumDef : EnumDef) :
    (enumHeader enumDef).data.getLast? = some '\x7b' := by
  unfold enumHeader
  exact getLast?_append_brace _

/-- The layout of an enum renders as the lines of `protoifyEnum`, and is well nested. -/
theorem placedEnum_spec (enumDef : EnumDef) :
    (placedEnum enumDef).map renderPlaced = (protoifyEnum enumDef).1
    ∧ WellNested (placedEnum enumDef) := by
  constructor
  · unfold placedEnum protoifyEnum
    rw [render_placedBlock, render_placedLines]
  · exact wellNested_block _ _ (enumHeader_last _)
      (wellNested_lines _ (fun l hl => Or.inr (enumValueLines_last _ l hl)))

theorem protoifyEnums_placed (c : WAProtoConst) (proto3 : Bool) (enums : JS.Obj EnumDef) :
    ∀ (blocks : List (List String)) (enums2 : JS.Obj EnumDef),
      protoifyEnums (renderer c proto3) enums = some (blocks, enums2) →
      blocks = (enums.map (fun e => placedEnum e.2)).map (fun b => b.map renderPlaced) := by
  induction enums with
  | nil =>
    intro blocks enums2 h
    simp only [protoifyEnums, Option.some.injEq, Prod.mk.injEq] at h
    rw [← h.1]
    rfl
  | cons e rest ih =>
    obtain ⟨key, enumDef⟩ := e
    intro blocks enums2 h
    simp only [protoifyEnums] at h
    split at h
    · exact absurd h (by simp)
    · rename_i lines e2 he
      split at h
      · exact absurd h (by simp)
      · rename_i bl rest2 hrest
        simp only [Option.some.injEq, Prod.mk.injEq] at h
        rw [← h.1]
        have hl : lines = (protoifyEnum enumDef).1 := by
          simp only [renderer, Option.some.injEq] at he
          rw [he]
        rw [hl, ih bl rest2 hrest, List.map_cons, List.map_cons, (placedEnum_spec enumDef).1]

theorem placedEnums_wellNested (enums : JS.Obj EnumDef) :
    ∀ b, b ∈ enums.map (fun e => placedEnum e.2) → WellNested b := by
  intro b hb
  obtain ⟨e, _, he⟩ := List.mem_map.mp hb
  rw [← he]
  exact (placedEnum_spec e.2).2

/-- The layout of the oneof sections renders as the sections of `oneofSections`. -/
theorem oneofSections_placed (c : WAProtoConst) (proto3 : Bool) (module : String)
    (path : List String) (groups : List (String × List String)) :
    ∀ (spec : Spec) (sections : List (List String)) (spec2 : Spec),
      oneofSections (renderer c proto3) module path spec groups = some (sections, spec2) →
      ∃ blocks, placedOneofSections c proto3 module path spec groups = some (blocks, spec2)
        ∧ sections = blocks.map (fun b => b.map renderPlaced)
        ∧ ∀ b, b ∈ blocks → WellNested b := by
  induction groups with
  | nil =>
    intro spec sections spec2 h
    simp only [oneofSections, Option.some.injEq, Prod.mk.injEq] at h
    refine ⟨[], ?_, ?_, ?_⟩
    · simp only [placedOneofSections, h.2]
    · rw [← h.1]; rfl
    · intro b hb; simp at hb
  | cons g rest ih =>
    obtain ⟨name, fieldNames⟩ := g
    intro spec sections spec2 h
    simp only [oneofSections] at h
    split at h
    · exact absurd h (by simp)
    · rename_i lines hlines
      split at h
      · exact absurd h (by simp)
      · rename_i secs spec3 hrest
        simp only [Option.some.injEq, Prod.mk.injEq] at h
        obtain ⟨blocks, hplaced, hrender, hnested⟩ := ih _ _ _ hrest
        refine ⟨placedBlock ("oneof " ++ name ++ " \x7b") (placedLines lines) :: blocks,
          ?_, ?_, ?_⟩
        · simp only [placedOneofSections, hlines, hplaced, h.2]
        · rw [← h.1, List.map_cons, render_placedBlock, render_placedLines, hrender]
        · intro b hb
          rcases List.mem_cons.mp hb with hb | hb
          · rw [hb]
            exact wellNested_block _ _ (getLast?_append_brace _)
              (wellNested_lines _ (fun l hl =>
                Or.inr (protoifyFields_last c proto3 _ _ _ _ _ hlines l hl)))
          · exact hnested b hb

/-- The layout of the sections after the children renders as the sections of
`fieldSections`. -/
theorem fieldSections_placed (c : WAProtoConst) (proto3 : Bool) (module : String)
    (path : List String) (spec : Spec) (sections : List (List String)) (spec2 : Spec)
    (h : fieldSections (renderer c proto3) module path spec = some (sections, spec2)) :
    ∃ blocks, placedFieldSections c proto3 module path spec = some blocks
      ∧ sections = blocks.map (fun b => b.map renderPlaced)
      ∧ ∀ b, b ∈ blocks → WellNested b := by
  unfold fieldSections at h
  split at h
  · exact absurd h (by simp)
  · rename_i groups hg
    split at h
    · exact absurd h (by simp)
    · rename_i secs s3 hsecs
      simp only [] at h
      split at h
      · exact absurd h (by simp)
      · rename_i lines hlines
        simp only [Option.some.injEq, Prod.mk.injEq] at h
        obtain ⟨blocks, hplaced, hrender, hnested⟩ :=
          oneofSections_placed c proto3 module path groups _ _ _ hsecs
        refine ⟨blocks ++ [placedLines lines], ?_, ?_, ?_⟩
        · unfold placedFieldSections
          simp only [hg, hplaced, hlines]
        · rw [← h.1, List.map_append, hrender, List.map_cons, render_placedLines]
          rfl
        · intro b hb
          rcases List.mem_append.mp hb with hb | hb
          · exact hnested b hb
          · simp only [List.mem_singleton] at hb
            rw [hb]
            exact wellNested_lines _ (fun l hl =>
              Or.inr (protoifyFields_last c proto3 _ _ _ _ _ hlines l hl))

theorem placedMessages_cons (c : WAProtoConst) (proto3 : Bool) (key : String)
    (msg : Message) (rest : List (String × Message)) :
    placedMessages c proto3 ((key, msg) :: rest)
      = match placedMessage c proto3 msg with
        | none => none
        | some first =>
          match placedMessages c proto3 rest with
          | none => none
          | some others => some (first :: others) := by
  rw [placedMessages]

theorem placedMessage_mk (c : WAProtoConst) (proto3 : Bool)
    (messages : List (String × Message)) (enums : JS.Obj EnumDef)
    (module : String) (path : List String) (name : String) (spec : Spec)
    (messageBlocks sections : List (List (Nat × String)))
    (hm : placedMessages c proto3 messages = some messageBlocks)
    (hs : placedFieldSections c proto3 module (path ++ [name]) spec = some sections) :
    placedMessage c proto3 (.mk messages enums module path name (some spec))
      = some (placedBlock ("message " ++ name ++ " \x7b")
          (placedSeparated
            (placedSeparated (enums.map (fun e => placedEnum e.2) ++ messageBlocks)
              :: sections))) := by
  rw [placedMessage]
  simp only [hm, hs]

mutual
/-- The layout of a message renders as the lines of `protoifyMessage`, and is well
nested. -/
theorem protoifyMessage_placed (c : WAProtoConst) (proto3 : Bool) :
    ∀ (msg : Message) (lines : List String) (msg2 : Message),
      protoifyMessageWith (renderer c proto3) msg = some (lines, msg2) →
      ∃ items, placedMessage c proto3 msg = some items
        ∧ lines = items.map renderPlaced ∧ WellNested items
  | .mk messages enums module path name message, lines, msg2, h => by
    simp only [protoifyMessageWith] at h
    split at h
    · exact absurd h (by simp)
    · rename_i eb enums2 he
      split at h
      · exact absurd h (by simp)
      · rename_i mb messages2 hm
        split at h
        · exact absurd h (by simp)
        · rename_i spec
          split at h
          · exact absurd h (by simp)
          · rename_i secs spec2 hs
            simp only [Option.some.injEq, Prod.mk.injEq] at h
            have henums := protoifyEnums_placed c proto3 enums eb enums2 he
            obtain ⟨messageBlocks, hplacedM, hrenderM, hnestedM⟩ :=
              protoifyMessages_placed c proto3 messages mb messages2 hm
            obtain ⟨sections, hplacedS, hrenderS, hnestedS⟩ :=
              fieldSections_placed c proto3 module (path ++ [name]) spec secs spec2 hs
            refine ⟨_, placedMessage_mk c proto3 messages enums module path name spec
              messageBlocks sections hplacedM hplacedS, ?_, ?_⟩
            · rw [← h.1, render_placedBlock, render_placedSeparated, List.map_cons,
                render_placedSeparated, List.map_append, ← henums, ← hrenderM, ← hrenderS]
            · apply wellNested_block _ _ (getLast?_append_brace _)
              apply wellNested_separated
              intro b hb
              rcases List.mem_cons.mp hb with hb | hb
              · rw [hb]
                apply wellNested_separated
                intro b2 hb2
                rcases List.mem_append.mp hb2 with hb2 | hb2
                · exact placedEnums_wellNested enums b2 hb2
                · exact hnestedM b2 hb2
              · exact hnestedS b hb
theorem protoifyMessages_placed (c : WAProtoConst) (proto3 : Bool) :
    ∀ (messages : List (String × Message)) (blocks : List (List String))
      (messages2 : List (String × Message)),
      protoifyMessagesWith (renderer c proto3) messages = some (blocks, messages2) →
      ∃ placed, placedMessages c proto3 messages = some placed
        ∧ blocks = placed.map (fun b => b.map renderPlaced)
        ∧ ∀ b, b ∈ placed → WellNested b
  | [], blocks, messages2, h => by
    simp only [protoifyMessagesWith, Option.some.injEq, Prod.mk.injEq] at h
    refine ⟨[], by rw [placedMessages], ?_, ?_⟩
    · rw [← h.1]; rfl
    · intro b hb; simp at hb
  | (key, msg) :: rest, blocks, messages2, h => by
    simp only [protoifyMessagesWith] at h
    split at h
    · exact absurd h (by simp)
    · rename_i lines m2 hm
      split at h
      · exact absurd h (by simp)
      · rename_i bl rest2 hrest
        simp only [Option.some.injEq, Prod.mk.injEq] at h
        obtain ⟨items, hplaced, hrender, hnested⟩ :=
          protoifyMessage_placed c proto3 msg lines m2 hm
        obtain ⟨placed, hplacedR, hrenderR, hnestedR⟩ :=
          protoifyMessages_placed c proto3 rest bl rest2 hrest
        refine ⟨items :: placed, ?_, ?_, ?_⟩
        · rw [placedMessages_cons, hplaced, hplacedR]
        · rw [← h.1, List.map_cons, ← hrender, ← hrenderR]
        · intro b hb
          rcases List.mem_cons.mp hb with hb | hb
          · rw [hb]; exact hnested
          · exact hnestedR b hb
end

/-- The layout of a schema file renders as the lines of `protoifyModule`, and is well
nested. -/
theorem protoifyModule_placed (c : WAProtoConst) (module : ProtoFile) (output : List String)
    (module2 : ProtoFile) (h : protoifyModule c module = some (output, module2)) :
    ∃ items, placedModule c module = some items
      ∧ output = items.map renderPlaced ∧ WellNested items := by
  unfold protoifyModule at h
  split at h
  · exact absurd h (by simp)
  · rename_i children module3 hchildren
    simp only [Option.some.injEq, Prod.mk.injEq] at h
    have hheader : moduleHeader module3 = moduleHeader module := by
      have h3 := protoifyChildrenWith_snd _ (renderer_protoifyEnum_snd c _) _ _ _ hchildren
      rw [h3]
      rfl
    unfold protoifyChildren protoifyChildrenWith at hchildren
    split at hchildren
    · exact absurd hchildren (by simp)
    · rename_i eb enums2 he
      split at hchildren
      · exact absurd hchildren (by simp)
      · rename_i mb messages2 hm
        simp only [Option.some.injEq, Prod.mk.injEq] at hchildren
        have henums := protoifyEnums_placed c _ _ eb enums2 he
        obtain ⟨messageBlocks, hplacedM, hrenderM, hnestedM⟩ :=
          protoifyMessages_placed c _ _ mb messages2 hm
        have hplaced : placedModule c module
            = some (placedLines (moduleHeader module)
              ++ (placedSeparated (module.enums.map (fun e => placedEnum e.2) ++ messageBlocks)
                ++ [(0, "")])) := by
          unfold placedModule
          simp only [hplacedM]
        refine ⟨_, hplaced, ?_, ?_⟩
        · rw [← h.1, ← hchildren.1, hheader, List.map_append, List.map_append,
            render_placedLines, render_placedSeparated, List.map_append, ← henums,
            ← hrenderM]
          rfl
        · apply wellNested_append (wellNested_lines _ (moduleHeader_lines module))
          apply wellNested_append _ (wellNested_blank 0)
          apply wellNested_separated
          intro b hb
          rcases List.mem_append.mp hb with hb | hb
          · exact placedEnums_wellNested _ b hb
          · exact hnestedM b hb

end ParseProto

/-- C12 (corrected): for a message tree in which the oneof groups of every node name
pairwise distinct fields and the serializer leaves the `__name__` of every enum as it is,
whenever `protoifyMessage` returns lines, reading the lines back gives exactly the
declarations of the tree: for every message node the header with its name, its enums
(the header with the name of the enum, its entry lines), its child messages, one block per
oneof group with one field line per field the group names, one field line per entry of
the field table that no group names, and the closing brace. -/
theorem protoifyMessage_reads_back (c : ParseProto.WAProtoConst) (proto3 : Bool)
    (message : ParseProto.Message) (lines : List String) (message2 : ParseProto.Message)
    (h : ParseProto.protoifyMessage c message proto3 = some (lines, message2))
    (hregular : message.regular = true) :
    ∃ ds, ParseProto.declaredMessage c proto3 message = some ds
      ∧ ParseProto.readBack [] lines = some ds := by
  obtain ⟨ds, hreads, hdeclared⟩ :=
    ParseProto.protoifyMessage_readsAs c proto3 message lines message2 h
  exact ⟨ds, hdeclared hregular, ParseProto.readBack_of_readsAs lines ds (hreads none)⟩

/-- C14: the lines `protoifyMessage` returns are the header `message <name> \x7b`, lines
each of which is empty or begins with a tab, and the closing brace.  The lines
`protoifyMessage` and `protoifyModule` return are the layout of the tree (`placedMessage`,
`placedModule`), in which every declaration carries the number of blocks it is nested in:
every line with content is exactly that many tabs followed by the content, every line
without content is the empty string, and the layout is well nested (`balanced`): every
line with content stands at the depth that is the number of blocks open where it stands
(a closing brace one level above the lines of its block), every opening brace is closed
and at the end no block is open.  The lines are also read back by `readBack`. -/
theorem protoifyMessage_nesting (c : ParseProto.WAProtoConst) :
    (∀ (proto3 : Bool) (message : ParseProto.Message) (lines : List String)
      (message2 : ParseProto.Message),
      ParseProto.protoifyMessage c message proto3 = some (lines, message2) →
      (∃ body, lines = ["message " ++ message.__name__ ++ " \x7b"] ++ body ++ ["\x7d"]
        ∧ ∀ line, line ∈ body → line = "" ∨ line.data.head? = some '\t')
      ∧ (ParseProto.readBack [] lines).isSome = true
      ∧ ∃ items, ParseProto.placedMessage c proto3 message = some items
          ∧ lines = items.map ParseProto.renderPlaced
          ∧ ParseProto.balanced 0 items = true)
    ∧ (∀ (module : ParseProto.ProtoFile) (output : List String)
      (module2 : ParseProto.ProtoFile),
      ParseProto.protoifyModule c module = some (output, module2) →
      (ParseProto.readBack [] output).isSome = true
      ∧ ∃ items, ParseProto.placedModule c module = some items
          ∧ output = items.map ParseProto.renderPlaced
          ∧ ParseProto.balanced 0 items = true) := by
  constructor
  · intro proto3 message lines message2 h
    refine ⟨?_, ?_, ?_⟩
    · cases message with
      | mk messages enums module path name spec =>
        unfold ParseProto.protoifyMessage at h
        simp only [ParseProto.protoifyMessageWith] at h
        split at h
        · exact absurd h (by simp)
        · split at h
          · exact absurd h (by simp)
          · split at h
            · exact absurd h (by simp)
            · split at h
              · exact absurd h (by simp)
              · simp only [Option.some.injEq, Prod.mk.injEq] at h
                exact ⟨_, h.1.symm, ParseProto.indent_lines _⟩
    · obtain ⟨ds, hreads, _⟩ :=
        ParseProto.protoifyMessage_readsAs c proto3 message lines message2 h
      rw [ParseProto.readBack_of_readsAs lines ds (hreads none)]
      rfl
    · obtain ⟨items, hplaced, hrender, hnested⟩ :=
        ParseProto.protoifyMessage_placed c proto3 message lines message2 h
      exact ⟨items, hplaced, hrender, ParseProto.balanced_of_wellNested items hnested⟩
  · intro module output module2 h
    constructor
    · unfold ParseProto.protoifyModule at h
      split at h
      · exact absurd h (by simp)
      · rename_i children module3 hchildren
        simp only [Option.some.injEq, Prod.mk.injEq] at h
        obtain ⟨ds1, h1⟩ := ParseProto.ReadsAs.directives none _
          (ParseProto.moduleHeader_lines module3)
        obtain ⟨ds2, h2⟩ := ParseProto.protoifyChildren_readsAs c _ module children module3
          hchildren
        have h3 := ParseProto.ReadsAs.append h1
          (ParseProto.ReadsAs.append h2 (ParseProto.ReadsAs.blank none))
        rw [← h.1, ParseProto.readBack_of_readsAs _ _ h3]
        rfl
    · obtain ⟨items, hplaced, hrender, hnested⟩ :=
        ParseProto.protoifyModule_placed c module output module2 h
      exact ⟨items, hplaced, hrender, ParseProto.balanced_of_wellNested items hnested⟩

/-- C12, an instance: the message `Outer` with an enum, a child message, a oneof group and
a field in no group. -/
theorem protoifyMessage_reads_back_witness :
    ∃ ds, ParseProto.declaredMessage ParseProto.sampleConst false ParseProto.nestedSample
        = some ds
      ∧ ParseProto.readBack []
          ["message Outer \x7b", "\tenum Kind \x7b", "\t\tA = 0;", "\t\tB = 1;", "\t\x7d", "",
           "\tmessage Inner \x7b", "\t\toptional string x = 1;", "\t\x7d", "",
           "\toneof choice \x7b", "\t\tstring right = 2;", "\t\x7d", "",
           "\toptional string left = 1;", "\x7d"] = some ds :=
  protoifyMessage_reads_back ParseProto.sampleConst false ParseProto.nestedSample _
    (ParseProto.messageAfter ParseProto.nestedSample) rfl rfl

/-- C12, counterexample: an enum whose `__name__` is `-1` and that has no entry with the
value `0` is declared under the name `0`. -/
theorem protoifyMessage_enum_name_counterexample :
    (ParseProto.protoifyMessage ParseProto.sampleConst ParseProto.minusOneNamed false).map
        Prod.fst
      = some ["message M \x7b", "\tenum 0 \x7b", "\t\tA = 1;", "\t\x7d", "\x7d"]
    ∧ ParseProto.readBack []
        ["message M \x7b", "\tenum 0 \x7b", "\t\tA = 1;", "\t\x7d", "\x7d"]
      = some [.message "M", .enum "0", .value "A = 1;", .close, .close]
    ∧ ParseProto.declaredMessage ParseProto.sampleConst false ParseProto.minusOneNamed
      = some [.message "M", .enum "-1", .value "A = 1;", .close, .close] :=
  ⟨rfl, rfl, rfl⟩

/-- C14, an instance: the lines of the module `WASample` and of its message `Pair`, with
the layout of the message: the field of the oneof group stands at depth `2`. -/
theorem protoifyMessage_nesting_witness :
    ((∃ body, ["message Pair \x7b", "\toneof choice \x7b", "\t\tstring right = 3;", "\t\x7d", "",
          "\toptional string left = 1;", "\toptional Kind kind = 2;", "\x7d"]
        = ["message " ++ ParseProto.sampleMessage.__name__ ++ " \x7b"] ++ body ++ ["\x7d"]
        ∧ ∀ line, line ∈ body → line = "" ∨ line.data.head? = some '\t')
      ∧ (ParseProto.readBack []
          ["message Pair \x7b", "\toneof choice \x7b", "\t\tstring right = 3;", "\t\x7d", "",
           "\toptional string left = 1;", "\toptional Kind kind = 2;", "\x7d"]).isSome = true
      ∧ ∃ items, ParseProto.placedMessage ParseProto.sampleConst false ParseProto.sampleMessage
            = some items
          ∧ ["message Pair \x7b", "\toneof choice \x7b", "\t\tstring right = 3;", "\t\x7d", "",
              "\toptional string left = 1;", "\toptional Kind kind = 2;", "\x7d"]
            = items.map ParseProto.renderPlaced
          ∧ ParseProto.balanced 0 items = true)
    ∧ ((ParseProto.readBack []
        ["syntax = \"proto2\";", "package WASample;",
         "option go_package = \"go.mau.fi/whatsmeow/proto/waSample\";", "",
         "import \"waCommon/WACommon.proto\";", "", "enum Kind \x7b", "\tA = 1;", "\tB = 0;",
         "\x7d", "", "message Pair \x7b", "\toneof choice \x7b", "\t\tstring right = 3;",
         "\t\x7d", "", "\toptional string left = 1;", "\toptional Kind kind = 2;", "\x7d",
         ""]).isSome = true
      ∧ ∃ items, ParseProto.placedModule ParseProto.sampleConst ParseProto.sampleFile
            = some items
          ∧ ["syntax = \"proto2\";", "package WASample;",
              "option go_package = \"go.mau.fi/whatsmeow/proto/waSample\";", "",
              "import \"waCommon/WACommon.proto\";", "", "enum Kind \x7b", "\tA = 1;",
              "\tB = 0;", "\x7d", "", "message Pair \x7b", "\toneof choice \x7b",
              "\t\tstring right = 3;", "\t\x7d", "", "\toptional string left = 1;",
              "\toptional Kind kind = 2;", "\x7d", ""]
            = items.map ParseProto.renderPlaced
          ∧ ParseProto.balanced 0 items = true)
    ∧ ParseProto.placedMessage ParseProto.sampleConst false ParseProto.sampleMessage
        = some [(0, "message Pair \x7b"), (1, "oneof choice \x7b"), (2, "string right = 3;"),
            (1, "\x7d"), (1, ""), (1, "optional string left = 1;"),
            (1, "optional Kind kind = 2;"), (0, "\x7d")]
    ∧ ParseProto.balanced 0 [(0, "message M \x7b"), (3, "int32 x = 1;"), (0, "\x7d")] = false
    ∧ ParseProto.balanced 0 [(0, "enum Kind \x7b"), (1, "A = 1;"), (0, "\x7d"), (0, "\x7d")]
        = false :=
  ⟨(protoifyMessage_nesting ParseProto.sampleConst).1 false ParseProto.sampleMessage _
      (ParseProto.messageAfter ParseProto.sampleMessage) rfl,
   (protoifyMessage_nesting ParseProto.sampleConst).2 ParseProto.sampleFile _
      (ParseProto.fileAfter ParseProto.sampleFile) rfl, by decide, by decide, by decide⟩

/-- C29, an instance: with the flags `repeated`, `packed`, `deprecated` the flags that
remain are `repeated` alone. -/
theorem packed_splice_drops_later_flags_witness :
    "packed" ∉ ["repeated"]
    ∧ (Extract.flagsWithoutPacked (["repeated"] ++ "packed" :: ["deprecated"]) = ["repeated"]
      ∧ Extract.stringifyMessageSpecMember
            (.field "xs" 1 (some "int32") ["repeated", "packed"]) "M" true
          = some ["repeated int32 xs = 1 [packed=true];"]
      ∧ Extract.stringifyMessageSpecMember
            (.field "xs" 1 (some "int32") ["packed", "repeated"]) "M" true
          = some ["optional int32 xs = 1 [packed=true];"]) :=
  ⟨by decide, packed_splice_drops_later_flags ["repeated"] ["deprecated"] (by decide)⟩

/-- C37, an instance: the name `zzz` is not a member, and the last member is removed. -/
theorem unknown_oneof_field_removes_last_witness :
    Extract.takeMember
        [.field "a" 1 (some "string") [], .field "b" 2 (some "string") []] "zzz"
      = (none, [.field "a" 1 (some "string") []]) :=
  (unknown_oneof_field_removes_last
    [.field "a" 1 (some "string") [], .field "b" 2 (some "string") []] "zzz").1 rfl

/-! ## C34: the parts of an upper-case enum name -/

namespace JS

theorem splitChars_mem (sep : Char) (cs : List Char) :
    ∀ p, p ∈ splitChars sep cs → ∀ c, c ∈ p → c ∈ cs ∧ c ≠ sep := by
  induction cs with
  | nil =>
    intro p hp c hc
    simp only [splitChars, List.mem_singleton] at hp
    subst hp
    simp at hc
  | cons a cs ih =>
    intro p hp c hc
    by_cases ha : a = sep
    · simp only [splitChars, ha, if_true, List.mem_cons] at hp
      rcases hp with hp | hp
      · subst hp
        simp at hc
      · obtain ⟨h1, h2⟩ := ih p hp c hc
        exact ⟨List.mem_cons_of_mem _ h1, h2⟩
    · simp only [splitChars, ha, if_false] at hp
      cases hs : splitChars sep cs with
      | nil => exact absurd hs (splitChars_ne_nil sep cs)
      | cons piece rest =>
        rw [hs] at hp ih
        simp only [List.mem_cons] at hp
        rcases hp with hp | hp
        · subst hp
          simp only [List.mem_cons] at hc
          rcases hc with hc | hc
          · subst hc
            exact ⟨List.mem_cons_self _ _, ha⟩
          · obtain ⟨h1, h2⟩ := ih piece (List.mem_cons_self _ _) c hc
            exact ⟨List.mem_cons_of_mem _ h1, h2⟩
        · obtain ⟨h1, h2⟩ := ih p (List.mem_cons_of_mem _ hp) c hc
          exact ⟨List.mem_cons_of_mem _ h1, h2⟩

theorem map_eq_self_mem {α : Type} (f : α → α) (l : List α) (h : l.map f = l) :
    ∀ x, x ∈ l → f x = x := by
  induction l with
  | nil => intro x hx; simp at hx
  | cons a l ih =>
    simp only [List.map_cons, List.cons.injEq] at h
    intro x hx
    simp only [List.mem_cons] at hx
    rcases hx with hx | hx
    · subst hx; exact h.1
    · exact ih h.2 x hx

theorem toUpperCase_fixed_chars (s : String) (h : toUpperCase s = s) :
    ∀ c, c ∈ s.data → c.toUpper = c := by
  apply map_eq_self_mem
  have h2 := congrArg String.data h
  exact h2

theorem objectPrototypeKeys_head :
    ∀ k, k ∈ objectPrototypeKeys → ∀ c, k.data.head? = some c → c = '_' ∨ c.toUpper ≠ c := by
  intro k hk
  simp only [objectPrototypeKeys, List.mem_cons, List.mem_singleton, List.not_mem_nil,
    or_false] at hk
  rcases hk with rfl | rfl | rfl | rfl | rfl | rfl | rfl | rfl | rfl | rfl | rfl | rfl <;>
    (intro c hc
     simp only [List.head?_cons, Option.some.injEq] at hc
     subst hc
     decide)

theorem undefined_not_inherited :
    ∀ k, k ∈ objectPrototypeKeys → ¬ "undefined".data <+: k.data := by
  intro k hk
  simp only [objectPrototypeKeys, List.mem_cons, List.mem_singleton, List.not_mem_nil,
    or_false] at hk
  rcases hk with rfl | rfl | rfl | rfl | rfl | rfl | rfl | rfl | rfl | rfl | rfl | rfl <;>
    decide

end JS

namespace ParseProto

/-- No part of an upper-case name, split at the underscores and capitalised, begins a
name inherited from `Object.prototype`. -/
theorem capitalised_parts_plain (enumName : String) (hupper : JS.toUpperCase enumName = enumName) :
    ∀ p, p ∈ (JS.split '_' enumName).map capitalise →
      ∀ k, k ∈ JS.objectPrototypeKeys → ¬ p.data <+: k.data := by
  intro p hp k hk
  simp only [JS.split, List.map_map, List.mem_map, Function.comp] at hp
  obtain ⟨piece, hpiece, rfl⟩ := hp
  cases piece with
  | nil => exact JS.undefined_not_inherited k hk
  | cons c r =>
    obtain ⟨hc, hsep⟩ := JS.splitChars_mem '_' enumName.data _ hpiece c (List.mem_cons_self _ _)
    have hfixed := JS.toUpperCase_fixed_chars enumName hupper c hc
    intro hprefix
    obtain ⟨t, ht⟩ := hprefix
    have hhead : k.data.head? = some c := by
      rw [← ht]
      rfl
    rcases JS.objectPrototypeKeys_head k hk c hhead with h | h
    · exact hsep h
    · exact h hfixed

end ParseProto

/-- C34 (over the names the upper-snake pass passes on, which are equal to their own
upper-case form): the parts are the pieces of the name between underscores, each with its
first character kept and the others lower-cased. When no chain of existing messages spells
all the parts, the call of `dereferenceSnake` from the root returns a path and a name; the
path is a chain of existing message names from the root, and its segments followed by the
name spell the concatenation of all the parts, so no part is lost or added; and when no
concatenation of leading parts is a top-level message, the result is the empty path and the
concatenation of all the parts. -/
theorem dereferenceSnake_conserves_name (depth : Nat)
    (messages : List (String × ParseProto.Message)) (enumName : String)
    (hupper : JS.toUpperCase enumName = enumName)
    (hdepth : ((JS.split '_' enumName).map ParseProto.capitalise).length ≤ depth)
    (hno : ∀ ext, (ParseProto.tableAt messages ext).isSome = true →
      JS.concatAll ext ≠ JS.concatAll ((JS.split '_' enumName).map ParseProto.capitalise)) :
    (∃ path name,
      ParseProto.dereferenceSnake depth messages []
          ((JS.split '_' enumName).map ParseProto.capitalise)
        = .returned (path, some name)
      ∧ (ParseProto.tableAt messages path).isSome = true
      ∧ JS.concatAll path ++ name
        = JS.concatAll ((JS.split '_' enumName).map ParseProto.capitalise))
    ∧ ((∀ j, JS.objGet messages
          (JS.concatAll (((JS.split '_' enumName).map ParseProto.capitalise).take (j + 1)))
          = none) →
      ParseProto.dereferenceSnake depth messages []
          ((JS.split '_' enumName).map ParseProto.capitalise)
        = .returned ([],
            some (JS.concatAll ((JS.split '_' enumName).map ParseProto.capitalise)))) := by
  have hplain := ParseProto.capitalised_parts_plain enumName hupper
  have hne : (JS.split '_' enumName).map ParseProto.capitalise ≠ [] := by
    simp only [JS.split, ne_eq, List.map_eq_nil_iff]
    exact JS.splitChars_ne_nil _ _
  revert hdepth hno hplain
  generalize (JS.split '_' enumName).map ParseProto.capitalise = parts at hne
  intro hdepth hno hplain
  cases parts with
  | nil => exact absurd rfl hne
  | cons part rest =>
    obtain ⟨h1, h2⟩ := dereferenceSnake_plain_parts depth messages part rest hdepth hno hplain
    refine ⟨h1, ?_⟩
    intro hnone
    exact h2 (fun j _ => hnone j)

/-- C34, an instance: for the name `FOO_BAR_BAZ` and the children `Foo` and `FooBar`,
the call returns the path `Foo` and the name `BarBaz`. -/
theorem dereferenceSnake_conserves_name_witness :
    ∃ path name,
      ParseProto.dereferenceSnake 3 ParseProto.prefixMessages []
          ((JS.split '_' "FOO_BAR_BAZ").map ParseProto.capitalise)
        = .returned (path, some name)
      ∧ (ParseProto.tableAt ParseProto.prefixMessages path).isSome = true
      ∧ JS.concatAll path ++ name
        = JS.concatAll ((JS.split '_' "FOO_BAR_BAZ").map ParseProto.capitalise) :=
  (dereferenceSnake_conserves_name 3 ParseProto.prefixMessages "FOO_BAR_BAZ" (by decide)
    (by decide)
    (by
      intro ext hchain
      have hparts : (JS.split '_' "FOO_BAR_BAZ").map ParseProto.capitalise
          = ["Foo", "Bar", "Baz"] := by decide
      rw [hparts]
      rcases ext with _ | ⟨k, more⟩
      · decide
      · by_cases hk1 : k = "Foo"
        · subst hk1
          rcases more with _ | ⟨k2, more2⟩
          · decide
          · exact absurd hchain (by simp [ParseProto.tableAt, ParseProto.prefixMessages,
              JS.objGet, ParseProto.Message.messages])
        · by_cases hk2 : k = "FooBar"
          · subst hk2
            rcases more with _ | ⟨k2, more2⟩
            · decide
            · exact absurd hchain (by simp [ParseProto.tableAt, ParseProto.prefixMessages,
                JS.objGet, ParseProto.Message.messages])
          · have h1 : ¬ "Foo" = k := fun h => hk1 h.symm
            have h2 : ¬ "FooBar" = k := fun h => hk2 h.symm
            exact absurd hchain (by simp [ParseProto.tableAt, ParseProto.prefixMessages,
              JS.objGet, h1, h2]))).1
